import Mathlib

/-!
# Buffer cache and indexed inodes of the Pintos file system

A shallow embedding of `filesys/cache.c` and `filesys/inode.c`.

The kernel globals touched by these two files (the cache list, the slot
occupancy table, the read-ahead queue, the block device and the free-sector
map) are gathered in one record, `Kernel`, and every C function becomes a
function on that record.  A call either returns (`Except.ok`) or ends in a
`Fault`: a kernel `PANIC` (this includes a failed `ASSERT`), or behaviour that
C leaves undefined (signed overflow, an out-of-bounds store, reading a list
sentinel as an entry).

The embedding is sequential: one foreground thread runs the calls.  The only
place where that thread can sleep is the gate of a read-ahead request in
`cache_load`; there the iterations of the prefetch worker that wake it are
run in line (see `await_aheader`).  Memory allocation (`malloc`, `calloc`) is
taken to succeed, and `free` has no counterpart.
-/

namespace Pintos

/-! ## Machine constants -/

/-- Modelled from the spec: the constant `BLOCK_SECTOR_SIZE` of
`devices/block.h`, which is not among the sources: a sector has 512 bytes. -/
def BLOCK_SECTOR_SIZE : Nat := 512

/-- Largest value of the C type `int`, which has 32 bits on the 80x86 target;
`off_t` is an `int` as well. -/
def INT_MAX : Int := 2147483647

/-- Modelled from the spec: the number of values of the type `block_sector_t`
of `devices/block.h`, which is not among the sources.  An indirect block of
one sector holds 128 sector numbers, so a sector number has 32 bits; `size_t`
has 32 bits on the target as well. -/
def UINT_RANGE : Nat := 4294967296

/-- Modelled from the spec: the macro `DIV_ROUND_UP (X, STEP)` of `round.h`,
which is not among the sources: `X / STEP` rounded up, computed as
`(X + STEP - 1) / STEP`.  This is the macro on operands of type `int`, whose
division truncates towards zero. -/
def DIV_ROUND_UP (x step : Int) : Int :=
  Int.tdiv (x + step - 1) step

/-- The macro `DIV_ROUND_UP (X, STEP)` on a first operand of type `size_t`:
the sum is taken in 32-bit unsigned arithmetic. -/
def DIV_ROUND_UP_size (x step : Nat) : Nat :=
  (x + step - 1) % 4294967296 / step

/-- One byte of a buffer. -/
abbrev Byte := Fin 256

/-- The contents of a `char [BLOCK_SECTOR_SIZE]` buffer; `memcpy` of
`BLOCK_SECTOR_SIZE` bytes copies the whole value. -/
abbrev Sector := List Byte

/-- The buffer `static char zeros[BLOCK_SECTOR_SIZE]`, also what
`memset (buf, 0, sizeof buf)` leaves in a cache buffer. -/
def zeros : Sector := List.replicate BLOCK_SECTOR_SIZE 0

/-- How a call can end without returning. -/
inductive Fault where
  | panic
  | undefined
deriving DecidableEq, Repr

/-! ## Data model (`cache.h`) -/

/-- The record `struct cache_e` without its list link. -/
structure cache_e where
  buf : Sector
  sector_idx : Nat
  slot_idx : Nat
  dirty : Bool
  access_count : Int
deriving DecidableEq, Repr

/-- The record `struct read_ahead_e` without its list link; the semaphore is
its counter. -/
structure read_ahead_e where
  sector_idx : Nat
  sector_sema : Nat
deriving DecidableEq, Repr

/-- A request received by the block device. -/
inductive block_op where
  | read (sector : Nat)
  | write (sector : Nat) (data : Sector)
deriving DecidableEq, Repr

/-- The globals of `cache.c` (`cache_list`, `cache_checker`,
`read_ahead_list`), the file-system device `fs_device` with the requests it
has served (oldest first), and the free-sector bitmap. -/
structure Kernel where
  cache_list : List cache_e
  cache_checker : Nat → Bool
  read_ahead_list : List read_ahead_e
  fs_device : Nat → Sector
  fs_log : List block_op
  free_map : List Bool

/-! ## Block device -/

/-- Modelled from the spec: `block_read` of the external Block Device, which
is synchronous, cannot fail and returns the stored content of the sector. -/
def block_read (s : Kernel) (sector : Nat) : Sector × Kernel :=
  (s.fs_device sector, { s with fs_log := s.fs_log ++ [block_op.read sector] })

/-- Modelled from the spec: `block_write` of the external Block Device, which
is synchronous, cannot fail and replaces the stored content of the sector. -/
def block_write (s : Kernel) (sector : Nat) (buffer : Sector) : Kernel :=
  { s with
    fs_device := Function.update s.fs_device sector buffer
    fs_log := s.fs_log ++ [block_op.write sector buffer] }

/-! ## Buffer cache (`cache.c`) -/

/-- The effect of `cache_init` on the globals: an all-false `cache_checker`
and two empty lists.  The two background threads it starts are not part of
the state. -/
def cache_init (s : Kernel) : Kernel :=
  { s with
    cache_checker := fun _ => false
    cache_list := []
    read_ahead_list := [] }

/-- The first entry of the cache list whose sector is `sector_idx`. -/
def lookup_cache (l : List cache_e) (sector_idx : Nat) : Option cache_e :=
  l.find? (fun e => decide (sector_idx = e.sector_idx))

/-- The lowest index `i < 64` with `cache_checker[i] == false`; `none` stands
for the result `-1`. -/
def cache_find_empty_slot (checker : Nat → Bool) : Option Nat :=
  (List.range 64).find? (fun i => checker i == false)

/-- The store `cache_checker[slot_idx] = result`; outside the array it is
undefined. -/
def cache_slot_set (checker : Nat → Bool) (slot_idx : Nat) (result : Bool) :
    Except Fault (Nat → Bool) :=
  if slot_idx < 64 then Except.ok (Function.update checker slot_idx result)
  else Except.error Fault.undefined

/-- The scan of `cache_evict`: `min` is replaced by an entry only when that
entry has a strictly smaller `access_count`. -/
def evict_scan : cache_e → List cache_e → cache_e
  | min, [] => min
  | min, compare :: rest =>
    evict_scan (if compare.access_count < min.access_count then compare else min) rest

/-- The function `cache_evict`.  On an empty list `list_begin` is the tail
sentinel, which is not an entry.  The node unlinked by `list_remove` is the
first one equal to the scan result: an earlier equal record would have been
chosen by the scan instead. -/
def cache_evict (s : Kernel) : Except Fault Kernel :=
  match cache_find_empty_slot s.cache_checker with
  | some _ => Except.error Fault.panic
  | none =>
    match s.cache_list with
    | [] => Except.error Fault.undefined
    | first :: _ =>
      let min := evict_scan first s.cache_list
      match cache_slot_set s.cache_checker min.slot_idx false with
      | Except.error f => Except.error f
      | Except.ok checker =>
        let s1 := { s with cache_checker := checker, cache_list := s.cache_list.erase min }
        Except.ok (if min.dirty then block_write s1 min.sector_idx min.buf else s1)

/-- The function `cache_create`. -/
def cache_create (s : Kernel) (sector : Nat) : Except Fault (cache_e × Kernel) :=
  match cache_find_empty_slot s.cache_checker with
  | none => Except.error Fault.panic
  | some empty_slot_idx =>
    let cache_entry : cache_e :=
      { buf := zeros, dirty := false, sector_idx := sector,
        slot_idx := empty_slot_idx, access_count := 0 }
    match cache_slot_set s.cache_checker empty_slot_idx true with
    | Except.error f => Except.error f
    | Except.ok checker =>
      Except.ok (cache_entry,
        { s with cache_list := s.cache_list ++ [cache_entry], cache_checker := checker })

/-- A store through a `struct cache_e *` obtained for `sector_idx`: the entry
changed is the first one of the list with that sector. -/
def entry_update (f : cache_e → cache_e) (sector_idx : Nat) : List cache_e → List cache_e
  | [] => []
  | e :: rest =>
    if sector_idx = e.sector_idx then f e :: rest
    else e :: entry_update f sector_idx rest

/-- The increment of `access_count` on an entry. -/
def entry_bump (e : cache_e) : cache_e :=
  { e with access_count := e.access_count + 1 }

/-- The effect of `memcpy (cache_entry->buf, buffer, BLOCK_SECTOR_SIZE)`
followed by `cache_entry->dirty = true` on an entry. -/
def entry_store (buffer : Sector) (e : cache_e) : cache_e :=
  { e with buf := buffer, dirty := true }

/-- The statement `if (cache_find_empty_slot () == -1) cache_evict ();` of
`cache_load` and `cache_load_ahead`. -/
def cache_make_room (s : Kernel) : Except Fault Kernel :=
  match cache_find_empty_slot s.cache_checker with
  | none => cache_evict s
  | some _ => Except.ok s

/-- The block shared by `cache_load` (lines 128-138) and `cache_load_ahead`
(lines 166-176): look the sector up and, on a miss, evict if no slot is free,
create the entry and read the sector into its buffer. -/
def cache_fetch (s : Kernel) (sector_idx : Nat) : Except Fault (cache_e × Kernel) :=
  match lookup_cache s.cache_list sector_idx with
  | some cache_entry => Except.ok (cache_entry, s)
  | none =>
    match cache_make_room s with
    | Except.error f => Except.error f
    | Except.ok s1 =>
      match cache_create s1 sector_idx with
      | Except.error f => Except.error f
      | Except.ok (cache_entry, s2) =>
        let r := block_read s2 sector_idx
        Except.ok ({ cache_entry with buf := r.1 },
          { r.2 with
            cache_list := entry_update (fun e => { e with buf := r.1 }) sector_idx r.2.cache_list })

/-- The function `cache_load_ahead`. -/
def cache_load_ahead (s : Kernel) (sector_idx : Nat) : Except Fault (cache_e × Kernel) :=
  cache_fetch s sector_idx

/-- The first request of the read-ahead list for `sector_idx`. -/
def lookup_ra_list (l : List read_ahead_e) (sector_idx : Nat) : Option read_ahead_e :=
  l.find? (fun e => decide (sector_idx = e.sector_idx))

/-- The function `rae_create`: a request whose semaphore starts at 1 is
appended to the list. -/
def rae_create (s : Kernel) (sector_idx : Nat) : read_ahead_e × Kernel :=
  let read_ahead_entry : read_ahead_e := { sector_idx := sector_idx, sector_sema := 1 }
  (read_ahead_entry, { s with read_ahead_list := s.read_ahead_list ++ [read_ahead_entry] })

/-- A `sema_down` that does not sleep, on the first request for `sector_idx`. -/
def rae_sema_down (sector_idx : Nat) : List read_ahead_e → List read_ahead_e
  | [] => []
  | e :: rest =>
    if sector_idx = e.sector_idx then { e with sector_sema := e.sector_sema - 1 } :: rest
    else e :: rae_sema_down sector_idx rest

/-- One iteration of the loop of `read_aheader_func` after its sleep: the
request at the front is loaded with `cache_load_ahead`, unlinked and freed
(its waiters are woken). -/
def read_aheader_step (s : Kernel) : Except Fault Kernel :=
  match s.read_ahead_list with
  | [] => Except.ok s
  | read_ahead_entry :: _ =>
    match cache_load_ahead s read_ahead_entry.sector_idx with
    | Except.error f => Except.error f
    | Except.ok (_, s1) => Except.ok { s1 with read_ahead_list := s1.read_ahead_list.tail }

/-- A caller asleep in `sema_down` on the first request for `sector_idx`
resumes when the worker has served the queue up to and including that
request; `queue` is the read-ahead list at the moment the caller falls
asleep. -/
def await_aheader (sector_idx : Nat) : List read_ahead_e → Kernel → Except Fault Kernel
  | [], s => Except.ok s
  | read_ahead_entry :: rest, s =>
    match read_aheader_step s with
    | Except.error f => Except.error f
    | Except.ok s1 =>
      if read_ahead_entry.sector_idx = sector_idx then Except.ok s1
      else await_aheader sector_idx rest s1

/-- Lines 118-125 of `cache_load`: if a request for the sector is queued,
`sema_down` its semaphore, which sleeps when the counter is 0. -/
def cache_load_wait (s : Kernel) (sector_idx : Nat) : Except Fault Kernel :=
  match lookup_ra_list s.read_ahead_list sector_idx with
  | none => Except.ok s
  | some read_ahead_entry =>
    if read_ahead_entry.sector_sema = 0 then await_aheader sector_idx s.read_ahead_list s
    else Except.ok { s with read_ahead_list := rae_sema_down sector_idx s.read_ahead_list }

/-- Lines 145-151 of `cache_load`: queue a request for the next sector
(`sector_idx + 1` in 32-bit unsigned arithmetic) unless one is queued, and
take its semaphore. -/
def cache_load_request (s : Kernel) (sector_idx : Nat) : Kernel :=
  match lookup_ra_list s.read_ahead_list ((sector_idx + 1) % UINT_RANGE) with
  | some _ => s
  | none =>
    let r := rae_create s ((sector_idx + 1) % UINT_RANGE)
    { r.2 with
      read_ahead_list := rae_sema_down ((sector_idx + 1) % UINT_RANGE) r.2.read_ahead_list }

/-- The statement `cache_entry->access_count++` of `cache_load`; at `INT_MAX`
the signed increment is undefined. -/
def access_count_incr (s : Kernel) (cache_entry : cache_e) :
    Except Fault (cache_e × Kernel) :=
  if cache_entry.access_count = INT_MAX then Except.error Fault.undefined
  else
    Except.ok (entry_bump cache_entry,
      { s with cache_list := entry_update entry_bump cache_entry.sector_idx s.cache_list })

/-- The function `cache_load`. -/
def cache_load (s : Kernel) (sector_idx : Nat) : Except Fault (cache_e × Kernel) :=
  match cache_load_wait s sector_idx with
  | Except.error f => Except.error f
  | Except.ok s1 =>
    match cache_fetch s1 sector_idx with
    | Except.error f => Except.error f
    | Except.ok (cache_entry, s2) =>
      match access_count_incr s2 cache_entry with
      | Except.error f => Except.error f
      | Except.ok (cache_entry, s3) => Except.ok (cache_entry, cache_load_request s3 sector_idx)

/-- The function `cache_write_from_buf`. -/
def cache_write_from_buf (s : Kernel) (sector : Nat) (buffer : Sector) : Except Fault Kernel :=
  match cache_load s sector with
  | Except.error f => Except.error f
  | Except.ok (_, s1) =>
    let s2 := { s1 with cache_list := entry_update (entry_store buffer) sector s1.cache_list }
    Except.ok (block_write s2 sector buffer)

/-- The function `cache_read_from_buf`; the first component is what the call
leaves in `buffer`. -/
def cache_read_from_buf (s : Kernel) (sector : Nat) : Except Fault (Sector × Kernel) :=
  match cache_load s sector with
  | Except.error f => Except.error f
  | Except.ok (cache_entry, s1) => Except.ok (cache_entry.buf, s1)

/-- The loop of `cache_flush` from a given position of the list: the first
component is the rest of the list as the loop leaves it. -/
def cache_flush_loop : List cache_e → Kernel → List cache_e × Kernel
  | [], s => ([], s)
  | cache_entry :: rest, s =>
    if cache_entry.dirty then
      let r := cache_flush_loop rest (block_write s cache_entry.sector_idx cache_entry.buf)
      ({ cache_entry with dirty := false } :: r.1, r.2)
    else
      let r := cache_flush_loop rest s
      (cache_entry :: r.1, r.2)

/-- The function `cache_flush`. -/
def cache_flush (s : Kernel) : Kernel :=
  let r := cache_flush_loop s.cache_list s
  { r.2 with cache_list := r.1 }

/-! ## Free-sector map -/

/-- The position of the first clear bit of a bitmap. -/
def first_free : List Bool → Option Nat
  | [] => none
  | b :: rest => if b = false then some 0 else (first_free rest).map (fun i => i + 1)

/-- Modelled from the spec: `allocate(count)` of the external Free-Space
Allocator, for `count = 1` (the only count `inode.c` passes).  The map is a
bitmap whose set bits are the sectors in use; the sector handed out is the
lowest free one, and `none` is the failure result. -/
def free_map_allocate (s : Kernel) : Option (Nat × Kernel) :=
  match first_free s.free_map with
  | none => none
  | some sector => some (sector, { s with free_map := s.free_map.set sector true })

/-! ## On-disk inode (`inode.c`) -/

/-- The constant `DIRECT`: the number of direct pointers of an inode.  The
functions below carry its value 96 as a numeral. -/
def DIRECT : Nat := 96

/-- The constant `INDIRECT`: the number of pointers of an indirect block.  The
functions below carry its value 128 as a numeral. -/
def INDIRECT : Nat := 128

/-- The record `struct inode_disk` without its padding. -/
structure inode_disk where
  direct : List Nat
  indirect : Nat
  double_indirect : Nat
  is_dir : Bool
  is_opened : Int
  is_cwd : Int
  length : Int
  magic : Nat
deriving DecidableEq, Repr

/-- The record `struct inode` without its list link. -/
structure inode where
  sector : Nat
  open_cnt : Int
  removed : Bool
  deny_write_cnt : Int
  data : inode_disk
deriving DecidableEq, Repr

/-- The `block_sector_t` stored at position `i` of a sector read as
`struct indirect_disk` (four bytes, least significant first). -/
def indirect_data (b : Sector) (i : Nat) : Nat :=
  (b.getD (4 * i) 0).val + 256 * (b.getD (4 * i + 1) 0).val
    + 65536 * (b.getD (4 * i + 2) 0).val + 16777216 * (b.getD (4 * i + 3) 0).val

/-- A sector buffer read as the array `data[INDIRECT]` of `struct indirect_disk`. -/
def indirect_disk_of_sector (b : Sector) : List Nat :=
  (List.range 128).map (indirect_data b)

/-- The four bytes of a `block_sector_t`, least significant first. -/
def sector_bytes (w : Nat) : List Byte :=
  [Fin.ofNat w, Fin.ofNat (w / 256), Fin.ofNat (w / 65536), Fin.ofNat (w / 16777216)]

/-- The 512 bytes of a `struct indirect_disk` whose array is `data`. -/
def sector_of_indirect_disk (data : List Nat) : Sector :=
  ((List.range 128).map (fun i => sector_bytes (data.getD i 0))).flatten

/-- A zeroed `struct indirect_disk`, as `calloc` returns it. -/
def indirect_disk_zero : List Nat := List.replicate INDIRECT 0

/-- A zeroed `struct inode_disk`, as `calloc` returns it. -/
def inode_disk_zero : inode_disk :=
  { direct := List.replicate DIRECT 0, indirect := 0, double_indirect := 0, is_dir := false,
    is_opened := 0, is_cwd := 0, length := 0, magic := 0 }

/-- The function `bytes_to_sectors`: `DIV_ROUND_UP (size, BLOCK_SECTOR_SIZE)`
computed in `int` and converted to `size_t`; the sum `size + 512 - 1` inside
the macro is undefined once it passes `INT_MAX`. -/
def bytes_to_sectors (size : Int) : Except Fault Nat :=
  if INT_MAX < size + 512 - 1 then Except.error Fault.undefined
  else Except.ok ((DIV_ROUND_UP size 512) % 4294967296).toNat

/-- The function `byte_to_index`: the quotient, truncated towards zero, is
converted to `block_sector_t`. -/
def byte_to_index (bytes : Int) : Nat :=
  ((Int.tdiv bytes 512) % 4294967296).toNat

/-- The function `index_to_sector`; the second component is the kernel state
after the cache reads. -/
def index_to_sector (s : Kernel) (ino : inode) (idx : Nat) : Except Fault (Nat × Kernel) :=
  if idx < 96 then Except.ok (ino.data.direct.getD idx 0, s)
  else if idx < 96 + 128 then
    match cache_read_from_buf s ino.data.indirect with
    | Except.error f => Except.error f
    | Except.ok (indirect_first, s1) => Except.ok (indirect_data indirect_first (idx - 96), s1)
  else if idx < 96 + 128 + 128 * 128 then
    match cache_read_from_buf s ino.data.double_indirect with
    | Except.error f => Except.error f
    | Except.ok (indirect_first, s1) =>
      let indirect_second_idx := (idx - 96 - 128) / 128
      let indirect_second_ofs := (idx - 96 - 128) % 128
      match cache_read_from_buf s1 (indirect_data indirect_first indirect_second_idx) with
      | Except.error f => Except.error f
      | Except.ok (indirect_second, s2) =>
        Except.ok (indirect_data indirect_second indirect_second_ofs, s2)
  else Except.error Fault.panic

/-- The allocation loop common to `inode_alloc` (lines 412-420, over
`disk_inode->direct`) and `indirect_alloc` (lines 556-567, over
`disk_indirect->data`): `n` iterations starting at index `i`, each taking one
sector from the free map into `table[i]`, zeroing it through the cache and
decrementing `sectors`; a failed allocation is a `PANIC`. -/
def alloc_loop : Nat → Nat → List Nat → Nat → Kernel → Except Fault (List Nat × Nat × Kernel)
  | 0, _, table, sectors, s => Except.ok (table, sectors, s)
  | n + 1, i, table, sectors, s =>
    match free_map_allocate s with
    | none => Except.error Fault.panic
    | some (sector, s1) =>
      match cache_write_from_buf s1 sector zeros with
      | Except.error f => Except.error f
      | Except.ok s2 => alloc_loop n (i + 1) (table.set i sector) (sectors - 1) s2

/-- The function `indirect_alloc`: the result carries the filled array, the
number of sectors still to allocate, and the kernel state. -/
def indirect_alloc (s : Kernel) (disk_indirect : List Nat) (sectors : Nat) (idx_ofs : Nat) :
    Except Fault (List Nat × Nat × Kernel) :=
  let indirect_sectors :=
    if (idx_ofs + sectors) % 4294967296 < 128 then (idx_ofs + sectors) % 4294967296 else 128
  alloc_loop (indirect_sectors - idx_ofs) idx_ofs disk_indirect sectors s

/-- Lines 431-459 and 490-514 of `inode_alloc`: fill one indirect block.  The
block starts zeroed, or is read from `old_sector` when `idx_ofs` is not 0; it
is filled by `indirect_alloc` and written to a newly allocated sector when
`idx_ofs` is 0, to `old_sector` otherwise.  The result carries the sector of
the block and the number of sectors still to allocate. -/
def indirect_block_alloc (s : Kernel) (old_sector : Nat) (sectors : Nat) (idx_ofs : Nat) :
    Except Fault (Nat × Nat × Kernel) :=
  match (if idx_ofs ≠ 0 then
           match cache_read_from_buf s old_sector with
           | Except.error f => Except.error f
           | Except.ok (b, s1) => Except.ok (indirect_disk_of_sector b, s1)
         else Except.ok (indirect_disk_zero, s)) with
  | Except.error f => Except.error f
  | Except.ok (disk_indirect, s1) =>
    match indirect_alloc s1 disk_indirect sectors idx_ofs with
    | Except.error f => Except.error f
    | Except.ok (disk_indirect, sectors, s2) =>
      match (if idx_ofs = 0 then
               match free_map_allocate s2 with
               | none => Except.error Fault.panic
               | some r => Except.ok r
             else Except.ok (old_sector, s2)) with
      | Except.error f => Except.error f
      | Except.ok (sector, s3) =>
        match cache_write_from_buf s3 sector (sector_of_indirect_disk disk_indirect) with
        | Except.error f => Except.error f
        | Except.ok s4 => Except.ok (sector, sectors, s4)

/-- The loop of lines 486-520 of `inode_alloc`.  Its bound
`DIV_ROUND_UP (sectors, INDIRECT)` is computed anew from the current
`sectors` at every test; as `sectors` never grows, `fuel` iterations are
enough when `fuel` is the first bound.  A store to
`double_indirect_disk->data[i]` with `i` past the array is undefined. -/
def double_indirect_loop :
    Nat → Nat → List Nat → Nat → Nat → Kernel → Except Fault (List Nat × Nat × Kernel)
  | 0, _, double_indirect_disk, sectors, _, s => Except.ok (double_indirect_disk, sectors, s)
  | fuel + 1, i, double_indirect_disk, sectors, idx_ofs, s =>
    if i < DIV_ROUND_UP_size sectors 128 then
      if 128 ≤ i then Except.error Fault.undefined
      else
        match indirect_block_alloc s (double_indirect_disk.getD i 0) sectors (idx_ofs % 128) with
        | Except.error f => Except.error f
        | Except.ok (sector, sectors, s1) =>
          double_indirect_loop fuel (i + 1) (double_indirect_disk.set i sector) sectors 0 s1
    else Except.ok (double_indirect_disk, sectors, s)

/-- The function `inode_alloc`; `idx_ofs` is never negative at its two call
sites.  The result carries the returned flag and the inode as the call leaves
it. -/
def inode_alloc (s : Kernel) (disk_inode : inode_disk) (sectors : Nat) (idx_ofs : Nat) :
    Except Fault (Bool × inode_disk × Kernel) :=
  if sectors = 0 then Except.ok (true, disk_inode, s)
  else
    let direct_sectors :=
      if (idx_ofs + sectors) % 4294967296 < 96 then (idx_ofs + sectors) % 4294967296 else 96
    match alloc_loop (direct_sectors - idx_ofs) idx_ofs disk_inode.direct sectors s with
    | Except.error f => Except.error f
    | Except.ok (direct, sectors, s1) =>
      let disk_inode := { disk_inode with direct := direct }
      if sectors = 0 then Except.ok (true, disk_inode, s1)
      else
        let idx_ofs := if idx_ofs < 96 then 0 else idx_ofs - 96
        match indirect_block_alloc s1 disk_inode.indirect sectors idx_ofs with
        | Except.error f => Except.error f
        | Except.ok (sector, sectors, s2) =>
          let disk_inode := { disk_inode with indirect := sector }
          if sectors = 0 then Except.ok (true, disk_inode, s2)
          else
            let idx_ofs := if idx_ofs < 128 then 0 else idx_ofs - 128
            match (if idx_ofs ≠ 0 then
                     match cache_read_from_buf s2 disk_inode.double_indirect with
                     | Except.error f => Except.error f
                     | Except.ok (b, s3) => Except.ok (indirect_disk_of_sector b, s3)
                   else Except.ok (indirect_disk_zero, s2)) with
            | Except.error f => Except.error f
            | Except.ok (double_indirect_disk, s3) =>
              match double_indirect_loop (DIV_ROUND_UP_size sectors 128 - idx_ofs / 128)
                      (idx_ofs / 128) double_indirect_disk sectors idx_ofs s3 with
              | Except.error f => Except.error f
              | Except.ok (double_indirect_disk, sectors, s4) =>
                match (if idx_ofs = 0 then
                         match free_map_allocate s4 with
                         | none => Except.error Fault.panic
                         | some r => Except.ok r
                       else Except.ok (disk_inode.double_indirect, s4)) with
                | Except.error f => Except.error f
                | Except.ok (sector, s5) =>
                  let disk_inode := { disk_inode with double_indirect := sector }
                  match cache_write_from_buf s5 sector
                          (sector_of_indirect_disk double_indirect_disk) with
                  | Except.error f => Except.error f
                  | Except.ok s6 => Except.ok (decide (sectors = 0), disk_inode, s6)

/-- The function `sector_alloc`: a failed growth is a `PANIC`. -/
def sector_alloc (s : Kernel) (ino : inode) (sectors : Nat) : Except Fault (Bool × inode × Kernel) :=
  match bytes_to_sectors ino.data.length with
  | Except.error f => Except.error f
  | Except.ok length_idx =>
    match inode_alloc s ino.data sectors length_idx with
    | Except.error f => Except.error f
    | Except.ok (true, data, s1) => Except.ok (true, { ino with data := data }, s1)
    | Except.ok (false, _, _) => Except.error Fault.panic

/-- The function `byte_to_sector`; the result carries the returned sector
number, the in-memory inode and the kernel state as the call leaves them.
The value `-1` of type `block_sector_t` is 4294967295. -/
def byte_to_sector (s : Kernel) (ino : inode) (pos : Int) (writing : Bool) :
    Except Fault (Nat × inode × Kernel) :=
  if pos < ino.data.length then
    match index_to_sector s ino (byte_to_index pos) with
    | Except.error f => Except.error f
    | Except.ok (sector, s1) => Except.ok (sector, ino, s1)
  else if writing then
    match bytes_to_sectors pos with
    | Except.error f => Except.error f
    | Except.ok a =>
      match bytes_to_sectors ino.data.length with
      | Except.error f => Except.error f
      | Except.ok b =>
        match sector_alloc s ino ((a + 4294967296 - b) % 4294967296) with
        | Except.error f => Except.error f
        | Except.ok (true, ino1, s1) =>
          match index_to_sector s1 ino1 (byte_to_index pos) with
          | Except.error f => Except.error f
          | Except.ok (sector, s2) => Except.ok (sector, ino1, s2)
        | Except.ok (false, ino1, s1) => Except.ok (4294967295, ino1, s1)
  else Except.ok (4294967295, ino, s)

/-! ## Inode sector image -/

/-- The value of an `int` kept in a 32-bit word (two's complement). -/
def int_of_word (w : Nat) : Int :=
  if w < 2147483648 then (w : Int) else (w : Int) - 4294967296

/-- The 32-bit word that keeps an `int` (two's complement). -/
def word_of_int (v : Int) : Nat :=
  (v % 4294967296).toNat

/-- The 128 words of a `struct inode_disk` in the 80x86 layout: `direct` in
words 0-95, `indirect` in 96, `double_indirect` in 97, `is_dir` in the first
byte of word 98 (three bytes of padding follow), `is_opened` in 99, `is_cwd`
in 100, `length` in 101, `magic` in 102 and `unused` in 103-127.  Padding and
`unused` are not part of `inode_disk`; they are written as zeros, as `calloc`
leaves them. -/
def inode_disk_words (d : inode_disk) : List Nat :=
  (List.range 96).map (fun i => d.direct.getD i 0) ++
    [d.indirect, d.double_indirect, if d.is_dir then 1 else 0, word_of_int d.is_opened,
     word_of_int d.is_cwd, word_of_int d.length, d.magic] ++ List.replicate 25 0

/-- The 512 bytes of a `struct inode_disk`. -/
def sector_of_inode_disk (d : inode_disk) : Sector :=
  sector_of_indirect_disk (inode_disk_words d)

/-- A sector buffer read as `struct inode_disk`. -/
def inode_disk_of_sector (b : Sector) : inode_disk :=
  { direct := (List.range 96).map (indirect_data b),
    indirect := indirect_data b 96,
    double_indirect := indirect_data b 97,
    is_dir := decide ((b.getD 392 0).val ≠ 0),
    is_opened := int_of_word (indirect_data b 99),
    is_cwd := int_of_word (indirect_data b 100),
    length := int_of_word (indirect_data b 101),
    magic := indirect_data b 102 }

/-! ## Inode operations (`inode.c`) -/

/-- Modelled from the spec: `release(sector, count)` of the external
Free-Space Allocator, for `count = 1` (the only count `inode.c` passes): the
bit of the sector is cleared. -/
def free_map_release (s : Kernel) (sector : Nat) : Kernel :=
  { s with free_map := s.free_map.set sector false }

/-- The function `inode_length`. -/
def inode_length (ino : inode) : Int :=
  ino.data.length

/-- The function `inode_create`, for a `calloc` that succeeds; the flag is
the value returned.  `INODE_MAGIC` is 0x494e4f44 = 1229868868. -/
def inode_create (s : Kernel) (sector : Nat) (length : Int) (is_dir : Bool) :
    Except Fault (Bool × Kernel) :=
  if length < 0 then Except.error Fault.panic
  else
    match bytes_to_sectors length with
    | Except.error f => Except.error f
    | Except.ok sectors =>
      let disk_inode :=
        { inode_disk_zero with
          length := length, magic := 1229868868, is_dir := is_dir, is_cwd := 0, is_opened := 0 }
      match inode_alloc s disk_inode sectors 0 with
      | Except.error f => Except.error f
      | Except.ok (true, disk_inode, s1) =>
        match cache_write_from_buf s1 sector (sector_of_inode_disk disk_inode) with
        | Except.error f => Except.error f
        | Except.ok s2 => Except.ok (true, s2)
      | Except.ok (false, _, _) => Except.error Fault.panic

/-- The search loop of `inode_open` over `open_inodes`: the position and the
content of the first handle whose sector is `sector`. -/
def open_lookup : List inode → Nat → Option (Nat × inode)
  | [], _ => none
  | ino :: rest, sector =>
    if ino.sector = sector then some (0, ino)
    else (open_lookup rest sector).map (fun p => (p.1 + 1, p.2))

/-- The function `inode_reopen` on a handle that is not `NULL`; the increment
of `open_cnt` at `INT_MAX` is undefined. -/
def inode_reopen (ino : inode) : Except Fault inode :=
  if ino.open_cnt = INT_MAX then Except.error Fault.undefined
  else Except.ok { ino with open_cnt := ino.open_cnt + 1 }

/-- The function `inode_open`, for a `malloc` that succeeds.  The list
`open_inodes` is passed and returned; a handle (`struct inode *`) is its
position in the list, and the first component is the handle returned. -/
def inode_open (s : Kernel) (open_inodes : List inode) (sector : Nat) :
    Except Fault (Nat × List inode × Kernel) :=
  match open_lookup open_inodes sector with
  | some (k, ino) =>
    match inode_reopen ino with
    | Except.error f => Except.error f
    | Except.ok ino1 => Except.ok (k, open_inodes.set k ino1, s)
  | none =>
    let r := block_read s sector
    let ino : inode :=
      { sector := sector, open_cnt := 1, deny_write_cnt := 0, removed := false,
        data := inode_disk_of_sector r.1 }
    Except.ok (0, ino :: open_inodes, r.2)

/-- The release loop of `inode_close` (lines 264-267): `n` iterations from
index `i`, each releasing the sector `index_to_sector` returns. -/
def inode_close_loop : Nat → Nat → Kernel → inode → Except Fault Kernel
  | 0, _, s, _ => Except.ok s
  | n + 1, i, s, ino =>
    match index_to_sector s ino i with
    | Except.error f => Except.error f
    | Except.ok (sector, s1) => inode_close_loop n (i + 1) (free_map_release s1 sector) ino

/-- The function `inode_close`; `none` is the `NULL` handle, `some k` the
handle at position `k` of `open_inodes`, and a position past the end of the
list is a dangling pointer.  The decrement of `open_cnt` at `INT_MIN` is
undefined. -/
def inode_close (s : Kernel) (open_inodes : List inode) (handle : Option Nat) :
    Except Fault (List inode × Kernel) :=
  match handle with
  | none => Except.ok (open_inodes, s)
  | some k =>
    match open_inodes.get? k with
    | none => Except.error Fault.undefined
    | some ino =>
      if ino.open_cnt = -2147483648 then Except.error Fault.undefined
      else
        let ino := { ino with open_cnt := ino.open_cnt - 1 }
        if ino.open_cnt = 0 then
          let open_inodes := open_inodes.eraseIdx k
          if ino.removed then
            let s1 := free_map_release s ino.sector
            let max_idx := byte_to_index ino.data.length
            match inode_close_loop max_idx 0 s1 ino with
            | Except.error f => Except.error f
            | Except.ok s2 => Except.ok (open_inodes, s2)
          else Except.ok (open_inodes, s)
        else Except.ok (open_inodes.set k ino, s)

/-- The function `inode_remove` on a handle that is not `NULL`. -/
def inode_remove (ino : inode) : inode :=
  { ino with removed := true }

/-- The function `inode_deny_write`; the increment at `INT_MAX` is undefined
and a failed `ASSERT` is a `PANIC`. -/
def inode_deny_write (ino : inode) : Except Fault inode :=
  if ino.deny_write_cnt = INT_MAX then Except.error Fault.undefined
  else if ino.open_cnt < ino.deny_write_cnt + 1 then Except.error Fault.panic
  else Except.ok { ino with deny_write_cnt := ino.deny_write_cnt + 1 }

/-- The function `inode_allow_write`; a failed `ASSERT` is a `PANIC`. -/
def inode_allow_write (ino : inode) : Except Fault inode :=
  if ino.deny_write_cnt ≤ 0 then Except.error Fault.panic
  else if ino.open_cnt < ino.deny_write_cnt then Except.error Fault.panic
  else Except.ok { ino with deny_write_cnt := ino.deny_write_cnt - 1 }

/-- The number of bytes one iteration of the loops of `inode_read_at` and
`inode_write_at` copies (`chunk_size`), from the length of the inode and the
current `size` and `offset`; `%` truncates towards zero. -/
def chunk_size (length size offset : Int) : Int :=
  let sector_ofs := Int.tmod offset 512
  let inode_left := length - offset
  let sector_left := 512 - sector_ofs
  let min_left := if inode_left < sector_left then inode_left else sector_left
  if size < min_left then size else min_left

/-- The loop of `inode_read_at`, at most `fuel` iterations.  The list
`buffer` is what has been copied to the caller's buffer so far (bytes
`0 .. bytes_read`); the result carries `bytes_read`, that list, the inode and
the kernel state.  A copy that starts before the buffer of the cache entry
(negative `sector_ofs`) is undefined. -/
def inode_read_at_loop :
    Nat → Kernel → inode → Int → Int → Int → List Byte →
      Except Fault (Int × List Byte × inode × Kernel)
  | 0, s, ino, _, _, bytes_read, buffer => Except.ok (bytes_read, buffer, ino, s)
  | fuel + 1, s, ino, size, offset, bytes_read, buffer =>
    if 0 < size then
      match byte_to_sector s ino offset false with
      | Except.error f => Except.error f
      | Except.ok (sector_idx, ino1, s1) =>
        let sector_ofs := Int.tmod offset 512
        let chunk := chunk_size (inode_length ino1) size offset
        if chunk ≤ 0 then Except.ok (bytes_read, buffer, ino1, s1)
        else
          match cache_load s1 sector_idx with
          | Except.error f => Except.error f
          | Except.ok (cache_entry, s2) =>
            if sector_ofs < 0 then Except.error Fault.undefined
            else
              inode_read_at_loop fuel s2 ino1 (size - chunk) (offset + chunk)
                (bytes_read + chunk)
                (buffer ++ (cache_entry.buf.drop sector_ofs.toNat).take chunk.toNat)
    else Except.ok (bytes_read, buffer, ino, s)

/-- The function `inode_read_at`.  Every iteration that does not leave the
loop lowers `size` by at least 1, so `size` iterations are enough. -/
def inode_read_at (s : Kernel) (ino : inode) (size offset : Int) :
    Except Fault (Int × List Byte × inode × Kernel) :=
  inode_read_at_loop size.toNat s ino size offset 0 []

/-- The effect of `memcpy (cache_entry->buf + sector_ofs, src, chunk_size)`
followed by `cache_entry->dirty = true` on an entry. -/
def entry_copy (sector_ofs : Nat) (src : List Byte) (e : cache_e) : cache_e :=
  { e with
    buf := e.buf.take sector_ofs ++ src ++ e.buf.drop (sector_ofs + src.length),
    dirty := true }

/-- The loop of `inode_write_at`, at most `fuel` iterations; `buffer` is the
caller's buffer.  A copy that starts before the buffer of the cache entry or
reads past the end of the caller's buffer is undefined. -/
def inode_write_at_loop :
    Nat → Kernel → inode → List Byte → Int → Int → Int → Except Fault (Int × inode × Kernel)
  | 0, s, ino, _, _, _, bytes_written => Except.ok (bytes_written, ino, s)
  | fuel + 1, s, ino, buffer, size, offset, bytes_written =>
    if 0 < size then
      match byte_to_sector s ino offset false with
      | Except.error f => Except.error f
      | Except.ok (sector_idx, ino1, s1) =>
        let sector_ofs := Int.tmod offset 512
        let chunk := chunk_size (inode_length ino1) size offset
        if chunk ≤ 0 then Except.ok (bytes_written, ino1, s1)
        else
          match cache_load s1 sector_idx with
          | Except.error f => Except.error f
          | Except.ok (_, s2) =>
            let src := (buffer.drop bytes_written.toNat).take chunk.toNat
            if sector_ofs < 0 ∨ src.length < chunk.toNat then Except.error Fault.undefined
            else
              let s3 :=
                { s2 with
                  cache_list :=
                    entry_update (entry_copy sector_ofs.toNat src) sector_idx s2.cache_list }
              inode_write_at_loop fuel s3 ino1 buffer (size - chunk) (offset + chunk)
                (bytes_written + chunk)
    else Except.ok (bytes_written, ino, s)

/-- The function `inode_write_at`; the result carries the value returned, the
inode and the kernel state.  The sum `offset + size` is undefined outside the
range of `int`. -/
def inode_write_at (s : Kernel) (ino : inode) (buffer : List Byte) (size offset : Int) :
    Except Fault (Int × inode × Kernel) :=
  if ino.deny_write_cnt ≠ 0 then Except.ok (0, ino, s)
  else if INT_MAX < offset + size ∨ offset + size < -2147483648 then
    Except.error Fault.undefined
  else
    match byte_to_sector s ino (offset + size) true with
    | Except.error f => Except.error f
    | Except.ok (_, ino1, s1) =>
      let ino2 :=
        if ino1.data.length < offset + size then
          { ino1 with data := { ino1.data with length := offset + size } }
        else ino1
      match cache_write_from_buf s1 ino2.sector (sector_of_inode_disk ino2.data) with
      | Except.error f => Except.error f
      | Except.ok s2 => inode_write_at_loop size.toNat s2 ino2 buffer size offset 0

/-! ## Runs of cache calls and state predicates -/

/-- A call of one of the entry points of the cache. -/
inductive cache_call where
  | load (sector_idx : Nat)
  | load_ahead (sector_idx : Nat)
  | read_from_buf (sector : Nat)
  | write_from_buf (sector : Nat) (buffer : Sector)
  | flush

/-- The state after one call that returns. -/
def cache_call_run (s : Kernel) : cache_call → Except Fault Kernel
  | cache_call.load sector_idx =>
    match cache_load s sector_idx with
    | Except.error f => Except.error f
    | Except.ok (_, s1) => Except.ok s1
  | cache_call.load_ahead sector_idx =>
    match cache_load_ahead s sector_idx with
    | Except.error f => Except.error f
    | Except.ok (_, s1) => Except.ok s1
  | cache_call.read_from_buf sector =>
    match cache_read_from_buf s sector with
    | Except.error f => Except.error f
    | Except.ok (_, s1) => Except.ok s1
  | cache_call.write_from_buf sector buffer => cache_write_from_buf s sector buffer
  | cache_call.flush => Except.ok (cache_flush s)

/-- The state after a sequence of calls, each starting where the previous one
returned. -/
def cache_run (s : Kernel) : List cache_call → Except Fault Kernel
  | [] => Except.ok s
  | c :: rest =>
    match cache_call_run s c with
    | Except.error f => Except.error f
    | Except.ok s1 => cache_run s1 rest

/-- The slot table and the cache list agree: every entry sits in a slot of
the table that is marked used, every used slot holds an entry, and neither a
slot nor a sector occurs twice. -/
structure cache_wf (s : Kernel) : Prop where
  slot_lt : ∀ e ∈ s.cache_list, e.slot_idx < 64
  slot_used : ∀ e ∈ s.cache_list, s.cache_checker e.slot_idx = true
  used_slot : ∀ i, i < 64 → s.cache_checker i = true → ∃ e ∈ s.cache_list, e.slot_idx = i
  slot_nodup : (s.cache_list.map cache_e.slot_idx).Nodup
  sector_nodup : (s.cache_list.map cache_e.sector_idx).Nodup

/-- Every entry that is not dirty holds what the device stores for its
sector. -/
def cache_coherent (s : Kernel) : Prop :=
  ∀ e ∈ s.cache_list, e.dirty = false → e.buf = s.fs_device e.sector_idx

/-- No access counter exceeds `n`. -/
def counts_le (s : Kernel) (n : Int) : Prop :=
  ∀ e ∈ s.cache_list, e.access_count ≤ n

/-- The content of a sector as seen through the cache: the buffer of its
entry if it has one, what the device stores otherwise. -/
def cache_view (s : Kernel) (sector : Nat) : Sector :=
  match lookup_cache s.cache_list sector with
  | some e => e.buf
  | none => s.fs_device sector

/-! ## Sample states -/

/-- A kernel right after `cache_init`, on a device filled with zeros whose
sectors 0 and 1 are in use and whose next 62 sectors are free. -/
def boot_kernel : Kernel :=
  cache_init
    { cache_list := [], cache_checker := fun _ => false, read_ahead_list := [],
      fs_device := fun _ => zeros, fs_log := [],
      free_map := [true, true] ++ List.replicate 62 false }

/-- An open, empty file: a zeroed on-disk inode of length 0 kept at sector 1. -/
def empty_inode : inode :=
  { sector := 1, open_cnt := 1, removed := false, deny_write_cnt := 0, data := inode_disk_zero }

/-- The on-disk inode of a file of 352 sectors (180224 bytes) laid out as
`inode_alloc` lays it out on an empty device: data sectors 2-97 in the direct
table, the indirect block at sector 226 (data sectors 98-225), the
double-indirect block at sector 356 with a single second-level block at
sector 355 (data sectors 227-354). -/
def grown_inode_disk : inode_disk :=
  { direct := List.range' 2 96, indirect := 226, double_indirect := 356, is_dir := false,
    is_opened := 0, is_cwd := 0, length := 180224, magic := 1229868868 }

/-- A kernel right after `cache_init` on a device that stores the index
blocks of `grown_inode_disk`; sectors 0-356 are in use and 43 are free. -/
def grown_kernel : Kernel :=
  cache_init
    { cache_list := [], cache_checker := fun _ => false, read_ahead_list := [],
      fs_device := fun n =>
        if n = 226 then sector_of_indirect_disk (List.range' 98 128)
        else if n = 355 then sector_of_indirect_disk (List.range' 227 128)
        else if n = 356 then sector_of_indirect_disk [355]
        else zeros,
      fs_log := [],
      free_map := List.replicate 357 true ++ List.replicate 43 false }

/-- The open file whose on-disk inode is `grown_inode_disk`. -/
def grown_inode : inode :=
  { sector := 1, open_cnt := 1, removed := false, deny_write_cnt := 0, data := grown_inode_disk }

/-- A full cache: slot `i` holds sector `100 + i`; the entries in even slots
are dirty; the first five entries have been accessed three times, the others
twice. -/
def full_kernel : Kernel :=
  { cache_list := (List.range 64).map (fun i =>
      { buf := List.replicate 512 (Fin.ofNat i), sector_idx := 100 + i, slot_idx := i,
        dirty := decide (i % 2 = 0), access_count := if i < 5 then 3 else 2 }),
    cache_checker := fun i => decide (i < 64), read_ahead_list := [],
    fs_device := fun _ => zeros, fs_log := [],
    free_map := List.replicate 200 true ++ List.replicate 56 false }

/-- A run of calls that touches 70 different sectors, then writes, flushes
and reads. -/
def sample_calls : List cache_call :=
  (List.range 70).map cache_call.load ++
    [cache_call.write_from_buf 5 (List.replicate 512 1), cache_call.flush,
     cache_call.read_from_buf 3, cache_call.load_ahead 9]

/-- What a call of `inode_alloc` leaves behind: its flag, the inode and the
free map; `none` if the call does not return. -/
def alloc_outcome (r : Except Fault (Bool × inode_disk × Kernel)) :
    Option (Bool × inode_disk × List Bool) :=
  match r with
  | Except.ok (b, d, s) => some (b, d, s.free_map)
  | Except.error _ => none

/-- The sector a call of `index_to_sector` returns; `none` if the call does
not return. -/
def index_outcome (r : Except Fault (Nat × Kernel)) : Option Nat :=
  match r with
  | Except.ok (sector, _) => some sector
  | Except.error _ => none

/-- The state `cache_evict` leaves when its victim is `v` and the other
entries are `rest`. -/
def evicted (s : Kernel) (v : cache_e) (rest : List cache_e) : Kernel :=
  if v.dirty then
    block_write
      { s with cache_checker := Function.update s.cache_checker v.slot_idx false,
               cache_list := rest } v.sector_idx v.buf
  else
    { s with cache_checker := Function.update s.cache_checker v.slot_idx false,
             cache_list := rest }

/-- The entry `cache_fetch` creates for sector `S` in slot `i` of state `s1`,
and the state it leaves. -/
def fetched (s1 : Kernel) (S i : Nat) : cache_e × Kernel :=
  ({ buf := s1.fs_device S, sector_idx := S, slot_idx := i, dirty := false, access_count := 0 },
   { s1 with
     cache_list := s1.cache_list ++
       [{ buf := s1.fs_device S, sector_idx := S, slot_idx := i, dirty := false,
          access_count := 0 }]
     cache_checker := Function.update s1.cache_checker i true
     fs_log := s1.fs_log ++ [block_op.read S] })

/-- The state `s1` is a well-formed, coherent state that shows the same
content for every sector as `s`, with the same free map, and whose counters
have grown by at most `k`. -/
structure cache_keeps (k : Nat) (s s1 : Kernel) : Prop where
  wf : cache_wf s1
  coherent : cache_coherent s1
  view : ∀ T, cache_view s1 T = cache_view s T
  free_map : s1.free_map = s.free_map
  counts : ∀ n : Int, 0 ≤ n → counts_le s n → counts_le s1 (n + k)

/-- The state `s1` is a well-formed, coherent state that shows `buf` for
sector `S` and the content shown by `s` for every other sector, with the same
free map, and whose counters have grown by at most 1. -/
structure cache_puts (S : Nat) (buf : Sector) (s s1 : Kernel) : Prop where
  wf : cache_wf s1
  coherent : cache_coherent s1
  view : ∀ T, cache_view s1 T = if T = S then buf else cache_view s T
  free_map : s1.free_map = s.free_map
  counts : ∀ n : Int, 0 ≤ n → counts_le s n → counts_le s1 (n + 1)

/-- The effect of `cache_entry->dirty = false` on an entry. -/
def entry_clean (e : cache_e) : cache_e :=
  { e with dirty := false }

/-- The device requests issued by `cache_flush` for a list of entries. -/
def flush_writes (l : List cache_e) : List block_op :=
  (l.filter (fun e => e.dirty)).map (fun e => block_op.write e.sector_idx e.buf)

/-- Every field of the on-disk inode fits its C type. -/
structure inode_disk_fits (d : inode_disk) : Prop where
  direct_length : d.direct.length = 96
  direct_lt : ∀ i, d.direct.getD i 0 < 4294967296
  indirect_lt : d.indirect < 4294967296
  double_indirect_lt : d.double_indirect < 4294967296
  is_opened_ge : -2147483648 ≤ d.is_opened
  is_opened_le : d.is_opened ≤ INT_MAX
  is_cwd_ge : -2147483648 ≤ d.is_cwd
  is_cwd_le : d.is_cwd ≤ INT_MAX
  length_ge : -2147483648 ≤ d.length
  length_le : d.length ≤ INT_MAX
  magic_lt : d.magic < 4294967296

/-- A call of `inode.c` on an open inode; a handle is a position of the list
`open_inodes`. -/
inductive inode_call where
  | call_open (sector : Nat)
  | call_reopen (handle : Nat)
  | call_close (handle : Option Nat)
  | call_remove (handle : Nat)
  | call_deny_write (handle : Nat)
  | call_allow_write (handle : Nat)
  | call_read_at (handle : Nat) (size offset : Int)
  | call_write_at (handle : Nat) (buffer : List Byte) (size offset : Int)

/-- A call that changes the fields of the handle at position `handle`; a
position past the end of the list is a dangling pointer. -/
def handle_call (open_inodes : List inode) (handle : Nat) (f : inode → Except Fault inode) :
    Except Fault (List inode) :=
  match open_inodes.get? handle with
  | none => Except.error Fault.undefined
  | some ino =>
    match f ino with
    | Except.error e => Except.error e
    | Except.ok ino1 => Except.ok (open_inodes.set handle ino1)

/-- One call on the open-inode list and the kernel state. -/
def inode_call_run (s : Kernel) (open_inodes : List inode) :
    inode_call → Except Fault (List inode × Kernel)
  | inode_call.call_open sector =>
    match inode_open s open_inodes sector with
    | Except.error f => Except.error f
    | Except.ok (_, l, s1) => Except.ok (l, s1)
  | inode_call.call_reopen handle =>
    match handle_call open_inodes handle inode_reopen with
    | Except.error f => Except.error f
    | Except.ok l => Except.ok (l, s)
  | inode_call.call_close handle => inode_close s open_inodes handle
  | inode_call.call_remove handle =>
    match handle_call open_inodes handle (fun ino => Except.ok (inode_remove ino)) with
    | Except.error f => Except.error f
    | Except.ok l => Except.ok (l, s)
  | inode_call.call_deny_write handle =>
    match handle_call open_inodes handle inode_deny_write with
    | Except.error f => Except.error f
    | Except.ok l => Except.ok (l, s)
  | inode_call.call_allow_write handle =>
    match handle_call open_inodes handle inode_allow_write with
    | Except.error f => Except.error f
    | Except.ok l => Except.ok (l, s)
  | inode_call.call_read_at handle size offset =>
    match open_inodes.get? handle with
    | none => Except.error Fault.undefined
    | some ino =>
      match inode_read_at s ino size offset with
      | Except.error f => Except.error f
      | Except.ok (_, _, ino1, s1) => Except.ok (open_inodes.set handle ino1, s1)
  | inode_call.call_write_at handle buffer size offset =>
    match open_inodes.get? handle with
    | none => Except.error Fault.undefined
    | some ino =>
      match inode_write_at s ino buffer size offset with
      | Except.error f => Except.error f
      | Except.ok (_, ino1, s1) => Except.ok (open_inodes.set handle ino1, s1)

/-- A sequence of calls, run left to right. -/
def inode_run (s : Kernel) (open_inodes : List inode) :
    List inode_call → Except Fault (List inode × Kernel)
  | [] => Except.ok (open_inodes, s)
  | c :: rest =>
    match inode_call_run s open_inodes c with
    | Except.error f => Except.error f
    | Except.ok (l, s1) => inode_run s1 l rest

/-- The calls `inode_create (sector, 0, false)`, `inode_open (sector)`,
`inode_write_at` of `size` bytes at offset 0, `inode_close`, `inode_open
(sector)` and `inode_read_at` of `size` bytes at offset 0, on an empty
open-inode list; the result carries the value of the write, the value of the
read and the bytes read. -/
def create_write_read (s : Kernel) (sector : Nat) (buffer : List Byte) (size : Int) :
    Except Fault (Int × Int × List Byte) :=
  match inode_create s sector 0 false with
  | Except.error f => Except.error f
  | Except.ok (_, s1) =>
    match inode_open s1 [] sector with
    | Except.error f => Except.error f
    | Except.ok (k, l2, s2) =>
      match l2.get? k with
      | none => Except.error Fault.undefined
      | some ino =>
        match inode_write_at s2 ino buffer size 0 with
        | Except.error f => Except.error f
        | Except.ok (written, ino3, s3) =>
          match inode_close s3 (l2.set k ino3) (some k) with
          | Except.error f => Except.error f
          | Except.ok (l4, s4) =>
            match inode_open s4 l4 sector with
            | Except.error f => Except.error f
            | Except.ok (k5, l5, s5) =>
              match l5.get? k5 with
              | none => Except.error Fault.undefined
              | some ino5 =>
                match inode_read_at s5 ino5 size 0 with
                | Except.error f => Except.error f
                | Except.ok (read, out, _, _) => Except.ok (written, read, out)

/-- The calls `inode_create (sector, length, false)`, `inode_open (sector)`,
`inode_remove`, `index_to_sector (inode, 0)` and `inode_close`, on an empty
open-inode list; the result carries the sector of logical index 0, the
open-inode list and the kernel state after the close. -/
def create_remove_close (s : Kernel) (sector : Nat) (length : Int) :
    Except Fault (Nat × List inode × Kernel) :=
  match inode_create s sector length false with
  | Except.error f => Except.error f
  | Except.ok (_, s1) =>
    match inode_open s1 [] sector with
    | Except.error f => Except.error f
    | Except.ok (k, l2, s2) =>
      match l2.get? k with
      | none => Except.error Fault.undefined
      | some ino =>
        match index_to_sector s2 (inode_remove ino) 0 with
        | Except.error f => Except.error f
        | Except.ok (first, s3) =>
          match inode_close s3 (l2.set k (inode_remove ino)) (some k) with
          | Except.error f => Except.error f
          | Except.ok (l4, s4) => Except.ok (first, l4, s4)

/-- What `create_remove_close` leaves behind: the sector of logical index 0,
the number of open inodes and the free map; `none` if a call does not
return. -/
def close_outcome (r : Except Fault (Nat × List inode × Kernel)) :
    Option (Nat × Nat × List Bool) :=
  match r with
  | Except.ok (first, l, s) => some (first, l.length, s.free_map)
  | Except.error _ => none

/-- The sector `index_to_sector` resolves the logical index `idx` of an
on-disk inode to, when a read through the cache shows `view`. -/
def sector_at (view : Nat → Sector) (d : inode_disk) (idx : Nat) : Nat :=
  if idx < 96 then d.direct.getD idx 0
  else if idx < 224 then indirect_data (view d.indirect) (idx - 96)
  else
    indirect_data (view (indirect_data (view d.double_indirect) ((idx - 224) / 128)))
      ((idx - 224) % 128)

/-- The bytes the loop of `inode_read_at` copies out in at most `fuel`
iterations, for an inode `d` whose sectors show `view` through the cache. -/
def read_bytes (view : Nat → Sector) (d : inode_disk) : Nat → Int → Int → List Byte
  | 0, _, _ => []
  | fuel + 1, size, offset =>
    if 0 < size then
      let chunk := chunk_size d.length size offset
      if chunk ≤ 0 then []
      else
        ((view (sector_at view d (byte_to_index offset))).drop (Int.tmod offset 512).toNat).take
            chunk.toNat ++
          read_bytes view d fuel (size - chunk) (offset + chunk)
    else []

/-- Sector `x` is marked in use in the free map. -/
def allocated (fm : List Bool) (x : Nat) : Prop :=
  fm.getD x false = true

/-- The free map `fm1` is `fm` after the sectors `xs`, all free in `fm` and
pairwise different, have been marked in use. -/
structure allocs (fm fm1 : List Bool) (xs : List Nat) : Prop where
  nodup : xs.Nodup
  fresh : ∀ x ∈ xs, ¬ allocated fm x
  lt : ∀ x ∈ xs, x < fm.length
  bits : ∀ y, allocated fm1 y ↔ (allocated fm y ∨ y ∈ xs)
  length : fm1.length = fm.length

/-- The array `table` after the stores `table[i] = x0`, `table[i + 1] = x1`,
... for the elements of the list. -/
def fill : List Nat → Nat → List Nat → List Nat
  | table, _, [] => table
  | table, i, x :: xs => fill (table.set i x) (i + 1) xs

/-- The state `s1` is a well-formed, coherent state whose counters have grown
by at most `k` over those of `s`. -/
structure cache_grows (k : Nat) (s s1 : Kernel) : Prop where
  wf : cache_wf s1
  coherent : cache_coherent s1
  counts : ∀ n : Int, 0 ≤ n → counts_le s n → counts_le s1 (n + k)

/-- Sector `T` holds an index block of an inode that owns `n` data sectors:
the indirect block if `n > 96`, the double-indirect block if `n > 224`, or
the second-level block `k` if `n > 224 + 128 k`. -/
def is_struct (view : Nat → Sector) (d : inode_disk) (n : Nat) (T : Nat) : Prop :=
  (96 < n ∧ T = d.indirect) ∨ (224 < n ∧ T = d.double_indirect) ∨
    ∃ k, 224 + 128 * k < n ∧ T = indirect_data (view d.double_indirect) k

/-- The inode `d` owns `n` data sectors: its logical indices `0 .. n - 1`
resolve to pairwise different sectors that are marked in use, its index
blocks are marked in use, and data sectors and index blocks are all
different from one another. -/
structure inode_owns (view : Nat → Sector) (fm : List Bool) (d : inode_disk) (n : Nat) :
    Prop where
  direct_length : d.direct.length = 96
  data_alloc : ∀ i, i < n → allocated fm (sector_at view d i)
  data_inj : ∀ i j, i < n → j < n → sector_at view d i = sector_at view d j → i = j
  struct_alloc : ∀ T, is_struct view d n T → allocated fm T
  data_ne_struct : ∀ i, i < n → ¬ is_struct view d n (sector_at view d i)
  struct_ne : 224 < n → d.indirect ≠ d.double_indirect ∧
    ∀ k, 224 + 128 * k < n →
      d.indirect ≠ indirect_data (view d.double_indirect) k ∧
      d.double_indirect ≠ indirect_data (view d.double_indirect) k

/-- The inode `d1`, seen through `view1`, is the inode `d`, seen through
`view`, grown from `e` to `e + a` data sectors: the sectors `xs` have been
taken from the free map; the old indices resolve as before; the new indices
resolve, in order, to the sectors `data`, which are among `xs` and are filled
with zeros; every index block is an old one or one of `xs`; and no sector
other than `xs` and the old index blocks shows a different content. -/
structure inode_grown (view view1 : Nat → Sector) (fm fm1 : List Bool) (d d1 : inode_disk)
    (e a : Nat) (xs data : List Nat) : Prop where
  allocs : allocs fm fm1 xs
  direct_length : d1.direct.length = d.direct.length
  old : ∀ i, i < e → sector_at view1 d1 i = sector_at view d i
  data_len : data.length = a
  data_nodup : data.Nodup
  data_sub : ∀ x ∈ data, x ∈ xs
  new : ∀ i, e ≤ i → i < e + a → sector_at view1 d1 i = data.getD (i - e) 0
  zero : ∀ x ∈ data, view1 x = zeros
  struct : ∀ T, is_struct view1 d1 (e + a) T → (T ∈ xs ∧ T ∉ data) ∨ is_struct view d e T
  struct_ne : 224 < e + a → d1.indirect ≠ d1.double_indirect ∧
    ∀ k, 224 + 128 * k < e + a →
      d1.indirect ≠ indirect_data (view1 d1.double_indirect) k ∧
      d1.double_indirect ≠ indirect_data (view1 d1.double_indirect) k
  frame : ∀ T, T ∉ xs → ¬ is_struct view d e T → view1 T = view T

/-- The statements `calloc` and `if (idx_ofs != 0) cache_read_from_buf (sector,
...)` of `inode_alloc` (lines 435-442, 477-484): the index block to fill. -/
def indirect_disk_load (s : Kernel) (idx_ofs sector : Nat) : Except Fault (List Nat × Kernel) :=
  if idx_ofs ≠ 0 then
    match cache_read_from_buf s sector with
    | Except.error f => Except.error f
    | Except.ok (b, s1) => Except.ok (indirect_disk_of_sector b, s1)
  else Except.ok (indirect_disk_zero, s)

/-- The statements of `inode_alloc` that choose the sector of an index block
(lines 449-461, 525-537): a new sector if `idx_ofs` is 0, the old one
otherwise. -/
def indirect_disk_sector (s : Kernel) (idx_ofs old_sector : Nat) : Except Fault (Nat × Kernel) :=
  if idx_ofs = 0 then
    match free_map_allocate s with
    | none => Except.error Fault.panic
    | some r => Except.ok r
  else Except.ok (old_sector, s)

/-- The statements of `inode_alloc` that follow the indirect stage (lines
469-543), as a function of the state, the inode and the sector count that
stage leaves and of `idx_ofs` as updated at line 469. -/
def inode_alloc_double (s2 : Kernel) (disk_inode : inode_disk) (sectors idx_ofs : Nat) :
    Except Fault (Bool × inode_disk × Kernel) :=
  match indirect_disk_load s2 idx_ofs disk_inode.double_indirect with
  | Except.error f => Except.error f
  | Except.ok (double_indirect_disk, s3) =>
    match double_indirect_loop (DIV_ROUND_UP_size sectors 128 - idx_ofs / 128)
            (idx_ofs / 128) double_indirect_disk sectors idx_ofs s3 with
    | Except.error f => Except.error f
    | Except.ok (double_indirect_disk, sectors, s4) =>
      match indirect_disk_sector s4 idx_ofs disk_inode.double_indirect with
      | Except.error f => Except.error f
      | Except.ok (sector, s5) =>
        match cache_write_from_buf s5 sector
                (sector_of_indirect_disk double_indirect_disk) with
        | Except.error f => Except.error f
        | Except.ok s6 =>
          Except.ok (decide (sectors = 0), { disk_inode with double_indirect := sector }, s6)

/-- The statements of `inode_alloc` that follow the direct stage (lines
422-543), as a function of the state, the inode and the sector count that
stage leaves and of `idx_ofs` as passed to `inode_alloc`. -/
def inode_alloc_indirect (s1 : Kernel) (disk_inode : inode_disk) (sectors idx_ofs : Nat) :
    Except Fault (Bool × inode_disk × Kernel) :=
  if sectors = 0 then Except.ok (true, disk_inode, s1)
  else
    match indirect_block_alloc s1 disk_inode.indirect sectors
        (if idx_ofs < 96 then 0 else idx_ofs - 96) with
    | Except.error f => Except.error f
    | Except.ok (sector, sectors, s2) =>
      if sectors = 0 then Except.ok (true, { disk_inode with indirect := sector }, s2)
      else
        inode_alloc_double s2 { disk_inode with indirect := sector } sectors
          (if (if idx_ofs < 96 then 0 else idx_ofs - 96) < 128 then 0
            else (if idx_ofs < 96 then 0 else idx_ofs - 96) - 128)

/-- Every sector of the device of `s1` stores what the device of `s` stores for
it or what `s` shows for it through the cache. -/
def device_follows (s s1 : Kernel) : Prop :=
  ∀ T, s1.fs_device T = s.fs_device T ∨ s1.fs_device T = cache_view s T

/-- The length/allocation invariant of an in-memory inode in a kernel state:
the cache is well formed and coherent; the length is an `off_t` that is not
negative; the inode owns `ceil (length / 512)` data sectors at the logical
indices below that number; and the sector of the inode itself is marked in
use and is none of its data sectors or index blocks. -/
structure inode_inv (s : Kernel) (ino : inode) : Prop where
  wf : cache_wf s
  coherent : cache_coherent s
  length_nonneg : 0 ≤ ino.data.length
  length_le : ino.data.length ≤ INT_MAX
  owns : inode_owns (cache_view s) s.free_map ino.data ((ino.data.length + 511) / 512).toNat
  self_alloc : allocated s.free_map ino.sector
  self_ne_data : ∀ i, i < ((ino.data.length + 511) / 512).toNat →
    sector_at (cache_view s) ino.data i ≠ ino.sector
  self_ne_struct :
    ¬ is_struct (cache_view s) ino.data ((ino.data.length + 511) / 512).toNat ino.sector
  free_map_length : s.free_map.length ≤ 4294967296

/-- Lines 362-364 of `inode_write_at`, the in-place write of a chunk:
`cache_load` of the sector, `memcpy` into the buffer of the entry at
`sector_ofs`, and `dirty = true`. -/
def cache_store (s : Kernel) (sector_idx sector_ofs : Nat) (src : List Byte) :
    Except Fault Kernel :=
  match cache_load s sector_idx with
  | Except.error f => Except.error f
  | Except.ok (_, s1) =>
    Except.ok
      { s1 with
        cache_list := entry_update (entry_copy sector_ofs src) sector_idx s1.cache_list }

/-- An operation on the cache: one of its functions, or the in-place write of
`inode_write_at`. -/
inductive cache_op where
  | load (sector_idx : Nat)
  | load_ahead (sector_idx : Nat)
  | evict
  | flush
  | read_from_buf (sector : Nat)
  | write_from_buf (sector : Nat) (buffer : Sector)
  | store (sector_idx sector_ofs : Nat) (src : List Byte)

/-- The state after one operation that returns. -/
def cache_op_run (s : Kernel) : cache_op → Except Fault Kernel
  | cache_op.load sector_idx =>
    match cache_load s sector_idx with
    | Except.error f => Except.error f
    | Except.ok (_, s1) => Except.ok s1
  | cache_op.load_ahead sector_idx =>
    match cache_load_ahead s sector_idx with
    | Except.error f => Except.error f
    | Except.ok (_, s1) => Except.ok s1
  | cache_op.evict => cache_evict s
  | cache_op.flush => Except.ok (cache_flush s)
  | cache_op.read_from_buf sector =>
    match cache_read_from_buf s sector with
    | Except.error f => Except.error f
    | Except.ok (_, s1) => Except.ok s1
  | cache_op.write_from_buf sector buffer => cache_write_from_buf s sector buffer
  | cache_op.store sector_idx sector_ofs src => cache_store s sector_idx sector_ofs src

/-- The state after a sequence of operations, each starting where the previous
one returned. -/
def cache_ops_run (s : Kernel) : List cache_op → Except Fault Kernel
  | [] => Except.ok s
  | op :: rest =>
    match cache_op_run s op with
    | Except.error f => Except.error f
    | Except.ok s1 => cache_ops_run s1 rest

/-- Whether the operation writes sector `S`. -/
def cache_op.writes : cache_op → Nat → Bool
  | cache_op.write_from_buf sector _, S => decide (sector = S)
  | cache_op.store sector_idx _ _, S => decide (sector_idx = S)
  | _, _ => false

/-- Whether the operation is a direct call of `cache_evict`. -/
def cache_op.is_evict : cache_op → Bool
  | cache_op.evict => true
  | _ => false

/-- The visible content of the sectors after one operation, as the
specification describes it: `cache_write_from_buf` replaces the content of
its sector, an in-place write replaces the bytes it covers, and every other
operation leaves all contents as they are. -/
def visible_step (visible : Nat → Sector) : cache_op → Nat → Sector
  | cache_op.write_from_buf sector buffer => Function.update visible sector buffer
  | cache_op.store sector_idx sector_ofs src =>
    Function.update visible sector_idx
      ((visible sector_idx).take sector_ofs ++ src ++
        (visible sector_idx).drop (sector_ofs + src.length))
  | _ => visible

/-- The visible content of the sectors after a sequence of operations, as the
specification describes it. -/
def visible_after (visible : Nat → Sector) : List cache_op → Nat → Sector
  | [] => visible
  | op :: rest => visible_after (visible_step visible op) rest

/-- A run of operations that writes sector 5, stores two bytes into sector 6,
loads 70 other sectors, which evicts both, flushes and reads sector 5 back. -/
def sample_ops : List cache_op :=
  [cache_op.write_from_buf 5 (List.replicate 512 1), cache_op.store 6 3 [7, 8]] ++
    (List.range 70).map (fun i => cache_op.load (10 + i)) ++
    [cache_op.flush, cache_op.read_from_buf 5]

/-- The on-disk inode of a file of two sectors (1024 bytes) whose data
sectors are 2 and 3. -/
def small_inode_disk : inode_disk :=
  { inode_disk_zero with direct := [2, 3] ++ List.replicate 94 0, length := 1024 }

/-- A kernel right after `cache_init`, on a device filled with zeros whose
sectors 0 to 3 are in use and whose next 60 sectors are free. -/
def small_kernel : Kernel :=
  cache_init
    { cache_list := [], cache_checker := fun _ => false, read_ahead_list := [],
      fs_device := fun _ => zeros, fs_log := [],
      free_map := [true, true, true, true] ++ List.replicate 60 false }

/-- The number of free sectors of a free map. -/
def free_count (fm : List Bool) : Nat :=
  fm.count false

/-- The state leaves room for more allocations: the cache is well formed and
coherent, no access counter exceeds `B`, and at least `k` sectors are free. -/
structure alloc_room (s : Kernel) (B : Int) (k : Nat) : Prop where
  wf : cache_wf s
  coherent : cache_coherent s
  nonneg : 0 ≤ B
  counts : counts_le s B
  free : k ≤ free_count s.free_map

/-- A kernel right after `cache_init`, on a device filled with zeros whose
sectors 0 and 1 are in use and whose next 40000 sectors are free. -/
def roomy_kernel : Kernel :=
  cache_init
    { cache_list := [], cache_checker := fun _ => false, read_ahead_list := [],
      fs_device := fun _ => zeros, fs_log := [],
      free_map := [true, true] ++ List.replicate 40000 false }

theorem lookup_cache_none {l : List cache_e} {S : Nat} :
    lookup_cache l S = none ↔ ∀ e ∈ l, e.sector_idx ≠ S := by
  unfold lookup_cache
  rw [List.find?_eq_none]
  constructor
  · intro h e he heq
    exact h e he (by simp [heq])
  · intro h e he
    have := h e he
    simp only [decide_eq_true_eq]
    exact fun h2 => this h2.symm

theorem lookup_cache_some {l : List cache_e} {S : Nat} {e : cache_e}
    (h : lookup_cache l S = some e) : e ∈ l ∧ e.sector_idx = S := by
  unfold lookup_cache at h
  refine ⟨List.mem_of_find?_eq_some h, ?_⟩
  have := List.find?_some h
  simp only [decide_eq_true_eq] at this
  exact this.symm

theorem lookup_cache_of_mem {l : List cache_e} {e : cache_e}
    (hnd : (l.map cache_e.sector_idx).Nodup) (he : e ∈ l) :
    lookup_cache l e.sector_idx = some e := by
  induction l with
  | nil => cases he
  | cons a rest ih =>
    rw [List.map_cons, List.nodup_cons] at hnd
    rcases List.mem_cons.mp he with rfl | hr
    · simp [lookup_cache]
    · have hne : e.sector_idx ≠ a.sector_idx := by
        intro heq
        exact hnd.1 (heq ▸ List.mem_map_of_mem _ hr)
      have := ih hnd.2 hr
      unfold lookup_cache at this ⊢
      rw [List.find?_cons_of_neg _ (by simpa using hne)]
      exact this

theorem entry_update_absent {f : cache_e → cache_e} {S : Nat} {l : List cache_e}
    (h : ∀ e ∈ l, e.sector_idx ≠ S) : entry_update f S l = l := by
  induction l with
  | nil => rfl
  | cons a rest ih =>
    have ha : S ≠ a.sector_idx := fun h2 => h a (List.mem_cons_self _ _) h2.symm
    simp only [entry_update, ha, if_false]
    rw [ih (fun e he => h e (List.mem_cons_of_mem _ he))]

theorem entry_update_append {f : cache_e → cache_e} {S : Nat} {l : List cache_e} {e : cache_e}
    (h : ∀ a ∈ l, a.sector_idx ≠ S) (he : e.sector_idx = S) :
    entry_update f S (l ++ [e]) = l ++ [f e] := by
  induction l with
  | nil => simp [entry_update, he]
  | cons a rest ih =>
    have ha : S ≠ a.sector_idx := fun h2 => h a (List.mem_cons_self _ _) h2.symm
    have ih2 := ih (fun e he => h e (List.mem_cons_of_mem _ he))
    simp [entry_update, ha, ih2]

theorem entry_update_split {f : cache_e → cache_e} {S : Nat} {l : List cache_e} {e : cache_e}
    (h : lookup_cache l S = some e) :
    ∃ pre post, l = pre ++ e :: post ∧ (∀ a ∈ pre, a.sector_idx ≠ S) ∧
      entry_update f S l = pre ++ f e :: post := by
  induction l with
  | nil => simp [lookup_cache] at h
  | cons a rest ih =>
    by_cases ha : S = a.sector_idx
    · have : a = e := by simpa [lookup_cache, ha] using h
      subst this
      exact ⟨[], rest, rfl, by simp, by simp [entry_update, ha]⟩
    · have h2 : lookup_cache rest S = some e := by
        unfold lookup_cache at h ⊢
        rwa [List.find?_cons_of_neg _ (by simpa using ha)] at h
      obtain ⟨pre, post, h3, h4, h5⟩ := ih h2
      refine ⟨a :: pre, post, by simp [h3], ?_, by simp [entry_update, ha, h5]⟩
      intro b hb
      rcases List.mem_cons.mp hb with rfl | hb
      · exact fun h6 => ha h6.symm
      · exact h4 b hb

theorem entry_update_map {f : cache_e → cache_e} {S : Nat} {l : List cache_e} {β : Type}
    (g : cache_e → β) (hg : ∀ e, g (f e) = g e) :
    (entry_update f S l).map g = l.map g := by
  induction l with
  | nil => rfl
  | cons a rest ih =>
    by_cases ha : S = a.sector_idx
    · simp [entry_update, ha, hg]
    · simp [entry_update, ha, ih]

theorem lookup_cache_entry_update (f : cache_e → cache_e) {S T : Nat} {l : List cache_e}
    (hf : ∀ e, (f e).sector_idx = e.sector_idx) :
    lookup_cache (entry_update f S l) T =
      if T = S then (lookup_cache l T).map f else lookup_cache l T := by
  induction l with
  | nil => simp [entry_update, lookup_cache]
  | cons a rest ih =>
    by_cases ha : S = a.sector_idx
    · by_cases hT : T = S
      · simp [entry_update, lookup_cache, ha, hT, hf]
      · have h1 : T ≠ a.sector_idx := ha ▸ hT
        have h2 : T ≠ (f a).sector_idx := by rw [hf]; exact h1
        simp only [entry_update, ha, if_true, lookup_cache]
        rw [List.find?_cons_of_neg _ (by simpa using h2),
          List.find?_cons_of_neg _ (by simpa using h1), if_neg h1]
    · by_cases hTa : T = a.sector_idx
      · have hTS : ¬ a.sector_idx = S := fun h => ha h.symm
        simp [entry_update, lookup_cache, ha, hTa, hTS]
      · unfold lookup_cache at ih
        simp only [entry_update, ha, if_false, lookup_cache]
        rw [List.find?_cons_of_neg _ (by simpa using hTa),
          List.find?_cons_of_neg _ (by simpa using hTa)]
        exact ih

theorem mem_entry_update {f : cache_e → cache_e} {S : Nat} {l : List cache_e} {e : cache_e}
    (h : e ∈ entry_update f S l) : e ∈ l ∨ ∃ a ∈ l, a.sector_idx = S ∧ e = f a := by
  induction l with
  | nil => cases h
  | cons a rest ih =>
    by_cases ha : S = a.sector_idx
    · simp only [entry_update, ha, if_true] at h
      rcases List.mem_cons.mp h with rfl | h
      · exact Or.inr ⟨a, List.mem_cons_self _ _, ha.symm, rfl⟩
      · exact Or.inl (List.mem_cons_of_mem _ h)
    · simp only [entry_update, ha, if_false] at h
      rcases List.mem_cons.mp h with rfl | h
      · exact Or.inl (List.mem_cons_self _ _)
      · rcases ih h with h | ⟨b, hb, hbS, rfl⟩
        · exact Or.inl (List.mem_cons_of_mem _ h)
        · exact Or.inr ⟨b, List.mem_cons_of_mem _ hb, hbS, rfl⟩

/-! ## Eviction -/

theorem evict_scan_spec (l : List cache_e) : ∀ m : cache_e,
    (evict_scan m l = m ∧ ∀ e ∈ l, m.access_count ≤ e.access_count) ∨
    (∃ pre post, l = pre ++ evict_scan m l :: post ∧
      (evict_scan m l).access_count < m.access_count ∧
      (∀ e ∈ pre, (evict_scan m l).access_count < e.access_count) ∧
      ∀ e ∈ post, (evict_scan m l).access_count ≤ e.access_count) := by
  induction l with
  | nil => intro m; left; exact ⟨rfl, by simp⟩
  | cons c rest ih =>
    intro m
    by_cases hc : c.access_count < m.access_count
    · have hs : evict_scan m (c :: rest) = evict_scan c rest := by simp [evict_scan, hc]
      rw [hs]
      right
      rcases ih c with ⟨h1, h2⟩ | ⟨pre, post, h1, h2, h3, h4⟩
      · rw [h1]
        exact ⟨[], rest, rfl, hc, by simp, h2⟩
      · refine ⟨c :: pre, post, by rw [List.cons_append, ← h1], lt_trans h2 hc, ?_, h4⟩
        intro e he
        rcases List.mem_cons.mp he with rfl | he
        · exact h2
        · exact h3 e he
    · have hs : evict_scan m (c :: rest) = evict_scan m rest := by simp [evict_scan, hc]
      rw [hs]
      rcases ih m with ⟨h1, h2⟩ | ⟨pre, post, h1, h2, h3, h4⟩
      · left
        refine ⟨h1, ?_⟩
        intro e he
        rcases List.mem_cons.mp he with rfl | he
        · exact not_lt.mp hc
        · exact h2 e he
      · right
        refine ⟨c :: pre, post, by rw [List.cons_append, ← h1], h2, ?_, h4⟩
        intro e he
        rcases List.mem_cons.mp he with rfl | he
        · exact lt_of_lt_of_le h2 (not_lt.mp hc)
        · exact h3 e he

theorem evict_scan_first (first : cache_e) (rest : List cache_e) :
    ∃ pre post, first :: rest = pre ++ evict_scan first (first :: rest) :: post ∧
      (∀ e ∈ pre, (evict_scan first (first :: rest)).access_count < e.access_count) ∧
      ∀ e ∈ post, (evict_scan first (first :: rest)).access_count ≤ e.access_count := by
  have hs : evict_scan first (first :: rest) = evict_scan first rest := by simp [evict_scan]
  rw [hs]
  rcases evict_scan_spec rest first with ⟨h1, h2⟩ | ⟨pre, post, h1, h2, h3, h4⟩
  · rw [h1]
    exact ⟨[], rest, rfl, by simp, h2⟩
  · refine ⟨first :: pre, post, by rw [List.cons_append, ← h1], ?_, h4⟩
    intro e he
    rcases List.mem_cons.mp he with rfl | he
    · exact h2
    · exact h3 e he

@[simp] theorem evicted_cache_list (s : Kernel) (v : cache_e) (rest : List cache_e) :
    (evicted s v rest).cache_list = rest := by
  unfold evicted; split <;> rfl

@[simp] theorem evicted_cache_checker (s : Kernel) (v : cache_e) (rest : List cache_e) :
    (evicted s v rest).cache_checker = Function.update s.cache_checker v.slot_idx false := by
  unfold evicted; split <;> rfl

@[simp] theorem evicted_read_ahead_list (s : Kernel) (v : cache_e) (rest : List cache_e) :
    (evicted s v rest).read_ahead_list = s.read_ahead_list := by
  unfold evicted; split <;> rfl

@[simp] theorem evicted_free_map (s : Kernel) (v : cache_e) (rest : List cache_e) :
    (evicted s v rest).free_map = s.free_map := by
  unfold evicted; split <;> rfl

theorem evicted_fs_device (s : Kernel) (v : cache_e) (rest : List cache_e) :
    (evicted s v rest).fs_device =
      if v.dirty then Function.update s.fs_device v.sector_idx v.buf else s.fs_device := by
  unfold evicted; split <;> rfl

theorem evicted_fs_log (s : Kernel) (v : cache_e) (rest : List cache_e) :
    (evicted s v rest).fs_log =
      if v.dirty then s.fs_log ++ [block_op.write v.sector_idx v.buf] else s.fs_log := by
  unfold evicted; split <;> rfl

theorem evicted_fs_device_other (s : Kernel) (v : cache_e) (rest : List cache_e) {T : Nat}
    (h : T ≠ v.sector_idx) : (evicted s v rest).fs_device T = s.fs_device T := by
  rw [evicted_fs_device]
  split
  · exact Function.update_noteq h _ _
  · rfl

theorem erase_middle {pre post : List cache_e} {v : cache_e}
    (h : ∀ e ∈ pre, v.access_count < e.access_count) :
    (pre ++ v :: post).erase v = pre ++ post := by
  have hv : v ∉ pre := fun hv => lt_irrefl _ (h v hv)
  rw [List.erase_append_right _ hv, List.erase_cons_head]

theorem cache_evict_spec {s s1 : Kernel} (h : cache_evict s = Except.ok s1) :
    cache_find_empty_slot s.cache_checker = none ∧
    ∃ pre v post, s.cache_list = pre ++ v :: post ∧
      (∀ e ∈ pre, v.access_count < e.access_count) ∧
      (∀ e ∈ post, v.access_count ≤ e.access_count) ∧
      v.slot_idx < 64 ∧ s1 = evicted s v (pre ++ post) := by
  unfold cache_evict at h
  cases hf : cache_find_empty_slot s.cache_checker with
  | some i => rw [hf] at h; cases h
  | none =>
    rw [hf] at h
    refine ⟨rfl, ?_⟩
    cases hl : s.cache_list with
    | nil => rw [hl] at h; cases h
    | cons first rest =>
      rw [hl] at h
      obtain ⟨pre, post, h1, h2, h3⟩ := evict_scan_first first rest
      simp only [cache_slot_set] at h
      generalize evict_scan first (first :: rest) = v at h h1 h2 h3
      by_cases hlt : v.slot_idx < 64
      · simp only [hlt, if_true] at h
        refine ⟨pre, _, post, h1, h2, h3, hlt, ?_⟩
        have he : (first :: rest).erase v = pre ++ post := by
          rw [h1]
          exact erase_middle h2
        rw [he] at h
        injection h with h
        rw [← h]
        rfl
      · simp only [hlt, if_false] at h
        cases h

theorem cache_evict_total {s : Kernel} (hfull : cache_find_empty_slot s.cache_checker = none)
    (hne : s.cache_list ≠ []) (hslot : ∀ e ∈ s.cache_list, e.slot_idx < 64) :
    ∃ s1, cache_evict s = Except.ok s1 := by
  unfold cache_evict
  rw [hfull]
  cases hl : s.cache_list with
  | nil => exact absurd hl hne
  | cons first rest =>
    obtain ⟨pre, post, h1, -, -⟩ := evict_scan_first first rest
    have hmem : evict_scan first (first :: rest) ∈ s.cache_list := by
      rw [hl]
      generalize evict_scan first (first :: rest) = v at h1
      rw [h1]; simp
    have hlt := hslot _ hmem
    simp only [cache_slot_set, hlt, if_true]
    exact ⟨_, rfl⟩

/-! ## Fetching a sector -/

theorem cache_find_empty_slot_some {c : Nat → Bool} {i : Nat}
    (h : cache_find_empty_slot c = some i) : i < 64 ∧ c i = false := by
  unfold cache_find_empty_slot at h
  have h1 := List.mem_of_find?_eq_some h
  have h2 := List.find?_some h
  exact ⟨List.mem_range.mp h1, by simpa using h2⟩

theorem cache_find_empty_slot_none {c : Nat → Bool} :
    cache_find_empty_slot c = none ↔ ∀ i, i < 64 → c i = true := by
  unfold cache_find_empty_slot
  rw [List.find?_eq_none]
  constructor
  · intro h i hi
    have := h i (List.mem_range.mpr hi)
    simpa using this
  · intro h i hi
    have := h i (List.mem_range.mp hi)
    simp [this]

theorem cache_find_empty_slot_of_free {c : Nat → Bool} {i : Nat} (hi : i < 64)
    (h : c i = false) : ∃ j, cache_find_empty_slot c = some j := by
  cases hf : cache_find_empty_slot c with
  | some j => exact ⟨j, rfl⟩
  | none =>
    have := cache_find_empty_slot_none.mp hf i hi
    rw [h] at this
    cases this

theorem cache_make_room_spec {s s1 : Kernel} (h : cache_make_room s = Except.ok s1) :
    ((∃ i, cache_find_empty_slot s.cache_checker = some i) ∧ s1 = s) ∨
    (cache_find_empty_slot s.cache_checker = none ∧
      ∃ pre v post, s.cache_list = pre ++ v :: post ∧
        (∀ e ∈ pre, v.access_count < e.access_count) ∧
        (∀ e ∈ post, v.access_count ≤ e.access_count) ∧
        v.slot_idx < 64 ∧ s1 = evicted s v (pre ++ post)) := by
  unfold cache_make_room at h
  cases hf : cache_find_empty_slot s.cache_checker with
  | some i =>
    rw [hf] at h
    injection h with h
    exact Or.inl ⟨⟨i, rfl⟩, h.symm⟩
  | none =>
    rw [hf] at h
    exact Or.inr ⟨rfl, (cache_evict_spec h).2⟩

theorem cache_make_room_free {s s1 : Kernel} (h : cache_make_room s = Except.ok s1) :
    ∃ i, cache_find_empty_slot s1.cache_checker = some i := by
  rcases cache_make_room_spec h with ⟨hi, rfl⟩ | ⟨-, pre, v, post, -, -, -, hv, rfl⟩
  · exact hi
  · apply cache_find_empty_slot_of_free hv
    simp

theorem cache_make_room_sub {s s1 : Kernel} (h : cache_make_room s = Except.ok s1) :
    ∀ e ∈ s1.cache_list, e ∈ s.cache_list := by
  rcases cache_make_room_spec h with ⟨-, rfl⟩ | ⟨-, pre, v, post, hl, -, -, -, rfl⟩
  · exact fun e he => he
  · intro e he
    rw [hl]
    simp only [evicted_cache_list, List.mem_append] at he
    simp only [List.mem_append, List.mem_cons]
    tauto

theorem cache_create_spec {s : Kernel} {S i : Nat}
    (h : cache_find_empty_slot s.cache_checker = some i) :
    cache_create s S = Except.ok
      ({ buf := zeros, sector_idx := S, slot_idx := i, dirty := false, access_count := 0 },
       { s with
         cache_list := s.cache_list ++
           [{ buf := zeros, sector_idx := S, slot_idx := i, dirty := false, access_count := 0 }]
         cache_checker := Function.update s.cache_checker i true }) := by
  unfold cache_create
  rw [h]
  simp [cache_slot_set, (cache_find_empty_slot_some h).1]

theorem cache_fetch_hit {s : Kernel} {S : Nat} {e : cache_e}
    (h : lookup_cache s.cache_list S = some e) : cache_fetch s S = Except.ok (e, s) := by
  unfold cache_fetch
  rw [h]

theorem cache_fetch_miss {s s1 : Kernel} {S i : Nat}
    (h : lookup_cache s.cache_list S = none) (hr : cache_make_room s = Except.ok s1)
    (hi : cache_find_empty_slot s1.cache_checker = some i) :
    cache_fetch s S = Except.ok (fetched s1 S i) := by
  have hsub : ∀ a ∈ s1.cache_list, a.sector_idx ≠ S :=
    fun a ha => lookup_cache_none.mp h a (cache_make_room_sub hr a ha)
  unfold cache_fetch
  rw [h]
  simp only [hr, cache_create_spec hi, block_read]
  rw [entry_update_append hsub rfl]
  rfl

theorem cache_fetch_spec {s : Kernel} {S : Nat} {r : cache_e × Kernel}
    (h : cache_fetch s S = Except.ok r) :
    (∃ e, lookup_cache s.cache_list S = some e ∧ r = (e, s)) ∨
    (lookup_cache s.cache_list S = none ∧
      ∃ s1 i, cache_make_room s = Except.ok s1 ∧
        cache_find_empty_slot s1.cache_checker = some i ∧ r = fetched s1 S i) := by
  cases hl : lookup_cache s.cache_list S with
  | some e =>
    rw [cache_fetch_hit hl] at h
    injection h with h
    exact Or.inl ⟨e, rfl, h.symm⟩
  | none =>
    right
    refine ⟨rfl, ?_⟩
    cases hr : cache_make_room s with
    | error f =>
      unfold cache_fetch at h
      rw [hl] at h
      simp only [hr] at h
      cases h
    | ok s1 =>
      obtain ⟨i, hi⟩ := cache_make_room_free hr
      rw [cache_fetch_miss hl hr hi] at h
      injection h with h
      exact ⟨s1, i, rfl, hi, h.symm⟩

/-! ## Preservation of the invariants by eviction and creation -/

theorem nodup_map_middle {β : Type} {g : cache_e → β} {pre post : List cache_e} {v : cache_e}
    (h : ((pre ++ v :: post).map g).Nodup) :
    ((pre ++ post).map g).Nodup ∧ ∀ e ∈ pre ++ post, g e ≠ g v := by
  rw [List.map_append, List.map_cons] at h
  have h1 := List.nodup_cons.mp (List.nodup_middle.mp h)
  rw [List.map_append]
  refine ⟨h1.2, ?_⟩
  intro e he heq
  apply h1.1
  rw [← List.map_append, ← heq]
  exact List.mem_map_of_mem _ he

theorem cache_wf_evicted {s : Kernel} {pre post : List cache_e} {v : cache_e}
    (hwf : cache_wf s) (hl : s.cache_list = pre ++ v :: post) :
    cache_wf (evicted s v (pre ++ post)) := by
  have hsub : ∀ e ∈ pre ++ post, e ∈ s.cache_list := by
    intro e he
    rw [hl]
    simp only [List.mem_append, List.mem_cons] at he ⊢
    tauto
  have hslot := nodup_map_middle (hl ▸ hwf.slot_nodup)
  have hsec := nodup_map_middle (hl ▸ hwf.sector_nodup)
  constructor
  · intro e he
    rw [evicted_cache_list] at he
    exact hwf.slot_lt e (hsub e he)
  · intro e he
    rw [evicted_cache_list] at he
    rw [evicted_cache_checker, Function.update_noteq (hslot.2 e he)]
    exact hwf.slot_used e (hsub e he)
  · intro i hi hc
    rw [evicted_cache_checker] at hc
    rw [evicted_cache_list]
    by_cases hiv : i = v.slot_idx
    · rw [hiv, Function.update_same] at hc
      cases hc
    · rw [Function.update_noteq hiv] at hc
      obtain ⟨e, he, hei⟩ := hwf.used_slot i hi hc
      refine ⟨e, ?_, hei⟩
      rw [hl] at he
      simp only [List.mem_append, List.mem_cons] at he ⊢
      rcases he with he | rfl | he
      · exact Or.inl he
      · exact absurd hei.symm hiv
      · exact Or.inr he
  · rw [evicted_cache_list]
    exact hslot.1
  · rw [evicted_cache_list]
    exact hsec.1

theorem cache_coherent_evicted {s : Kernel} {pre post : List cache_e} {v : cache_e}
    (hwf : cache_wf s) (hco : cache_coherent s) (hl : s.cache_list = pre ++ v :: post) :
    cache_coherent (evicted s v (pre ++ post)) := by
  have hsec := nodup_map_middle (hl ▸ hwf.sector_nodup)
  intro e he hd
  rw [evicted_cache_list] at he
  rw [evicted_fs_device_other _ _ _ (hsec.2 e he)]
  apply hco e _ hd
  rw [hl]
  simp only [List.mem_append, List.mem_cons] at he ⊢
  tauto

theorem lookup_cache_append (l1 l2 : List cache_e) (T : Nat) :
    lookup_cache (l1 ++ l2) T = (lookup_cache l1 T).or (lookup_cache l2 T) := by
  unfold lookup_cache
  rw [List.find?_append]

theorem lookup_cache_middle {pre post : List cache_e} {v : cache_e} {T : Nat}
    (h : T ≠ v.sector_idx) :
    lookup_cache (pre ++ v :: post) T = lookup_cache (pre ++ post) T := by
  rw [lookup_cache_append, lookup_cache_append]
  congr 1
  unfold lookup_cache
  rw [List.find?_cons_of_neg _ (by simpa using h)]

theorem cache_view_evicted {s : Kernel} {pre post : List cache_e} {v : cache_e}
    (hwf : cache_wf s) (hco : cache_coherent s) (hl : s.cache_list = pre ++ v :: post)
    (T : Nat) : cache_view (evicted s v (pre ++ post)) T = cache_view s T := by
  have hsec := nodup_map_middle (hl ▸ hwf.sector_nodup)
  unfold cache_view
  rw [evicted_cache_list]
  by_cases hT : T = v.sector_idx
  · have hv : v ∈ s.cache_list := by rw [hl]; simp
    have h1 : lookup_cache s.cache_list T = some v := by
      rw [hT]; exact lookup_cache_of_mem hwf.sector_nodup hv
    have h2 : lookup_cache (pre ++ post) T = none := by
      rw [lookup_cache_none]
      intro e he
      rw [hT]
      exact hsec.2 e he
    rw [h1, h2, hT, evicted_fs_device]
    by_cases hd : v.dirty = true
    · simp [hd]
    · simp only [hd]
      exact (hco v hv (by simpa using hd)).symm
  · rw [hl, lookup_cache_middle hT, evicted_fs_device_other _ _ _ hT]

theorem counts_le_evicted {s : Kernel} {pre post : List cache_e} {v : cache_e} {n : Int}
    (hc : counts_le s n) (hl : s.cache_list = pre ++ v :: post) :
    counts_le (evicted s v (pre ++ post)) n := by
  intro e he
  rw [evicted_cache_list] at he
  apply hc
  rw [hl]
  simp only [List.mem_append, List.mem_cons] at he ⊢
  tauto

theorem cache_wf_fetched {s1 : Kernel} {S i : Nat} (hwf : cache_wf s1)
    (hi : cache_find_empty_slot s1.cache_checker = some i)
    (hS : ∀ a ∈ s1.cache_list, a.sector_idx ≠ S) : cache_wf (fetched s1 S i).2 := by
  obtain ⟨hi64, hfree⟩ := cache_find_empty_slot_some hi
  have hslot : ∀ a ∈ s1.cache_list, a.slot_idx ≠ i := by
    intro a ha heq
    have := hwf.slot_used a ha
    rw [heq, hfree] at this
    cases this
  constructor
  · intro e he
    simp only [fetched, List.mem_append, List.mem_singleton] at he
    rcases he with he | rfl
    · exact hwf.slot_lt e he
    · exact hi64
  · intro e he
    simp only [fetched, List.mem_append, List.mem_singleton] at he ⊢
    rcases he with he | rfl
    · rw [Function.update_noteq (hslot e he)]
      exact hwf.slot_used e he
    · simp
  · intro j hj hc
    simp only [fetched] at hc ⊢
    by_cases hji : j = i
    · exact ⟨_, List.mem_append_right _ (List.mem_singleton_self _), hji.symm⟩
    · rw [Function.update_noteq hji] at hc
      obtain ⟨e, he, hej⟩ := hwf.used_slot j hj hc
      exact ⟨e, by simp [he], hej⟩
  · simp only [fetched, List.map_append, List.map_cons, List.map_nil]
    rw [List.nodup_append]
    refine ⟨hwf.slot_nodup, by simp, ?_⟩
    intro x hx hx2
    simp only [List.mem_singleton] at hx2
    obtain ⟨a, ha, rfl⟩ := List.mem_map.mp hx
    exact hslot a ha hx2
  · simp only [fetched, List.map_append, List.map_cons, List.map_nil]
    rw [List.nodup_append]
    refine ⟨hwf.sector_nodup, by simp, ?_⟩
    intro x hx hx2
    simp only [List.mem_singleton] at hx2
    obtain ⟨a, ha, rfl⟩ := List.mem_map.mp hx
    exact hS a ha hx2

theorem cache_coherent_fetched {s1 : Kernel} {S i : Nat} (hco : cache_coherent s1) :
    cache_coherent (fetched s1 S i).2 := by
  intro e he hd
  simp only [fetched, List.mem_append, List.mem_singleton] at he ⊢
  rcases he with he | rfl
  · exact hco e he hd
  · rfl

theorem cache_view_fetched {s1 : Kernel} {S i : Nat}
    (hS : ∀ a ∈ s1.cache_list, a.sector_idx ≠ S) (T : Nat) :
    cache_view (fetched s1 S i).2 T = cache_view s1 T := by
  unfold cache_view
  simp only [fetched]
  rw [lookup_cache_append]
  by_cases hT : T = S
  · have h1 : lookup_cache s1.cache_list T = none := by
      rw [hT]; exact lookup_cache_none.mpr hS
    rw [h1]
    simp [lookup_cache, hT]
  · cases h1 : lookup_cache s1.cache_list T with
    | some e => simp
    | none => simp [lookup_cache, hT]

theorem counts_le_fetched {s1 : Kernel} {S i : Nat} {n : Int} (hc : counts_le s1 n)
    (hn : 0 ≤ n) : counts_le (fetched s1 S i).2 n := by
  intro e he
  simp only [fetched, List.mem_append, List.mem_singleton] at he
  rcases he with he | rfl
  · exact hc e he
  · simpa using hn

theorem cache_wf_full_nonempty {s : Kernel} (hwf : cache_wf s)
    (hfull : cache_find_empty_slot s.cache_checker = none) : s.cache_list ≠ [] := by
  obtain ⟨e, he, -⟩ := hwf.used_slot 0 (by decide) (cache_find_empty_slot_none.mp hfull 0 (by decide))
  exact List.ne_nil_of_mem he

theorem cache_make_room_total {s : Kernel} (hwf : cache_wf s) :
    ∃ s1, cache_make_room s = Except.ok s1 := by
  unfold cache_make_room
  cases hf : cache_find_empty_slot s.cache_checker with
  | some i => exact ⟨s, rfl⟩
  | none => exact cache_evict_total hf (cache_wf_full_nonempty hwf hf) hwf.slot_lt

theorem counts_le_mono {s : Kernel} {n m : Int} (h : counts_le s n) (hnm : n ≤ m) :
    counts_le s m :=
  fun e he => le_trans (h e he) hnm

theorem cache_keeps_refl {s : Kernel} (hwf : cache_wf s) (hco : cache_coherent s) :
    cache_keeps 0 s s :=
  ⟨hwf, hco, fun _ => rfl, rfl, fun _ _ h => by simpa using h⟩

theorem cache_keeps_trans {k1 k2 : Nat} {s s1 s2 : Kernel} (h1 : cache_keeps k1 s s1)
    (h2 : cache_keeps k2 s1 s2) : cache_keeps (k1 + k2) s s2 :=
  ⟨h2.wf, h2.coherent, fun T => (h2.view T).trans (h1.view T), h2.free_map.trans h1.free_map,
    fun n hn h => by
      have h3 := h2.counts (n + k1) (by omega) (h1.counts n hn h)
      rw [Nat.cast_add, ← add_assoc]
      exact h3⟩

theorem cache_keeps_zero {k : Nat} {s s1 s2 : Kernel} (h1 : cache_keeps k s s1)
    (h2 : cache_keeps 0 s1 s2) : cache_keeps k s s2 := by
  simpa using cache_keeps_trans h1 h2

theorem cache_keeps_mono {k1 k2 : Nat} {s s1 : Kernel} (h : cache_keeps k1 s s1)
    (hk : k1 ≤ k2) : cache_keeps k2 s s1 :=
  ⟨h.wf, h.coherent, h.view, h.free_map,
    fun n hn hc => counts_le_mono (h.counts n hn hc) (by omega)⟩

theorem cache_keeps_congr {s s1 : Kernel} (hwf : cache_wf s) (hco : cache_coherent s)
    (h1 : s1.cache_list = s.cache_list) (h2 : s1.cache_checker = s.cache_checker)
    (h3 : s1.fs_device = s.fs_device) (h4 : s1.free_map = s.free_map) :
    cache_keeps 0 s s1 := by
  refine ⟨?_, ?_, ?_, h4, ?_⟩
  · constructor
    · rw [h1]; exact hwf.slot_lt
    · rw [h1, h2]; exact hwf.slot_used
    · rw [h1, h2]; exact hwf.used_slot
    · rw [h1]; exact hwf.slot_nodup
    · rw [h1]; exact hwf.sector_nodup
  · unfold cache_coherent
    rw [h1, h3]; exact hco
  · intro T
    unfold cache_view
    rw [h1, h3]
  · intro n _ hc
    unfold counts_le
    rw [h1]
    simpa using hc

theorem cache_make_room_keeps {s s1 : Kernel} (hwf : cache_wf s) (hco : cache_coherent s)
    (h : cache_make_room s = Except.ok s1) : cache_keeps 0 s s1 := by
  rcases cache_make_room_spec h with ⟨-, rfl⟩ | ⟨-, pre, v, post, hl, -, -, -, rfl⟩
  · exact cache_keeps_refl hwf hco
  · exact ⟨cache_wf_evicted hwf hl, cache_coherent_evicted hwf hco hl,
      cache_view_evicted hwf hco hl, by simp,
      fun n _ hc => by simpa using counts_le_evicted hc hl⟩

theorem cache_fetch_ok {s : Kernel} (S : Nat) (hwf : cache_wf s) (hco : cache_coherent s) :
    ∃ e s1, cache_fetch s S = Except.ok (e, s1) ∧ cache_keeps 0 s s1 ∧
      lookup_cache s1.cache_list S = some e ∧ e.buf = cache_view s S ∧
      s1.read_ahead_list = s.read_ahead_list := by
  cases hl : lookup_cache s.cache_list S with
  | some e =>
    refine ⟨e, s, cache_fetch_hit hl, cache_keeps_refl hwf hco, hl, ?_, rfl⟩
    simp [cache_view, hl]
  | none =>
    obtain ⟨s1, hr⟩ := cache_make_room_total hwf
    obtain ⟨i, hi⟩ := cache_make_room_free hr
    have hsame := cache_make_room_keeps hwf hco hr
    have hS : ∀ a ∈ s1.cache_list, a.sector_idx ≠ S :=
      fun a ha => lookup_cache_none.mp hl a (cache_make_room_sub hr a ha)
    have hview : s1.fs_device S = cache_view s S := by
      rw [← hsame.view S]
      simp [cache_view, lookup_cache_none.mpr hS]
    have hra : s1.read_ahead_list = s.read_ahead_list := by
      rcases cache_make_room_spec hr with ⟨-, rfl⟩ | ⟨-, pre, v, post, -, -, -, -, rfl⟩
      · rfl
      · simp
    refine ⟨(fetched s1 S i).1, (fetched s1 S i).2, cache_fetch_miss hl hr hi, ?_, ?_, hview, hra⟩
    · refine cache_keeps_zero hsame ?_
      exact ⟨cache_wf_fetched hsame.wf hi hS, cache_coherent_fetched hsame.coherent,
        cache_view_fetched hS, rfl, fun n hn hc => by simpa using counts_le_fetched hc hn⟩
    · simp only [fetched]
      rw [lookup_cache_append, lookup_cache_none.mpr hS]
      simp [lookup_cache]

/-! ## Stores through an entry pointer -/

theorem cache_wf_entry_update {s : Kernel} (f : cache_e → cache_e) (S : Nat)
    (hsec : ∀ e, (f e).sector_idx = e.sector_idx) (hslot : ∀ e, (f e).slot_idx = e.slot_idx)
    (hwf : cache_wf s) :
    cache_wf { s with cache_list := entry_update f S s.cache_list } := by
  have hm1 : (entry_update f S s.cache_list).map cache_e.slot_idx =
      s.cache_list.map cache_e.slot_idx := entry_update_map _ hslot
  have hm2 : (entry_update f S s.cache_list).map cache_e.sector_idx =
      s.cache_list.map cache_e.sector_idx := entry_update_map _ hsec
  have hmem : ∀ e ∈ entry_update f S s.cache_list, ∃ a ∈ s.cache_list, e.slot_idx = a.slot_idx := by
    intro e he
    rcases mem_entry_update he with he | ⟨a, ha, -, rfl⟩
    · exact ⟨e, he, rfl⟩
    · exact ⟨a, ha, hslot a⟩
  constructor
  · intro e he
    obtain ⟨a, ha, hea⟩ := hmem e he
    rw [hea]; exact hwf.slot_lt a ha
  · intro e he
    obtain ⟨a, ha, hea⟩ := hmem e he
    show s.cache_checker e.slot_idx = true
    rw [hea]; exact hwf.slot_used a ha
  · intro i hi hc
    obtain ⟨e, he, hei⟩ := hwf.used_slot i hi hc
    have : i ∈ (entry_update f S s.cache_list).map cache_e.slot_idx := by
      rw [hm1, ← hei]; exact List.mem_map_of_mem _ he
    obtain ⟨e2, he2, h2⟩ := List.mem_map.mp this
    exact ⟨e2, he2, h2⟩
  · show ((entry_update f S s.cache_list).map cache_e.slot_idx).Nodup
    rw [hm1]; exact hwf.slot_nodup
  · show ((entry_update f S s.cache_list).map cache_e.sector_idx).Nodup
    rw [hm2]; exact hwf.sector_nodup

theorem cache_view_entry_update (s : Kernel) (f : cache_e → cache_e) (S T : Nat)
    (hsec : ∀ e, (f e).sector_idx = e.sector_idx) :
    cache_view { s with cache_list := entry_update f S s.cache_list } T =
      if T = S then
        (match lookup_cache s.cache_list S with
         | some e => (f e).buf
         | none => s.fs_device S)
      else cache_view s T := by
  unfold cache_view
  simp only [lookup_cache_entry_update f hsec]
  by_cases hT : T = S
  · subst hT
    simp only [if_true]
    cases lookup_cache s.cache_list T <;> rfl
  · simp only [hT, if_false]

theorem cache_coherent_entry_update {s : Kernel} (f : cache_e → cache_e) (S : Nat)
    (hf : ∀ e, (f e).dirty = false →
      e.dirty = false ∧ (f e).buf = e.buf ∧ (f e).sector_idx = e.sector_idx)
    (hco : cache_coherent s) :
    cache_coherent { s with cache_list := entry_update f S s.cache_list } := by
  intro e he hd
  rcases mem_entry_update he with he | ⟨a, ha, -, rfl⟩
  · exact hco e he hd
  · obtain ⟨h1, h2, h3⟩ := hf a hd
    show (f a).buf = s.fs_device (f a).sector_idx
    rw [h2, h3]
    exact hco a ha h1

theorem access_count_incr_spec {s : Kernel} {e : cache_e} {r : cache_e × Kernel}
    (h : access_count_incr s e = Except.ok r) :
    e.access_count ≠ INT_MAX ∧
    r = (entry_bump e,
         { s with cache_list := entry_update entry_bump e.sector_idx s.cache_list }) := by
  unfold access_count_incr at h
  by_cases hc : e.access_count = INT_MAX
  · simp [hc] at h
  · simp only [hc, if_false] at h
    injection h with h
    exact ⟨hc, h.symm⟩

theorem access_count_incr_ok {s : Kernel} {e : cache_e} (h : e.access_count ≠ INT_MAX) :
    access_count_incr s e = Except.ok
      (entry_bump e,
       { s with cache_list := entry_update entry_bump e.sector_idx s.cache_list }) := by
  unfold access_count_incr
  simp only [h, if_false]

theorem cache_keeps_bump {s : Kernel} (S : Nat) (hwf : cache_wf s) (hco : cache_coherent s) :
    cache_keeps 1 s { s with cache_list := entry_update entry_bump S s.cache_list } := by
  refine ⟨cache_wf_entry_update entry_bump S (fun _ => rfl) (fun _ => rfl) hwf,
    cache_coherent_entry_update entry_bump S (fun e hd => ⟨hd, rfl, rfl⟩) hco, ?_, rfl, ?_⟩
  · intro T
    rw [cache_view_entry_update s entry_bump S T (fun _ => rfl)]
    by_cases hT : T = S
    · subst hT
      simp only [if_true, cache_view]
      cases lookup_cache s.cache_list T <;> rfl
    · simp only [hT, if_false]
  · intro n _ hc e he
    rcases mem_entry_update he with he | ⟨a, ha, -, rfl⟩
    · have := hc e he
      simp only [Nat.cast_one]
      omega
    · have := hc a ha
      simp only [entry_bump, Nat.cast_one]
      omega

/-! ## Waiting for the prefetch worker -/

theorem read_aheader_step_ok {s : Kernel} (hwf : cache_wf s) (hco : cache_coherent s) :
    ∃ s1, read_aheader_step s = Except.ok s1 ∧ cache_keeps 0 s s1 ∧
      s1.read_ahead_list = s.read_ahead_list.tail := by
  unfold read_aheader_step
  cases hl : s.read_ahead_list with
  | nil => exact ⟨s, rfl, cache_keeps_refl hwf hco, by simp [hl]⟩
  | cons r rest =>
    obtain ⟨e, s1, h1, h2, -, -, h5⟩ := cache_fetch_ok r.sector_idx hwf hco
    simp only [cache_load_ahead, h1]
    refine ⟨_, rfl, ?_, by simp [h5, hl]⟩
    exact cache_keeps_zero h2 (cache_keeps_congr h2.wf h2.coherent rfl rfl rfl rfl)

theorem await_aheader_ok (S : Nat) (queue : List read_ahead_e) :
    ∀ s : Kernel, cache_wf s → cache_coherent s →
      ∃ s1, await_aheader S queue s = Except.ok s1 ∧ cache_keeps 0 s s1 := by
  induction queue with
  | nil => intro s hwf hco; exact ⟨s, rfl, cache_keeps_refl hwf hco⟩
  | cons r rest ih =>
    intro s hwf hco
    obtain ⟨s1, h1, h2, -⟩ := read_aheader_step_ok hwf hco
    simp only [await_aheader, h1]
    by_cases hr : r.sector_idx = S
    · simp only [hr, if_true]
      exact ⟨s1, rfl, h2⟩
    · simp only [hr, if_false]
      obtain ⟨s2, h3, h4⟩ := ih s1 h2.wf h2.coherent
      exact ⟨s2, h3, cache_keeps_zero h2 h4⟩

theorem cache_load_wait_none {s : Kernel} {S : Nat}
    (h : lookup_ra_list s.read_ahead_list S = none) : cache_load_wait s S = Except.ok s := by
  unfold cache_load_wait
  rw [h]

theorem cache_load_wait_ok {s : Kernel} (S : Nat) (hwf : cache_wf s) (hco : cache_coherent s) :
    ∃ s1, cache_load_wait s S = Except.ok s1 ∧ cache_keeps 0 s s1 := by
  unfold cache_load_wait
  cases lookup_ra_list s.read_ahead_list S with
  | none => exact ⟨s, rfl, cache_keeps_refl hwf hco⟩
  | some r =>
    by_cases hr : r.sector_sema = 0
    · simp only [hr, if_true]
      exact await_aheader_ok S _ s hwf hco
    · simp only [hr, if_false]
      exact ⟨_, rfl, cache_keeps_congr hwf hco rfl rfl rfl rfl⟩

theorem cache_load_request_keeps {s : Kernel} (S : Nat) (hwf : cache_wf s)
    (hco : cache_coherent s) : cache_keeps 0 s (cache_load_request s S) := by
  unfold cache_load_request
  split
  · exact cache_keeps_refl hwf hco
  · exact cache_keeps_congr hwf hco rfl rfl rfl rfl

theorem cache_load_request_cache_list (s : Kernel) (S : Nat) :
    (cache_load_request s S).cache_list = s.cache_list := by
  unfold cache_load_request
  split <;> rfl

theorem cache_load_request_fs_device (s : Kernel) (S : Nat) :
    (cache_load_request s S).fs_device = s.fs_device := by
  unfold cache_load_request
  split <;> rfl

theorem cache_load_ok {s : Kernel} (S : Nat) {B : Int} (hwf : cache_wf s)
    (hco : cache_coherent s) (hB : counts_le s B) (h0 : 0 ≤ B) (hlt : B < INT_MAX) :
    ∃ e s1, cache_load s S = Except.ok (e, s1) ∧ cache_keeps 1 s s1 ∧
      lookup_cache s1.cache_list S = some e ∧ e.buf = cache_view s S := by
  obtain ⟨s1, h1, k1⟩ := cache_load_wait_ok S hwf hco
  obtain ⟨e, s2, h2, k2, hl2, hb2, -⟩ := cache_fetch_ok S k1.wf k1.coherent
  have k12 := cache_keeps_zero k1 k2
  have he2 := lookup_cache_some hl2
  have hc2 : e.access_count ≠ INT_MAX := by
    have := k12.counts B h0 hB e he2.1
    simp only [Nat.cast_zero, add_zero] at this
    omega
  have h3 : access_count_incr s2 e = _ := access_count_incr_ok hc2
  have k3 := cache_keeps_bump e.sector_idx k2.wf k2.coherent
  unfold cache_load
  simp only [h1, h2, h3]
  refine ⟨_, _, rfl, ?_, ?_, ?_⟩
  · have := cache_keeps_zero (cache_keeps_trans k12 k3)
      (cache_load_request_keeps S k3.wf k3.coherent)
    simpa using this
  · rw [cache_load_request_cache_list]
    show lookup_cache (entry_update entry_bump e.sector_idx s2.cache_list) S = _
    rw [lookup_cache_entry_update entry_bump (fun _ => rfl), he2.2, hl2]
    simp
  · show e.buf = _
    rw [hb2, k1.view]

theorem cache_read_from_buf_ok {s : Kernel} (S : Nat) {B : Int} (hwf : cache_wf s)
    (hco : cache_coherent s) (hB : counts_le s B) (h0 : 0 ≤ B) (hlt : B < INT_MAX) :
    ∃ s1, cache_read_from_buf s S = Except.ok (cache_view s S, s1) ∧ cache_keeps 1 s s1 := by
  obtain ⟨e, s1, h1, k1, -, hb⟩ := cache_load_ok S hwf hco hB h0 hlt
  unfold cache_read_from_buf
  simp only [h1]
  exact ⟨s1, by rw [hb], k1⟩

theorem cache_fetch_total {s : Kernel} (S : Nat) (hwf : cache_wf s) :
    ∃ r, cache_fetch s S = Except.ok r := by
  cases hl : lookup_cache s.cache_list S with
  | some e => exact ⟨_, cache_fetch_hit hl⟩
  | none =>
    obtain ⟨s1, hr⟩ := cache_make_room_total hwf
    obtain ⟨i, hi⟩ := cache_make_room_free hr
    exact ⟨_, cache_fetch_miss hl hr hi⟩

theorem cache_fetch_lookup {s s2 : Kernel} {S : Nat} {e : cache_e}
    (h : cache_fetch s S = Except.ok (e, s2)) :
    lookup_cache s2.cache_list S = some e ∧ e.sector_idx = S ∧
      s2.read_ahead_list = s.read_ahead_list ∧
      (e ∈ s.cache_list ∨ e.access_count = 0) := by
  rcases cache_fetch_spec h with ⟨e0, hl, hr⟩ | ⟨hl, s1, i, hr, hi, hres⟩
  · injection hr with h1 h2
    subst h1 h2
    exact ⟨hl, (lookup_cache_some hl).2, rfl, Or.inl (lookup_cache_some hl).1⟩
  · have hS : ∀ a ∈ s1.cache_list, a.sector_idx ≠ S :=
      fun a ha => lookup_cache_none.mp hl a (cache_make_room_sub hr a ha)
    have hra : s1.read_ahead_list = s.read_ahead_list := by
      rcases cache_make_room_spec hr with ⟨-, rfl⟩ | ⟨-, pre, v, post, -, -, -, -, rfl⟩
      · rfl
      · simp
    simp only [fetched] at hres
    injection hres with h1 h2
    subst h1 h2
    refine ⟨?_, rfl, hra, Or.inr rfl⟩
    show lookup_cache (s1.cache_list ++ _) S = _
    rw [lookup_cache_append, lookup_cache_none.mpr hS]
    simp [lookup_cache]

theorem lookup_ra_list_none {l : List read_ahead_e} {S : Nat} :
    lookup_ra_list l S = none ↔ ∀ r ∈ l, r.sector_idx ≠ S := by
  unfold lookup_ra_list
  rw [List.find?_eq_none]
  constructor
  · intro h r hr heq
    exact h r hr (by simp [heq])
  · intro h r hr
    have := h r hr
    simp only [decide_eq_true_eq]
    exact fun h2 => this h2.symm

theorem rae_sema_down_sectors (T : Nat) (l : List read_ahead_e) :
    (rae_sema_down T l).map read_ahead_e.sector_idx = l.map read_ahead_e.sector_idx := by
  induction l with
  | nil => rfl
  | cons a rest ih =>
    by_cases ha : T = a.sector_idx
    · simp [rae_sema_down, ha]
    · simp [rae_sema_down, ha, ih]

theorem lookup_ra_list_sema_down {T S : Nat} {l : List read_ahead_e}
    (h : lookup_ra_list l S = none) : lookup_ra_list (rae_sema_down T l) S = none := by
  rw [lookup_ra_list_none] at h ⊢
  intro r hr
  have h1 : r.sector_idx ∈ (rae_sema_down T l).map read_ahead_e.sector_idx :=
    List.mem_map_of_mem _ hr
  rw [rae_sema_down_sectors] at h1
  obtain ⟨a, ha, hra⟩ := List.mem_map.mp h1
  rw [← hra]
  exact h a ha

theorem next_sector_ne (S : Nat) : (S + 1) % UINT_RANGE ≠ S := by
  unfold UINT_RANGE
  omega

theorem cache_load_request_no_wait {s : Kernel} {S : Nat}
    (h : lookup_ra_list s.read_ahead_list S = none) :
    lookup_ra_list (cache_load_request s S).read_ahead_list S = none := by
  unfold cache_load_request
  split
  · exact h
  · simp only [rae_create]
    apply lookup_ra_list_sema_down
    rw [lookup_ra_list_none] at h ⊢
    intro r hr
    rcases List.mem_append.mp hr with hr | hr
    · exact h r hr
    · rw [List.mem_singleton] at hr
      subst hr
      exact next_sector_ne S

theorem cache_load_after_wait {s s' s1 : Kernel} {S : Nat} {e : cache_e}
    (hw : cache_load_wait s S = Except.ok s')
    (h : cache_load s S = Except.ok (e, s1)) :
    ∃ e0 s2, cache_fetch s' S = Except.ok (e0, s2) ∧ e0.access_count ≠ INT_MAX ∧
      e = entry_bump e0 ∧
      s1 = cache_load_request
        { s2 with cache_list := entry_update entry_bump S s2.cache_list } S := by
  unfold cache_load at h
  rw [hw] at h
  simp only at h
  cases hf : cache_fetch s' S with
  | error f => rw [hf] at h; cases h
  | ok r =>
    obtain ⟨e0, s2⟩ := r
    rw [hf] at h
    simp only at h
    cases hi : access_count_incr s2 e0 with
    | error f => rw [hi] at h; cases h
    | ok r2 =>
      obtain ⟨hne, hr2⟩ := access_count_incr_spec hi
      rw [hi, hr2] at h
      simp only at h
      injection h with h
      injection h with h1 h2
      refine ⟨e0, s2, rfl, hne, h1.symm, ?_⟩
      rw [← h2, (cache_fetch_lookup hf).2.1]

theorem cache_load_no_wait {s s1 : Kernel} {S : Nat} {e : cache_e}
    (hra : lookup_ra_list s.read_ahead_list S = none)
    (h : cache_load s S = Except.ok (e, s1)) :
    ∃ e0 s2, cache_fetch s S = Except.ok (e0, s2) ∧ e0.access_count ≠ INT_MAX ∧
      e = entry_bump e0 ∧
      s1 = cache_load_request
        { s2 with cache_list := entry_update entry_bump S s2.cache_list } S :=
  cache_load_after_wait (cache_load_wait_none hra) h

theorem cache_load_lookup {s s1 : Kernel} {S : Nat} {e : cache_e}
    (hra : lookup_ra_list s.read_ahead_list S = none)
    (h : cache_load s S = Except.ok (e, s1)) :
    lookup_cache s1.cache_list S = some e ∧
      lookup_ra_list s1.read_ahead_list S = none := by
  obtain ⟨e0, s2, hf, -, he, hs1⟩ := cache_load_no_wait hra h
  obtain ⟨hl, -, hra2, -⟩ := cache_fetch_lookup hf
  subst hs1 he
  constructor
  · rw [cache_load_request_cache_list]
    show lookup_cache (entry_update entry_bump S s2.cache_list) S = _
    rw [lookup_cache_entry_update entry_bump (fun _ => rfl), hl]
    simp
  · apply cache_load_request_no_wait
    show lookup_ra_list s2.read_ahead_list S = none
    rw [hra2]; exact hra

theorem cache_write_from_buf_spec {s s1 : Kernel} {S : Nat} {buf : Sector}
    (h : cache_write_from_buf s S buf = Except.ok s1) :
    ∃ e s2, cache_load s S = Except.ok (e, s2) ∧
      s1 = block_write
        { s2 with cache_list := entry_update (entry_store buf) S s2.cache_list } S buf := by
  unfold cache_write_from_buf at h
  cases hl : cache_load s S with
  | error f => rw [hl] at h; cases h
  | ok r =>
    obtain ⟨e, s2⟩ := r
    rw [hl] at h
    injection h with h
    exact ⟨e, s2, rfl, h.symm⟩

theorem cache_read_from_buf_spec {s s1 : Kernel} {S : Nat} {out : Sector}
    (h : cache_read_from_buf s S = Except.ok (out, s1)) :
    ∃ e, cache_load s S = Except.ok (e, s1) ∧ out = e.buf := by
  unfold cache_read_from_buf at h
  cases hl : cache_load s S with
  | error f => rw [hl] at h; cases h
  | ok r =>
    obtain ⟨e, s2⟩ := r
    rw [hl] at h
    injection h with h
    injection h with h1 h2
    subst h2
    exact ⟨e, rfl, h1.symm⟩

theorem cache_load_total {s : Kernel} (S : Nat) (hwf : cache_wf s)
    (hra : lookup_ra_list s.read_ahead_list S = none)
    (hc : ∀ e ∈ s.cache_list, e.access_count < INT_MAX) :
    ∃ r, cache_load s S = Except.ok r := by
  obtain ⟨⟨e0, s2⟩, hf⟩ := cache_fetch_total S hwf
  have hne : e0.access_count ≠ INT_MAX := by
    rcases (cache_fetch_lookup hf).2.2.2 with he | he
    · exact ne_of_lt (hc e0 he)
    · rw [he]; decide
  unfold cache_load
  rw [cache_load_wait_none hra]
  simp only [hf, access_count_incr_ok hne]
  exact ⟨_, rfl⟩

theorem cache_read_from_buf_hit {s : Kernel} {S : Nat} {e : cache_e}
    (hra : lookup_ra_list s.read_ahead_list S = none)
    (hl : lookup_cache s.cache_list S = some e) (hne : e.access_count ≠ INT_MAX) :
    ∃ s1, cache_read_from_buf s S = Except.ok (e.buf, s1) := by
  unfold cache_read_from_buf cache_load
  simp only [cache_load_wait_none hra, cache_fetch_hit hl, access_count_incr_ok hne]
  exact ⟨_, rfl⟩

/-! ## Effect of the entry points on the invariants -/

theorem mem_entry_update_nodup {f : cache_e → cache_e} {S : Nat} {l : List cache_e}
    {e : cache_e} (hnd : (l.map cache_e.sector_idx).Nodup) (h : e ∈ entry_update f S l) :
    (e ∈ l ∧ e.sector_idx ≠ S) ∨ ∃ a ∈ l, a.sector_idx = S ∧ e = f a := by
  induction l with
  | nil => cases h
  | cons a rest ih =>
    rw [List.map_cons, List.nodup_cons] at hnd
    by_cases ha : S = a.sector_idx
    · simp only [entry_update, ha, if_true] at h
      rcases List.mem_cons.mp h with rfl | h
      · exact Or.inr ⟨a, List.mem_cons_self _ _, ha.symm, rfl⟩
      · left
        refine ⟨List.mem_cons_of_mem _ h, ?_⟩
        intro heq
        apply hnd.1
        rw [← ha, ← heq]
        exact List.mem_map_of_mem _ h
    · simp only [entry_update, ha, if_false] at h
      rcases List.mem_cons.mp h with rfl | h
      · exact Or.inl ⟨List.mem_cons_self _ _, fun h2 => ha h2.symm⟩
      · rcases ih hnd.2 h with ⟨h1, h2⟩ | ⟨b, hb, hbS, rfl⟩
        · exact Or.inl ⟨List.mem_cons_of_mem _ h1, h2⟩
        · exact Or.inr ⟨b, List.mem_cons_of_mem _ hb, hbS, rfl⟩

theorem cache_load_keeps {s s1 : Kernel} {S : Nat} {e : cache_e} (hwf : cache_wf s)
    (hco : cache_coherent s) (h : cache_load s S = Except.ok (e, s1)) :
    cache_keeps 1 s s1 ∧ lookup_cache s1.cache_list S = some e ∧ e.buf = cache_view s S := by
  obtain ⟨s2, h1, k1⟩ := cache_load_wait_ok S hwf hco
  obtain ⟨e0, s3, h2, k2, hl2, hb2, -⟩ := cache_fetch_ok S k1.wf k1.coherent
  have k12 := cache_keeps_zero k1 k2
  have he2 := lookup_cache_some hl2
  unfold cache_load at h
  simp only [h1, h2] at h
  cases hi : access_count_incr s3 e0 with
  | error f => rw [hi] at h; cases h
  | ok r =>
    obtain ⟨-, hr⟩ := access_count_incr_spec hi
    rw [hi, hr] at h
    simp only at h
    injection h with h
    injection h with h3 h4
    subst h3 h4
    have k3 := cache_keeps_bump e0.sector_idx k2.wf k2.coherent
    refine ⟨?_, ?_, ?_⟩
    · have := cache_keeps_zero (cache_keeps_trans k12 k3)
        (cache_load_request_keeps S k3.wf k3.coherent)
      simpa using this
    · rw [cache_load_request_cache_list]
      show lookup_cache (entry_update entry_bump e0.sector_idx s3.cache_list) S = _
      rw [lookup_cache_entry_update entry_bump (fun _ => rfl), he2.2, hl2]
      simp
    · show e0.buf = _
      rw [hb2, k1.view]

theorem cache_load_ahead_keeps {s s1 : Kernel} {S : Nat} {e : cache_e} (hwf : cache_wf s)
    (hco : cache_coherent s) (h : cache_load_ahead s S = Except.ok (e, s1)) :
    cache_keeps 0 s s1 := by
  obtain ⟨e0, s2, h2, k2, -, -, -⟩ := cache_fetch_ok S hwf hco
  unfold cache_load_ahead at h
  rw [h2] at h
  injection h with h
  injection h with h3 h4
  subst h4
  exact k2

theorem cache_read_from_buf_keeps {s s1 : Kernel} {S : Nat} {out : Sector} (hwf : cache_wf s)
    (hco : cache_coherent s) (h : cache_read_from_buf s S = Except.ok (out, s1)) :
    cache_keeps 1 s s1 ∧ out = cache_view s S := by
  obtain ⟨e, hl, rfl⟩ := cache_read_from_buf_spec h
  obtain ⟨k, -, hb⟩ := cache_load_keeps hwf hco hl
  exact ⟨k, hb⟩

theorem cache_wf_block_write {s : Kernel} (S : Nat) (buf : Sector) (hwf : cache_wf s) :
    cache_wf (block_write s S buf) :=
  ⟨hwf.slot_lt, hwf.slot_used, hwf.used_slot, hwf.slot_nodup, hwf.sector_nodup⟩

theorem cache_write_from_buf_keeps {s s1 : Kernel} {S : Nat} {buf : Sector} (hwf : cache_wf s)
    (hco : cache_coherent s) (h : cache_write_from_buf s S buf = Except.ok s1) :
    cache_puts S buf s s1 := by
  obtain ⟨e, s2, hl, rfl⟩ := cache_write_from_buf_spec h
  obtain ⟨k, hlk, -⟩ := cache_load_keeps hwf hco hl
  have hwf2 : cache_wf { s2 with cache_list := entry_update (entry_store buf) S s2.cache_list } :=
    cache_wf_entry_update (entry_store buf) S (fun _ => rfl) (fun _ => rfl) k.wf
  refine ⟨cache_wf_block_write S buf hwf2, ?_, ?_, k.free_map, ?_⟩
  · intro a ha hd
    have ha2 : a ∈ entry_update (entry_store buf) S s2.cache_list := ha
    rcases mem_entry_update_nodup k.wf.sector_nodup ha2 with ⟨h1, h2⟩ | ⟨b, -, -, rfl⟩
    · show a.buf = Function.update s2.fs_device S buf a.sector_idx
      rw [Function.update_noteq h2]
      exact k.coherent a h1 hd
    · cases hd
  · intro T
    by_cases hT : T = S
    · subst hT
      simp only [if_true, cache_view, block_write]
      rw [lookup_cache_entry_update (entry_store buf) (fun _ => rfl), hlk]
      simp [entry_store]
    · simp only [hT, if_false]
      rw [← k.view T]
      simp only [cache_view, block_write]
      rw [lookup_cache_entry_update (entry_store buf) (fun _ => rfl), if_neg hT,
        Function.update_noteq hT]
  · intro n hn hc a ha
    have hc2 := k.counts n hn hc
    have ha2 : a ∈ entry_update (entry_store buf) S s2.cache_list := ha
    rcases mem_entry_update ha2 with h1 | ⟨b, hb, -, rfl⟩
    · simpa using hc2 a h1
    · simpa [entry_store] using hc2 b hb

theorem cache_write_from_buf_ok {s : Kernel} (S : Nat) (buf : Sector) {B : Int}
    (hwf : cache_wf s) (hco : cache_coherent s) (hB : counts_le s B) (h0 : 0 ≤ B)
    (hlt : B < INT_MAX) :
    ∃ s1, cache_write_from_buf s S buf = Except.ok s1 ∧ cache_puts S buf s s1 := by
  obtain ⟨e, s1, h1, -, -, -⟩ := cache_load_ok S hwf hco hB h0 hlt
  have hw : cache_write_from_buf s S buf = Except.ok
      (block_write
        { s1 with cache_list := entry_update (entry_store buf) S s1.cache_list } S buf) := by
    unfold cache_write_from_buf
    rw [h1]
  exact ⟨_, hw, cache_write_from_buf_keeps hwf hco hw⟩

/-! ## Flushing -/

theorem cache_flush_loop_list (l : List cache_e) :
    ∀ s : Kernel, (cache_flush_loop l s).1 = l.map entry_clean := by
  induction l with
  | nil => intro s; rfl
  | cons a rest ih =>
    intro s
    by_cases ha : a.dirty = true
    · simp only [cache_flush_loop, ha, if_true, List.map_cons, ih]
      rfl
    · have ha2 : a.dirty = false := by simpa using ha
      simp only [cache_flush_loop, ha2, Bool.false_eq_true, if_false, List.map_cons, ih]
      cases a
      simp only at ha2
      simp [entry_clean, ha2]

theorem cache_flush_loop_frame (l : List cache_e) :
    ∀ s : Kernel, (cache_flush_loop l s).2.cache_checker = s.cache_checker ∧
      (cache_flush_loop l s).2.read_ahead_list = s.read_ahead_list ∧
      (cache_flush_loop l s).2.free_map = s.free_map ∧
      (cache_flush_loop l s).2.fs_log = s.fs_log ++ flush_writes l := by
  induction l with
  | nil => intro s; simp [cache_flush_loop, flush_writes]
  | cons a rest ih =>
    intro s
    by_cases ha : a.dirty = true
    · obtain ⟨h1, h2, h3, h4⟩ := ih (block_write s a.sector_idx a.buf)
      simp only [cache_flush_loop, ha, if_true]
      refine ⟨h1, h2, h3, ?_⟩
      rw [h4]
      simp [flush_writes, block_write, ha]
    · obtain ⟨h1, h2, h3, h4⟩ := ih s
      have ha2 : a.dirty = false := by simpa using ha
      simp only [cache_flush_loop, ha2, Bool.false_eq_true, if_false]
      refine ⟨h1, h2, h3, ?_⟩
      rw [h4]
      simp [flush_writes, ha2]

theorem cache_flush_loop_device (l : List cache_e) (T : Nat) :
    ∀ s : Kernel, (l.map cache_e.sector_idx).Nodup →
      (cache_flush_loop l s).2.fs_device T =
        match l.find? (fun e => e.dirty && decide (e.sector_idx = T)) with
        | some e => e.buf
        | none => s.fs_device T := by
  induction l with
  | nil => intro s _; rfl
  | cons a rest ih =>
    intro s hnd
    rw [List.map_cons, List.nodup_cons] at hnd
    by_cases ha : a.dirty = true
    · simp only [cache_flush_loop, ha, if_true]
      rw [ih _ hnd.2]
      by_cases hT : a.sector_idx = T
      · have hnone : rest.find? (fun e => e.dirty && decide (e.sector_idx = T)) = none := by
          rw [List.find?_eq_none]
          intro e he
          have : e.sector_idx ≠ T := by
            intro heq
            apply hnd.1
            rw [hT, ← heq]
            exact List.mem_map_of_mem _ he
          simp [this]
        rw [hnone]
        simp [List.find?, ha, hT, block_write]
      · rw [List.find?_cons_of_neg _ (by simp [hT])]
        cases rest.find? (fun e => e.dirty && decide (e.sector_idx = T)) with
        | some e => rfl
        | none =>
          simp only [block_write]
          exact Function.update_noteq (fun h => hT h.symm) _ _
    · have ha2 : a.dirty = false := by simpa using ha
      simp only [cache_flush_loop, ha2, Bool.false_eq_true, if_false]
      rw [ih _ hnd.2, List.find?_cons_of_neg _ (by simp [ha2])]

theorem find_dirty_of_mem {l : List cache_e} {a : cache_e}
    (hnd : (l.map cache_e.sector_idx).Nodup) (ha : a ∈ l) :
    l.find? (fun e => e.dirty && decide (e.sector_idx = a.sector_idx)) =
      if a.dirty then some a else none := by
  induction l with
  | nil => cases ha
  | cons b rest ih =>
    rw [List.map_cons, List.nodup_cons] at hnd
    rcases List.mem_cons.mp ha with rfl | hr
    · by_cases hd : a.dirty = true
      · simp [List.find?, hd]
      · have hd2 : a.dirty = false := by simpa using hd
        rw [List.find?_cons_of_neg _ (by simp [hd2])]
        simp only [hd2, Bool.false_eq_true, if_false]
        rw [List.find?_eq_none]
        intro e he
        have : e.sector_idx ≠ a.sector_idx := by
          intro heq
          apply hnd.1
          rw [← heq]
          exact List.mem_map_of_mem _ he
        simp [this]
    · have hne : b.sector_idx ≠ a.sector_idx := by
        intro heq
        apply hnd.1
        rw [heq]
        exact List.mem_map_of_mem _ hr
      rw [List.find?_cons_of_neg _ (by simp [hne])]
      exact ih hnd.2 hr

theorem find_dirty_absent {l : List cache_e} {T : Nat} (h : ∀ e ∈ l, e.sector_idx ≠ T) :
    l.find? (fun e => e.dirty && decide (e.sector_idx = T)) = none := by
  rw [List.find?_eq_none]
  intro e he
  simp [h e he]

theorem cache_flush_cache_list (s : Kernel) :
    (cache_flush s).cache_list = s.cache_list.map entry_clean :=
  cache_flush_loop_list s.cache_list s

theorem cache_flush_fs_device (s : Kernel) (T : Nat)
    (hnd : (s.cache_list.map cache_e.sector_idx).Nodup) :
    (cache_flush s).fs_device T =
      match s.cache_list.find? (fun e => e.dirty && decide (e.sector_idx = T)) with
      | some e => e.buf
      | none => s.fs_device T :=
  cache_flush_loop_device s.cache_list T s hnd

theorem lookup_cache_map_clean (l : List cache_e) (T : Nat) :
    lookup_cache (l.map entry_clean) T = (lookup_cache l T).map entry_clean := by
  induction l with
  | nil => rfl
  | cons a rest ih =>
    unfold lookup_cache at ih ⊢
    by_cases ha : T = a.sector_idx
    · simp [List.find?, ha, entry_clean]
    · rw [List.map_cons, List.find?_cons_of_neg _ (by simpa [entry_clean] using ha),
        List.find?_cons_of_neg _ (by simpa using ha)]
      exact ih

theorem cache_flush_keeps {s : Kernel} (hwf : cache_wf s) (hco : cache_coherent s) :
    cache_keeps 0 s (cache_flush s) := by
  have hl := cache_flush_cache_list s
  obtain ⟨hck, -, hfm, -⟩ := cache_flush_loop_frame s.cache_list s
  have hck2 : (cache_flush s).cache_checker = s.cache_checker := hck
  have hm1 : (s.cache_list.map entry_clean).map cache_e.slot_idx =
      s.cache_list.map cache_e.slot_idx := by
    rw [List.map_map]; rfl
  have hm2 : (s.cache_list.map entry_clean).map cache_e.sector_idx =
      s.cache_list.map cache_e.sector_idx := by
    rw [List.map_map]; rfl
  refine ⟨?_, ?_, ?_, hfm, ?_⟩
  · constructor
    · intro e he
      rw [hl] at he
      obtain ⟨a, ha, rfl⟩ := List.mem_map.mp he
      exact hwf.slot_lt a ha
    · intro e he
      rw [hl] at he
      obtain ⟨a, ha, rfl⟩ := List.mem_map.mp he
      rw [hck2]
      exact hwf.slot_used a ha
    · intro i hi hc
      rw [hck2] at hc
      obtain ⟨e, he, hei⟩ := hwf.used_slot i hi hc
      exact ⟨entry_clean e, by rw [hl]; exact List.mem_map_of_mem _ he, hei⟩
    · rw [hl, hm1]; exact hwf.slot_nodup
    · rw [hl, hm2]; exact hwf.sector_nodup
  · intro e he _
    rw [hl] at he
    obtain ⟨a, ha, rfl⟩ := List.mem_map.mp he
    show a.buf = (cache_flush s).fs_device a.sector_idx
    rw [cache_flush_fs_device s _ hwf.sector_nodup, find_dirty_of_mem hwf.sector_nodup ha]
    by_cases hd : a.dirty = true
    · simp [hd]
    · have hd2 : a.dirty = false := by simpa using hd
      simp only [hd2, Bool.false_eq_true, if_false]
      exact hco a ha hd2
  · intro T
    unfold cache_view
    rw [hl, lookup_cache_map_clean]
    cases hlk : lookup_cache s.cache_list T with
    | some e => rfl
    | none =>
      simp only [Option.map_none']
      rw [cache_flush_fs_device s _ hwf.sector_nodup,
        find_dirty_absent (lookup_cache_none.mp hlk)]
  · intro n _ hc e he
    rw [hl] at he
    obtain ⟨a, ha, rfl⟩ := List.mem_map.mp he
    simpa [entry_clean] using hc a ha

/-! ## C6: flush -/

/-- Claim C6.  After `cache_flush` no entry is dirty; the device stores the
payload of every entry that was dirty; the device requests issued are
exactly one write per dirty entry, so no sector of a clean entry is written
and its stored content is unchanged; and the cache list is the old one with
the dirty flags cleared (same sectors, payloads, counters and slots), with
`cache_checker` and the read-ahead list untouched. -/
theorem cache_flush_writes_back (s : Kernel)
    (hnd : (s.cache_list.map cache_e.sector_idx).Nodup) :
    (∀ e ∈ (cache_flush s).cache_list, e.dirty = false) ∧
    (∀ e ∈ s.cache_list, e.dirty = true → (cache_flush s).fs_device e.sector_idx = e.buf) ∧
    (cache_flush s).fs_log = s.fs_log ++ flush_writes s.cache_list ∧
    (∀ e ∈ s.cache_list, e.dirty = false →
      (cache_flush s).fs_device e.sector_idx = s.fs_device e.sector_idx ∧
      ∀ b, block_op.write e.sector_idx b ∉ flush_writes s.cache_list) ∧
    (cache_flush s).cache_list = s.cache_list.map entry_clean ∧
    (cache_flush s).cache_checker = s.cache_checker ∧
    (cache_flush s).read_ahead_list = s.read_ahead_list := by
  obtain ⟨hck, hra, -, hlog⟩ := cache_flush_loop_frame s.cache_list s
  refine ⟨?_, ?_, hlog, ?_, cache_flush_cache_list s, hck, hra⟩
  · intro e he
    rw [cache_flush_cache_list] at he
    obtain ⟨a, -, rfl⟩ := List.mem_map.mp he
    rfl
  · intro e he hd
    rw [cache_flush_fs_device s _ hnd, find_dirty_of_mem hnd he]
    simp [hd]
  · intro e he hd
    constructor
    · rw [cache_flush_fs_device s _ hnd, find_dirty_of_mem hnd he]
      simp [hd]
    · intro b hb
      simp only [flush_writes, List.mem_map, List.mem_filter] at hb
      obtain ⟨a, ⟨ha, had⟩, heq⟩ := hb
      injection heq with h1 h2
      have : a = e := by
        have h3 := lookup_cache_of_mem hnd ha
        have h4 := lookup_cache_of_mem hnd he
        rw [h1, h4] at h3
        injection h3 with h3
        exact h3.symm
      rw [this, hd] at had
      cases had

/-! ## C1: write durability -/

/-- Claim C1.  In any cache state with no read-ahead request outstanding for
sector `S`, whenever `cache_write_from_buf (S, buf)` returns, the device
stores `buf` at `S`, the cache entry for `S` holds `buf` and is dirty, and a
following `cache_read_from_buf (S, out)` that returns fills `out` with `buf`.
In a well-formed cache whose access counters are below `INT_MAX - 1` both
calls do return. -/
theorem cache_write_durability (s : Kernel) (S : Nat) (buf : Sector)
    (hra : lookup_ra_list s.read_ahead_list S = none) :
    (∀ s1, cache_write_from_buf s S buf = Except.ok s1 →
      s1.fs_device S = buf ∧
      (∃ e, lookup_cache s1.cache_list S = some e ∧ e.buf = buf ∧ e.dirty = true) ∧
      ∀ out s2, cache_read_from_buf s1 S = Except.ok (out, s2) → out = buf) ∧
    (cache_wf s → (∀ e ∈ s.cache_list, e.access_count < INT_MAX - 1) →
      ∃ s1 s2, cache_write_from_buf s S buf = Except.ok s1 ∧
        cache_read_from_buf s1 S = Except.ok (buf, s2)) := by
  have part1 : ∀ s1, cache_write_from_buf s S buf = Except.ok s1 →
      ∃ e s2, cache_load s S = Except.ok (e, s2) ∧ s1.fs_device S = buf ∧
        lookup_cache s1.cache_list S = some (entry_store buf e) ∧
        lookup_ra_list s1.read_ahead_list S = none := by
    intro s1 hw
    obtain ⟨e, s2, hl, rfl⟩ := cache_write_from_buf_spec hw
    obtain ⟨hlk, hra2⟩ := cache_load_lookup hra hl
    refine ⟨e, s2, hl, by simp [block_write], ?_, hra2⟩
    show lookup_cache (entry_update (entry_store buf) S s2.cache_list) S = _
    rw [lookup_cache_entry_update (entry_store buf) (fun _ => rfl), hlk]
    simp
  constructor
  · intro s1 hw
    obtain ⟨e, s2, -, h1, h2, h3⟩ := part1 s1 hw
    refine ⟨h1, ⟨_, h2, rfl, rfl⟩, ?_⟩
    intro out s2 hr
    obtain ⟨e3, hl3, rfl⟩ := cache_read_from_buf_spec hr
    obtain ⟨e0, s4, hf, -, he, -⟩ := cache_load_no_wait h3 hl3
    rw [cache_fetch_hit h2] at hf
    injection hf with hf
    injection hf with hf1 hf2
    rw [he, ← hf1]
    rfl
  · intro hwf hc
    obtain ⟨⟨e, s2⟩, hl⟩ := cache_load_total S hwf hra
      (fun e he => lt_trans (hc e he) (by decide))
    have hw : cache_write_from_buf s S buf = Except.ok
        (block_write
          { s2 with cache_list := entry_update (entry_store buf) S s2.cache_list } S buf) := by
      unfold cache_write_from_buf
      rw [hl]
    obtain ⟨e', s2', hl', -, h2, h3⟩ := part1 _ hw
    rw [hl] at hl'
    injection hl' with hl'
    injection hl' with hl1 hl2
    subst hl1
    obtain ⟨e0, s3, hf, -, he, -⟩ := cache_load_no_wait hra hl
    have hcount : e.access_count < INT_MAX := by
      rw [he]
      rcases (cache_fetch_lookup hf).2.2.2 with h0 | h0
      · have := hc e0 h0
        simp only [entry_bump, INT_MAX] at this ⊢
        omega
      · simp only [entry_bump, h0, INT_MAX]
        decide
    have hne : (entry_store buf e).access_count ≠ INT_MAX := ne_of_lt hcount
    obtain ⟨s4, hr⟩ := cache_read_from_buf_hit h3 h2 hne
    exact ⟨_, s4, hw, hr⟩

/-! ## C2: slot uniqueness and capacity -/

theorem cache_wf_init (k : Kernel) : cache_wf (cache_init k) := by
  constructor <;> simp [cache_init]

theorem cache_coherent_init (k : Kernel) : cache_coherent (cache_init k) := by
  intro e he
  simp [cache_init] at he

theorem cache_call_run_inv {s s1 : Kernel} {c : cache_call} (hwf : cache_wf s)
    (hco : cache_coherent s) (h : cache_call_run s c = Except.ok s1) :
    cache_wf s1 ∧ cache_coherent s1 ∧ ∀ n : Int, 0 ≤ n → counts_le s n → counts_le s1 (n + 1) := by
  cases c with
  | load S =>
    simp only [cache_call_run] at h
    cases hl : cache_load s S with
    | error f => rw [hl] at h; cases h
    | ok r =>
      obtain ⟨e, s2⟩ := r
      rw [hl] at h
      injection h with h
      subst h
      have k := (cache_load_keeps hwf hco hl).1
      exact ⟨k.wf, k.coherent, fun n hn hc => by simpa using k.counts n hn hc⟩
  | load_ahead S =>
    simp only [cache_call_run] at h
    cases hl : cache_load_ahead s S with
    | error f => rw [hl] at h; cases h
    | ok r =>
      obtain ⟨e, s2⟩ := r
      rw [hl] at h
      injection h with h
      subst h
      have k := cache_load_ahead_keeps hwf hco hl
      exact ⟨k.wf, k.coherent,
        fun n hn hc => counts_le_mono (k.counts n hn hc) (by simp)⟩
  | read_from_buf S =>
    simp only [cache_call_run] at h
    cases hl : cache_read_from_buf s S with
    | error f => rw [hl] at h; cases h
    | ok r =>
      obtain ⟨out, s2⟩ := r
      rw [hl] at h
      injection h with h
      subst h
      have k := (cache_read_from_buf_keeps hwf hco hl).1
      exact ⟨k.wf, k.coherent, fun n hn hc => by simpa using k.counts n hn hc⟩
  | write_from_buf S buf =>
    simp only [cache_call_run] at h
    have k := cache_write_from_buf_keeps hwf hco h
    exact ⟨k.wf, k.coherent, k.counts⟩
  | flush =>
    simp only [cache_call_run] at h
    injection h with h
    subst h
    have k := cache_flush_keeps hwf hco
    exact ⟨k.wf, k.coherent, fun n hn hc => counts_le_mono (k.counts n hn hc) (by simp)⟩

theorem cache_call_run_total {s : Kernel} (c : cache_call) {B : Int} (hwf : cache_wf s)
    (hco : cache_coherent s) (hB : counts_le s B) (h0 : 0 ≤ B) (hlt : B < INT_MAX) :
    ∃ s1, cache_call_run s c = Except.ok s1 := by
  cases c with
  | load S =>
    obtain ⟨e, s1, h1, -⟩ := cache_load_ok S hwf hco hB h0 hlt
    exact ⟨s1, by simp [cache_call_run, h1]⟩
  | load_ahead S =>
    obtain ⟨e, s1, h1, -⟩ := cache_fetch_ok S hwf hco
    exact ⟨s1, by simp [cache_call_run, cache_load_ahead, h1]⟩
  | read_from_buf S =>
    obtain ⟨s1, h1, -⟩ := cache_read_from_buf_ok S hwf hco hB h0 hlt
    exact ⟨s1, by simp [cache_call_run, h1]⟩
  | write_from_buf S buf =>
    obtain ⟨s1, h1, -⟩ := cache_write_from_buf_ok S buf hwf hco hB h0 hlt
    exact ⟨s1, h1⟩
  | flush => exact ⟨_, rfl⟩

theorem cache_run_inv (calls : List cache_call) :
    ∀ s s1 : Kernel, cache_wf s → cache_coherent s → cache_run s calls = Except.ok s1 →
      cache_wf s1 ∧ cache_coherent s1 := by
  induction calls with
  | nil =>
    intro s s1 hwf hco h
    simp only [cache_run] at h
    injection h with h
    subst h
    exact ⟨hwf, hco⟩
  | cons c rest ih =>
    intro s s1 hwf hco h
    simp only [cache_run] at h
    cases hc : cache_call_run s c with
    | error f => rw [hc] at h; cases h
    | ok s2 =>
      rw [hc] at h
      obtain ⟨h1, h2, -⟩ := cache_call_run_inv hwf hco hc
      exact ih s2 s1 h1 h2 h

theorem cache_run_total (calls : List cache_call) :
    ∀ (s : Kernel) (B : Int), cache_wf s → cache_coherent s → counts_le s B → 0 ≤ B →
      B + calls.length ≤ INT_MAX → ∃ s1, cache_run s calls = Except.ok s1 := by
  induction calls with
  | nil => intro s B _ _ _ _ _; exact ⟨s, rfl⟩
  | cons c rest ih =>
    intro s B hwf hco hB h0 hlen
    simp only [List.length_cons, Nat.cast_add, Nat.cast_one] at hlen
    obtain ⟨s2, hc⟩ := cache_call_run_total c hwf hco hB h0 (by omega)
    obtain ⟨h1, h2, h3⟩ := cache_call_run_inv hwf hco hc
    obtain ⟨s1, hr⟩ := ih s2 (B + 1) h1 h2 (h3 B h0 hB) (by omega) (by omega)
    exact ⟨s1, by simp only [cache_run, hc]; exact hr⟩

theorem cache_wf_length {s : Kernel} (hwf : cache_wf s) : s.cache_list.length ≤ 64 := by
  have hsub : s.cache_list.map cache_e.slot_idx ⊆ List.range 64 := by
    intro i hi
    obtain ⟨e, he, rfl⟩ := List.mem_map.mp hi
    exact List.mem_range.mpr (hwf.slot_lt e he)
  have := (List.subperm_of_subset hwf.slot_nodup hsub).length_le
  simpa using this

/-- Claim C2.  In the state reached from `cache_init` by any finite sequence
of `cache_load`, `cache_load_ahead`, `cache_read_from_buf`,
`cache_write_from_buf` and `cache_flush` calls, no two entries of the cache
list have the same sector, no two have the same slot, and the list has at
most 64 entries. -/
theorem cache_slot_uniqueness (k : Kernel) (calls : List cache_call) (s : Kernel)
    (h : cache_run (cache_init k) calls = Except.ok s) :
    (s.cache_list.map cache_e.sector_idx).Nodup ∧
    (s.cache_list.map cache_e.slot_idx).Nodup ∧
    s.cache_list.length ≤ 64 := by
  obtain ⟨hwf, -⟩ := cache_run_inv calls _ s (cache_wf_init k) (cache_coherent_init k) h
  exact ⟨hwf.sector_nodup, hwf.slot_nodup, cache_wf_length hwf⟩

/-! ## C3 and C4: eviction -/

theorem cache_evict_ok {s : Kernel} (hfull : cache_find_empty_slot s.cache_checker = none)
    (hne : s.cache_list ≠ []) (hslot : ∀ e ∈ s.cache_list, e.slot_idx < 64) :
    ∃ pre v post, s.cache_list = pre ++ v :: post ∧
      (∀ e ∈ pre, v.access_count < e.access_count) ∧
      (∀ e ∈ post, v.access_count ≤ e.access_count) ∧
      cache_evict s = Except.ok (evicted s v (pre ++ post)) := by
  obtain ⟨s1, h⟩ := cache_evict_total hfull hne hslot
  obtain ⟨-, pre, v, post, h1, h2, h3, -, h5⟩ := cache_evict_spec h
  exact ⟨pre, v, post, h1, h2, h3, h5 ▸ h⟩

/-- Claim C3.  When `cache_evict` runs on a full cache, the entry it removes
has an access count no larger than that of any entry of the cache list, and
every entry before it in list order has a strictly larger access count. -/
theorem cache_evict_victim (s : Kernel)
    (hfull : cache_find_empty_slot s.cache_checker = none) (hne : s.cache_list ≠ [])
    (hslot : ∀ e ∈ s.cache_list, e.slot_idx < 64) :
    ∃ s1 pre v post, cache_evict s = Except.ok s1 ∧
      s.cache_list = pre ++ v :: post ∧ s1.cache_list = pre ++ post ∧
      (∀ e ∈ s.cache_list, v.access_count ≤ e.access_count) ∧
      (∀ e ∈ pre, v.access_count < e.access_count) := by
  obtain ⟨pre, v, post, h1, h2, h3, h4⟩ := cache_evict_ok hfull hne hslot
  refine ⟨_, pre, v, post, h4, h1, by simp, ?_, h2⟩
  intro e he
  rw [h1] at he
  simp only [List.mem_append, List.mem_cons] at he
  rcases he with he | rfl | he
  · exact le_of_lt (h2 e he)
  · exact le_refl _
  · exact h3 e he

/-- Claim C4.  `cache_evict` on a full cache removes exactly one entry `v`
from the cache list and clears exactly `cache_checker[v.slot_idx]`; if `v`
was dirty the device afterwards stores `v.buf` at `v.sector_idx` and is
otherwise unchanged, and if `v` was clean the device received no request;
the other entries, the read-ahead list and the free map are unchanged. -/
theorem cache_evict_frame (s : Kernel)
    (hfull : cache_find_empty_slot s.cache_checker = none) (hne : s.cache_list ≠ [])
    (hslot : ∀ e ∈ s.cache_list, e.slot_idx < 64) :
    ∃ s1 pre v post, cache_evict s = Except.ok s1 ∧
      s.cache_list = pre ++ v :: post ∧ s1.cache_list = pre ++ post ∧
      s1.cache_checker = Function.update s.cache_checker v.slot_idx false ∧
      (v.dirty = true →
        s1.fs_device = Function.update s.fs_device v.sector_idx v.buf ∧
        s1.fs_log = s.fs_log ++ [block_op.write v.sector_idx v.buf]) ∧
      (v.dirty = false → s1.fs_device = s.fs_device ∧ s1.fs_log = s.fs_log) ∧
      s1.read_ahead_list = s.read_ahead_list ∧ s1.free_map = s.free_map := by
  obtain ⟨pre, v, post, h1, -, -, h4⟩ := cache_evict_ok hfull hne hslot
  refine ⟨_, pre, v, post, h4, h1, by simp, by simp, ?_, ?_, by simp, by simp⟩
  · intro hd
    rw [evicted_fs_device, evicted_fs_log]
    simp [hd]
  · intro hd
    rw [evicted_fs_device, evicted_fs_log]
    simp [hd]

/-! ## C5: load postcondition -/

/-- Claim C7.  In a well-formed, coherent cache whose counters are below
`INT_MAX - 1`, `index_to_sector` returns `direct[idx]` for `idx < 96`; entry
`idx - 96` of the block stored at `inode.indirect` for `96 <= idx < 224`;
and, for `224 <= idx < 16608`, entry `(idx - 224) % 128` of the block whose
sector number is entry `(idx - 224) / 128` of the block stored at
`inode.double_indirect`.  It ends in a `PANIC` exactly when `idx >= 16608`. -/
theorem index_to_sector_mapping (s : Kernel) (ino : inode) (idx : Nat) (hwf : cache_wf s)
    (hco : cache_coherent s) (hc : ∀ e ∈ s.cache_list, e.access_count < INT_MAX - 1) :
    (idx < 96 → index_to_sector s ino idx = Except.ok (ino.data.direct.getD idx 0, s)) ∧
    (96 ≤ idx → idx < 224 →
      ∃ s1, index_to_sector s ino idx =
        Except.ok (indirect_data (cache_view s ino.data.indirect) (idx - 96), s1)) ∧
    (224 ≤ idx → idx < 16608 →
      ∃ s1, index_to_sector s ino idx =
        Except.ok
          (indirect_data
            (cache_view s
              (indirect_data (cache_view s ino.data.double_indirect) ((idx - 224) / 128)))
            ((idx - 224) % 128), s1)) ∧
    (index_to_sector s ino idx = Except.error Fault.panic ↔ 16608 ≤ idx) := by
  have hB : counts_le s (INT_MAX - 2) := by
    intro e he
    have := hc e he
    omega
  have h1 : idx < 96 → index_to_sector s ino idx = Except.ok (ino.data.direct.getD idx 0, s) := by
    intro h
    simp [index_to_sector, h]
  have h2 : 96 ≤ idx → idx < 224 →
      ∃ s1, index_to_sector s ino idx =
        Except.ok (indirect_data (cache_view s ino.data.indirect) (idx - 96), s1) := by
    intro ha hb
    obtain ⟨s1, hr, -⟩ := cache_read_from_buf_ok ino.data.indirect hwf hco hB
      (by decide) (by decide)
    have h96 : ¬ idx < 96 := by omega
    have h224 : idx < 96 + 128 := by omega
    exact ⟨s1, by simp only [index_to_sector, h96, h224, if_false, if_true, hr]⟩
  have h3 : 224 ≤ idx → idx < 16608 →
      ∃ s1, index_to_sector s ino idx =
        Except.ok
          (indirect_data
            (cache_view s
              (indirect_data (cache_view s ino.data.double_indirect) ((idx - 224) / 128)))
            ((idx - 224) % 128), s1) := by
    intro ha hb
    obtain ⟨s1, hr1, k1⟩ := cache_read_from_buf_ok ino.data.double_indirect hwf hco hB
      (by decide) (by decide)
    have hB1 := k1.counts _ (by decide) hB
    obtain ⟨s2, hr2, -⟩ := cache_read_from_buf_ok
      (indirect_data (cache_view s ino.data.double_indirect) ((idx - 224) / 128))
      k1.wf k1.coherent hB1 (by decide) (by decide)
    rw [k1.view] at hr2
    have h96 : ¬ idx < 96 := by omega
    have h224 : ¬ idx < 96 + 128 := by omega
    have h16608 : idx < 96 + 128 + 128 * 128 := by omega
    have e1 : idx - 96 - 128 = idx - 224 := by omega
    exact ⟨s2, by simp only [index_to_sector, h96, h224, h16608, if_false, if_true, hr1, e1, hr2]⟩
  refine ⟨h1, h2, h3, ?_⟩
  constructor
  · intro hp
    by_contra hlt
    rw [not_le] at hlt
    by_cases ha : idx < 96
    · rw [h1 ha] at hp; cases hp
    · by_cases hb : idx < 224
      · obtain ⟨s1, hr⟩ := h2 (by omega) hb
        rw [hr] at hp; cases hp
      · obtain ⟨s1, hr⟩ := h3 (by omega) hlt
        rw [hr] at hp; cases hp
  · intro h
    have h96 : ¬ idx < 96 := by omega
    have h224 : ¬ idx < 96 + 128 := by omega
    have h16608 : ¬ idx < 96 + 128 + 128 * 128 := by omega
    simp only [index_to_sector, h96, h224, h16608, if_false]

/-! ## Instances on the sample states -/

set_option maxRecDepth 100000

theorem cache_init_counts (k : Kernel) (n : Int) :
    ∀ e ∈ (cache_init k).cache_list, e.access_count < n :=
  fun e he => absurd he (List.not_mem_nil e)

theorem cache_write_durability_witness :
    lookup_ra_list boot_kernel.read_ahead_list 7 = none ∧
    ∃ s1 s2, cache_write_from_buf boot_kernel 7 (List.replicate 512 1) = Except.ok s1 ∧
      cache_read_from_buf s1 7 = Except.ok (List.replicate 512 1, s2) ∧
      s1.fs_device 7 = List.replicate 512 1 := by
  have h := cache_write_durability boot_kernel 7 (List.replicate 512 1) rfl
  obtain ⟨s1, s2, hw, hr⟩ := h.2 (cache_wf_init _) (cache_init_counts _ _)
  exact ⟨rfl, s1, s2, hw, hr, (h.1 s1 hw).1⟩

theorem cache_slot_uniqueness_witness :
    ∃ s, cache_run (cache_init boot_kernel) sample_calls = Except.ok s ∧
      (s.cache_list.map cache_e.sector_idx).Nodup ∧
      (s.cache_list.map cache_e.slot_idx).Nodup ∧ s.cache_list.length ≤ 64 := by
  obtain ⟨s, hs⟩ := cache_run_total sample_calls (cache_init boot_kernel) 0 (cache_wf_init _)
    (cache_coherent_init _) (fun e he => absurd he (List.not_mem_nil e)) (le_refl _) (by decide)
  exact ⟨s, hs, cache_slot_uniqueness boot_kernel sample_calls s hs⟩

theorem cache_evict_victim_witness :
    ∃ s1 pre v post, cache_evict full_kernel = Except.ok s1 ∧
      full_kernel.cache_list = pre ++ v :: post ∧ s1.cache_list = pre ++ post ∧
      (∀ e ∈ full_kernel.cache_list, v.access_count ≤ e.access_count) ∧
      (∀ e ∈ pre, v.access_count < e.access_count) :=
  cache_evict_victim full_kernel (by decide) (by decide) (by decide)

theorem cache_evict_frame_witness :
    ∃ s1 pre v post, cache_evict full_kernel = Except.ok s1 ∧
      full_kernel.cache_list = pre ++ v :: post ∧ s1.cache_list = pre ++ post ∧
      s1.cache_checker = Function.update full_kernel.cache_checker v.slot_idx false ∧
      (v.dirty = true →
        s1.fs_device = Function.update full_kernel.fs_device v.sector_idx v.buf ∧
        s1.fs_log = full_kernel.fs_log ++ [block_op.write v.sector_idx v.buf]) ∧
      (v.dirty = false →
        s1.fs_device = full_kernel.fs_device ∧ s1.fs_log = full_kernel.fs_log) ∧
      s1.read_ahead_list = full_kernel.read_ahead_list ∧
      s1.free_map = full_kernel.free_map :=
  cache_evict_frame full_kernel (by decide) (by decide) (by decide)

theorem cache_flush_writes_back_witness :
    (∀ e ∈ (cache_flush full_kernel).cache_list, e.dirty = false) ∧
    (∀ e ∈ full_kernel.cache_list, e.dirty = true →
      (cache_flush full_kernel).fs_device e.sector_idx = e.buf) ∧
    (cache_flush full_kernel).fs_log =
      full_kernel.fs_log ++ flush_writes full_kernel.cache_list ∧
    (cache_flush full_kernel).cache_list = full_kernel.cache_list.map entry_clean := by
  have h := cache_flush_writes_back full_kernel (by decide)
  exact ⟨h.1, h.2.1, h.2.2.1, h.2.2.2.2.1⟩

theorem index_to_sector_mapping_witness :
    index_to_sector grown_kernel grown_inode 95 = Except.ok (97, grown_kernel) ∧
    (∃ s1, index_to_sector grown_kernel grown_inode 96 = Except.ok (98, s1)) ∧
    (∃ s1, index_to_sector grown_kernel grown_inode 223 = Except.ok (225, s1)) ∧
    (∃ s1, index_to_sector grown_kernel grown_inode 224 = Except.ok (227, s1)) ∧
    (∃ s1, index_to_sector grown_kernel grown_inode 16607 = Except.ok (0, s1)) ∧
    index_to_sector grown_kernel grown_inode 16608 = Except.error Fault.panic := by
  have h : ∀ idx, _ := fun idx =>
    index_to_sector_mapping grown_kernel grown_inode idx (cache_wf_init _)
      (cache_coherent_init _) (cache_init_counts _ _)
  refine ⟨(h 95).1 (by decide), ?_, ?_, ?_, ?_, (h 16608).2.2.2.mpr (le_refl _)⟩
  · obtain ⟨s1, h1⟩ := (h 96).2.1 (by decide) (by decide)
    exact ⟨s1, h1⟩
  · obtain ⟨s1, h1⟩ := (h 223).2.1 (by decide) (by decide)
    exact ⟨s1, h1⟩
  · obtain ⟨s1, h1⟩ := (h 224).2.2.1 (by decide) (by decide)
    exact ⟨s1, h1⟩
  · obtain ⟨s1, h1⟩ := (h 16607).2.2.1 (by decide) (by decide)
    exact ⟨s1, h1⟩

/-! ## Growth: how many sectors a call allocates -/

theorem alloc_loop_sectors (n : Nat) : ∀ (i : Nat) (table : List Nat) (sectors : Nat) (s : Kernel)
    (r : List Nat × Nat × Kernel), alloc_loop n i table sectors s = Except.ok r →
    r.2.1 = sectors - n := by
  induction n with
  | zero =>
    intro i table sectors s r h
    simp only [alloc_loop] at h
    injection h with h
    rw [← h]
    rfl
  | succ n ih =>
    intro i table sectors s r h
    simp only [alloc_loop] at h
    cases h1 : free_map_allocate s with
    | none => simp [h1] at h
    | some p =>
      obtain ⟨sector, s1⟩ := p
      simp only [h1] at h
      cases h2 : cache_write_from_buf s1 sector zeros with
      | error f => simp [h2] at h
      | ok s2 =>
        simp only [h2] at h
        rw [ih _ _ _ _ _ h]
        omega

theorem ite_lt_eq_min (x c : Nat) : (if x < c then x else c) = min x c := by
  split <;> omega

theorem indirect_block_alloc_sectors {s : Kernel} {old sectors idx_ofs : Nat}
    {r : Nat × Nat × Kernel} (h : indirect_block_alloc s old sectors idx_ofs = Except.ok r)
    (hlt : idx_ofs + sectors < 4294967296) :
    r.2.1 = sectors - (min (idx_ofs + sectors) 128 - idx_ofs) := by
  unfold indirect_block_alloc at h
  have hmod : (idx_ofs + sectors) % 4294967296 = idx_ofs + sectors := Nat.mod_eq_of_lt hlt
  simp only [indirect_alloc, hmod, ite_lt_eq_min] at h
  split at h
  · cases h
  · rename_i disk s1 _
    split at h
    · cases h
    · rename_i disk2 n2 s2 h3
      have hn := alloc_loop_sectors _ _ _ _ _ _ h3
      simp only at hn
      split at h
      · cases h
      · split at h
        · cases h
        · injection h with h
          rw [← h]
          exact hn

theorem DIV_ROUND_UP_size_eq {x : Nat} (h : x < 4294967000) :
    DIV_ROUND_UP_size x 128 = (x + 127) / 128 := by
  unfold DIV_ROUND_UP_size
  rw [show x + 128 - 1 = x + 127 by omega, Nat.mod_eq_of_lt (by omega)]

theorem double_indirect_loop_done (fuel : Nat) (i : Nat) (dbl : List Nat) (idx_ofs : Nat)
    (s : Kernel) (hi : 1 ≤ i) :
    double_indirect_loop fuel i dbl 0 idx_ofs s = Except.ok (dbl, 0, s) := by
  cases fuel with
  | zero => rfl
  | succ fuel =>
    have : ¬ i < DIV_ROUND_UP_size 0 128 := by
      rw [DIV_ROUND_UP_size_eq (by decide)]
      omega
    simp only [double_indirect_loop, this, if_false]

theorem double_indirect_loop_short (fuel : Nat) : ∀ (i : Nat) (dbl : List Nat)
    (sectors idx_ofs : Nat) (s : Kernel) (r : List Nat × Nat × Kernel),
    double_indirect_loop fuel i dbl sectors idx_ofs s = Except.ok r → 1 ≤ i → 0 < sectors →
    sectors < 4294967000 → 0 < r.2.1 := by
  induction fuel with
  | zero =>
    intro i dbl sectors idx_ofs s r h _ hs _
    simp only [double_indirect_loop] at h
    injection h with h
    rw [← h]
    exact hs
  | succ fuel ih =>
    intro i dbl sectors idx_ofs s r h hi hs hlt
    simp only [double_indirect_loop, DIV_ROUND_UP_size_eq hlt] at h
    split at h
    · rename_i hcond
      split at h
      · cases h
      · split at h
        · cases h
        · rename_i sec n s1 hb
          have hm := Nat.mod_lt idx_ofs (show 128 > 0 by decide)
          have hn := indirect_block_alloc_sectors hb (by omega)
          simp only at hn
          have hpos : 0 < n := by omega
          exact ih _ _ _ _ _ _ h (by omega) hpos (by omega)
    · injection h with h
      rw [← h]
      exact hs

theorem double_indirect_loop_first {fuel : Nat} {dbl : List Nat} {sectors idx_ofs : Nat}
    {s : Kernel} {r : List Nat × Nat × Kernel}
    (h : double_indirect_loop fuel 0 dbl sectors idx_ofs s = Except.ok r) (hf : 1 ≤ fuel)
    (hs : 0 < sectors) (hlt : sectors < 4294967000) (hidx : idx_ofs < 128) :
    r.2.1 = 0 ↔ idx_ofs + sectors ≤ 128 := by
  obtain ⟨fuel, rfl⟩ : ∃ f, fuel = f + 1 := ⟨fuel - 1, by omega⟩
  have hcond : 0 < (sectors + 127) / 128 := Nat.div_pos (by omega) (by decide)
  simp only [double_indirect_loop, DIV_ROUND_UP_size_eq hlt, hcond, if_true,
    show ¬ (128 ≤ 0) by decide,
    if_false, Nat.mod_eq_of_lt hidx] at h
  split at h
  · cases h
  · rename_i sec n s1 hb
    have hn := indirect_block_alloc_sectors hb (by omega)
    simp only at hn
    by_cases hz : n = 0
    · subst hz
      rw [double_indirect_loop_done _ _ _ _ _ (by decide)] at h
      injection h with h
      rw [← h]
      simp only [true_iff]
      omega
    · have hpos : 0 < r.2.1 :=
        double_indirect_loop_short _ _ _ _ _ _ _ h (by decide) (by omega) (by omega)
      constructor
      · intro h0; omega
      · intro hle; omega

/-- Whenever `inode_alloc (inode, a, e)` returns, with `a > 0`, the flag it
returns is true exactly when `e + a <= 352`. -/
theorem inode_alloc_flag {s : Kernel} {d : inode_disk} {a e : Nat}
    {r : Bool × inode_disk × Kernel} (h : inode_alloc s d a e = Except.ok r) (ha : 0 < a)
    (hlt : e + a < 4294967000) : r.1 = true ↔ e + a ≤ 352 := by
  unfold inode_alloc at h
  have hmod : (e + a) % 4294967296 = e + a := Nat.mod_eq_of_lt (by omega)
  have e1 : (if e < 96 then 0 else e - 96) = e - 96 := by split <;> omega
  have e2 : (if e - 96 < 128 then 0 else e - 96 - 128) = e - 224 := by split <;> omega
  simp only [show a ≠ 0 by omega, if_false, hmod, e1, e2, ite_lt_eq_min] at h
  split at h
  · cases h
  · rename_i direct n1 s1 h1
    have hn1 := alloc_loop_sectors _ _ _ _ _ _ h1
    simp only at hn1
    split at h
    · injection h with h
      rw [← h]
      simp only [true_iff]
      omega
    · rename_i hnz1
      split at h
      · cases h
      · rename_i sec n2 s2 h2
        have hn2 := indirect_block_alloc_sectors h2 (by omega)
        simp only at hn2
        split at h
        · injection h with h
          rw [← h]
          simp only [true_iff]
          omega
        · rename_i hnz2
          split at h
          · cases h
          · rename_i dbl s3 h3
            split at h
            · cases h
            · rename_i dbl2 n3 s4 h4
              split at h
              · cases h
              · split at h
                · cases h
                · injection h with h
                  rw [← h]
                  simp only [decide_eq_true_eq]
                  have hn2pos : 0 < n2 := Nat.pos_of_ne_zero hnz2
                  have hn2lt : n2 < 4294967000 := by omega
                  rw [DIV_ROUND_UP_size_eq hn2lt] at h4
                  by_cases hbig : e - 224 < 128
                  · have hi : (e - 224) / 128 = 0 := Nat.div_eq_of_lt hbig
                    rw [hi] at h4
                    have hfuel : 1 ≤ (n2 + 127) / 128 - 0 := by omega
                    have hiff : n3 = 0 ↔ e - 224 + n2 ≤ 128 :=
                      double_indirect_loop_first h4 hfuel hn2pos hn2lt hbig
                    rw [hiff]
                    omega
                  · have hi : 1 ≤ (e - 224) / 128 := by omega
                    have hpos : 0 < n3 :=
                      double_indirect_loop_short _ _ _ _ _ _ _ h4 hi hn2pos hn2lt
                    constructor
                    · intro h0; omega
                    · intro hle; omega

theorem inode_alloc_length {s : Kernel} {d : inode_disk} {a e : Nat}
    {r : Bool × inode_disk × Kernel} (h : inode_alloc s d a e = Except.ok r) :
    r.2.1.length = d.length := by
  unfold inode_alloc at h
  split at h
  · injection h with h
    rw [← h]
  · simp only at h
    split at h
    · cases h
    · split at h
      · injection h with h
        rw [← h]
      · split at h
        · cases h
        · split at h
          · injection h with h
            rw [← h]
          · split at h
            · cases h
            · split at h
              · cases h
              · split at h
                · cases h
                · split at h
                  · cases h
                  · injection h with h
                    rw [← h]

theorem sector_alloc_length {s : Kernel} {ino : inode} {n : Nat} {r : Bool × inode × Kernel}
    (h : sector_alloc s ino n = Except.ok r) : r.2.1.data.length = ino.data.length := by
  unfold sector_alloc at h
  split at h
  · cases h
  · split at h
    · cases h
    · rename_i h1
      injection h with h
      rw [← h]
      exact inode_alloc_length h1
    · cases h

/-- A call of `byte_to_sector` that returns leaves `length` as it found it. -/
theorem byte_to_sector_length {s : Kernel} {ino : inode} {pos : Int} {writing : Bool}
    {r : Nat × inode × Kernel} (h : byte_to_sector s ino pos writing = Except.ok r) :
    r.2.1.data.length = ino.data.length := by
  unfold byte_to_sector at h
  split at h
  · split at h
    · cases h
    · injection h with h
      rw [← h]
  · split at h
    · split at h
      · cases h
      · split at h
        · cases h
        · split at h
          · cases h
          · rename_i h1
            have hl := sector_alloc_length h1
            split at h
            · cases h
            · injection h with h
              rw [← h]
              exact hl
          · rename_i h1
            have hl := sector_alloc_length h1
            injection h with h
            rw [← h]
            exact hl
    · injection h with h
      rw [← h]

/-- On a file of length 0, `byte_to_sector (inode, 0, true)` is the identity
on inode and kernel state and returns the entry `direct[0]` as it stands. -/
theorem byte_to_sector_zero (s : Kernel) (ino : inode) (h : ino.data.length = 0) :
    byte_to_sector s ino 0 true = Except.ok (ino.data.direct.getD 0 0, ino, s) := by
  have hb : bytes_to_sectors 0 = Except.ok 0 := by rfl
  cases ino with
  | mk sector open_cnt removed deny data =>
    simp only at h
    simp only [byte_to_sector, h, lt_irrefl, if_false, if_true, hb, sector_alloc,
      show ((0 + 4294967296 - 0) % 4294967296 : Nat) = 0 by decide, inode_alloc,
      show byte_to_index 0 = 0 by decide, index_to_sector, show (0 : Nat) < 96 by decide]

theorem alloc_loop_table (n : Nat) : ∀ (i : Nat) (table : List Nat) (sectors : Nat) (s : Kernel)
    (r : List Nat × Nat × Kernel), alloc_loop n i table sectors s = Except.ok r →
    ∀ j, j < i ∨ i + n ≤ j → r.1.getD j 0 = table.getD j 0 := by
  induction n with
  | zero =>
    intro i table sectors s r h j _
    simp only [alloc_loop] at h
    injection h with h
    rw [← h]
  | succ n ih =>
    intro i table sectors s r h j hj
    simp only [alloc_loop] at h
    cases h1 : free_map_allocate s with
    | none => simp [h1] at h
    | some p =>
      obtain ⟨sector, s1⟩ := p
      simp only [h1] at h
      cases h2 : cache_write_from_buf s1 sector zeros with
      | error f => simp [h2] at h
      | ok s2 =>
        simp only [h2] at h
        rw [ih _ _ _ _ _ h j (by omega)]
        have hne : i ≠ j := by omega
        simp [List.getElem?_set_ne hne]

theorem bytes_to_sectors_aligned {k : Nat} (hk : k < 96) :
    bytes_to_sectors (512 * (k : Int)) = Except.ok k := by
  unfold bytes_to_sectors DIV_ROUND_UP INT_MAX
  have h1 : ¬ (2147483647 : Int) < 512 * (k : Int) + 512 - 1 := by omega
  rw [if_neg h1, Int.tdiv_eq_ediv (by omega) (by decide)]
  congr 1
  omega

theorem bytes_to_sectors_le {L : Int} {k e : Nat} (hk : k < 96) (h0 : 0 ≤ L)
    (hle : L ≤ 512 * (k : Int)) (h : bytes_to_sectors L = Except.ok e) : e ≤ k := by
  unfold bytes_to_sectors DIV_ROUND_UP INT_MAX at h
  have h1 : ¬ (2147483647 : Int) < L + 512 - 1 := by omega
  rw [if_neg h1, Int.tdiv_eq_ediv (by omega) (by decide)] at h
  injection h with h
  omega

/-- For a sector-aligned offset `512 * k` at or past the end of the file,
with `k < 96`, the value `byte_to_sector` returns when writing is the entry
`direct[k]` as it stood before the call: the growth stops below index `k`. -/
theorem byte_to_sector_aligned_old_entry (s : Kernel) (ino : inode) (k : Nat) (hk : k < 96)
    (h0 : 0 ≤ ino.data.length) (hle : ino.data.length ≤ 512 * (k : Int))
    (r : Nat × inode × Kernel)
    (h : byte_to_sector s ino (512 * (k : Int)) true = Except.ok r) :
    r.1 = ino.data.direct.getD k 0 := by
  unfold byte_to_sector at h
  have hidx : byte_to_index (512 * (k : Int)) = k := by
    unfold byte_to_index
    rw [Int.tdiv_eq_ediv (by omega) (by decide)]
    omega
  rw [if_neg (by omega), bytes_to_sectors_aligned hk, hidx] at h
  simp only [if_true] at h
  cases hb : bytes_to_sectors ino.data.length with
  | error f => simp [hb] at h
  | ok e =>
    have hek := bytes_to_sectors_le hk h0 hle hb
    have ha : (k + 4294967296 - e) % 4294967296 = k - e := by omega
    simp only [hb, ha, sector_alloc] at h
    cases hi : inode_alloc s ino.data (k - e) e with
    | error f => simp [hi] at h
    | ok p =>
      obtain ⟨b, d, s1⟩ := p
      have hd : d.direct.getD k 0 = ino.data.direct.getD k 0 := by
        unfold inode_alloc at hi
        split at hi
        · injection hi with hi
          injection hi with _ hi
          injection hi with hi _
          rw [← hi]
        · rename_i hne
          have hmod : (e + (k - e)) % 4294967296 = k := by omega
          simp only [hmod, if_pos hk] at hi
          split at hi
          · cases hi
          · rename_i direct n1 s2 hl
            have hn1 := alloc_loop_sectors _ _ _ _ _ _ hl
            have ht := alloc_loop_table _ _ _ _ _ _ hl k (Or.inr (by omega))
            simp only at hn1 ht
            have hz : n1 = 0 := by omega
            rw [if_pos hz] at hi
            injection hi with hi
            injection hi with _ hi
            injection hi with hi _
            rw [← hi]
            exact ht
      cases b with
      | false => simp [hi] at h
      | true =>
        simp only [hi, index_to_sector, if_pos hk] at h
        injection h with h
        rw [← h]
        exact hd

/-! ## C8 and C9: growth -/

/-- Claim C8, evaluated.  The file `grown_inode` owns 352 data sectors: its
logical indices 0, 95, 96, 223, 224 and 351 resolve to the sectors 2, 97, 98,
225, 227 and 354.  On it `inode_alloc (inode, 1, 352)` returns false: no
sector is taken from the free map and the inode is left as it was, although
352 + 1 is far below 16608. -/
theorem inode_alloc_stops_at_352 :
    [0, 95, 96, 223, 224, 351].map
        (fun idx => index_outcome (index_to_sector grown_kernel grown_inode idx)) =
      [some 2, some 97, some 98, some 225, some 227, some 354] ∧
    alloc_outcome (inode_alloc grown_kernel grown_inode_disk 1 352) =
      some (false, grown_inode_disk, grown_kernel.free_map) := by
  decide

theorem cache_fetch_free_map {s : Kernel} {S : Nat} {r : cache_e × Kernel}
    (h : cache_fetch s S = Except.ok r) : r.2.free_map = s.free_map := by
  rcases cache_fetch_spec h with ⟨e, -, rfl⟩ | ⟨-, s1, i, hr, -, rfl⟩
  · rfl
  · rcases cache_make_room_spec hr with ⟨-, rfl⟩ | ⟨-, pre, v, post, -, -, -, -, rfl⟩
    · rfl
    · simp only [fetched, evicted]
      split <;> rfl

theorem read_aheader_step_free_map {s s1 : Kernel} (h : read_aheader_step s = Except.ok s1) :
    s1.free_map = s.free_map := by
  unfold read_aheader_step at h
  split at h
  · injection h with h
    rw [← h]
  · rename_i r rest hl
    cases hx : cache_load_ahead s r.sector_idx with
    | error f => simp [hx] at h
    | ok p =>
      simp only [hx] at h
      injection h with h
      rw [← h]
      exact cache_fetch_free_map hx

theorem await_aheader_free_map (S : Nat) (queue : List read_ahead_e) :
    ∀ s s1 : Kernel, await_aheader S queue s = Except.ok s1 → s1.free_map = s.free_map := by
  induction queue with
  | nil =>
    intro s s1 h
    simp only [await_aheader] at h
    injection h with h
    rw [← h]
  | cons r rest ih =>
    intro s s1 h
    simp only [await_aheader] at h
    cases hx : read_aheader_step s with
    | error f => simp [hx] at h
    | ok s2 =>
      simp only [hx] at h
      have h2 := read_aheader_step_free_map hx
      split at h
      · injection h with h
        rw [← h, h2]
      · rw [ih s2 s1 h, h2]

theorem cache_load_wait_free_map {s s1 : Kernel} {S : Nat}
    (h : cache_load_wait s S = Except.ok s1) : s1.free_map = s.free_map := by
  unfold cache_load_wait at h
  split at h
  · injection h with h
    rw [← h]
  · split at h
    · exact await_aheader_free_map S _ s s1 h
    · injection h with h
      rw [← h]

theorem cache_load_request_free_map (s : Kernel) (S : Nat) :
    (cache_load_request s S).free_map = s.free_map := by
  unfold cache_load_request
  split <;> rfl

theorem cache_load_free_map {s : Kernel} {S : Nat} {r : cache_e × Kernel}
    (h : cache_load s S = Except.ok r) : r.2.free_map = s.free_map := by
  unfold cache_load at h
  cases h1 : cache_load_wait s S with
  | error f => simp [h1] at h
  | ok s1 =>
    simp only [h1] at h
    cases h2 : cache_fetch s1 S with
    | error f => simp [h2] at h
    | ok p =>
      obtain ⟨e, s2⟩ := p
      simp only [h2] at h
      cases h3 : access_count_incr s2 e with
      | error f => simp [h3] at h
      | ok q =>
        obtain ⟨e3, s3⟩ := q
        simp only [h3] at h
        injection h with h
        rw [← h]
        show (cache_load_request s3 S).free_map = _
        rw [cache_load_request_free_map]
        have h4 := access_count_incr_spec h3
        have h5 := cache_fetch_free_map h2
        have h6 := cache_load_wait_free_map h1
        have h7 : s3.free_map = s2.free_map := by
          unfold access_count_incr at h3
          split at h3
          · cases h3
          · injection h3 with h3
            injection h3 with h3a h3b
            rw [← h3b]
        rw [h7]
        exact h5.trans h6

theorem cache_read_from_buf_free_map {s : Kernel} {S : Nat} {r : Sector × Kernel}
    (h : cache_read_from_buf s S = Except.ok r) : r.2.free_map = s.free_map := by
  unfold cache_read_from_buf at h
  cases h1 : cache_load s S with
  | error f => simp [h1] at h
  | ok p =>
    simp only [h1] at h
    injection h with h
    rw [← h]
    exact cache_load_free_map h1

theorem index_to_sector_free_map {s : Kernel} {ino : inode} {idx : Nat} {r : Nat × Kernel}
    (h : index_to_sector s ino idx = Except.ok r) : r.2.free_map = s.free_map := by
  unfold index_to_sector at h
  split at h
  · injection h with h
    rw [← h]
  · split at h
    · cases h1 : cache_read_from_buf s ino.data.indirect with
      | error f => simp [h1] at h
      | ok p =>
        simp only [h1] at h
        injection h with h
        rw [← h]
        exact cache_read_from_buf_free_map h1
    · split at h
      · cases h1 : cache_read_from_buf s ino.data.double_indirect with
        | error f => simp [h1] at h
        | ok p =>
          simp only [h1] at h
          cases h2 : cache_read_from_buf p.2
              (indirect_data p.1 ((idx - 96 - 128) / 128)) with
          | error f => simp [h2] at h
          | ok q =>
            simp only [h2] at h
            injection h with h
            rw [← h]
            exact (cache_read_from_buf_free_map h2).trans (cache_read_from_buf_free_map h1)
      · cases h

/-! ## Reads do not grow the inode -/

theorem byte_to_sector_false (s : Kernel) (ino : inode) (pos : Int) :
    byte_to_sector s ino pos false =
      if pos < ino.data.length then
        match index_to_sector s ino (byte_to_index pos) with
        | Except.error f => Except.error f
        | Except.ok (sector, s1) => Except.ok (sector, ino, s1)
      else Except.ok (4294967295, ino, s) := by
  unfold byte_to_sector
  by_cases hp : pos < ino.data.length
  · simp only [hp, if_true]
  · simp [hp]

theorem byte_to_sector_below (s : Kernel) (ino : inode) (pos : Int) (writing : Bool)
    (h : pos < ino.data.length) :
    byte_to_sector s ino pos writing =
      match index_to_sector s ino (byte_to_index pos) with
      | Except.error f => Except.error f
      | Except.ok (sector, s1) => Except.ok (sector, ino, s1) := by
  unfold byte_to_sector
  simp only [h, if_true]

theorem byte_to_index_nonneg {pos : Int} (h0 : 0 ≤ pos) (h1 : pos ≤ INT_MAX) :
    byte_to_index pos = (pos / 512).toNat := by
  unfold byte_to_index
  unfold INT_MAX at h1
  rw [Int.tdiv_eq_ediv h0 (by decide)]
  congr 1
  omega

theorem index_to_sector_deny (s : Kernel) (ino : inode) (c : Int) (idx : Nat) :
    index_to_sector s { ino with deny_write_cnt := c } idx = index_to_sector s ino idx := rfl

theorem inode_read_at_loop_deny (c : Int) (fuel : Nat) :
    ∀ (s : Kernel) (ino : inode) (size offset bytes_read : Int) (buffer : List Byte),
      inode_read_at_loop fuel s { ino with deny_write_cnt := c } size offset bytes_read buffer =
        match inode_read_at_loop fuel s ino size offset bytes_read buffer with
        | Except.error f => Except.error f
        | Except.ok (n, out, ino1, s1) =>
          Except.ok (n, out, { ino1 with deny_write_cnt := c }, s1) := by
  induction fuel with
  | zero => intro s ino size offset bytes_read buffer; rfl
  | succ fuel ih =>
    intro s ino size offset bytes_read buffer
    simp only [inode_read_at_loop]
    by_cases hs : 0 < size
    · simp only [hs, if_true, byte_to_sector_false, index_to_sector_deny]
      by_cases hp : offset < ino.data.length
      · simp only [hp, if_true]
        cases index_to_sector s ino (byte_to_index offset) with
        | error f => rfl
        | ok p =>
          obtain ⟨sector, s1⟩ := p
          simp only [inode_length]
          split
          · rfl
          · cases cache_load s1 sector with
            | error f => rfl
            | ok q =>
              obtain ⟨e, s2⟩ := q
              simp only
              split
              · rfl
              · exact ih _ _ _ _ _ _
      · simp only [hp, if_false, inode_length]
        split
        · rfl
        · cases cache_load s 4294967295 with
          | error f => rfl
          | ok q =>
            obtain ⟨e, s2⟩ := q
            simp only
            split
            · rfl
            · exact ih _ _ _ _ _ _
    · simp only [hs, if_false]

/-! ## C11 and C14 -/

/-- Claim C11.  For `pos` at or past the length of the inode,
`byte_to_sector (inode, pos, false)` returns `(block_sector_t) -1` and leaves
the inode and the kernel state (free map, cache, device) as they were.  For
`0 <= pos < length`, whatever the `writing` flag, it returns what
`index_to_sector (inode, pos / 512)` returns, leaves the inode as it was and
allocates nothing. -/
theorem byte_to_sector_logical_miss (s : Kernel) (ino : inode) (pos : Int) :
    (ino.data.length ≤ pos →
      byte_to_sector s ino pos false = Except.ok (4294967295, ino, s)) ∧
    (0 ≤ pos → pos < ino.data.length → pos ≤ INT_MAX → ∀ writing : Bool,
      (byte_to_sector s ino pos writing =
        match index_to_sector s ino (pos / 512).toNat with
        | Except.error f => Except.error f
        | Except.ok (sector, s1) => Except.ok (sector, ino, s1)) ∧
      ∀ r, byte_to_sector s ino pos writing = Except.ok r →
        r.2.1 = ino ∧ r.2.2.free_map = s.free_map) := by
  constructor
  · intro h
    rw [byte_to_sector_false, if_neg (by omega)]
  · intro h0 h1 h2 writing
    have hb := byte_to_sector_below s ino pos writing h1
    rw [byte_to_index_nonneg h0 h2] at hb
    refine ⟨hb, ?_⟩
    intro r hr
    rw [hb] at hr
    cases hx : index_to_sector s ino (pos / 512).toNat with
    | error f => simp [hx] at hr
    | ok p =>
      simp only [hx] at hr
      injection hr with hr
      rw [← hr]
      exact ⟨rfl, index_to_sector_free_map hx⟩

/-- Claim C14.  On an inode whose `deny_write_cnt` is positive
`inode_write_at` returns 0 and leaves the inode and the kernel state as they
were, for every buffer, `size` and `offset`; and `inode_read_at` returns on
that inode what it returns on the same inode with `deny_write_cnt = 0`. -/
theorem inode_write_at_denied (s : Kernel) (ino : inode) (buffer : List Byte)
    (size offset : Int) (h : 0 < ino.deny_write_cnt) :
    inode_write_at s ino buffer size offset = Except.ok (0, ino, s) ∧
    ∀ size1 offset1 : Int,
      inode_read_at s ino size1 offset1 =
        match inode_read_at s { ino with deny_write_cnt := 0 } size1 offset1 with
        | Except.error f => Except.error f
        | Except.ok (n, out, ino1, s1) =>
          Except.ok (n, out, { ino1 with deny_write_cnt := ino.deny_write_cnt }, s1) := by
  constructor
  · unfold inode_write_at
    rw [if_pos (by omega)]
  · intro size1 offset1
    unfold inode_read_at
    exact inode_read_at_loop_deny ino.deny_write_cnt size1.toNat s
      { ino with deny_write_cnt := 0 } size1 offset1 0 []

/-! ## Sector images -/

theorem flatten_range_length {α : Type} (f : Nat → List α) (hlen : ∀ j, (f j).length = 4)
    (n : Nat) : (((List.range n).map f).flatten).length = 4 * n := by
  induction n with
  | zero => rfl
  | succ n ih =>
    rw [List.range_succ, List.map_append, List.flatten_append, List.length_append, ih]
    simp [hlen]
    omega

theorem flatten_range_getD {α : Type} (f : Nat → List α) (hlen : ∀ j, (f j).length = 4)
    (d : α) (n : Nat) : ∀ i k, i < n → k < 4 →
      (((List.range n).map f).flatten).getD (4 * i + k) d = (f i).getD k d := by
  induction n with
  | zero => intro i k hi; omega
  | succ n ih =>
    intro i k hi hk
    rw [List.range_succ, List.map_append, List.flatten_append]
    have hl := flatten_range_length f hlen n
    by_cases hin : i < n
    · rw [List.getD_append _ _ _ _ (by omega)]
      exact ih i k hin hk
    · have hi2 : i = n := by omega
      subst hi2
      rw [List.getD_append_right _ _ _ _ (by omega), hl]
      simp

theorem sector_of_indirect_disk_length (data : List Nat) :
    (sector_of_indirect_disk data).length = 512 := by
  unfold sector_of_indirect_disk
  rw [flatten_range_length (fun i => sector_bytes (data.getD i 0)) (fun _ => rfl)]

theorem indirect_data_sector_of (data : List Nat) {i : Nat} (hi : i < 128) :
    indirect_data (sector_of_indirect_disk data) i = data.getD i 0 % 4294967296 := by
  unfold indirect_data sector_of_indirect_disk
  have h0 := flatten_range_getD (fun i => sector_bytes (data.getD i 0)) (fun _ => rfl) 0 128
    i 0 hi (by decide)
  have h1 := flatten_range_getD (fun i => sector_bytes (data.getD i 0)) (fun _ => rfl) 0 128
    i 1 hi (by decide)
  have h2 := flatten_range_getD (fun i => sector_bytes (data.getD i 0)) (fun _ => rfl) 0 128
    i 2 hi (by decide)
  have h3 := flatten_range_getD (fun i => sector_bytes (data.getD i 0)) (fun _ => rfl) 0 128
    i 3 hi (by decide)
  rw [add_zero] at h0
  rw [h0, h1, h2, h3]
  simp only [sector_bytes, List.getD_cons_zero, List.getD_cons_succ, Fin.ofNat, Nat.succ_eq_add_one]
  generalize data.getD i 0 = w
  show w % 256 + 256 * (w / 256 % 256) + 65536 * (w / 65536 % 256)
    + 16777216 * (w / 16777216 % 256) = w % 4294967296
  omega

theorem inode_disk_words_direct (d : inode_disk) {i : Nat} (hi : i < 96) :
    (inode_disk_words d).getD i 0 = d.direct.getD i 0 := by
  unfold inode_disk_words
  rw [List.append_assoc, List.getD_append _ _ _ _ (by simpa using hi)]
  rw [List.getD_eq_getElem _ _ (by simpa using hi)]
  simp

theorem inode_disk_words_fields (d : inode_disk) :
    (inode_disk_words d).getD 96 0 = d.indirect ∧
    (inode_disk_words d).getD 97 0 = d.double_indirect ∧
    (inode_disk_words d).getD 98 0 = (if d.is_dir then 1 else 0) ∧
    (inode_disk_words d).getD 99 0 = word_of_int d.is_opened ∧
    (inode_disk_words d).getD 100 0 = word_of_int d.is_cwd ∧
    (inode_disk_words d).getD 101 0 = word_of_int d.length ∧
    (inode_disk_words d).getD 102 0 = d.magic := by
  unfold inode_disk_words
  rw [List.append_assoc]
  refine ⟨?_, ?_, ?_, ?_, ?_, ?_, ?_⟩ <;>
    · rw [List.getD_append_right _ _ _ _ (by simp)]
      simp

theorem int_of_word_of_int {v : Int} (h0 : -2147483648 ≤ v) (h1 : v ≤ INT_MAX) :
    int_of_word (word_of_int v % 4294967296) = v := by
  unfold int_of_word word_of_int
  unfold INT_MAX at h1
  split <;> omega

theorem indirect_data_inode_disk (d : inode_disk) {i : Nat} (hi : i < 128) :
    indirect_data (sector_of_inode_disk d) i = (inode_disk_words d).getD i 0 % 4294967296 := by
  unfold sector_of_inode_disk
  exact indirect_data_sector_of _ hi

theorem inode_disk_of_sector_length (d : inode_disk) (h0 : -2147483648 ≤ d.length)
    (h1 : d.length ≤ INT_MAX) :
    (inode_disk_of_sector (sector_of_inode_disk d)).length = d.length := by
  simp only [inode_disk_of_sector]
  rw [indirect_data_inode_disk d (by decide), (inode_disk_words_fields d).2.2.2.2.2.1]
  exact int_of_word_of_int h0 h1

theorem inode_disk_of_sector_is_dir (d : inode_disk) :
    (inode_disk_of_sector (sector_of_inode_disk d)).is_dir = d.is_dir := by
  have hb : (sector_of_inode_disk d).getD 392 0 = Fin.ofNat (if d.is_dir then 1 else 0) := by
    have := flatten_range_getD (fun i => sector_bytes ((inode_disk_words d).getD i 0))
      (fun _ => rfl) 0 128 98 0 (by decide) (by decide)
    simp only [] at this
    unfold sector_of_inode_disk sector_of_indirect_disk
    rw [show (392 : Nat) = 4 * 98 + 0 by rfl, this, (inode_disk_words_fields d).2.2.1]
    rfl
  simp only [inode_disk_of_sector]
  rw [hb]
  cases d.is_dir <;> simp [Fin.ofNat]

theorem inode_disk_of_sector_direct (d : inode_disk) (hl : d.direct.length = 96)
    (hlt : ∀ i, d.direct.getD i 0 < 4294967296) :
    (inode_disk_of_sector (sector_of_inode_disk d)).direct = d.direct := by
  simp only [inode_disk_of_sector]
  apply List.ext_getElem
  · simp [hl]
  · intro i h1 h2
    have hi : i < 96 := by simpa using h1
    simp only [List.getElem_map, List.getElem_range]
    rw [indirect_data_inode_disk d (by omega), inode_disk_words_direct d hi,
      Nat.mod_eq_of_lt (hlt i), List.getD_eq_getElem _ _ h2]

theorem inode_disk_ext {a b : inode_disk} (h1 : a.direct = b.direct)
    (h2 : a.indirect = b.indirect) (h3 : a.double_indirect = b.double_indirect)
    (h4 : a.is_dir = b.is_dir) (h5 : a.is_opened = b.is_opened) (h6 : a.is_cwd = b.is_cwd)
    (h7 : a.length = b.length) (h8 : a.magic = b.magic) : a = b := by
  cases a
  cases b
  simp only at h1 h2 h3 h4 h5 h6 h7 h8
  subst h1 h2 h3 h4 h5 h6 h7 h8
  rfl

theorem inode_disk_of_sector_of (d : inode_disk) (h : inode_disk_fits d) :
    inode_disk_of_sector (sector_of_inode_disk d) = d := by
  obtain ⟨f1, f2, -, f4, f5, -, f7⟩ := inode_disk_words_fields d
  apply inode_disk_ext
  · exact inode_disk_of_sector_direct d h.direct_length h.direct_lt
  · simp only [inode_disk_of_sector]
    rw [indirect_data_inode_disk d (by decide), f1]
    exact Nat.mod_eq_of_lt h.indirect_lt
  · simp only [inode_disk_of_sector]
    rw [indirect_data_inode_disk d (by decide), f2]
    exact Nat.mod_eq_of_lt h.double_indirect_lt
  · exact inode_disk_of_sector_is_dir d
  · simp only [inode_disk_of_sector]
    rw [indirect_data_inode_disk d (by decide), f4]
    exact int_of_word_of_int h.is_opened_ge h.is_opened_le
  · simp only [inode_disk_of_sector]
    rw [indirect_data_inode_disk d (by decide), f5]
    exact int_of_word_of_int h.is_cwd_ge h.is_cwd_le
  · exact inode_disk_of_sector_length d h.length_ge h.length_le
  · simp only [inode_disk_of_sector]
    rw [indirect_data_inode_disk d (by decide), f7]
    exact Nat.mod_eq_of_lt h.magic_lt

/-! ## The open-inode list -/

theorem open_lookup_none {l : List inode} {sector : Nat} :
    open_lookup l sector = none ↔ ∀ ino ∈ l, ino.sector ≠ sector := by
  induction l with
  | nil => simp [open_lookup]
  | cons a rest ih =>
    unfold open_lookup
    by_cases h : a.sector = sector
    · simp [h]
    · simp [h, ih]

theorem open_lookup_some {l : List inode} {sector : Nat} :
    ∀ {k : Nat} {ino : inode}, open_lookup l sector = some (k, ino) →
      l.get? k = some ino ∧ ino.sector = sector := by
  induction l with
  | nil => intro k ino h; simp [open_lookup] at h
  | cons a rest ih =>
    intro k ino h
    unfold open_lookup at h
    by_cases ha : a.sector = sector
    · simp only [ha, if_true, Option.some.injEq, Prod.mk.injEq] at h
      obtain ⟨rfl, rfl⟩ := h
      exact ⟨rfl, ha⟩
    · simp only [ha, if_false, Option.map_eq_some'] at h
      obtain ⟨⟨j, b⟩, hj, hp⟩ := h
      simp only [Prod.mk.injEq] at hp
      obtain ⟨rfl, rfl⟩ := hp
      have := ih hj
      exact ⟨by simpa using this.1, this.2⟩

theorem open_lookup_nodup {l : List inode} {sector : Nat} :
    ∀ {k : Nat} {ino : inode}, (l.map inode.sector).Nodup → l.get? k = some ino →
      ino.sector = sector → open_lookup l sector = some (k, ino) := by
  induction l with
  | nil => intro k ino _ h; simp at h
  | cons a rest ih =>
    intro k ino hnd hk hs
    rw [List.map_cons, List.nodup_cons] at hnd
    unfold open_lookup
    cases k with
    | zero =>
      simp only [List.get?_cons_zero, Option.some.injEq] at hk
      subst hk
      simp [hs]
    | succ j =>
      simp only [List.get?_cons_succ] at hk
      have hmem : ino ∈ rest := List.get?_mem hk
      have ha : a.sector ≠ sector := by
        intro h
        apply hnd.1
        rw [h, ← hs]
        exact List.mem_map_of_mem _ hmem
      simp [ha, ih hnd.2 hk hs]

theorem map_sector_set {l : List inode} :
    ∀ {k : Nat} {ino : inode} (ino1 : inode), l.get? k = some ino → ino1.sector = ino.sector →
      (l.set k ino1).map inode.sector = l.map inode.sector := by
  induction l with
  | nil => intro k ino ino1 h; simp at h
  | cons a rest ih =>
    intro k ino ino1 hk hs
    cases k with
    | zero =>
      simp only [List.get?_cons_zero, Option.some.injEq] at hk
      subst hk
      simp [hs]
    | succ j =>
      simp only [List.get?_cons_succ] at hk
      simp [ih ino1 hk hs]

theorem nodup_map_eraseIdx {l : List inode} (k : Nat) (h : (l.map inode.sector).Nodup) :
    ((l.eraseIdx k).map inode.sector).Nodup :=
  List.Nodup.sublist ((List.eraseIdx_sublist l k).map inode.sector) h

theorem inode_open_hit {s : Kernel} {l : List inode} {sector k : Nat} {ino : inode}
    (hnd : (l.map inode.sector).Nodup) (hk : l.get? k = some ino) (hs : ino.sector = sector)
    (hc : ino.open_cnt < INT_MAX) :
    inode_open s l sector =
      Except.ok (k, l.set k { ino with open_cnt := ino.open_cnt + 1 }, s) := by
  unfold inode_open
  rw [open_lookup_nodup hnd hk hs]
  simp only [inode_reopen]
  rw [if_neg (by omega)]

theorem inode_open_miss {s : Kernel} {l : List inode} {sector : Nat}
    (h : ∀ ino ∈ l, ino.sector ≠ sector) :
    inode_open s l sector =
      Except.ok (0,
        { sector := sector, open_cnt := 1, removed := false, deny_write_cnt := 0,
          data := inode_disk_of_sector (s.fs_device sector) } :: l,
        (block_read s sector).2) := by
  unfold inode_open
  rw [open_lookup_none.mpr h]
  rfl

theorem inode_open_nodup {s s1 : Kernel} {l l1 : List inode} {sector k : Nat}
    (hnd : (l.map inode.sector).Nodup) (h : inode_open s l sector = Except.ok (k, l1, s1)) :
    (l1.map inode.sector).Nodup := by
  cases hl : open_lookup l sector with
  | none =>
    have hn := open_lookup_none.mp hl
    rw [inode_open_miss hn] at h
    injection h with h
    simp only [Prod.mk.injEq] at h
    rw [← h.2.1, List.map_cons, List.nodup_cons]
    refine ⟨?_, hnd⟩
    intro hm
    obtain ⟨x, hx, hxs⟩ := List.mem_map.mp hm
    exact hn x hx hxs
  | some p =>
    obtain ⟨j, ino⟩ := p
    obtain ⟨hj, hs⟩ := open_lookup_some hl
    unfold inode_open at h
    rw [hl] at h
    simp only [inode_reopen] at h
    split at h
    · cases h
    · rename_i ino1 hr
      split at hr
      · cases hr
      · injection hr with hr
        injection h with h
        simp only [Prod.mk.injEq] at h
        rw [← h.2.1, map_sector_set _ hj (by rw [← hr])]
        exact hnd

theorem handle_call_nodup {l l1 : List inode} {k : Nat} {f : inode → Except Fault inode}
    (hf : ∀ a b, f a = Except.ok b → b.sector = a.sector)
    (hnd : (l.map inode.sector).Nodup) (h : handle_call l k f = Except.ok l1) :
    (l1.map inode.sector).Nodup := by
  unfold handle_call at h
  split at h
  · cases h
  · rename_i ino hk
    split at h
    · cases h
    · rename_i ino1 h1
      injection h with h
      rw [← h, map_sector_set _ hk (hf _ _ h1)]
      exact hnd

theorem inode_close_nodup {s s1 : Kernel} {l l1 : List inode} {handle : Option Nat}
    (hnd : (l.map inode.sector).Nodup) (h : inode_close s l handle = Except.ok (l1, s1)) :
    (l1.map inode.sector).Nodup := by
  unfold inode_close at h
  split at h
  · injection h with h
    simp only [Prod.mk.injEq] at h
    rw [← h.1]
    exact hnd
  · rename_i k
    split at h
    · cases h
    · rename_i ino hk
      split at h
      · cases h
      · simp only at h
        split at h
        · split at h
          · split at h
            · cases h
            · injection h with h
              simp only [Prod.mk.injEq] at h
              rw [← h.1]
              exact nodup_map_eraseIdx k hnd
          · injection h with h
            simp only [Prod.mk.injEq] at h
            rw [← h.1]
            exact nodup_map_eraseIdx k hnd
        · injection h with h
          simp only [Prod.mk.injEq] at h
          rw [← h.1, map_sector_set { ino with open_cnt := ino.open_cnt - 1 } hk rfl]
          exact hnd

/-! ## The handle a call works on -/

theorem sector_alloc_sector {s : Kernel} {ino : inode} {n : Nat} {r : Bool × inode × Kernel}
    (h : sector_alloc s ino n = Except.ok r) : r.2.1.sector = ino.sector := by
  unfold sector_alloc at h
  split at h
  · cases h
  · split at h
    · cases h
    · injection h with h
      rw [← h]
    · cases h

theorem byte_to_sector_sector {s : Kernel} {ino : inode} {pos : Int} {writing : Bool}
    {r : Nat × inode × Kernel} (h : byte_to_sector s ino pos writing = Except.ok r) :
    r.2.1.sector = ino.sector := by
  unfold byte_to_sector at h
  split at h
  · split at h
    · cases h
    · injection h with h
      rw [← h]
  · split at h
    · split at h
      · cases h
      · split at h
        · cases h
        · split at h
          · cases h
          · rename_i h1
            have hl := sector_alloc_sector h1
            split at h
            · cases h
            · injection h with h
              rw [← h]
              exact hl
          · rename_i h1
            have hl := sector_alloc_sector h1
            injection h with h
            rw [← h]
            exact hl
    · injection h with h
      rw [← h]

theorem byte_to_sector_false_inode {s : Kernel} {ino : inode} {pos : Int}
    {r : Nat × inode × Kernel} (h : byte_to_sector s ino pos false = Except.ok r) :
    r.2.1 = ino := by
  rw [byte_to_sector_false] at h
  split at h
  · split at h
    · cases h
    · injection h with h
      rw [← h]
  · injection h with h
    rw [← h]

theorem inode_read_at_loop_inode (fuel : Nat) :
    ∀ (s : Kernel) (ino : inode) (size offset bytes_read : Int) (buffer : List Byte)
      (r : Int × List Byte × inode × Kernel),
      inode_read_at_loop fuel s ino size offset bytes_read buffer = Except.ok r →
        r.2.2.1 = ino := by
  induction fuel with
  | zero =>
    intro s ino size offset bytes_read buffer r h
    simp only [inode_read_at_loop] at h
    injection h with h
    rw [← h]
  | succ fuel ih =>
    intro s ino size offset bytes_read buffer r h
    simp only [inode_read_at_loop] at h
    split at h
    · cases hb : byte_to_sector s ino offset false with
      | error f => simp [hb] at h
      | ok p =>
        obtain ⟨sector, ino1, s1⟩ := p
        have hi : ino1 = ino := byte_to_sector_false_inode hb
        subst hi
        simp only [hb] at h
        split at h
        · injection h with h
          rw [← h]
        · cases hl : cache_load s1 sector with
          | error f => simp [hl] at h
          | ok q =>
            obtain ⟨e, s2⟩ := q
            simp only [hl] at h
            split at h
            · cases h
            · exact ih _ _ _ _ _ _ _ h
    · injection h with h
      rw [← h]

theorem inode_write_at_loop_inode (fuel : Nat) :
    ∀ (s : Kernel) (ino : inode) (buffer : List Byte) (size offset bytes_written : Int)
      (r : Int × inode × Kernel),
      inode_write_at_loop fuel s ino buffer size offset bytes_written = Except.ok r →
        r.2.1 = ino := by
  induction fuel with
  | zero =>
    intro s ino buffer size offset bytes_written r h
    simp only [inode_write_at_loop] at h
    injection h with h
    rw [← h]
  | succ fuel ih =>
    intro s ino buffer size offset bytes_written r h
    simp only [inode_write_at_loop] at h
    split at h
    · cases hb : byte_to_sector s ino offset false with
      | error f => simp [hb] at h
      | ok p =>
        obtain ⟨sector, ino1, s1⟩ := p
        have hi : ino1 = ino := byte_to_sector_false_inode hb
        subst hi
        simp only [hb] at h
        split at h
        · injection h with h
          rw [← h]
        · cases hl : cache_load s1 sector with
          | error f => simp [hl] at h
          | ok q =>
            obtain ⟨e, s2⟩ := q
            simp only [hl] at h
            split at h
            · cases h
            · exact ih _ _ _ _ _ _ _ h
    · injection h with h
      rw [← h]

theorem inode_write_at_sector {s : Kernel} {ino : inode} {buffer : List Byte}
    {size offset : Int} {r : Int × inode × Kernel}
    (h : inode_write_at s ino buffer size offset = Except.ok r) : r.2.1.sector = ino.sector := by
  unfold inode_write_at at h
  split at h
  · injection h with h
    rw [← h]
  · split at h
    · cases h
    · cases hb : byte_to_sector s ino (offset + size) true with
      | error f => simp [hb] at h
      | ok p =>
        obtain ⟨sector, ino1, s1⟩ := p
        have hs : ino1.sector = ino.sector := byte_to_sector_sector hb
        simp only [hb] at h
        split at h
        · cases h
        · rw [inode_write_at_loop_inode _ _ _ _ _ _ _ _ h, ← hs]
          split <;> rfl

theorem inode_call_run_nodup {s s1 : Kernel} {l l1 : List inode} {c : inode_call}
    (hnd : (l.map inode.sector).Nodup) (h : inode_call_run s l c = Except.ok (l1, s1)) :
    (l1.map inode.sector).Nodup := by
  cases c with
  | call_open sector =>
    simp only [inode_call_run] at h
    cases ho : inode_open s l sector with
    | error f => simp [ho] at h
    | ok p =>
      obtain ⟨k, l2, s2⟩ := p
      simp only [ho] at h
      injection h with h
      simp only [Prod.mk.injEq] at h
      rw [← h.1]
      exact inode_open_nodup hnd ho
  | call_reopen k =>
    simp only [inode_call_run] at h
    cases ho : handle_call l k inode_reopen with
    | error f => simp [ho] at h
    | ok l2 =>
      simp only [ho] at h
      injection h with h
      simp only [Prod.mk.injEq] at h
      rw [← h.1]
      refine handle_call_nodup ?_ hnd ho
      intro a b hab
      unfold inode_reopen at hab
      split at hab
      · cases hab
      · injection hab with hab
        rw [← hab]
  | call_close k =>
    exact inode_close_nodup hnd h
  | call_remove k =>
    simp only [inode_call_run] at h
    cases ho : handle_call l k (fun ino => Except.ok (inode_remove ino)) with
    | error f => simp [ho] at h
    | ok l2 =>
      simp only [ho] at h
      injection h with h
      simp only [Prod.mk.injEq] at h
      rw [← h.1]
      refine handle_call_nodup ?_ hnd ho
      intro a b hab
      injection hab with hab
      rw [← hab]
      rfl
  | call_deny_write k =>
    simp only [inode_call_run] at h
    cases ho : handle_call l k inode_deny_write with
    | error f => simp [ho] at h
    | ok l2 =>
      simp only [ho] at h
      injection h with h
      simp only [Prod.mk.injEq] at h
      rw [← h.1]
      refine handle_call_nodup ?_ hnd ho
      intro a b hab
      unfold inode_deny_write at hab
      split at hab
      · cases hab
      · split at hab
        · cases hab
        · injection hab with hab
          rw [← hab]
  | call_allow_write k =>
    simp only [inode_call_run] at h
    cases ho : handle_call l k inode_allow_write with
    | error f => simp [ho] at h
    | ok l2 =>
      simp only [ho] at h
      injection h with h
      simp only [Prod.mk.injEq] at h
      rw [← h.1]
      refine handle_call_nodup ?_ hnd ho
      intro a b hab
      unfold inode_allow_write at hab
      split at hab
      · cases hab
      · split at hab
        · cases hab
        · injection hab with hab
          rw [← hab]
  | call_read_at k size offset =>
    simp only [inode_call_run] at h
    cases hk : l.get? k with
    | none => rw [hk] at h; cases h
    | some ino =>
      rw [hk] at h
      simp only at h
      cases hr : inode_read_at s ino size offset with
      | error f => simp [hr] at h
      | ok p =>
        obtain ⟨n, out, ino1, s2⟩ := p
        simp only [hr] at h
        injection h with h
        simp only [Prod.mk.injEq] at h
        have hi : ino1 = ino := inode_read_at_loop_inode _ _ _ _ _ _ _ _ hr
        rw [← h.1, map_sector_set ino1 hk (by rw [hi])]
        exact hnd
  | call_write_at k buffer size offset =>
    simp only [inode_call_run] at h
    cases hk : l.get? k with
    | none => rw [hk] at h; cases h
    | some ino =>
      rw [hk] at h
      simp only at h
      cases hr : inode_write_at s ino buffer size offset with
      | error f => simp [hr] at h
      | ok p =>
        obtain ⟨n, ino1, s2⟩ := p
        simp only [hr] at h
        injection h with h
        simp only [Prod.mk.injEq] at h
        rw [← h.1, map_sector_set ino1 hk (inode_write_at_sector hr)]
        exact hnd

theorem inode_run_nodup (calls : List inode_call) :
    ∀ (s s1 : Kernel) (l l1 : List inode), (l.map inode.sector).Nodup →
      inode_run s l calls = Except.ok (l1, s1) → (l1.map inode.sector).Nodup := by
  induction calls with
  | nil =>
    intro s s1 l l1 hnd h
    simp only [inode_run] at h
    injection h with h
    simp only [Prod.mk.injEq] at h
    rw [← h.1]
    exact hnd
  | cons c rest ih =>
    intro s s1 l l1 hnd h
    simp only [inode_run] at h
    cases hc : inode_call_run s l c with
    | error f => simp [hc] at h
    | ok p =>
      obtain ⟨l2, s2⟩ := p
      simp only [hc] at h
      exact ih s2 s1 l2 l1 (inode_call_run_nodup hnd hc) h

/-! ## Growth past 352 sectors -/

theorem bytes_to_sectors_nonneg {x : Int} (h0 : 0 ≤ x) (h1 : x ≤ INT_MAX - 511) :
    bytes_to_sectors x = Except.ok ((x + 511) / 512).toNat := by
  unfold bytes_to_sectors DIV_ROUND_UP
  unfold INT_MAX at h1 ⊢
  rw [if_neg (by omega), Int.tdiv_eq_ediv (by omega) (by decide)]
  congr 2
  omega

theorem cache_write_from_buf_device {s s1 : Kernel} {S : Nat} {buf : Sector}
    (h : cache_write_from_buf s S buf = Except.ok s1) : s1.fs_device S = buf := by
  obtain ⟨e, s2, -, rfl⟩ := cache_write_from_buf_spec h
  simp [block_write]

theorem sector_alloc_over {s : Kernel} {ino : inode} {n : Nat} {r : Bool × inode × Kernel}
    (h0 : 0 ≤ ino.data.length) (h1 : ino.data.length ≤ INT_MAX - 511) (hn : 0 < n)
    (hlt : n < 4290000000)
    (hover : 352 < ((ino.data.length + 511) / 512).toNat + n) :
    sector_alloc s ino n ≠ Except.ok r := by
  intro h
  unfold sector_alloc at h
  rw [bytes_to_sectors_nonneg h0 h1] at h
  simp only at h
  unfold INT_MAX at h1
  split at h
  · cases h
  · rename_i d s1 ha
    have := (inode_alloc_flag ha hn (by omega)).mp rfl
    omega
  · cases h

theorem byte_to_sector_over {s : Kernel} {ino : inode} {pos : Int} {r : Nat × inode × Kernel}
    (h0 : 0 ≤ ino.data.length) (h1 : ino.data.length ≤ 180224) (h2 : 180224 < pos)
    (h3 : pos ≤ INT_MAX - 511) : byte_to_sector s ino pos true ≠ Except.ok r := by
  intro h
  unfold INT_MAX at h3
  have hL : ino.data.length ≤ INT_MAX - 511 := by unfold INT_MAX; omega
  unfold byte_to_sector at h
  rw [if_neg (by omega)] at h
  rw [bytes_to_sectors_nonneg (by omega) (by unfold INT_MAX; omega),
    bytes_to_sectors_nonneg h0 hL] at h
  simp only [if_true] at h
  have hn : 0 < (((pos + 511) / 512).toNat + 4294967296
      - ((ino.data.length + 511) / 512).toNat) % 4294967296 := by omega
  have hlt : (((pos + 511) / 512).toNat + 4294967296
      - ((ino.data.length + 511) / 512).toNat) % 4294967296 < 4290000000 := by omega
  have hover : 352 < ((ino.data.length + 511) / 512).toNat +
      (((pos + 511) / 512).toNat + 4294967296
        - ((ino.data.length + 511) / 512).toNat) % 4294967296 := by omega
  split at h
  · cases h
  · rename_i h4
    exact sector_alloc_over h0 hL hn hlt hover h4
  · rename_i h4
    exact sector_alloc_over h0 hL hn hlt hover h4

theorem inode_write_at_over {s : Kernel} {ino : inode} {buffer : List Byte} {size offset : Int}
    {r : Int × inode × Kernel} (hd : ino.deny_write_cnt = 0)
    (h0 : 0 ≤ ino.data.length) (h1 : ino.data.length ≤ 180224) (h2 : 180224 < offset + size)
    (h3 : offset + size ≤ INT_MAX - 511) :
    inode_write_at s ino buffer size offset ≠ Except.ok r := by
  intro h
  unfold inode_write_at at h
  rw [if_neg (by simp [hd])] at h
  have h4 : ¬ (INT_MAX < offset + size ∨ offset + size < -2147483648) := by
    unfold INT_MAX at h3 ⊢
    omega
  rw [if_neg h4] at h
  split at h
  · cases h
  · rename_i hb
    exact byte_to_sector_over h0 h1 h2 h3 hb

theorem inode_alloc_fields {s : Kernel} {d : inode_disk} {a e : Nat}
    {r : Bool × inode_disk × Kernel} (h : inode_alloc s d a e = Except.ok r) :
    r.2.1.is_dir = d.is_dir ∧ r.2.1.is_opened = d.is_opened ∧ r.2.1.is_cwd = d.is_cwd ∧
      r.2.1.magic = d.magic := by
  unfold inode_alloc at h
  split at h
  · injection h with h
    rw [← h]
    exact ⟨rfl, rfl, rfl, rfl⟩
  · simp only at h
    split at h
    · cases h
    · split at h
      · injection h with h
        rw [← h]
        exact ⟨rfl, rfl, rfl, rfl⟩
      · split at h
        · cases h
        · split at h
          · injection h with h
            rw [← h]
            exact ⟨rfl, rfl, rfl, rfl⟩
          · split at h
            · cases h
            · split at h
              · cases h
              · split at h
                · cases h
                · split at h
                  · cases h
                  · injection h with h
                    rw [← h]
                    exact ⟨rfl, rfl, rfl, rfl⟩

theorem inode_create_device {s s1 : Kernel} {sector : Nat} {length : Int} {is_dir b : Bool}
    (h : inode_create s sector length is_dir = Except.ok (b, s1)) :
    ∃ d, s1.fs_device sector = sector_of_inode_disk d ∧ d.length = length ∧
      d.is_dir = is_dir ∧ d.is_opened = 0 ∧ d.is_cwd = 0 ∧ d.magic = 1229868868 ∧
      0 ≤ length ∧ length ≤ INT_MAX - 511 := by
  unfold inode_create at h
  split at h
  · cases h
  · rename_i hlen
    cases hb : bytes_to_sectors length with
    | error f => simp [hb] at h
    | ok n =>
      have hle : length ≤ INT_MAX - 511 := by
        unfold bytes_to_sectors at hb
        split at hb
        · cases hb
        · omega
      simp only [hb] at h
      split at h
      · cases h
      · rename_i d s2 ha
        split at h
        · cases h
        · rename_i s3 hw
          injection h with h
          simp only [Prod.mk.injEq] at h
          rw [← h.2]
          obtain ⟨f1, f2, f3, f4⟩ := inode_alloc_fields ha
          exact ⟨d, cache_write_from_buf_device hw, inode_alloc_length ha, f1, f2, f3, f4,
            by omega, hle⟩
      · cases h

/-! ## C16, C18, C19 and C20 -/

/-- Claim C16, refuted.  In every kernel state and for every sector and
buffer, the sequence `inode_create (sector, 0, false)`, `inode_open`,
`inode_write_at` of 600,000 bytes at offset 0, `inode_close`, `inode_open`,
`inode_read_at` does not run to its end: the write needs 1172 sectors and
`inode_alloc` reports failure for every growth past 352 sectors, which
`sector_alloc` turns into a `PANIC`. -/
theorem create_write_read_600000 (s : Kernel) (sector : Nat) (buffer : List Byte)
    (r : Int × Int × List Byte) : create_write_read s sector buffer 600000 ≠ Except.ok r := by
  intro h
  unfold create_write_read at h
  cases hc : inode_create s sector 0 false with
  | error f => simp [hc] at h
  | ok p =>
    obtain ⟨b, s1⟩ := p
    obtain ⟨d, hdev, hlen, -⟩ := inode_create_device hc
    have ho := @inode_open_miss s1 [] sector (fun ino hi => absurd hi (List.not_mem_nil ino))
    simp only [hc, ho, List.get?_cons_zero] at h
    split at h
    · cases h
    · rename_i hw
      refine inode_write_at_over rfl ?_ ?_ (by decide) (by decide) hw
      · show 0 ≤ (inode_disk_of_sector (s1.fs_device sector)).length
        rw [hdev, inode_disk_of_sector_length d (by omega) (by rw [hlen]; decide), hlen]
      · show (inode_disk_of_sector (s1.fs_device sector)).length ≤ 180224
        rw [hdev, inode_disk_of_sector_length d (by omega) (by rw [hlen]; decide), hlen]
        decide

/-- Claim C18.  When no two handles of the open-inode list share a sector:
if the list holds a handle for `sector`, `inode_open (sector)` returns that
handle with `open_cnt` increased by exactly 1 and the list keeps its length
and its other handles; otherwise it returns a new handle with `open_cnt = 1`,
`deny_write_cnt = 0` and `removed = false`, linked at the front of the list;
in both cases no two handles of the resulting list share a sector.
Consequently the property holds after every sequence of calls of `inode.c`
that starts from the empty list. -/
theorem inode_open_deduplicates (s : Kernel) (open_inodes : List inode) (sector : Nat)
    (hnd : (open_inodes.map inode.sector).Nodup) :
    (∀ k ino, open_inodes.get? k = some ino → ino.sector = sector → ino.open_cnt < INT_MAX →
      inode_open s open_inodes sector =
        Except.ok (k, open_inodes.set k { ino with open_cnt := ino.open_cnt + 1 }, s)) ∧
    ((∀ ino ∈ open_inodes, ino.sector ≠ sector) →
      ∃ s1, inode_open s open_inodes sector =
        Except.ok (0,
          { sector := sector, open_cnt := 1, removed := false, deny_write_cnt := 0,
            data := inode_disk_of_sector (s.fs_device sector) } :: open_inodes, s1)) ∧
    (∀ k l1 s1, inode_open s open_inodes sector = Except.ok (k, l1, s1) →
      (l1.map inode.sector).Nodup) ∧
    (∀ calls s0 l1 s1, inode_run s0 [] calls = Except.ok (l1, s1) →
      (l1.map inode.sector).Nodup) :=
  ⟨fun _ _ hk hs hc => inode_open_hit hnd hk hs hc,
   fun h => ⟨_, inode_open_miss h⟩,
   fun _ _ _ h => inode_open_nodup hnd h,
   fun calls s0 l1 s1 h => inode_run_nodup calls s0 s1 [] l1 List.nodup_nil h⟩

/-- Claim C19.  Opening a sector that has no handle twice yields one handle
with `open_cnt = 2`.  On a handle with `open_cnt >= 2`, `inode_close` lowers
`open_cnt` by exactly 1, keeps the handle in the list and leaves the kernel
state, hence the free map, as it was, whether or not `removed` is set.  A
close that returns leaves the kernel state as it was unless it brings
`open_cnt` from 1 to 0 on a handle whose `removed` flag is set. -/
theorem inode_close_reference_count (s : Kernel) (open_inodes : List inode) :
    (∀ sector, (∀ ino ∈ open_inodes, ino.sector ≠ sector) →
      ∃ h s1, inode_open s open_inodes sector = Except.ok (0, h :: open_inodes, s1) ∧
        h.open_cnt = 1 ∧
        inode_open s1 (h :: open_inodes) sector =
          Except.ok (0, { h with open_cnt := 2 } :: open_inodes, s1)) ∧
    (∀ k ino, open_inodes.get? k = some ino → 2 ≤ ino.open_cnt →
      inode_close s open_inodes (some k) =
        Except.ok (open_inodes.set k { ino with open_cnt := ino.open_cnt - 1 }, s)) ∧
    (∀ k ino l1 s1, open_inodes.get? k = some ino →
      inode_close s open_inodes (some k) = Except.ok (l1, s1) →
      (ino.open_cnt ≠ 1 ∨ ino.removed = false) → s1 = s) := by
  refine ⟨?_, ?_, ?_⟩
  · intro sector h
    refine ⟨_, _, inode_open_miss h, rfl, ?_⟩
    unfold inode_open
    simp [open_lookup, inode_reopen, INT_MAX]
  · intro k ino hk h2
    unfold inode_close
    simp only [hk]
    rw [if_neg (by omega), if_neg (by omega)]
  · intro k ino l1 s1 hk h hor
    unfold inode_close at h
    simp only [hk] at h
    split at h
    · cases h
    · split at h
      · rename_i h0
        have h1 : ino.open_cnt = 1 := by omega
        rcases hor with hor | hor
        · exact absurd h1 hor
        · simp only [hor] at h
          injection h with h
          simp only [Prod.mk.injEq] at h
          exact h.2.symm
      · injection h with h
        simp only [Prod.mk.injEq] at h
        exact h.2.symm

/-- Claim C20, evaluated.  On the sample device, a file of 100 bytes created
at sector 1 owns one data sector, sector 2 (`index_to_sector (inode, 0)`).
After `inode_remove` the last `inode_close` unlinks the handle and releases
sector 1, but sector 2 stays marked in use in the free map: the loop runs
over `byte_to_index (length) = 0` indices. -/
theorem inode_close_partial_sector :
    close_outcome (create_remove_close boot_kernel 1 100) =
      some (2, 0, [true, false, true] ++ List.replicate 61 false) := by
  decide

theorem inode_open_deduplicates_witness :
    ([empty_inode].map inode.sector).Nodup ∧
    inode_open boot_kernel [empty_inode] 1 =
      Except.ok (0, [empty_inode].set 0 { empty_inode with open_cnt := empty_inode.open_cnt + 1 },
        boot_kernel) :=
  ⟨by decide,
   (inode_open_deduplicates boot_kernel [empty_inode] 1 (by decide)).1 0 empty_inode rfl rfl
     (by decide)⟩

theorem inode_close_reference_count_witness :
    inode_close boot_kernel [{ empty_inode with open_cnt := 2, removed := true }] (some 0) =
      Except.ok
        ([{ empty_inode with open_cnt := 2, removed := true }].set 0
          { ({ empty_inode with open_cnt := 2, removed := true } : inode) with
            open_cnt := ({ empty_inode with open_cnt := 2, removed := true } : inode).open_cnt - 1 },
         boot_kernel) :=
  (inode_close_reference_count boot_kernel
    [{ empty_inode with open_cnt := 2, removed := true }]).2.1 0
    { empty_inode with open_cnt := 2, removed := true } rfl (by decide)

theorem byte_to_sector_logical_miss_witness :
    byte_to_sector boot_kernel empty_inode 5 false =
      Except.ok (4294967295, empty_inode, boot_kernel) ∧
    byte_to_sector grown_kernel grown_inode 100 true =
      match index_to_sector grown_kernel grown_inode ((100 : Int) / 512).toNat with
      | Except.error f => Except.error f
      | Except.ok (sector, s1) => Except.ok (sector, grown_inode, s1) :=
  ⟨(byte_to_sector_logical_miss boot_kernel empty_inode 5).1 (by decide),
   ((byte_to_sector_logical_miss grown_kernel grown_inode 100).2 (by decide) (by decide)
     (by decide) true).1⟩

theorem inode_write_at_denied_witness :
    inode_write_at boot_kernel { empty_inode with deny_write_cnt := 1 } [1, 2, 3] 3 0 =
      Except.ok (0, { empty_inode with deny_write_cnt := 1 }, boot_kernel) :=
  (inode_write_at_denied boot_kernel { empty_inode with deny_write_cnt := 1 } [1, 2, 3] 3 0
    (by decide)).1

/-! ## Resolving an index in a well-formed cache -/

theorem index_to_sector_ok {s : Kernel} (ino : inode) {idx : Nat} {B : Int} (hwf : cache_wf s)
    (hco : cache_coherent s) (hB : counts_le s B) (h0 : 0 ≤ B) (hlt : B + 1 < INT_MAX)
    (hidx : idx < 16608) :
    ∃ s1, index_to_sector s ino idx = Except.ok (sector_at (cache_view s) ino.data idx, s1) ∧
      cache_keeps 2 s s1 := by
  unfold index_to_sector sector_at
  by_cases h1 : idx < 96
  · simp only [h1, if_true]
    exact ⟨s, rfl, cache_keeps_mono (cache_keeps_refl hwf hco) (by omega)⟩
  · by_cases h2 : idx < 224
    · have h2a : idx < 96 + 128 := by omega
      obtain ⟨s1, hr, k1⟩ := cache_read_from_buf_ok ino.data.indirect hwf hco hB h0 (by omega)
      simp only [h1, h2, h2a, if_false, if_true, hr]
      exact ⟨s1, rfl, cache_keeps_mono k1 (by omega)⟩
    · have h2a : ¬ idx < 96 + 128 := by omega
      have h3 : idx < 96 + 128 + 128 * 128 := by omega
      obtain ⟨s1, hr1, k1⟩ :=
        cache_read_from_buf_ok ino.data.double_indirect hwf hco hB h0 (by omega)
      have hB1 := k1.counts B h0 hB
      obtain ⟨s2, hr2, k2⟩ := cache_read_from_buf_ok
        (indirect_data (cache_view s ino.data.double_indirect) ((idx - 224) / 128))
        k1.wf k1.coherent hB1 (by omega) (by simpa using hlt)
      rw [k1.view] at hr2
      have e1 : idx - 96 - 128 = idx - 224 := by omega
      simp only [h1, h2, h2a, h3, if_false, if_true, hr1, e1, hr2]
      exact ⟨s2, rfl, cache_keeps_trans k1 k2⟩

theorem index_to_sector_keeps {s s1 : Kernel} {ino : inode} {idx sector : Nat} (hwf : cache_wf s)
    (hco : cache_coherent s) (h : index_to_sector s ino idx = Except.ok (sector, s1)) :
    cache_keeps 2 s s1 ∧ sector = sector_at (cache_view s) ino.data idx ∧ idx < 16608 := by
  unfold index_to_sector at h
  unfold sector_at
  split at h
  · rename_i h1
    injection h with h
    simp only [Prod.mk.injEq] at h
    rw [← h.1, ← h.2, if_pos h1]
    exact ⟨cache_keeps_mono (cache_keeps_refl hwf hco) (by omega), rfl, by omega⟩
  · rename_i h1
    split at h
    · rename_i h2
      cases hr : cache_read_from_buf s ino.data.indirect with
      | error f => simp [hr] at h
      | ok p =>
        obtain ⟨b, s2⟩ := p
        simp only [hr] at h
        injection h with h
        simp only [Prod.mk.injEq] at h
        obtain ⟨k1, hb⟩ := cache_read_from_buf_keeps hwf hco hr
        rw [← h.1, ← h.2, if_neg h1, if_pos (by omega), hb]
        exact ⟨cache_keeps_mono k1 (by omega), rfl, by omega⟩
    · rename_i h2
      split at h
      · rename_i h3
        cases hr : cache_read_from_buf s ino.data.double_indirect with
        | error f => simp [hr] at h
        | ok p =>
          obtain ⟨b, s2⟩ := p
          simp only [hr] at h
          obtain ⟨k1, hb⟩ := cache_read_from_buf_keeps hwf hco hr
          cases hr2 : cache_read_from_buf s2 (indirect_data b ((idx - 96 - 128) / 128)) with
          | error f => simp [hr2] at h
          | ok q =>
            obtain ⟨b2, s3⟩ := q
            simp only [hr2] at h
            injection h with h
            simp only [Prod.mk.injEq] at h
            obtain ⟨k2, hb2⟩ := cache_read_from_buf_keeps k1.wf k1.coherent hr2
            have e1 : idx - 96 - 128 = idx - 224 := by omega
            rw [← h.1, ← h.2, if_neg h1, if_neg (by omega), hb2, k1.view, hb, e1]
            exact ⟨cache_keeps_trans k1 k2, rfl, by omega⟩
      · cases h

/-! ## The loop of `inode_read_at` -/

theorem int_ite_lt_eq_min (x c : Int) : (if x < c then x else c) = min x c := by
  split <;> omega

theorem chunk_size_eq {length size offset : Int} (h0 : 0 ≤ offset) :
    chunk_size length size offset = min size (min (length - offset) (512 - offset % 512)) := by
  unfold chunk_size
  simp only [int_ite_lt_eq_min]
  rw [Int.tmod_eq_emod h0 (by decide)]

theorem inode_read_at_loop_ok (ino : inode) (fuel : Nat) :
    ∀ (s : Kernel) (size offset bytes_read : Int) (buffer : List Byte) (B : Int),
      cache_wf s → cache_coherent s → counts_le s B → 0 ≤ B → B + 3 * fuel < INT_MAX →
      ino.data.length ≤ 8503296 → 0 ≤ offset → size ≤ fuel →
      ∃ s1, inode_read_at_loop fuel s ino size offset bytes_read buffer =
          Except.ok (bytes_read + max (min size (ino.data.length - offset)) 0,
            buffer ++ read_bytes (cache_view s) ino.data fuel size offset, ino, s1) ∧
        cache_keeps (3 * fuel) s s1 := by
  induction fuel with
  | zero =>
    intro s size offset bytes_read buffer B hwf hco hB h0 hlt hL hoff hsize
    refine ⟨s, ?_, cache_keeps_refl hwf hco⟩
    simp only [inode_read_at_loop, read_bytes, List.append_nil]
    have : max (min size (ino.data.length - offset)) 0 = 0 := by
      simp only [Nat.cast_zero] at hsize
      omega
    rw [this, add_zero]
  | succ fuel ih =>
    intro s size offset bytes_read buffer B hwf hco hB h0 hlt hL hoff hsize
    simp only [inode_read_at_loop, read_bytes]
    by_cases hs : 0 < size
    · simp only [hs, if_true, byte_to_sector_false, inode_length]
      by_cases hp : offset < ino.data.length
      · have hidx : byte_to_index offset < 16608 := by
          rw [byte_to_index_nonneg hoff (by unfold INT_MAX; omega)]
          omega
        obtain ⟨s1, h1, k1⟩ := index_to_sector_ok ino hwf hco hB h0
          (by push_cast at hlt; omega) hidx
        simp only [hp, if_true, h1]
        have hchunk := @chunk_size_eq ino.data.length size offset hoff
        have hpos : ¬ chunk_size ino.data.length size offset ≤ 0 := by
          rw [hchunk]; omega
        simp only [hpos, if_false]
        have hB1 := k1.counts B h0 hB
        obtain ⟨e, s2, h2, k2, -, hbuf⟩ := cache_load_ok
          (sector_at (cache_view s) ino.data (byte_to_index offset)) k1.wf k1.coherent hB1
          (by omega) (by push_cast at hlt ⊢; omega)
        have hofs : ¬ Int.tmod offset 512 < 0 := by
          rw [Int.tmod_eq_emod hoff (by decide)]; omega
        simp only [h2, hofs, if_false]
        have k12 := cache_keeps_trans k1 k2
        have hB2 := k12.counts B h0 hB
        obtain ⟨s3, h3, k3⟩ := ih s2 (size - chunk_size ino.data.length size offset)
          (offset + chunk_size ino.data.length size offset)
          (bytes_read + chunk_size ino.data.length size offset)
          (buffer ++ (e.buf.drop (Int.tmod offset 512).toNat).take
            (chunk_size ino.data.length size offset).toNat)
          (B + ((2 + 1 : Nat) : Int)) k12.wf k12.coherent hB2 (by omega)
          (by push_cast at hlt ⊢; omega) hL (by rw [hchunk]; omega)
          (by rw [hchunk]; push_cast at hsize; omega)
        refine ⟨s3, ?_, ?_⟩
        · rw [h3]
          have hview : cache_view s2 = cache_view s := funext k12.view
          rw [hview, hbuf, k1.view, List.append_assoc]
          congr 2
          rw [hchunk]
          omega
        · have := cache_keeps_trans k12 k3
          exact cache_keeps_mono this (by omega)
      · simp only [hp, if_false]
        have hneg : chunk_size ino.data.length size offset ≤ 0 := by
          rw [chunk_size_eq hoff]; omega
        simp only [hneg, if_true, List.append_nil]
        refine ⟨s, ?_, cache_keeps_mono (cache_keeps_refl hwf hco) (by omega)⟩
        have : max (min size (ino.data.length - offset)) 0 = 0 := by omega
        rw [this, add_zero]
    · simp only [hs, if_false, List.append_nil]
      refine ⟨s, ?_, cache_keeps_mono (cache_keeps_refl hwf hco) (by omega)⟩
      have : max (min size (ino.data.length - offset)) 0 = 0 := by omega
      rw [this, add_zero]

theorem counts_le_init (k : Kernel) (B : Int) : counts_le (cache_init k) B :=
  fun e he => absurd he (List.not_mem_nil e)

/-! ## C12: short read -/

theorem first_free_spec {fm : List Bool} {x : Nat} (h : first_free fm = some x) :
    x < fm.length ∧ fm.getD x false = false := by
  induction fm generalizing x with
  | nil => simp [first_free] at h
  | cons b rest ih =>
    unfold first_free at h
    by_cases hb : b = false
    · simp only [hb, if_true, Option.some.injEq] at h
      subst h
      simp [hb]
    · simp only [hb, if_false] at h
      cases hr : first_free rest with
      | none => simp [hr] at h
      | some j =>
        simp only [hr, Option.map_some', Option.some.injEq, Bool.true_eq_false, if_false] at h
        subst h
        have := ih hr
        simp only [List.length_cons, List.getD_cons_succ]
        exact ⟨by omega, this.2⟩

theorem allocated_set {fm : List Bool} {x y : Nat} :
    allocated (fm.set x true) y ↔ (allocated fm y ∨ (y = x ∧ x < fm.length)) := by
  unfold allocated
  rw [List.getD_eq_getElem?_getD, List.getD_eq_getElem?_getD, List.getElem?_set]
  by_cases hxy : x = y
  · subst hxy
    by_cases hx : x < fm.length
    · simp [hx]
    · simp only [hx, if_false]
      rw [List.getElem?_eq_none (by omega)]
      simp
  · simp [hxy]
    intro h
    exact absurd h.symm hxy

theorem allocs_nil (fm : List Bool) : allocs fm fm [] :=
  ⟨List.nodup_nil, fun _ h => absurd h (List.not_mem_nil _),
    fun _ h => absurd h (List.not_mem_nil _), fun y => by simp, rfl⟩

theorem allocs_single {fm : List Bool} {x : Nat} (h : first_free fm = some x) :
    allocs fm (fm.set x true) [x] := by
  obtain ⟨h1, h2⟩ := first_free_spec h
  refine ⟨List.nodup_singleton x, ?_, ?_, ?_, by simp⟩
  · intro y hy
    rw [List.mem_singleton] at hy
    subst hy
    unfold allocated
    rw [h2]
    decide
  · intro y hy
    rw [List.mem_singleton] at hy
    subst hy
    exact h1
  · intro y
    rw [allocated_set, List.mem_singleton]
    constructor
    · rintro (h | ⟨h, -⟩)
      · exact Or.inl h
      · exact Or.inr h
    · rintro (h | h)
      · exact Or.inl h
      · exact Or.inr ⟨h, h1⟩

theorem allocs_trans {fm fm1 fm2 : List Bool} {xs ys : List Nat} (h1 : allocs fm fm1 xs)
    (h2 : allocs fm1 fm2 ys) : allocs fm fm2 (xs ++ ys) := by
  refine ⟨?_, ?_, ?_, ?_, h2.length.trans h1.length⟩
  · rw [List.nodup_append]
    refine ⟨h1.nodup, h2.nodup, ?_⟩
    intro a ha hb
    exact h2.fresh a hb ((h1.bits a).mpr (Or.inr ha))
  · intro x hx
    rcases List.mem_append.mp hx with h | h
    · exact h1.fresh x h
    · intro ha
      exact h2.fresh x h ((h1.bits x).mpr (Or.inl ha))
  · intro x hx
    rcases List.mem_append.mp hx with h | h
    · exact h1.lt x h
    · rw [← h1.length]
      exact h2.lt x h
  · intro y
    rw [h2.bits, h1.bits, List.mem_append]
    tauto

theorem allocs_mono {fm fm1 : List Bool} {xs : List Nat} (h : allocs fm fm1 xs) {y : Nat}
    (hy : allocated fm y) : allocated fm1 y :=
  (h.bits y).mpr (Or.inl hy)

theorem allocs_not_mem {fm fm1 : List Bool} {xs : List Nat} (h : allocs fm fm1 xs) {y : Nat}
    (hy : allocated fm y) : y ∉ xs :=
  fun hm => h.fresh y hm hy

theorem allocs_lt {fm fm1 : List Bool} {xs : List Nat} (h : allocs fm fm1 xs)
    (hfm : fm.length ≤ 4294967296) : ∀ x ∈ xs, x < 4294967296 :=
  fun x hx => lt_of_lt_of_le (h.lt x hx) hfm

/-! ## Filling a table -/

theorem fill_length (xs : List Nat) : ∀ (table : List Nat) (i : Nat),
    (fill table i xs).length = table.length := by
  induction xs with
  | nil => intro table i; rfl
  | cons x xs ih =>
    intro table i
    simp only [fill]
    rw [ih, List.length_set]

theorem getD_set (table : List Nat) (i j x : Nat) :
    (table.set i x).getD j 0 = if i = j ∧ j < table.length then x else table.getD j 0 := by
  rw [List.getD_eq_getElem?_getD, List.getD_eq_getElem?_getD, List.getElem?_set]
  by_cases hij : i = j
  · subst hij
    by_cases hi : i < table.length
    · simp [hi]
    · simp only [hi, if_false, and_false]
      rw [List.getElem?_eq_none (by omega)]
      rfl
  · simp [hij]

theorem fill_getD (xs : List Nat) : ∀ (table : List Nat) (i j : Nat),
    (fill table i xs).getD j 0 =
      if i ≤ j ∧ j < i + xs.length ∧ j < table.length then xs.getD (j - i) 0
      else table.getD j 0 := by
  induction xs with
  | nil =>
    intro table i j
    simp only [fill, List.length_nil, add_zero]
    rw [if_neg (by omega)]
  | cons x xs ih =>
    intro table i j
    simp only [fill, List.length_cons]
    rw [ih, List.length_set, getD_set]
    by_cases h1 : i + 1 ≤ j ∧ j < i + 1 + xs.length ∧ j < table.length
    · rw [if_pos h1, if_pos (by omega)]
      obtain ⟨k, hk⟩ : ∃ k, j - i = k + 1 := ⟨j - i - 1, by omega⟩
      rw [hk, List.getD_cons_succ]
      congr 1
      omega
    · rw [if_neg h1]
      by_cases h2 : i = j ∧ j < table.length
      · rw [if_pos h2, if_pos (by omega)]
        obtain ⟨rfl, -⟩ := h2
        simp
      · rw [if_neg h2, if_neg (by omega)]

/-! ## The allocation loop -/

theorem free_map_allocate_spec {s s1 : Kernel} {x : Nat}
    (h : free_map_allocate s = some (x, s1)) :
    first_free s.free_map = some x ∧ s1 = { s with free_map := s.free_map.set x true } := by
  unfold free_map_allocate at h
  split at h
  · cases h
  · rename_i y hy
    injection h with h
    simp only [Prod.mk.injEq] at h
    rw [← h.1, ← h.2]
    exact ⟨hy, rfl⟩

theorem cache_grows_refl {s : Kernel} (hwf : cache_wf s) (hco : cache_coherent s) :
    cache_grows 0 s s :=
  ⟨hwf, hco, fun _ _ h => by simpa using h⟩

theorem cache_grows_trans {k1 k2 : Nat} {s s1 s2 : Kernel} (h1 : cache_grows k1 s s1)
    (h2 : cache_grows k2 s1 s2) : cache_grows (k1 + k2) s s2 :=
  ⟨h2.wf, h2.coherent, fun n hn h => by
    have h3 := h2.counts (n + k1) (by omega) (h1.counts n hn h)
    rw [Nat.cast_add, ← add_assoc]
    exact h3⟩

theorem cache_grows_mono {k1 k2 : Nat} {s s1 : Kernel} (h : cache_grows k1 s s1)
    (hk : k1 ≤ k2) : cache_grows k2 s s1 :=
  ⟨h.wf, h.coherent, fun n hn hc => counts_le_mono (h.counts n hn hc) (by omega)⟩

theorem cache_grows_of_keeps {k : Nat} {s s1 : Kernel} (h : cache_keeps k s s1) :
    cache_grows k s s1 :=
  ⟨h.wf, h.coherent, h.counts⟩

theorem cache_grows_of_puts {S : Nat} {buf : Sector} {s s1 : Kernel}
    (h : cache_puts S buf s s1) : cache_grows 1 s s1 :=
  ⟨h.wf, h.coherent, h.counts⟩

theorem cache_grows_free_map {s : Kernel} (fm : List Bool) (hwf : cache_wf s)
    (hco : cache_coherent s) :
    cache_grows 0 s { s with free_map := fm } ∧
      ∀ T, cache_view { s with free_map := fm } T = cache_view s T :=
  ⟨⟨⟨hwf.slot_lt, hwf.slot_used, hwf.used_slot, hwf.slot_nodup, hwf.sector_nodup⟩, hco,
    fun _ _ h => by simpa using h⟩, fun _ => rfl⟩

theorem alloc_loop_grows (n : Nat) : ∀ (i : Nat) (table : List Nat) (sectors : Nat)
    (s : Kernel) (r : List Nat × Nat × Kernel), cache_wf s → cache_coherent s →
    alloc_loop n i table sectors s = Except.ok r →
    ∃ xs : List Nat, xs.length = n ∧ r.1 = fill table i xs ∧ r.2.1 = sectors - n ∧
      allocs s.free_map r.2.2.free_map xs ∧ cache_grows n s r.2.2 ∧
      ∀ T, cache_view r.2.2 T = if T ∈ xs then zeros else cache_view s T := by
  induction n with
  | zero =>
    intro i table sectors s r hwf hco h
    simp only [alloc_loop] at h
    injection h with h
    rw [← h]
    exact ⟨[], rfl, rfl, rfl, allocs_nil _, cache_grows_refl hwf hco, fun T => by simp⟩
  | succ n ih =>
    intro i table sectors s r hwf hco h
    simp only [alloc_loop] at h
    cases h1 : free_map_allocate s with
    | none => simp [h1] at h
    | some p =>
      obtain ⟨x, s1⟩ := p
      simp only [h1] at h
      obtain ⟨hx, rfl⟩ := free_map_allocate_spec h1
      obtain ⟨g1, v1⟩ := cache_grows_free_map (s.free_map.set x true) hwf hco
      cases h2 : cache_write_from_buf { s with free_map := s.free_map.set x true } x zeros with
      | error f => simp [h2] at h
      | ok s2 =>
        simp only [h2] at h
        have p2 := cache_write_from_buf_keeps g1.wf g1.coherent h2
        obtain ⟨xs, hlen, ht, hs, ha, hg, hv⟩ := ih _ _ _ _ _ p2.wf p2.coherent h
        refine ⟨x :: xs, by simp [hlen], ?_, ?_, ?_, ?_, ?_⟩
        · rw [ht]; rfl
        · rw [hs]; omega
        · have a1 : allocs s.free_map s2.free_map [x] := by
            rw [p2.free_map]
            exact allocs_single hx
          exact allocs_trans a1 ha
        · have := cache_grows_trans (cache_grows_trans g1 (cache_grows_of_puts p2)) hg
          exact cache_grows_mono this (by omega)
        · intro T
          rw [hv T, p2.view T, v1 T]
          by_cases hT : T ∈ xs
          · simp [hT]
          · by_cases hTx : T = x
            · simp [hTx]
            · simp [hT, hTx]

/-! ## Filling one indirect block -/

theorem indirect_block_alloc_grows {s : Kernel} {old sectors idx_ofs : Nat}
    {r : Nat × Nat × Kernel} (hwf : cache_wf s) (hco : cache_coherent s)
    (hold : idx_ofs ≠ 0 → allocated s.free_map old) (hlt : idx_ofs + sectors < 4294967296)
    (h : indirect_block_alloc s old sectors idx_ofs = Except.ok r) :
    ∃ xs : List Nat, xs.length = min (idx_ofs + sectors) 128 - idx_ofs ∧
      r.2.1 = sectors - xs.length ∧ (idx_ofs ≠ 0 → r.1 = old) ∧
      allocs s.free_map r.2.2.free_map (if idx_ofs = 0 then xs ++ [r.1] else xs) ∧
      r.1 ∉ xs ∧ cache_grows (xs.length + 2) s r.2.2 ∧
      ∀ T, cache_view r.2.2 T =
        if T = r.1 then
          sector_of_indirect_disk
            (fill (if idx_ofs ≠ 0 then indirect_disk_of_sector (cache_view s old)
              else indirect_disk_zero) idx_ofs xs)
        else if T ∈ xs then zeros else cache_view s T := by
  unfold indirect_block_alloc at h
  have hmod : (idx_ofs + sectors) % 4294967296 = idx_ofs + sectors := Nat.mod_eq_of_lt hlt
  simp only [indirect_alloc, hmod, ite_lt_eq_min] at h
  by_cases hz : idx_ofs = 0
  · subst hz
    simp only [ne_eq, not_true_eq_false, if_false, if_true, Nat.zero_add, Nat.sub_zero] at h ⊢
    cases h2 : alloc_loop (min sectors 128) 0 indirect_disk_zero sectors s with
    | error f => simp [h2] at h
    | ok p =>
      obtain ⟨disk, n2, s2⟩ := p
      simp only [h2] at h
      obtain ⟨xs, hlen, ht, hs, ha, hg, hv⟩ := alloc_loop_grows _ _ _ _ _ _ hwf hco h2
      simp only at ht hs ha hg hv
      cases h3 : free_map_allocate s2 with
      | none => simp [h3] at h
      | some q =>
        obtain ⟨blk, s3⟩ := q
        simp only [h3] at h
        obtain ⟨hx, rfl⟩ := free_map_allocate_spec h3
        obtain ⟨g3, v3⟩ := cache_grows_free_map (s2.free_map.set blk true) hg.wf hg.coherent
        cases h4 : cache_write_from_buf { s2 with free_map := s2.free_map.set blk true } blk
            (sector_of_indirect_disk disk) with
        | error f => simp [h4] at h
        | ok s4 =>
          simp only [h4] at h
          injection h with h
          rw [← h]
          have p4 := cache_write_from_buf_keeps g3.wf g3.coherent h4
          have a3 : allocs s2.free_map s4.free_map [blk] := by
            rw [p4.free_map]
            exact allocs_single hx
          have hall := allocs_trans ha a3
          refine ⟨xs, hlen, by rw [hs, hlen], fun h0 => h0.elim, hall, ?_, ?_, ?_⟩
          · intro hm
            have := (List.nodup_append.mp hall.nodup).2.2
            exact this hm (List.mem_singleton_self blk)
          · have := cache_grows_trans (cache_grows_trans hg g3) (cache_grows_of_puts p4)
            exact cache_grows_mono this (by omega)
          · intro T
            show cache_view s4 T = _
            rw [p4.view T, v3 T, hv T, ht]
  · simp only [ne_eq, hz, not_false_eq_true, if_true, if_false] at h ⊢
    cases h1 : cache_read_from_buf s old with
    | error f => simp [h1] at h
    | ok p1 =>
      obtain ⟨b, s1⟩ := p1
      simp only [h1] at h
      obtain ⟨k1, hb⟩ := cache_read_from_buf_keeps hwf hco h1
      cases h2 : alloc_loop (min (idx_ofs + sectors) 128 - idx_ofs) idx_ofs
          (indirect_disk_of_sector b) sectors s1 with
      | error f => simp [h2] at h
      | ok p =>
        obtain ⟨disk, n2, s2⟩ := p
        simp only [h2] at h
        obtain ⟨xs, hlen, ht, hs, ha, hg, hv⟩ :=
          alloc_loop_grows _ _ _ _ _ _ k1.wf k1.coherent h2
        simp only at ht hs ha hg hv
        rw [k1.free_map] at ha
        cases h4 : cache_write_from_buf s2 old (sector_of_indirect_disk disk) with
        | error f => simp [h4] at h
        | ok s4 =>
          simp only [h4] at h
          injection h with h
          rw [← h]
          have p4 := cache_write_from_buf_keeps hg.wf hg.coherent h4
          refine ⟨xs, hlen, by rw [hs, hlen], fun _ => rfl, ?_, ?_, ?_, ?_⟩
          · show allocs s.free_map s4.free_map xs
            rw [p4.free_map]
            exact ha
          · exact allocs_not_mem ha (hold hz)
          · have := cache_grows_trans (cache_grows_trans (cache_grows_of_keeps k1) hg)
              (cache_grows_of_puts p4)
            exact cache_grows_mono this (by omega)
          · intro T
            show cache_view s4 T = _
            rw [p4.view T, hv T, k1.view T, ht, hb]

/-! ## Growth of an inode, seen through the cache -/

theorem getD_mem_of_lt {l : List Nat} {i : Nat} (h : i < l.length) : l.getD i 0 ∈ l := by
  rw [List.getD_eq_getElem _ _ h]
  exact List.getElem_mem h

theorem mem_getD {l : List Nat} {x : Nat} (h : x ∈ l) : ∃ i, i < l.length ∧ l.getD i 0 = x := by
  obtain ⟨i, hi, rfl⟩ := List.getElem_of_mem h
  exact ⟨i, hi, List.getD_eq_getElem _ _ hi⟩

theorem nodup_getD_inj {l : List Nat} (hnd : l.Nodup) {i j : Nat} (hi : i < l.length)
    (hj : j < l.length) (h : l.getD i 0 = l.getD j 0) : i = j := by
  rw [List.getD_eq_getElem _ _ hi, List.getD_eq_getElem _ _ hj] at h
  exact (List.Nodup.getElem_inj_iff hnd).mp h

theorem inode_owns_grown {view view1 : Nat → Sector} {fm fm1 : List Bool} {d d1 : inode_disk}
    {e a : Nat} {xs data : List Nat} (ho : inode_owns view fm d e)
    (hg : inode_grown view view1 fm fm1 d d1 e a xs data) :
    inode_owns view1 fm1 d1 (e + a) := by
  have hnew : ∀ i, e ≤ i → i < e + a → sector_at view1 d1 i ∈ data := by
    intro i h1 h2
    rw [hg.new i h1 h2]
    exact getD_mem_of_lt (by rw [hg.data_len]; omega)
  refine ⟨hg.direct_length.trans ho.direct_length, ?_, ?_, ?_, ?_, hg.struct_ne⟩
  · intro i hi
    by_cases h : i < e
    · rw [hg.old i h]
      exact allocs_mono hg.allocs (ho.data_alloc i h)
    · exact (hg.allocs.bits _).mpr (Or.inr (hg.data_sub _ (hnew i (by omega) hi)))
  · intro i j hi hj hij
    by_cases h1 : i < e
    · by_cases h2 : j < e
      · rw [hg.old i h1, hg.old j h2] at hij
        exact ho.data_inj i j h1 h2 hij
      · exfalso
        have hm := hg.data_sub _ (hnew j (by omega) hj)
        rw [← hij, hg.old i h1] at hm
        exact hg.allocs.fresh _ hm (ho.data_alloc i h1)
    · by_cases h2 : j < e
      · exfalso
        have hm := hg.data_sub _ (hnew i (by omega) hi)
        rw [hij, hg.old j h2] at hm
        exact hg.allocs.fresh _ hm (ho.data_alloc j h2)
      · rw [hg.new i (by omega) hi, hg.new j (by omega) hj] at hij
        have := nodup_getD_inj hg.data_nodup (by rw [hg.data_len]; omega)
          (by rw [hg.data_len]; omega) hij
        omega
  · intro T hT
    rcases hg.struct T hT with ⟨h, -⟩ | h
    · exact (hg.allocs.bits _).mpr (Or.inr h)
    · exact allocs_mono hg.allocs (ho.struct_alloc T h)
  · intro i hi hT
    by_cases h1 : i < e
    · rcases hg.struct _ hT with ⟨h, -⟩ | h
      · rw [hg.old i h1] at h
        exact hg.allocs.fresh _ h (ho.data_alloc i h1)
      · rw [hg.old i h1] at h
        exact ho.data_ne_struct i h1 h
    · have hm := hnew i (by omega) hi
      rcases hg.struct _ hT with ⟨-, h⟩ | h
      · exact h hm
      · exact hg.allocs.fresh _ (hg.data_sub _ hm) (ho.struct_alloc _ h)

theorem inode_grown_trans {v0 v1 v2 : Nat → Sector} {fm0 fm1 fm2 : List Bool}
    {d0 d1 d2 : inode_disk} {e a1 a2 : Nat} {xs1 xs2 data1 data2 : List Nat}
    (ho : inode_owns v0 fm0 d0 e)
    (h1 : inode_grown v0 v1 fm0 fm1 d0 d1 e a1 xs1 data1)
    (h2 : inode_grown v1 v2 fm1 fm2 d1 d2 (e + a1) a2 xs2 data2) :
    inode_grown v0 v2 fm0 fm2 d0 d2 e (a1 + a2) (xs1 ++ xs2) (data1 ++ data2) := by
  have ho1 := inode_owns_grown ho h1
  have hdisj : ∀ x, x ∈ xs1 → x ∉ xs2 := fun x hx hx2 =>
    h2.allocs.fresh x hx2 ((h1.allocs.bits x).mpr (Or.inr hx))
  refine ⟨allocs_trans h1.allocs h2.allocs, h2.direct_length.trans h1.direct_length, ?_,
    by rw [List.length_append, h1.data_len, h2.data_len], ?_, ?_, ?_, ?_, ?_, ?_, ?_⟩
  · intro i hi
    rw [h2.old i (by omega), h1.old i hi]
  · rw [List.nodup_append]
    refine ⟨h1.data_nodup, h2.data_nodup, ?_⟩
    intro x hx1 hx2
    exact hdisj x (h1.data_sub x hx1) (h2.data_sub x hx2)
  · intro x hx
    rcases List.mem_append.mp hx with h | h
    · exact List.mem_append_left _ (h1.data_sub x h)
    · exact List.mem_append_right _ (h2.data_sub x h)
  · intro i hi1 hi2
    by_cases h : i < e + a1
    · rw [h2.old i h, h1.new i hi1 h, List.getD_append _ _ _ _ (by rw [h1.data_len]; omega)]
    · rw [h2.new i (by omega) (by omega),
        List.getD_append_right _ _ _ _ (by rw [h1.data_len]; omega), h1.data_len]
      congr 1
      omega
  · intro x hx
    rcases List.mem_append.mp hx with h | h
    · obtain ⟨j, hj, hjx⟩ := mem_getD h
      rw [h1.data_len] at hj
      have hs : sector_at v1 d1 (e + j) = x := by
        rw [h1.new (e + j) (by omega) (by omega), show e + j - e = j by omega, hjx]
      rw [h2.frame x (hdisj x (h1.data_sub x h)) ?_]
      · exact h1.zero x h
      · rw [← hs]
        exact ho1.data_ne_struct (e + j) (by omega)
    · exact h2.zero x h
  · intro T hT
    rw [← add_assoc] at hT
    rcases h2.struct T hT with ⟨h, hd⟩ | h
    · left
      refine ⟨List.mem_append_right _ h, ?_⟩
      intro hm
      rcases List.mem_append.mp hm with hm | hm
      · exact hdisj T (h1.data_sub T hm) h
      · exact hd hm
    · rcases h1.struct T h with ⟨h3, hd⟩ | h3
      · left
        refine ⟨List.mem_append_left _ h3, ?_⟩
        intro hm
        rcases List.mem_append.mp hm with hm | hm
        · exact hd hm
        · exact hdisj T h3 (h2.data_sub T hm)
      · exact Or.inr h3
  · rw [← add_assoc]
    exact h2.struct_ne
  · intro T hT hs
    have hT1 : T ∉ xs1 := fun h => hT (List.mem_append_left _ h)
    have hT2 : T ∉ xs2 := fun h => hT (List.mem_append_right _ h)
    rw [h2.frame T hT2 ?_, h1.frame T hT1 hs]
    intro h
    rcases h1.struct T h with ⟨h3, -⟩ | h3
    · exact hT1 h3
    · exact hs h3

theorem inode_grown_refl {view : Nat → Sector} {fm : List Bool} {d : inode_disk} {e : Nat}
    (ho : inode_owns view fm d e) : inode_grown view view fm fm d d e 0 [] [] :=
  ⟨allocs_nil fm, rfl, fun _ _ => rfl, rfl, List.nodup_nil,
    fun _ h => absurd h (List.not_mem_nil _), fun i h1 h2 => by omega,
    fun _ h => absurd h (List.not_mem_nil _), fun _ h => Or.inr h, ho.struct_ne,
    fun _ _ _ => rfl⟩

/-! ## Words of an index block -/

theorem indirect_data_lt (b : Sector) (i : Nat) : indirect_data b i < 4294967296 := by
  unfold indirect_data
  have h0 := (b.getD (4 * i) 0).isLt
  have h1 := (b.getD (4 * i + 1) 0).isLt
  have h2 := (b.getD (4 * i + 2) 0).isLt
  have h3 := (b.getD (4 * i + 3) 0).isLt
  omega

theorem indirect_disk_of_sector_length (b : Sector) : (indirect_disk_of_sector b).length = 128 := by
  simp [indirect_disk_of_sector]

theorem indirect_disk_of_sector_getD (b : Sector) {j : Nat} (hj : j < 128) :
    (indirect_disk_of_sector b).getD j 0 = indirect_data b j := by
  unfold indirect_disk_of_sector
  rw [List.getD_eq_getElem _ _ (by simpa using hj)]
  simp

theorem indirect_disk_zero_length : indirect_disk_zero.length = 128 := by
  simp [indirect_disk_zero, INDIRECT]

theorem indirect_disk_zero_getD (j : Nat) : indirect_disk_zero.getD j 0 = 0 := by
  unfold indirect_disk_zero
  rw [List.getD_eq_getElem?_getD, List.getElem?_replicate]
  split <;> rfl

theorem getD_lt_of_forall {l : List Nat} {B : Nat} (hB : 0 < B) (h : ∀ x ∈ l, x < B) (i : Nat) :
    l.getD i 0 < B := by
  by_cases hi : i < l.length
  · exact h _ (getD_mem_of_lt hi)
  · rw [List.getD_eq_default _ _ (by omega)]
    exact hB

theorem indirect_data_fill {base xs : List Nat} {i j : Nat} (hj : j < 128)
    (hbase : base.length = 128) (hb : ∀ k, base.getD k 0 < 4294967296)
    (hxs : ∀ x ∈ xs, x < 4294967296) :
    indirect_data (sector_of_indirect_disk (fill base i xs)) j =
      if i ≤ j ∧ j < i + xs.length then xs.getD (j - i) 0 else base.getD j 0 := by
  rw [indirect_data_sector_of _ hj, fill_getD, hbase]
  by_cases h : i ≤ j ∧ j < i + xs.length
  · rw [if_pos ⟨h.1, h.2, hj⟩, if_pos h]
    exact Nat.mod_eq_of_lt (getD_lt_of_forall (by decide) hxs _)
  · rw [if_neg (fun h3 => h ⟨h3.1, h3.2.1⟩), if_neg h]
    exact Nat.mod_eq_of_lt (hb j)

theorem indirect_data_set {base : List Nat} {x k : Nat} (hk : k < 128)
    (hbase : base.length = 128) (hb : ∀ k, base.getD k 0 < 4294967296) (hx : x < 4294967296) :
    indirect_data (sector_of_indirect_disk (base.set 0 x)) k =
      if k = 0 then x else base.getD k 0 := by
  rw [indirect_data_sector_of _ hk, getD_set, hbase]
  by_cases h : k = 0
  · subst h
    simp only [true_and, if_true]
    rw [if_pos (by decide)]
    exact Nat.mod_eq_of_lt hx
  · rw [if_neg (fun h3 => h h3.1.symm), if_neg h]
    exact Nat.mod_eq_of_lt (hb k)

theorem sector_at_direct {view : Nat → Sector} {d : inode_disk} {i : Nat} (h : i < 96) :
    sector_at view d i = d.direct.getD i 0 := by
  unfold sector_at
  rw [if_pos h]

theorem sector_at_indirect {view : Nat → Sector} {d : inode_disk} {i : Nat} (h1 : 96 ≤ i)
    (h2 : i < 224) : sector_at view d i = indirect_data (view d.indirect) (i - 96) := by
  unfold sector_at
  rw [if_neg (by omega), if_pos h2]

theorem sector_at_double {view : Nat → Sector} {d : inode_disk} {i : Nat} (h1 : 224 ≤ i) :
    sector_at view d i =
      indirect_data (view (indirect_data (view d.double_indirect) ((i - 224) / 128)))
        ((i - 224) % 128) := by
  unfold sector_at
  rw [if_neg (by omega), if_neg (by omega)]

/-! ## The three stages of `inode_alloc` -/

theorem inode_grown_direct {view view1 : Nat → Sector} {fm fm1 : List Bool} {d : inode_disk}
    {e : Nat} {xs : List Nat} (ho : inode_owns view fm d e) (hle : e + xs.length ≤ 96)
    (ha : allocs fm fm1 xs) (hv : ∀ T, view1 T = if T ∈ xs then zeros else view T) :
    inode_grown view view1 fm fm1 d { d with direct := fill d.direct e xs } e xs.length xs xs := by
  refine ⟨ha, fill_length _ _ _, ?_, rfl, ha.nodup, fun _ h => h, ?_, ?_, ?_, ?_, ?_⟩
  · intro i hi
    rw [sector_at_direct (by omega), sector_at_direct (by omega)]
    show (fill d.direct e xs).getD i 0 = _
    rw [fill_getD, if_neg (by omega)]
  · intro i h1 h2
    rw [sector_at_direct (by omega)]
    show (fill d.direct e xs).getD i 0 = _
    rw [fill_getD, if_pos ⟨h1, h2, by rw [ho.direct_length]; omega⟩]
  · intro x hx
    rw [hv x, if_pos hx]
  · intro T hT
    exfalso
    rcases hT with ⟨h, -⟩ | ⟨h, -⟩ | ⟨k, h, -⟩ <;> omega
  · intro h
    omega
  · intro T hT _
    rw [hv T, if_neg hT]

theorem inode_grown_indirect {view view1 : Nat → Sector} {fm fm1 : List Bool} {d : inode_disk}
    {e : Nat} {xs : List Nat} {blk : Nat} (ho : inode_owns view fm d e) (he : 96 ≤ e)
    (hfm : fm.length ≤ 4294967296)
    (hcase : e + xs.length ≤ 224 ∨ (224 ≤ e ∧ xs = []))
    (hblk : e - 96 ≠ 0 → blk = d.indirect)
    (ha : allocs fm fm1 (if e - 96 = 0 then xs ++ [blk] else xs)) (hnot : blk ∉ xs)
    (hv : ∀ T, view1 T =
      if T = blk then
        sector_of_indirect_disk
          (fill (if e - 96 ≠ 0 then indirect_disk_of_sector (view d.indirect)
            else indirect_disk_zero) (e - 96) xs)
      else if T ∈ xs then zeros else view T) :
    inode_grown view view1 fm fm1 d { d with indirect := blk } e xs.length
      (if e - 96 = 0 then xs ++ [blk] else xs) xs := by
  have hsub : ∀ x ∈ xs, x ∈ (if e - 96 = 0 then xs ++ [blk] else xs) := by
    intro x hx
    split
    · exact List.mem_append_left _ hx
    · exact hx
  have hxlt : ∀ x ∈ xs, x < 4294967296 := fun x hx => allocs_lt ha hfm x (hsub x hx)
  have hnd : xs.Nodup := by
    have := ha.nodup
    split at this
    · exact (List.nodup_append.mp this).1
    · exact this
  have hbase_len : (if e - 96 ≠ 0 then indirect_disk_of_sector (view d.indirect)
      else indirect_disk_zero).length = 128 := by
    split
    · exact indirect_disk_of_sector_length _
    · exact indirect_disk_zero_length
  have hbase_lt : ∀ k, (if e - 96 ≠ 0 then indirect_disk_of_sector (view d.indirect)
      else indirect_disk_zero).getD k 0 < 4294967296 := by
    intro k
    split
    · by_cases hk : k < 128
      · rw [indirect_disk_of_sector_getD _ hk]
        exact indirect_data_lt _ _
      · rw [List.getD_eq_default _ _ (by rw [indirect_disk_of_sector_length]; omega)]
        decide
    · rw [indirect_disk_zero_getD]
      decide
  have hword : ∀ j, j < 128 → indirect_data (view1 blk) j =
      if e - 96 ≤ j ∧ j < e - 96 + xs.length then xs.getD (j - (e - 96)) 0
      else (if e - 96 ≠ 0 then indirect_disk_of_sector (view d.indirect)
        else indirect_disk_zero).getD j 0 := by
    intro j hj
    rw [hv blk, if_pos rfl]
    exact indirect_data_fill hj hbase_len hbase_lt hxlt
  -- a sector in use before the stage, other than the indirect block, is not touched
  have hkeep : ∀ T, allocated fm T → (96 < e → T ≠ d.indirect) → view1 T = view T := by
    intro T hT hne
    have h1 : T ≠ blk := by
      intro h
      by_cases hz : e - 96 = 0
      · rw [if_pos hz] at ha
        exact ha.fresh blk (List.mem_append_right _ (List.mem_singleton_self _)) (h ▸ hT)
      · exact hne (by omega) (h.trans (hblk hz))
    have h2 : T ∉ xs := fun h => ha.fresh T (hsub T h) hT
    rw [hv T, if_neg h1, if_neg h2]
  have hdbl : 224 < e → view1 d.double_indirect = view d.double_indirect := fun h =>
    hkeep _ (ho.struct_alloc _ (Or.inr (Or.inl ⟨h, rfl⟩))) (fun _ => (ho.struct_ne h).1.symm)
  have hl2 : ∀ k, 224 + 128 * k < e →
      view1 (indirect_data (view d.double_indirect) k) =
        view (indirect_data (view d.double_indirect) k) := fun k h =>
    hkeep _ (ho.struct_alloc _ (Or.inr (Or.inr ⟨k, h, rfl⟩)))
      (fun _ => ((ho.struct_ne (by omega)).2 k h).1.symm)
  refine ⟨ha, rfl, ?_, rfl, hnd, hsub, ?_, ?_, ?_, ?_, ?_⟩
  · intro i hi
    by_cases h1 : i < 96
    · rw [sector_at_direct h1, sector_at_direct h1]
    · by_cases h2 : i < 224
      · rw [sector_at_indirect (by omega) h2, sector_at_indirect (by omega) h2]
        have hz : e - 96 ≠ 0 := by omega
        show indirect_data (view1 blk) (i - 96) = _
        rw [hword _ (by omega), if_neg (by omega), if_pos hz,
          indirect_disk_of_sector_getD _ (by omega)]
      · rw [sector_at_double (by omega), sector_at_double (by omega)]
        show indirect_data (view1 (indirect_data (view1 d.double_indirect) _)) _ = _
        rw [hdbl (by omega), hl2 _ (by omega)]
  · intro i h1 h2
    have h3 : e + xs.length ≤ 224 := by
      rcases hcase with h | ⟨-, h⟩
      · exact h
      · rw [h] at h2
        simp at h2
        omega
    rw [sector_at_indirect (by omega) (by omega)]
    show indirect_data (view1 blk) (i - 96) = _
    rw [hword _ (by omega), if_pos (by omega)]
    congr 1
    omega
  · intro x hx
    rw [hv x, if_neg (fun (h : x = blk) => hnot (h ▸ hx)), if_pos hx]
  · intro T hT
    rcases hT with ⟨h, hT⟩ | ⟨h, hT⟩ | ⟨k, h, hT⟩
    · by_cases hz : e - 96 = 0
      · left
        rw [if_pos hz, hT]
        exact ⟨List.mem_append_right _ (List.mem_singleton_self _), hnot⟩
      · right
        left
        exact ⟨by omega, hT.trans (hblk hz)⟩
    · right
      right
      left
      have : 224 < e := by
        rcases hcase with h3 | ⟨h3, h4⟩
        · omega
        · rw [h4] at h; simpa using h
      exact ⟨this, hT⟩
    · right
      right
      right
      have h5 : 224 + 128 * k < e := by
        rcases hcase with h3 | ⟨h3, h4⟩
        · omega
        · rw [h4] at h; simpa using h
      refine ⟨k, h5, ?_⟩
      rw [hT]
      show indirect_data (view1 d.double_indirect) k = _
      rw [hdbl (by omega)]
  · intro h
    have h5 : 224 < e := by
      rcases hcase with h3 | ⟨h3, h4⟩
      · omega
      · rw [h4] at h; simpa using h
    have hz : e - 96 ≠ 0 := by omega
    have hs := ho.struct_ne h5
    refine ⟨?_, ?_⟩
    · show blk ≠ d.double_indirect
      rw [hblk hz]
      exact hs.1
    · intro k hk
      have hk5 : 224 + 128 * k < e := by
        rcases hcase with h3 | ⟨h3, h4⟩
        · omega
        · rw [h4] at hk; simpa using hk
      show blk ≠ indirect_data (view1 d.double_indirect) k ∧
        d.double_indirect ≠ indirect_data (view1 d.double_indirect) k
      rw [hdbl h5, hblk hz]
      exact hs.2 k hk5
  · intro T hT hs
    have h1 : T ≠ blk := by
      intro h
      by_cases hz : e - 96 = 0
      · rw [if_pos hz] at hT
        exact hT (h ▸ List.mem_append_right _ (List.mem_singleton_self _))
      · exact hs (Or.inl ⟨by omega, h.trans (hblk hz)⟩)
    have h2 : T ∉ xs := fun h => hT (hsub T h)
    rw [hv T, if_neg h1, if_neg h2]

theorem inode_grown_double {view view4 view6 : Nat → Sector} {fm fm4 fm5 : List Bool}
    {d : inode_disk} {e : Nat} {xs : List Nat} {blk3 blkD : Nat}
    (ho : inode_owns view fm d e) (he : 224 ≤ e) (hfm : fm.length ≤ 4294967296)
    (hlen : e - 224 + xs.length ≤ 128)
    (hblk3 : e - 224 ≠ 0 → blk3 = indirect_data (view d.double_indirect) 0)
    (ha4 : allocs fm fm4 (if e - 224 = 0 then xs ++ [blk3] else xs)) (hnot : blk3 ∉ xs)
    (hv4 : ∀ T, view4 T =
      if T = blk3 then
        sector_of_indirect_disk
          (fill (if e - 224 ≠ 0 then
              indirect_disk_of_sector (view (indirect_data (view d.double_indirect) 0))
            else indirect_disk_zero) (e - 224) xs)
      else if T ∈ xs then zeros else view T)
    (hblkD : e - 224 ≠ 0 → blkD = d.double_indirect ∧ fm5 = fm4)
    (ha5 : e - 224 = 0 → allocs fm4 fm5 [blkD])
    (hv6 : ∀ T, view6 T =
      if T = blkD then
        sector_of_indirect_disk
          ((if e - 224 ≠ 0 then indirect_disk_of_sector (view d.double_indirect)
            else indirect_disk_zero).set 0 blk3)
      else view4 T) :
    inode_grown view view6 fm fm5 d { d with double_indirect := blkD } e xs.length
      (if e - 224 = 0 then xs ++ [blk3] ++ [blkD] else xs) xs := by
  have hsub4 : ∀ x ∈ xs, x ∈ (if e - 224 = 0 then xs ++ [blk3] else xs) := by
    intro x hx
    split
    · exact List.mem_append_left _ hx
    · exact hx
  have hxlt : ∀ x ∈ xs, x < 4294967296 := fun x hx => allocs_lt ha4 hfm x (hsub4 x hx)
  have hnd : xs.Nodup := by
    have := ha4.nodup
    split at this
    · exact (List.nodup_append.mp this).1
    · exact this
  have hall : allocs fm fm5 (if e - 224 = 0 then xs ++ [blk3] ++ [blkD] else xs) := by
    by_cases hz : e - 224 = 0
    · rw [if_pos hz] at ha4 ⊢
      exact allocs_trans ha4 (ha5 hz)
    · rw [if_neg hz] at ha4 ⊢
      rw [(hblkD hz).2]
      exact ha4
  have hsub : ∀ x ∈ xs, x ∈ (if e - 224 = 0 then xs ++ [blk3] ++ [blkD] else xs) := by
    intro x hx
    split
    · exact List.mem_append_left _ (List.mem_append_left _ hx)
    · exact hx
  have hind : allocated fm d.indirect := ho.struct_alloc _ (Or.inl ⟨by omega, rfl⟩)
  have F1 : blk3 < 4294967296 := by
    by_cases hz : e - 224 = 0
    · rw [if_pos hz] at ha4
      exact allocs_lt ha4 hfm blk3 (List.mem_append_right _ (List.mem_singleton_self _))
    · rw [hblk3 hz]
      exact indirect_data_lt _ _
  have F2 : blkD ≠ blk3 := by
    by_cases hz : e - 224 = 0
    · intro h
      rw [if_pos hz] at ha4
      have h3 : allocated fm4 blk3 :=
        (ha4.bits _).mpr (Or.inr (List.mem_append_right _ (List.mem_singleton_self _)))
      exact (ha5 hz).fresh blkD (List.mem_singleton_self _) (h ▸ h3)
    · rw [(hblkD hz).1, hblk3 hz]
      exact ((ho.struct_ne (by omega)).2 0 (by omega)).2
  have F3 : blkD ∉ xs := by
    by_cases hz : e - 224 = 0
    · intro h
      have h3 : allocated fm4 blkD := (ha4.bits _).mpr (Or.inr (hsub4 _ h))
      exact (ha5 hz).fresh blkD (List.mem_singleton_self _) h3
    · rw [(hblkD hz).1]
      intro h
      exact ha4.fresh _ (hsub4 _ h) (ho.struct_alloc _ (Or.inr (Or.inl ⟨by omega, rfl⟩)))
  have hT3_len : (if e - 224 ≠ 0 then indirect_disk_of_sector (view d.double_indirect)
      else indirect_disk_zero).length = 128 := by
    split
    · exact indirect_disk_of_sector_length _
    · exact indirect_disk_zero_length
  have hT3_lt : ∀ k, (if e - 224 ≠ 0 then indirect_disk_of_sector (view d.double_indirect)
      else indirect_disk_zero).getD k 0 < 4294967296 := by
    intro k
    split
    · by_cases hk : k < 128
      · rw [indirect_disk_of_sector_getD _ hk]
        exact indirect_data_lt _ _
      · rw [List.getD_eq_default _ _ (by rw [indirect_disk_of_sector_length]; omega)]
        decide
    · rw [indirect_disk_zero_getD]
      decide
  have hb3_len : (if e - 224 ≠ 0 then
        indirect_disk_of_sector (view (indirect_data (view d.double_indirect) 0))
      else indirect_disk_zero).length = 128 := by
    split
    · exact indirect_disk_of_sector_length _
    · exact indirect_disk_zero_length
  have hb3_lt : ∀ k, (if e - 224 ≠ 0 then
        indirect_disk_of_sector (view (indirect_data (view d.double_indirect) 0))
      else indirect_disk_zero).getD k 0 < 4294967296 := by
    intro k
    split
    · by_cases hk : k < 128
      · rw [indirect_disk_of_sector_getD _ hk]
        exact indirect_data_lt _ _
      · rw [List.getD_eq_default _ _ (by rw [indirect_disk_of_sector_length]; omega)]
        decide
    · rw [indirect_disk_zero_getD]
      decide
  have F4 : indirect_data (view6 blkD) 0 = blk3 := by
    rw [hv6 blkD, if_pos rfl, indirect_data_set (by decide) hT3_len hT3_lt F1, if_pos rfl]
  have F5 : ∀ j, j < 128 → indirect_data (view6 blk3) j =
      if e - 224 ≤ j ∧ j < e - 224 + xs.length then xs.getD (j - (e - 224)) 0
      else (if e - 224 ≠ 0 then
          indirect_disk_of_sector (view (indirect_data (view d.double_indirect) 0))
        else indirect_disk_zero).getD j 0 := by
    intro j hj
    rw [hv6 blk3, if_neg (fun h => F2 h.symm), hv4 blk3, if_pos rfl]
    exact indirect_data_fill hj hb3_len hb3_lt hxlt
  have hkeep : ∀ T, allocated fm T →
      (224 < e → T ≠ d.double_indirect ∧ T ≠ indirect_data (view d.double_indirect) 0) →
      view6 T = view T := by
    intro T hT hne
    have h1 : T ≠ blkD := by
      intro h
      by_cases hz : e - 224 = 0
      · exact (ha5 hz).fresh blkD (List.mem_singleton_self _) (h ▸ allocs_mono ha4 hT)
      · exact (hne (by omega)).1 (h.trans (hblkD hz).1)
    have h2 : T ≠ blk3 := by
      intro h
      by_cases hz : e - 224 = 0
      · rw [if_pos hz] at ha4
        exact ha4.fresh blk3 (List.mem_append_right _ (List.mem_singleton_self _)) (h ▸ hT)
      · exact (hne (by omega)).2 (h.trans (hblk3 hz))
    have h3 : T ∉ xs := fun h => ha4.fresh T (hsub4 T h) hT
    rw [hv6 T, if_neg h1, hv4 T, if_neg h2, if_neg h3]
  have hindv : view6 d.indirect = view d.indirect :=
    hkeep _ hind (fun h => ⟨(ho.struct_ne h).1, ((ho.struct_ne h).2 0 (by omega)).1⟩)
  have hzone : ∀ i, 224 ≤ i → i < e + xs.length →
      sector_at view6 { d with double_indirect := blkD } i =
        indirect_data (view6 blk3) (i - 224) := by
    intro i h1 h2
    rw [sector_at_double h1]
    show indirect_data (view6 (indirect_data (view6 blkD) ((i - 224) / 128))) _ = _
    have hk : (i - 224) / 128 = 0 := Nat.div_eq_of_lt (by omega)
    have hm : (i - 224) % 128 = i - 224 := Nat.mod_eq_of_lt (by omega)
    rw [hk, hm, F4]
  refine ⟨hall, rfl, ?_, rfl, hnd, hsub, ?_, ?_, ?_, ?_, ?_⟩
  · intro i hi
    by_cases h1 : i < 96
    · rw [sector_at_direct h1, sector_at_direct h1]
    · by_cases h2 : i < 224
      · rw [sector_at_indirect (by omega) h2, sector_at_indirect (by omega) h2]
        show indirect_data (view6 d.indirect) _ = _
        rw [hindv]
      · have hz : e - 224 ≠ 0 := by omega
        rw [hzone i (by omega) (by omega), F5 _ (by omega), if_neg (by omega), if_pos hz,
          indirect_disk_of_sector_getD _ (by omega), sector_at_double (by omega)]
        have hk : (i - 224) / 128 = 0 := Nat.div_eq_of_lt (by omega)
        have hm : (i - 224) % 128 = i - 224 := Nat.mod_eq_of_lt (by omega)
        rw [hk, hm]
  · intro i h1 h2
    rw [hzone i (by omega) h2, F5 _ (by omega), if_pos (by omega)]
    congr 1
    omega
  · intro x hx
    rw [hv6 x, if_neg (fun (h : x = blkD) => F3 (h ▸ hx)), hv4 x,
      if_neg (fun (h : x = blk3) => hnot (h ▸ hx)), if_pos hx]
  · intro T hT
    rcases hT with ⟨h, hT⟩ | ⟨h, hT⟩ | ⟨k, h, hT⟩
    · right
      left
      exact ⟨by omega, hT⟩
    · by_cases hz : e - 224 = 0
      · left
        rw [if_pos hz, hT]
        exact ⟨List.mem_append_right _ (List.mem_singleton_self _), F3⟩
      · right
        right
        left
        exact ⟨by omega, hT.trans (hblkD hz).1⟩
    · have hk : k = 0 := by omega
      subst hk
      have hT3 : T = blk3 := hT.trans F4
      by_cases hz : e - 224 = 0
      · left
        rw [if_pos hz, hT3]
        exact ⟨List.mem_append_left _ (List.mem_append_right _ (List.mem_singleton_self _)),
          hnot⟩
      · right
        right
        right
        exact ⟨0, by omega, hT3.trans (hblk3 hz)⟩
  · intro h
    have hne1 : d.indirect ≠ blkD := by
      by_cases hz : e - 224 = 0
      · intro h3
        exact (ha5 hz).fresh blkD (List.mem_singleton_self _) (h3 ▸ allocs_mono ha4 hind)
      · rw [(hblkD hz).1]
        exact (ho.struct_ne (by omega)).1
    have hne2 : d.indirect ≠ blk3 := by
      by_cases hz : e - 224 = 0
      · intro h3
        rw [if_pos hz] at ha4
        exact ha4.fresh blk3 (List.mem_append_right _ (List.mem_singleton_self _)) (h3 ▸ hind)
      · rw [hblk3 hz]
        exact ((ho.struct_ne (by omega)).2 0 (by omega)).1
    refine ⟨hne1, ?_⟩
    intro k hk
    have hk0 : k = 0 := by omega
    subst hk0
    show d.indirect ≠ indirect_data (view6 blkD) 0 ∧ blkD ≠ indirect_data (view6 blkD) 0
    rw [F4]
    exact ⟨hne2, F2⟩
  · intro T hT hs
    have h1 : T ≠ blkD := by
      intro h
      by_cases hz : e - 224 = 0
      · rw [if_pos hz] at hT
        exact hT (h ▸ List.mem_append_right _ (List.mem_singleton_self _))
      · exact hs (Or.inr (Or.inl ⟨by omega, h.trans (hblkD hz).1⟩))
    have h2 : T ≠ blk3 := by
      intro h
      by_cases hz : e - 224 = 0
      · rw [if_pos hz] at hT
        exact hT (h ▸
          List.mem_append_left _ (List.mem_append_right _ (List.mem_singleton_self _)))
      · exact hs (Or.inr (Or.inr ⟨0, by omega, h.trans (hblk3 hz)⟩))
    have h3 : T ∉ xs := fun h => hT (hsub T h)
    rw [hv6 T, if_neg h1, hv4 T, if_neg h2, if_neg h3]

theorem inode_grown_same {view view1 : Nat → Sector} {fm fm1 : List Bool} {d : inode_disk}
    {e : Nat} (ho : inode_owns view fm d e) (ha : allocs fm fm1 [])
    (hv : ∀ T, view1 T = view T) : inode_grown view view1 fm fm1 d d e 0 [] [] := by
  have hvv : view1 = view := funext hv
  subst hvv
  exact ⟨ha, rfl, fun _ _ => rfl, rfl, List.nodup_nil,
    fun _ h => absurd h (List.not_mem_nil _), fun i h1 h2 => by omega,
    fun _ h => absurd h (List.not_mem_nil _), fun _ h => Or.inr h, ho.struct_ne,
    fun _ _ _ => rfl⟩

theorem inode_grown_direct_any {view view1 : Nat → Sector} {fm fm1 : List Bool}
    {d : inode_disk} {e : Nat} {xs : List Nat} (ho : inode_owns view fm d e)
    (hle : e + xs.length ≤ 96 ∨ xs = []) (ha : allocs fm fm1 xs)
    (hv : ∀ T, view1 T = if T ∈ xs then zeros else view T) :
    inode_grown view view1 fm fm1 d { d with direct := fill d.direct e xs } e xs.length xs xs := by
  by_cases hx : xs = []
  · subst hx
    exact inode_grown_same ho ha (fun T => by rw [hv T, if_neg (List.not_mem_nil T)])
  · rcases hle with h | h
    · exact inode_grown_direct ho h ha hv
    · exact absurd h hx

theorem double_indirect_loop_grows {fuel : Nat} {dbl : List Nat} {sectors idx_ofs : Nat}
    {s : Kernel} {r : List Nat × Nat × Kernel} (hwf : cache_wf s) (hco : cache_coherent s)
    (h : double_indirect_loop fuel 0 dbl sectors idx_ofs s = Except.ok r) (hf : 1 ≤ fuel)
    (hs : 0 < sectors) (hle : idx_ofs + sectors ≤ 128)
    (hold : idx_ofs ≠ 0 → allocated s.free_map (dbl.getD 0 0)) :
    ∃ (xs : List Nat) (blk : Nat), xs.length = sectors ∧ r.1 = dbl.set 0 blk ∧ r.2.1 = 0 ∧
      (idx_ofs ≠ 0 → blk = dbl.getD 0 0) ∧
      allocs s.free_map r.2.2.free_map (if idx_ofs = 0 then xs ++ [blk] else xs) ∧
      blk ∉ xs ∧ cache_grows (sectors + 2) s r.2.2 ∧
      ∀ T, cache_view r.2.2 T =
        if T = blk then
          sector_of_indirect_disk
            (fill (if idx_ofs ≠ 0 then indirect_disk_of_sector (cache_view s (dbl.getD 0 0))
              else indirect_disk_zero) idx_ofs xs)
        else if T ∈ xs then zeros else cache_view s T := by
  obtain ⟨fuel, rfl⟩ : ∃ f, fuel = f + 1 := ⟨fuel - 1, by omega⟩
  have hlt : sectors < 4294967000 := by omega
  have hidx : idx_ofs < 128 := by omega
  have hcond : 0 < (sectors + 127) / 128 := Nat.div_pos (by omega) (by decide)
  simp only [double_indirect_loop, DIV_ROUND_UP_size_eq hlt, hcond, if_true,
    show ¬ (128 ≤ 0) by decide, if_false, Nat.mod_eq_of_lt hidx] at h
  cases hb : indirect_block_alloc s (dbl.getD 0 0) sectors idx_ofs with
  | error f => rw [hb] at h; cases h
  | ok p =>
    obtain ⟨blk, n, s1⟩ := p
    rw [hb] at h
    simp only at h
    obtain ⟨xs, hlen, hn, hblk, ha, hnot, hg, hv⟩ :=
      indirect_block_alloc_grows hwf hco hold (by omega) hb
    simp only at hlen hn hblk ha hnot hg hv
    have hlen2 : xs.length = sectors := by omega
    have hn0 : n = 0 := by omega
    subst hn0
    rw [double_indirect_loop_done _ _ _ _ _ (by decide)] at h
    injection h with h
    rw [← h]
    refine ⟨xs, blk, hlen2, rfl, rfl, hblk, ha, hnot, ?_, hv⟩
    rw [← hlen2]
    exact hg

/-! ## Inodes with the same index fields -/

theorem sector_at_congr {view : Nat → Sector} {d d0 : inode_disk} (h1 : d.direct = d0.direct)
    (h2 : d.indirect = d0.indirect) (h3 : d.double_indirect = d0.double_indirect) (i : Nat) :
    sector_at view d i = sector_at view d0 i := by
  unfold sector_at
  rw [h1, h2, h3]

theorem is_struct_congr {view : Nat → Sector} {d d0 : inode_disk}
    (h2 : d.indirect = d0.indirect) (h3 : d.double_indirect = d0.double_indirect) (n T : Nat) :
    is_struct view d n T ↔ is_struct view d0 n T := by
  unfold is_struct
  rw [h2, h3]

theorem inode_grown_congr {view view1 : Nat → Sector} {fm fm1 : List Bool}
    {d d1 d10 : inode_disk} {e a : Nat} {xs data : List Nat}
    (h1 : d1.direct = d10.direct) (h2 : d1.indirect = d10.indirect)
    (h3 : d1.double_indirect = d10.double_indirect)
    (hg : inode_grown view view1 fm fm1 d d10 e a xs data) :
    inode_grown view view1 fm fm1 d d1 e a xs data := by
  have hs : ∀ i, sector_at view1 d1 i = sector_at view1 d10 i := sector_at_congr h1 h2 h3
  have ht : ∀ n T, is_struct view1 d1 n T ↔ is_struct view1 d10 n T := is_struct_congr h2 h3
  refine ⟨hg.allocs, by rw [h1]; exact hg.direct_length, ?_, hg.data_len, hg.data_nodup,
    hg.data_sub, ?_, hg.zero, ?_, ?_, hg.frame⟩
  · intro i hi
    rw [hs]
    exact hg.old i hi
  · intro i hi1 hi2
    rw [hs]
    exact hg.new i hi1 hi2
  · intro T hT
    exact hg.struct T ((ht _ _).mp hT)
  · intro h
    rw [h2, h3]
    exact hg.struct_ne h

theorem inode_alloc_eq (s : Kernel) (d : inode_disk) (a e : Nat) :
    inode_alloc s d a e =
      if a = 0 then Except.ok (true, d, s)
      else
        match alloc_loop
            ((if (e + a) % 4294967296 < 96 then (e + a) % 4294967296 else 96) - e) e
            d.direct a s with
        | Except.error f => Except.error f
        | Except.ok (direct, sectors, s1) =>
          inode_alloc_indirect s1 { d with direct := direct } sectors e := by
  unfold inode_alloc
  by_cases ha : a = 0
  · simp only [ha, if_true]
  · simp only [ha, if_false]
    cases alloc_loop
        ((if (e + a) % 4294967296 < 96 then (e + a) % 4294967296 else 96) - e) e d.direct a s with
    | error f => rfl
    | ok p =>
      obtain ⟨direct, r1, s1⟩ := p
      simp only [inode_alloc_indirect]
      by_cases h1 : r1 = 0
      · simp only [h1, if_true]
      · simp only [h1, if_false]
        cases indirect_block_alloc s1 d.indirect r1 (if e < 96 then 0 else e - 96) with
        | error f => rfl
        | ok q =>
          obtain ⟨blk, r2, s2⟩ := q
          simp only
          by_cases h2 : r2 = 0
          · simp only [h2, if_true]
          · simp only [h2, if_false]
            unfold inode_alloc_double indirect_disk_load indirect_disk_sector
            rfl

theorem indirect_disk_load_spec {s s1 : Kernel} {idx_ofs sector : Nat} {disk : List Nat}
    (hwf : cache_wf s) (hco : cache_coherent s)
    (h : indirect_disk_load s idx_ofs sector = Except.ok (disk, s1)) :
    disk = (if idx_ofs ≠ 0 then indirect_disk_of_sector (cache_view s sector)
      else indirect_disk_zero) ∧ cache_keeps 1 s s1 := by
  unfold indirect_disk_load at h
  by_cases hz : idx_ofs = 0
  · simp only [hz, ne_eq, not_true_eq_false, if_false] at h ⊢
    injection h with h
    simp only [Prod.mk.injEq] at h
    rw [← h.1, ← h.2]
    exact ⟨rfl, cache_keeps_mono (cache_keeps_refl hwf hco) (by omega)⟩
  · simp only [ne_eq, hz, not_false_eq_true, if_true] at h ⊢
    cases hr : cache_read_from_buf s sector with
    | error f => rw [hr] at h; cases h
    | ok p =>
      obtain ⟨b, s3⟩ := p
      rw [hr] at h
      injection h with h
      simp only [Prod.mk.injEq] at h
      rw [← h.1, ← h.2]
      obtain ⟨k, hb⟩ := cache_read_from_buf_keeps hwf hco hr
      exact ⟨by rw [hb], k⟩

theorem indirect_disk_sector_spec {s s1 : Kernel} {idx_ofs old sector : Nat}
    (hwf : cache_wf s) (hco : cache_coherent s)
    (h : indirect_disk_sector s idx_ofs old = Except.ok (sector, s1)) :
    (idx_ofs ≠ 0 → sector = old ∧ s1.free_map = s.free_map) ∧
    (idx_ofs = 0 → allocs s.free_map s1.free_map [sector]) ∧
    cache_grows 0 s s1 ∧ ∀ T, cache_view s1 T = cache_view s T := by
  unfold indirect_disk_sector at h
  by_cases hz : idx_ofs = 0
  · simp only [hz, if_true] at h
    cases hq : free_map_allocate s with
    | none => rw [hq] at h; cases h
    | some q =>
      obtain ⟨blkD, s5⟩ := q
      rw [hq] at h
      injection h with h
      simp only [Prod.mk.injEq] at h
      obtain ⟨hx, rfl⟩ := free_map_allocate_spec hq
      rw [← h.1, ← h.2]
      obtain ⟨g5, v5⟩ := cache_grows_free_map (s.free_map.set blkD true) hwf hco
      exact ⟨fun hne => absurd hz hne, fun _ => allocs_single hx, g5, v5⟩
  · simp only [hz, if_false] at h
    injection h with h
    simp only [Prod.mk.injEq] at h
    rw [← h.1, ← h.2]
    exact ⟨fun _ => ⟨rfl, rfl⟩, fun h0 => absurd h0 hz, cache_grows_refl hwf hco, fun _ => rfl⟩

theorem inode_alloc_double_grows {s2 s6 : Kernel} {d2 d6 : inode_disk} {r2 e2 : Nat}
    (hwf : cache_wf s2) (hco : cache_coherent s2)
    (ho2 : inode_owns (cache_view s2) s2.free_map d2 e2) (hfm2 : s2.free_map.length ≤ 4294967296)
    (he2 : 224 ≤ e2) (hr2 : 0 < r2) (hle3 : e2 - 224 + r2 ≤ 128)
    (h : inode_alloc_double s2 d2 r2 (e2 - 224) = Except.ok (true, d6, s6)) :
    cache_grows (r2 + 4) s2 s6 ∧
      ∃ xs data : List Nat,
        inode_grown (cache_view s2) (cache_view s6) s2.free_map s6.free_map d2 d6 e2 r2
          xs data := by
  unfold inode_alloc_double at h
  have hlt3 : e2 - 224 < 128 := by omega
  have hdiv : (e2 - 224) / 128 = 0 := Nat.div_eq_of_lt hlt3
  rw [hdiv] at h
  cases heq3 : indirect_disk_load s2 (e2 - 224) d2.double_indirect with
  | error f => rw [heq3] at h; cases h
  | ok p3 =>
    obtain ⟨T3, s3⟩ := p3
    rw [heq3] at h
    simp only at h
    obtain ⟨hT3, k3⟩ := indirect_disk_load_spec hwf hco heq3
    cases hloop : double_indirect_loop (DIV_ROUND_UP_size r2 128 - 0) 0 T3 r2 (e2 - 224) s3 with
    | error f => rw [hloop] at h; cases h
    | ok p4 =>
      obtain ⟨T3b, r3, s4⟩ := p4
      rw [hloop] at h
      simp only at h
      have hf : 1 ≤ DIV_ROUND_UP_size r2 128 - 0 := by
        rw [DIV_ROUND_UP_size_eq (by omega)]
        omega
      have hg0 : e2 - 224 ≠ 0 →
          T3.getD 0 0 = indirect_data (cache_view s2 d2.double_indirect) 0 := by
        intro hne
        rw [hT3, if_pos hne]
        exact indirect_disk_of_sector_getD _ (by decide)
      have hold3 : e2 - 224 ≠ 0 → allocated s3.free_map (T3.getD 0 0) := by
        intro hne
        rw [hg0 hne, k3.free_map]
        exact ho2.struct_alloc _ (Or.inr (Or.inr ⟨0, by omega, rfl⟩))
      obtain ⟨xs3, blk3, hlen3, hT3b, hr3, hblk3, ha3, hnot3, hg3, hv3⟩ :=
        double_indirect_loop_grows k3.wf k3.coherent hloop hf hr2 hle3 hold3
      simp only at hT3b hr3 ha3 hg3 hv3
      subst hT3b hr3
      rw [k3.free_map] at ha3
      have hcnt : 1 + (r2 + 2) + 0 + 1 ≤ r2 + 4 := by omega
      cases heqD : indirect_disk_sector s4 (e2 - 224) d2.double_indirect with
      | error f => rw [heqD] at h; cases h
      | ok p5 =>
        obtain ⟨blkD, s5⟩ := p5
        rw [heqD] at h
        simp only at h
        obtain ⟨hD1, hD2, g5, v5⟩ := indirect_disk_sector_spec hg3.wf hg3.coherent heqD
        cases hw : cache_write_from_buf s5 blkD (sector_of_indirect_disk (T3.set 0 blk3)) with
        | error f => rw [hw] at h; cases h
        | ok s7 =>
          rw [hw] at h
          injection h with h
          simp only [Prod.mk.injEq, decide_True, true_and] at h
          obtain ⟨rfl, rfl⟩ := h
          have p6 := cache_write_from_buf_keeps g5.wf g5.coherent hw
          have hview3 : cache_view s3 = cache_view s2 := funext k3.view
          have hgall : cache_grows (r2 + 4) s2 s7 := by
            have := cache_grows_trans (cache_grows_trans (cache_grows_trans
              (cache_grows_of_keeps k3) hg3) g5) (cache_grows_of_puts p6)
            exact cache_grows_mono this hcnt
          refine ⟨hgall, (if e2 - 224 = 0 then xs3 ++ [blk3] ++ [blkD] else xs3), xs3, ?_⟩
          rw [← hlen3]
          refine inode_grown_congr rfl rfl rfl
            (@inode_grown_double (cache_view s2) (cache_view s4) (cache_view s7)
              s2.free_map s4.free_map s7.free_map d2 e2 xs3 blk3 blkD ho2 he2 hfm2
              (by omega) ?_ ha3 hnot3 ?_ ?_ ?_ ?_)
          · intro hne
            rw [hblk3 hne, hg0 hne]
          · intro T
            rw [hv3 T, hview3]
            by_cases hz3 : e2 - 224 = 0
            · simp only [hz3, ne_eq, not_true_eq_false, if_false]
            · simp only [ne_eq, hz3, not_false_eq_true, if_true]
              rw [hg0 hz3]
          · intro hne
            exact ⟨(hD1 hne).1, by rw [p6.free_map, (hD1 hne).2]⟩
          · intro h0
            rw [p6.free_map]
            exact hD2 h0
          · intro T
            rw [p6.view T, v5 T, hT3]

theorem inode_alloc_indirect_grows {s1 s6 : Kernel} {d1 d6 : inode_disk} {r1 e e1 : Nat}
    (hwf : cache_wf s1) (hco : cache_coherent s1)
    (ho1 : inode_owns (cache_view s1) s1.free_map d1 e1)
    (hfm1 : s1.free_map.length ≤ 4294967296)
    (hrel : r1 ≠ 0 → 96 ≤ e1 ∧ e1 - 96 = e - 96) (hea : e1 + r1 ≤ 352)
    (h : inode_alloc_indirect s1 d1 r1 e = Except.ok (true, d6, s6)) :
    cache_grows (r1 + 6) s1 s6 ∧
      ∃ xs data : List Nat,
        inode_grown (cache_view s1) (cache_view s6) s1.free_map s6.free_map d1 d6 e1 r1
          xs data := by
  unfold inode_alloc_indirect at h
  by_cases hz1 : r1 = 0
  · simp only [hz1, if_true] at h
    injection h with h
    simp only [Prod.mk.injEq, true_and] at h
    obtain ⟨rfl, rfl⟩ := h
    rw [hz1]
    exact ⟨cache_grows_mono (cache_grows_refl hwf hco) (by omega), [], [], inode_grown_refl ho1⟩
  · obtain ⟨h96, hidx⟩ := hrel hz1
    have e1i : (if e < 96 then 0 else e - 96) = e1 - 96 := by split <;> omega
    have e2i : (if e1 - 96 < 128 then 0 else e1 - 96 - 128) = e1 - 224 := by split <;> omega
    simp only [hz1, if_false, e1i, e2i] at h
    cases hb2 : indirect_block_alloc s1 d1.indirect r1 (e1 - 96) with
    | error f => rw [hb2] at h; cases h
    | ok p2 =>
      obtain ⟨blk2, r2, s2⟩ := p2
      rw [hb2] at h
      simp only at h
      have hold2 : e1 - 96 ≠ 0 → allocated s1.free_map d1.indirect := fun hne =>
        ho1.struct_alloc _ (Or.inl ⟨by omega, rfl⟩)
      obtain ⟨xs2, hlen2, hn2, hblk2, ha2, hnot2, hg2, hv2⟩ :=
        indirect_block_alloc_grows hwf hco hold2 (by omega) hb2
      simp only at hlen2 hn2 hblk2 ha2 hnot2 hg2 hv2
      have hcase : e1 + xs2.length ≤ 224 ∨ (224 ≤ e1 ∧ xs2 = []) := by
        by_cases hx : xs2 = []
        · by_cases h224 : 224 ≤ e1
          · exact Or.inr ⟨h224, hx⟩
          · left
            rw [hx]
            simp only [List.length_nil]
            omega
        · left
          have : 0 < xs2.length := List.length_pos.mpr hx
          omega
      have G2 : inode_grown (cache_view s1) (cache_view s2) s1.free_map s2.free_map d1
          { d1 with indirect := blk2 } e1 xs2.length
          (if e1 - 96 = 0 then xs2 ++ [blk2] else xs2) xs2 :=
        inode_grown_indirect ho1 h96 hfm1 hcase hblk2 ha2 hnot2 hv2
      have ho2 := inode_owns_grown ho1 G2
      by_cases hz2 : r2 = 0
      · simp only [hz2, if_true] at h
        injection h with h
        simp only [Prod.mk.injEq, true_and] at h
        obtain ⟨rfl, rfl⟩ := h
        have haeq : xs2.length = r1 := by omega
        rw [haeq] at G2
        exact ⟨cache_grows_mono hg2 (by omega), _, _, G2⟩
      · simp only [hz2, if_false] at h
        have hfm2 : s2.free_map.length ≤ 4294967296 := by rw [ha2.length]; exact hfm1
        have hidx3 : e1 - 224 = e1 + xs2.length - 224 := by omega
        rw [hidx3] at h
        obtain ⟨hg3, xs3, data3, G3⟩ := inode_alloc_double_grows hg2.wf hg2.coherent ho2 hfm2
          (by omega) (by omega) (by omega) h
        have G23 := inode_grown_trans ho1 G2 G3
        have haeq : xs2.length + r2 = r1 := by omega
        rw [haeq] at G23
        exact ⟨cache_grows_mono (cache_grows_trans hg2 hg3) (by omega), _, _, G23⟩

theorem inode_alloc_grows {s s6 : Kernel} {d d6 : inode_disk} {a e : Nat}
    (hwf : cache_wf s) (hco : cache_coherent s)
    (ho : inode_owns (cache_view s) s.free_map d e) (hfm : s.free_map.length ≤ 4294967296)
    (hea : a ≠ 0 → e + a ≤ 352) (h : inode_alloc s d a e = Except.ok (true, d6, s6)) :
    cache_grows (a + 6) s s6 ∧
      ∃ xs data : List Nat,
        inode_grown (cache_view s) (cache_view s6) s.free_map s6.free_map d d6 e a xs data := by
  rw [inode_alloc_eq] at h
  by_cases ha0 : a = 0
  · simp only [ha0, if_true] at h
    injection h with h
    simp only [Prod.mk.injEq, true_and] at h
    obtain ⟨rfl, rfl⟩ := h
    rw [ha0]
    exact ⟨cache_grows_mono (cache_grows_refl hwf hco) (by omega), [], [], inode_grown_refl ho⟩
  · have hea := hea ha0
    have hmod : (e + a) % 4294967296 = e + a := Nat.mod_eq_of_lt (by omega)
    simp only [ha0, if_false, hmod, ite_lt_eq_min] at h
    cases h1 : alloc_loop (min (e + a) 96 - e) e d.direct a s with
    | error f => rw [h1] at h; cases h
    | ok p1 =>
      obtain ⟨direct1, r1, s1⟩ := p1
      rw [h1] at h
      simp only at h
      obtain ⟨xs1, hlen1, ht1, hr1, ha1, hg1, hv1⟩ := alloc_loop_grows _ _ _ _ _ _ hwf hco h1
      simp only at ht1 hr1 ha1 hg1 hv1
      subst ht1
      have G1 : inode_grown (cache_view s) (cache_view s1) s.free_map s1.free_map d
          { d with direct := fill d.direct e xs1 } e xs1.length xs1 xs1 :=
        inode_grown_direct_any ho (by
          by_cases hx : xs1 = []
          · exact Or.inr hx
          · left
            have : 0 < xs1.length := List.length_pos.mpr hx
            omega) ha1 hv1
      have ho1 := inode_owns_grown ho G1
      have hfm1 : s1.free_map.length ≤ 4294967296 := by rw [ha1.length]; exact hfm
      obtain ⟨hg2, xs2, data2, G2⟩ := inode_alloc_indirect_grows hg1.wf hg1.coherent ho1 hfm1
        (by intro hne; omega) (by omega) h
      have G12 := inode_grown_trans ho G1 G2
      have haeq : xs1.length + r1 = a := by omega
      rw [haeq] at G12
      exact ⟨cache_grows_mono (cache_grows_trans hg1 hg2) (by omega), _, _, G12⟩

/-! ## The device follows the cache -/

theorem device_follows_refl (s : Kernel) : device_follows s s := fun _ => Or.inl rfl

theorem device_follows_of_eq {s s1 : Kernel} (h : s1.fs_device = s.fs_device) :
    device_follows s s1 := fun T => Or.inl (by rw [h])

theorem device_follows_trans {s s1 s2 : Kernel} (h1 : device_follows s s1)
    (hv : ∀ T, cache_view s1 T = cache_view s T) (h2 : device_follows s1 s2) :
    device_follows s s2 := by
  intro T
  rcases h2 T with h | h
  · rw [h]; exact h1 T
  · rw [h, hv T]; exact Or.inr rfl

theorem evicted_follows {s : Kernel} {pre post : List cache_e} {v : cache_e}
    (hwf : cache_wf s) (hl : s.cache_list = pre ++ v :: post) :
    device_follows s (evicted s v (pre ++ post)) := by
  intro T
  by_cases hT : T = v.sector_idx
  · rw [evicted_fs_device]
    by_cases hd : v.dirty = true
    · right
      have hv : v ∈ s.cache_list := by rw [hl]; simp
      have h1 : lookup_cache s.cache_list v.sector_idx = some v :=
        lookup_cache_of_mem hwf.sector_nodup hv
      subst hT
      simp only [hd, if_true, cache_view, h1, Function.update_same]
    · left
      simp only [hd]
      rfl
  · left
    exact evicted_fs_device_other _ _ _ hT

theorem cache_make_room_follows {s s1 : Kernel} (hwf : cache_wf s)
    (h : cache_make_room s = Except.ok s1) : device_follows s s1 := by
  rcases cache_make_room_spec h with ⟨-, rfl⟩ | ⟨-, pre, v, post, hl, -, -, -, rfl⟩
  · exact device_follows_refl _
  · exact evicted_follows hwf hl

theorem cache_fetch_follows {s : Kernel} {S : Nat} {r : cache_e × Kernel} (hwf : cache_wf s)
    (h : cache_fetch s S = Except.ok r) : device_follows s r.2 := by
  rcases cache_fetch_spec h with ⟨e, -, rfl⟩ | ⟨-, s1, i, hr, -, rfl⟩
  · exact device_follows_refl _
  · have h1 := cache_make_room_follows hwf hr
    intro T
    exact h1 T

theorem read_aheader_step_follows {s s1 : Kernel} (hwf : cache_wf s)
    (h : read_aheader_step s = Except.ok s1) : device_follows s s1 := by
  unfold read_aheader_step at h
  split at h
  · injection h with h
    rw [← h]
    exact device_follows_refl _
  · rename_i r rest hl
    cases hx : cache_load_ahead s r.sector_idx with
    | error f => simp [hx] at h
    | ok p =>
      simp only [hx] at h
      injection h with h
      rw [← h]
      have := cache_fetch_follows hwf hx
      intro T
      exact this T

theorem await_aheader_follows (S : Nat) (queue : List read_ahead_e) :
    ∀ s s1 : Kernel, cache_wf s → cache_coherent s → await_aheader S queue s = Except.ok s1 →
      device_follows s s1 := by
  induction queue with
  | nil =>
    intro s s1 _ _ h
    simp only [await_aheader] at h
    injection h with h
    rw [← h]
    exact device_follows_refl _
  | cons r rest ih =>
    intro s s1 hwf hco h
    obtain ⟨s2, hx, k, -⟩ := read_aheader_step_ok hwf hco
    simp only [await_aheader, hx] at h
    have h2 := read_aheader_step_follows hwf hx
    split at h
    · injection h with h
      rw [← h]
      exact h2
    · exact device_follows_trans h2 k.view (ih s2 s1 k.wf k.coherent h)

theorem cache_load_wait_follows {s s1 : Kernel} {S : Nat} (hwf : cache_wf s)
    (hco : cache_coherent s) (h : cache_load_wait s S = Except.ok s1) : device_follows s s1 := by
  unfold cache_load_wait at h
  split at h
  · injection h with h
    rw [← h]
    exact device_follows_refl _
  · split at h
    · exact await_aheader_follows S _ s s1 hwf hco h
    · injection h with h
      rw [← h]
      exact device_follows_refl _

theorem cache_load_follows {s s1 : Kernel} {S : Nat} {e : cache_e} (hwf : cache_wf s)
    (hco : cache_coherent s) (h : cache_load s S = Except.ok (e, s1)) : device_follows s s1 := by
  obtain ⟨s2, h1, k1⟩ := cache_load_wait_ok S hwf hco
  obtain ⟨e0, s3, h2, hne, -, rfl⟩ := cache_load_after_wait h1 h
  have f1 := cache_load_wait_follows hwf hco h1
  have f2 := cache_fetch_follows k1.wf h2
  have f12 := device_follows_trans f1 k1.view f2
  intro T
  rw [cache_load_request_fs_device]
  exact f12 T

theorem cache_read_from_buf_follows {s s1 : Kernel} {S : Nat} {out : Sector} (hwf : cache_wf s)
    (hco : cache_coherent s) (h : cache_read_from_buf s S = Except.ok (out, s1)) :
    device_follows s s1 := by
  obtain ⟨e, hl, -⟩ := cache_read_from_buf_spec h
  exact cache_load_follows hwf hco hl

theorem index_to_sector_follows {s s1 : Kernel} {ino : inode} {idx sector : Nat}
    (hwf : cache_wf s) (hco : cache_coherent s)
    (h : index_to_sector s ino idx = Except.ok (sector, s1)) : device_follows s s1 := by
  unfold index_to_sector at h
  split at h
  · injection h with h
    injection h with h1 h2
    rw [← h2]
    exact device_follows_refl _
  · split at h
    · cases hx : cache_read_from_buf s ino.data.indirect with
      | error f => simp [hx] at h
      | ok p =>
        obtain ⟨b, s2⟩ := p
        simp only [hx] at h
        injection h with h
        injection h with h1 h2
        rw [← h2]
        exact cache_read_from_buf_follows hwf hco hx
    · split at h
      · cases hx : cache_read_from_buf s ino.data.double_indirect with
        | error f => simp [hx] at h
        | ok p =>
          obtain ⟨b, s2⟩ := p
          simp only [hx] at h
          obtain ⟨k, -⟩ := cache_read_from_buf_keeps hwf hco hx
          cases hy : cache_read_from_buf s2
              (indirect_data b ((idx - 96 - 128) / 128)) with
          | error f => simp [hy] at h
          | ok q =>
            obtain ⟨b2, s3⟩ := q
            simp only [hy] at h
            injection h with h
            injection h with h1 h2
            rw [← h2]
            exact device_follows_trans (cache_read_from_buf_follows hwf hco hx) k.view
              (cache_read_from_buf_follows k.wf k.coherent hy)
      · cases h

theorem byte_to_sector_false_follows {s s1 : Kernel} {ino ino1 : inode} {pos : Int} {sec : Nat}
    (hwf : cache_wf s) (hco : cache_coherent s)
    (h : byte_to_sector s ino pos false = Except.ok (sec, ino1, s1)) : device_follows s s1 := by
  unfold byte_to_sector at h
  split at h
  · cases hx : index_to_sector s ino (byte_to_index pos) with
    | error f => simp [hx] at h
    | ok p =>
      obtain ⟨a, s2⟩ := p
      simp only [hx] at h
      injection h with h
      injection h with h1 h2
      injection h2 with h2 h3
      rw [← h3]
      exact index_to_sector_follows hwf hco hx
  · simp only [Bool.false_eq_true, if_false] at h
    injection h with h
    injection h with h1 h2
    injection h2 with h2 h3
    rw [← h3]
    exact device_follows_refl _

/-! ## One iteration of the write loop -/

theorem splice_length {buf src : List Byte} {ofs : Nat} (h : ofs + src.length ≤ buf.length) :
    (buf.take ofs ++ src ++ buf.drop (ofs + src.length)).length = buf.length := by
  simp only [List.length_append, List.length_take, List.length_drop]
  omega

theorem splice_getD {buf src : List Byte} {ofs : Nat} (h : ofs + src.length ≤ buf.length)
    (k : Nat) :
    (buf.take ofs ++ src ++ buf.drop (ofs + src.length)).getD k 0 =
      if ofs ≤ k ∧ k < ofs + src.length then src.getD (k - ofs) 0 else buf.getD k 0 := by
  have hlt : (buf.take ofs).length = ofs := by rw [List.length_take]; omega
  by_cases h1 : k < ofs
  · rw [if_neg (by omega), List.append_assoc, List.getD_append _ _ _ _ (by omega)]
    simp only [List.getD_eq_getElem?_getD, List.getElem?_take, h1, if_true]
  · by_cases h2 : k < ofs + src.length
    · rw [if_pos ⟨by omega, h2⟩, List.append_assoc, List.getD_append_right _ _ _ _ (by omega),
        List.getD_append _ _ _ _ (by omega), hlt]
    · rw [if_neg (by omega), List.getD_append_right _ _ _ _
        (by rw [List.length_append]; omega)]
      simp only [List.getD_eq_getElem?_getD, List.getElem?_drop, List.length_append, hlt]
      congr 2
      omega

theorem take_drop_getD (buffer : List Byte) {b c t : Nat} (ht : t < c) :
    ((buffer.drop b).take c).getD t 0 = buffer.getD (b + t) 0 := by
  simp only [List.getD_eq_getElem?_getD, List.getElem?_take, ht, if_true, List.getElem?_drop]

theorem cache_store_keeps {s : Kernel} {S : Nat} {e : cache_e} (f : cache_e → cache_e)
    (hsec : ∀ e, (f e).sector_idx = e.sector_idx) (hslot : ∀ e, (f e).slot_idx = e.slot_idx)
    (hdirty : ∀ e, (f e).dirty = true) (hcount : ∀ e, (f e).access_count = e.access_count)
    (hwf : cache_wf s) (hco : cache_coherent s) (hl : lookup_cache s.cache_list S = some e) :
    cache_grows 0 s { s with cache_list := entry_update f S s.cache_list } ∧
      ∀ T, cache_view { s with cache_list := entry_update f S s.cache_list } T =
        if T = S then (f e).buf else cache_view s T := by
  refine ⟨⟨cache_wf_entry_update f S hsec hslot hwf, ?_, ?_⟩, ?_⟩
  · apply cache_coherent_entry_update f S _ hco
    intro a ha
    rw [hdirty a] at ha
    cases ha
  · intro n _ hc a ha
    rcases mem_entry_update ha with ha | ⟨b, hb, -, rfl⟩
    · have := hc a ha
      omega
    · rw [hcount b]
      have := hc b hb
      omega
  · intro T
    rw [cache_view_entry_update s f S T hsec, hl]

theorem is_struct_update {view view1 : Nat → Sector} {d : inode_disk} {n : Nat}
    (h : ∀ T, is_struct view d n T → view1 T = view T) (T : Nat) :
    is_struct view1 d n T ↔ is_struct view d n T := by
  unfold is_struct
  by_cases hn : 224 < n
  · have hd : view1 d.double_indirect = view d.double_indirect :=
      h _ (Or.inr (Or.inl ⟨hn, rfl⟩))
    rw [hd]
  · constructor
    · rintro (h1 | h1 | ⟨k, h1, -⟩)
      · exact Or.inl h1
      · exact Or.inr (Or.inl h1)
      · omega
    · rintro (h1 | h1 | ⟨k, h1, -⟩)
      · exact Or.inl h1
      · exact Or.inr (Or.inl h1)
      · omega

theorem sector_at_update {view view1 : Nat → Sector} {d : inode_disk} {n : Nat}
    (h : ∀ T, is_struct view d n T → view1 T = view T) {i : Nat} (hi : i < n) :
    sector_at view1 d i = sector_at view d i := by
  by_cases h1 : i < 96
  · rw [sector_at_direct h1, sector_at_direct h1]
  · by_cases h2 : i < 224
    · rw [sector_at_indirect (by omega) h2, sector_at_indirect (by omega) h2,
        h _ (Or.inl ⟨by omega, rfl⟩)]
    · rw [sector_at_double (by omega), sector_at_double (by omega),
        h d.double_indirect (Or.inr (Or.inl ⟨by omega, rfl⟩)),
        h (indirect_data (view d.double_indirect) ((i - 224) / 128))
          (Or.inr (Or.inr ⟨(i - 224) / 128, by omega, rfl⟩))]

theorem inode_write_at_loop_stop (fuel : Nat) (s : Kernel) (ino : inode) (buffer : List Byte)
    {size offset : Int} (bw : Int) (hoff : 0 ≤ offset)
    (h : ¬ (0 < size ∧ offset < ino.data.length)) :
    inode_write_at_loop fuel s ino buffer size offset bw = Except.ok (bw, ino, s) := by
  cases fuel with
  | zero => rfl
  | succ fuel =>
    simp only [inode_write_at_loop]
    by_cases hs : 0 < size
    · have hp : ¬ offset < ino.data.length := fun hp => h ⟨hs, hp⟩
      have hneg : chunk_size ino.data.length size offset ≤ 0 := by
        rw [chunk_size_eq hoff]; omega
      simp only [hs, if_true, byte_to_sector_false, hp, if_false, inode_length, hneg]
    · simp only [hs, if_false]

theorem inode_write_at_loop_step {fuel : Nat} {s : Kernel} {ino : inode} {buffer : List Byte}
    {size offset bw c : Int} {src : List Byte} {r : Int × inode × Kernel} (hs : 0 < size)
    (hp : offset < ino.data.length) (hoff : 0 ≤ offset) (hmax : offset ≤ INT_MAX)
    (hc : c = min size (min (ino.data.length - offset) (512 - offset % 512)))
    (hsrc : src = (buffer.drop bw.toNat).take c.toNat)
    (h : inode_write_at_loop (fuel + 1) s ino buffer size offset bw = Except.ok r) :
    ∃ sec s1 e s2, index_to_sector s ino (offset / 512).toNat = Except.ok (sec, s1) ∧
      cache_load s1 sec = Except.ok (e, s2) ∧ c.toNat ≤ src.length ∧
      inode_write_at_loop fuel
        { s2 with
          cache_list := entry_update (entry_copy (offset % 512).toNat src) sec s2.cache_list }
        ino buffer (size - c) (offset + c) (bw + c) = Except.ok r := by
  simp only [inode_write_at_loop, hs, if_true, byte_to_sector_false, hp, inode_length] at h
  rw [byte_to_index_nonneg hoff hmax] at h
  cases h1 : index_to_sector s ino (offset / 512).toNat with
  | error f => rw [h1] at h; cases h
  | ok p =>
    obtain ⟨sec, s1⟩ := p
    rw [h1] at h
    simp only [chunk_size_eq hoff, Int.tmod_eq_emod hoff (by decide : (0:Int) ≤ 512), ← hc] at h
    have hpos : ¬ c ≤ 0 := by omega
    simp only [hpos, if_false] at h
    cases h2 : cache_load s1 sec with
    | error f => rw [h2] at h; cases h
    | ok q =>
      obtain ⟨e, s2⟩ := q
      rw [h2] at h
      simp only [← hsrc] at h
      split at h
      · cases h
      · rename_i hc
        refine ⟨sec, s1, e, s2, rfl, h2, ?_, h⟩
        omega

theorem inode_write_at_loop_step_ok {fuel : Nat} {s s1 s2 : Kernel} {ino : inode}
    {buffer : List Byte} {size offset bw c : Int} {src : List Byte} {sec : Nat} {e : cache_e}
    (hs : 0 < size) (hp : offset < ino.data.length) (hoff : 0 ≤ offset) (hmax : offset ≤ INT_MAX)
    (hc : c = min size (min (ino.data.length - offset) (512 - offset % 512)))
    (hsrc : src = (buffer.drop bw.toNat).take c.toNat)
    (h1 : index_to_sector s ino (offset / 512).toNat = Except.ok (sec, s1))
    (h2 : cache_load s1 sec = Except.ok (e, s2)) (hlen : c.toNat ≤ src.length) :
    inode_write_at_loop (fuel + 1) s ino buffer size offset bw =
      inode_write_at_loop fuel
        { s2 with
          cache_list := entry_update (entry_copy (offset % 512).toNat src) sec s2.cache_list }
        ino buffer (size - c) (offset + c) (bw + c) := by
  simp only [inode_write_at_loop, hs, if_true, byte_to_sector_false, hp, inode_length]
  rw [byte_to_index_nonneg hoff hmax, h1]
  simp only [chunk_size_eq hoff, Int.tmod_eq_emod hoff (by decide : (0:Int) ≤ 512), ← hc]
  have hpos : ¬ c ≤ 0 := by omega
  simp only [hpos, if_false, h2, ← hsrc]
  rw [if_neg (by omega)]

theorem chunk_arith {size offset length c : Int} (hs : 0 < size) (hp : offset < length)
    (hc : c = min size (min (length - offset) (512 - offset % 512))) :
    0 < c ∧ c ≤ size ∧ (offset % 512).toNat + c.toNat ≤ 512 ∧
      max (min size (length - offset)) 0 =
        c + max (min (size - c) (length - (offset + c))) 0 := by
  omega

theorem write_content_step {buffer : List Byte} {offset bw c m1 : Int} {i k : Nat}
    {x new3 old : Byte} (hoff : 0 ≤ offset) (hbw : 0 ≤ bw) (hc0 : 0 < c)
    (hfit : (offset % 512).toNat + c.toNat ≤ 512) (hm1 : 0 ≤ m1) (hk : k < 512)
    (hx : x = if offset + c ≤ 512 * (i : Int) + k ∧ 512 * (i : Int) + k < offset + c + m1 then
        buffer.getD (bw + c + (512 * (i : Int) + k - (offset + c))).toNat 0
      else new3)
    (hnew3 : new3 = if i = (offset / 512).toNat then
        (if (offset % 512).toNat ≤ k ∧ k < (offset % 512).toNat + c.toNat then
          buffer.getD (bw.toNat + (k - (offset % 512).toNat)) 0
        else old)
      else old) :
    x = if offset ≤ 512 * (i : Int) + k ∧ 512 * (i : Int) + k < offset + (c + m1) then
        buffer.getD (bw + (512 * (i : Int) + k - offset)).toNat 0
      else old := by
  subst hx hnew3
  by_cases hA : offset + c ≤ 512 * (i : Int) + k ∧ 512 * (i : Int) + k < offset + c + m1
  · rw [if_pos hA, if_pos (by omega)]
    congr 1
    omega
  · rw [if_neg hA]
    by_cases hii : i = (offset / 512).toNat
    · rw [if_pos hii]
      by_cases hB : (offset % 512).toNat ≤ k ∧ k < (offset % 512).toNat + c.toNat
      · rw [if_pos hB, if_pos (by omega)]
        congr 1
        omega
      · rw [if_neg hB, if_neg (by omega)]
    · rw [if_neg hii, if_neg (by omega)]

theorem inode_write_at_chunk {s s1 s2 s3 : Kernel} {ino : inode} {view0 : Nat → Sector}
    {n i0 sec ofs : Nat} {e : cache_e} {src : List Byte}
    (hwf : cache_wf s) (hco : cache_coherent s)
    (hinv : ∀ T, is_struct view0 ino.data n T → cache_view s T = view0 T) (hi0 : i0 < n)
    (hsep0 : ¬ is_struct view0 ino.data n (sector_at view0 ino.data i0))
    (h1 : index_to_sector s ino i0 = Except.ok (sec, s1))
    (h2 : cache_load s1 sec = Except.ok (e, s2))
    (hs3 : s3 = { s2 with cache_list := entry_update (entry_copy ofs src) sec s2.cache_list }) :
    sec = sector_at view0 ino.data i0 ∧ e.buf = cache_view s sec ∧
      cache_grows 3 s s3 ∧ s3.free_map = s.free_map ∧ device_follows s s3 ∧
      (∀ T, cache_view s3 T =
        if T = sec then e.buf.take ofs ++ src ++ e.buf.drop (ofs + src.length)
        else cache_view s T) ∧
      (∀ T, is_struct view0 ino.data n T → cache_view s3 T = view0 T) := by
  obtain ⟨k1, hsec, -⟩ := index_to_sector_keeps hwf hco h1
  have hsec0 : sec = sector_at view0 ino.data i0 := by
    rw [hsec]; exact sector_at_update hinv hi0
  have f1 := index_to_sector_follows hwf hco h1
  obtain ⟨k2, hl2, hb2⟩ := cache_load_keeps k1.wf k1.coherent h2
  have f2 := cache_load_follows k1.wf k1.coherent h2
  have k12 := cache_keeps_trans k1 k2
  have f12 := device_follows_trans f1 k1.view f2
  obtain ⟨g3, hv3⟩ := cache_store_keeps (entry_copy ofs src)
    (fun _ => rfl) (fun _ => rfl) (fun _ => rfl) (fun _ => rfl) k12.wf k12.coherent hl2
  rw [← hs3] at g3 hv3
  have hfm3 : s3.free_map = s2.free_map := by rw [hs3]
  have hdev3 : s3.fs_device = s2.fs_device := by rw [hs3]
  have hview : ∀ T, cache_view s3 T =
      if T = sec then e.buf.take ofs ++ src ++ e.buf.drop (ofs + src.length)
      else cache_view s T := by
    intro T
    rw [hv3 T]
    by_cases hT : T = sec
    · rw [if_pos hT, if_pos hT]; rfl
    · rw [if_neg hT, if_neg hT, k12.view]
  refine ⟨hsec0, by rw [hb2, k1.view], ?_, by rw [hfm3]; exact k12.free_map, ?_, hview, ?_⟩
  · exact cache_grows_mono (cache_grows_trans (cache_grows_of_keeps k12) g3) (by omega)
  · intro T
    rw [hdev3]
    exact f12 T
  · intro T hT
    have hne : T ≠ sec := fun hx => hsep0 (hsec0 ▸ hx ▸ hT)
    rw [hview T, if_neg hne, hinv T hT]

theorem inode_write_at_loop_spec (ino : inode) (buffer : List Byte) (view0 : Nat → Sector)
    (n : Nat) (hn : ino.data.length ≤ 512 * (n : Int)) (hL : ino.data.length ≤ INT_MAX)
    (hsep : ∀ i, i < n → ¬ is_struct view0 ino.data n (sector_at view0 ino.data i))
    (hinj : ∀ i j, i < n → j < n →
      sector_at view0 ino.data i = sector_at view0 ino.data j → i = j)
    (fuel : Nat) :
    ∀ (s : Kernel) (size offset bw : Int) (r : Int × inode × Kernel),
      cache_wf s → cache_coherent s →
      (∀ T, is_struct view0 ino.data n T → cache_view s T = view0 T) →
      0 ≤ offset → 0 ≤ bw → size ≤ fuel →
      inode_write_at_loop fuel s ino buffer size offset bw = Except.ok r →
      r.1 = bw + max (min size (ino.data.length - offset)) 0 ∧
      cache_grows (3 * fuel) s r.2.2 ∧ r.2.2.free_map = s.free_map ∧
      (∀ T, (∀ i, i < n → T ≠ sector_at view0 ino.data i) →
        cache_view r.2.2 T = cache_view s T ∧
          (r.2.2.fs_device T = s.fs_device T ∨ r.2.2.fs_device T = cache_view s T)) ∧
      ((∀ i, i < n → (cache_view s (sector_at view0 ino.data i)).length = 512) →
        (∀ i, i < n → (cache_view r.2.2 (sector_at view0 ino.data i)).length = 512) ∧
        ∀ i k : Nat, i < n → k < 512 →
          (cache_view r.2.2 (sector_at view0 ino.data i)).getD k 0 =
            if offset ≤ 512 * (i : Int) + k ∧
                512 * (i : Int) + k < offset + max (min size (ino.data.length - offset)) 0 then
              buffer.getD (bw + (512 * (i : Int) + k - offset)).toNat 0
            else (cache_view s (sector_at view0 ino.data i)).getD k 0) := by
  induction fuel with
  | zero =>
    intro s size offset bw r hwf hco hinv hoff hbw hsize h
    simp only [inode_write_at_loop] at h
    injection h with h
    subst h
    simp only [Nat.cast_zero] at hsize
    have hm : max (min size (ino.data.length - offset)) 0 = 0 := by omega
    refine ⟨by rw [hm, add_zero], cache_grows_refl hwf hco, rfl,
      fun T _ => ⟨rfl, Or.inl rfl⟩, fun hsz => ⟨hsz, ?_⟩⟩
    intro i k _ _
    rw [hm, if_neg (by omega)]
  | succ fuel ih =>
    intro s size offset bw r hwf hco hinv hoff hbw hsize h
    by_cases hsp : 0 < size ∧ offset < ino.data.length
    · obtain ⟨hs, hp⟩ := hsp
      obtain ⟨c, hc⟩ : ∃ c, c = min size (min (ino.data.length - offset) (512 - offset % 512)) :=
        ⟨_, rfl⟩
      obtain ⟨src, hsrc⟩ : ∃ src, src = (buffer.drop bw.toNat).take c.toNat := ⟨_, rfl⟩
      have hmax : offset ≤ INT_MAX := le_trans (le_of_lt hp) hL
      obtain ⟨sec, s1, e, s2, h1, h2, hlen, h3⟩ :=
        inode_write_at_loop_step hs hp hoff hmax hc hsrc h
      obtain ⟨hcpos, hcle, hcfit, hm⟩ := chunk_arith hs hp hc
      have hi0 : (offset / 512).toNat < n := by
        clear ih h h3 hm hlen hsrc hcfit hc
        omega
      obtain ⟨s3, hs3⟩ : ∃ s3 : Kernel, s3 = { s2 with
          cache_list := entry_update (entry_copy (offset % 512).toNat src) sec s2.cache_list } :=
        ⟨_, rfl⟩
      rw [← hs3] at h3
      obtain ⟨hsec0, hebuf, g3, hfm3, f3, hview3, hinv3⟩ :=
        inode_write_at_chunk hwf hco hinv hi0 (hsep _ hi0) h1 h2 hs3
      have hsrclen : src.length = c.toNat := by
        apply le_antisymm _ hlen
        rw [hsrc, List.length_take]
        exact min_le_left _ _
      obtain ⟨r1, r2, r3, r4, r5⟩ := ih s3 (size - c) (offset + c) (bw + c) r g3.wf g3.coherent
        hinv3 (add_nonneg hoff (le_of_lt hcpos)) (add_nonneg hbw (le_of_lt hcpos))
        (by push_cast at hsize; clear ih h h3 hm; omega) h3
      refine ⟨by rw [r1, hm]; ring, ?_, by rw [r3, hfm3], ?_, ?_⟩
      · exact cache_grows_mono (cache_grows_trans g3 r2) (by omega)
      · intro T hT
        have hne : T ≠ sec := by rw [hsec0]; exact hT _ hi0
        have hv : cache_view s3 T = cache_view s T := by rw [hview3 T, if_neg hne]
        obtain ⟨a1, a2⟩ := r4 T hT
        refine ⟨by rw [a1, hv], ?_⟩
        rw [hv] at a2
        rcases a2 with a2 | a2
        · rw [a2]; exact f3 T
        · exact Or.inr a2
      · intro hsz
        have hsz0 : e.buf.length = 512 := by rw [hebuf, hsec0]; exact hsz _ hi0
        have hfit : (offset % 512).toNat + src.length ≤ e.buf.length := by
          rw [hsz0, hsrclen]; exact hcfit
        have hview4 : ∀ i, i < n → cache_view s3 (sector_at view0 ino.data i) =
            if i = (offset / 512).toNat then
              e.buf.take (offset % 512).toNat ++ src ++
                e.buf.drop ((offset % 512).toNat + src.length)
            else cache_view s (sector_at view0 ino.data i) := by
          intro i hi
          rw [hview3]
          by_cases hii : i = (offset / 512).toNat
          · rw [if_pos hii, if_pos (by rw [hii, hsec0])]
          · rw [if_neg hii, if_neg]
            intro hx
            rw [hsec0] at hx
            exact hii (hinj _ _ hi hi0 hx)
        have hsz3 : ∀ i, i < n → (cache_view s3 (sector_at view0 ino.data i)).length = 512 := by
          intro i hi
          rw [hview4 i hi]
          split
          · rw [splice_length hfit, hsz0]
          · exact hsz i hi
        obtain ⟨b1, b2⟩ := r5 hsz3
        refine ⟨b1, ?_⟩
        intro i k hi hk
        rw [hm]
        refine write_content_step hoff hbw hcpos hcfit (le_max_right _ _) hk (b2 i k hi hk) ?_
        rw [hview4 i hi]
        by_cases hii : i = (offset / 512).toNat
        · rw [if_pos hii, if_pos hii, splice_getD hfit, hsrclen]
          by_cases hB : (offset % 512).toNat ≤ k ∧ k < (offset % 512).toNat + c.toNat
          · rw [if_pos hB, if_pos hB, hsrc, take_drop_getD _ (Nat.sub_lt_left_of_lt_add hB.1 hB.2)]
          · rw [if_neg hB, if_neg hB, hebuf, hsec0, hii]
        · rw [if_neg hii, if_neg hii]
    · rw [inode_write_at_loop_stop _ _ _ _ _ hoff hsp] at h
      injection h with h
      subst h
      have hm : max (min size (ino.data.length - offset)) 0 = 0 := by omega
      refine ⟨by rw [hm, add_zero], cache_grows_mono (cache_grows_refl hwf hco) (by omega), rfl,
        fun T _ => ⟨rfl, Or.inl rfl⟩, fun hsz => ⟨hsz, ?_⟩⟩
      intro i k _ _
      rw [hm, if_neg (by omega)]

theorem inode_write_at_loop_ok (ino : inode) (buffer : List Byte)
    (hL : ino.data.length ≤ 8503296) (fuel : Nat) :
    ∀ (s : Kernel) (size offset bw B : Int),
      cache_wf s → cache_coherent s → counts_le s B → 0 ≤ B → B + 3 * fuel < INT_MAX →
      0 ≤ offset → 0 ≤ bw → size ≤ fuel → bw + size ≤ buffer.length →
      ∃ r, inode_write_at_loop fuel s ino buffer size offset bw = Except.ok r := by
  induction fuel with
  | zero =>
    intro s size offset bw B _ _ _ _ _ _ _ _ _
    exact ⟨_, rfl⟩
  | succ fuel ih =>
    intro s size offset bw B hwf hco hB h0 hlt hoff hbw hsize hbuf
    by_cases hsp : 0 < size ∧ offset < ino.data.length
    · obtain ⟨hs, hp⟩ := hsp
      obtain ⟨c, hc⟩ : ∃ c, c = min size (min (ino.data.length - offset) (512 - offset % 512)) :=
        ⟨_, rfl⟩
      obtain ⟨src, hsrc⟩ : ∃ src, src = (buffer.drop bw.toNat).take c.toNat := ⟨_, rfl⟩
      obtain ⟨hcpos, hcle, hcfit, -⟩ := chunk_arith hs hp hc
      have hmax : offset ≤ INT_MAX := by unfold INT_MAX; omega
      have hidx : (offset / 512).toNat < 16608 := by omega
      have hlt1 : B + 3 < INT_MAX := by push_cast at hlt; omega
      obtain ⟨s1, h1, k1⟩ := index_to_sector_ok ino hwf hco hB h0 (by omega) hidx
      have hB1 := k1.counts B h0 hB
      obtain ⟨e, s2, h2, k2, hl2, -⟩ := cache_load_ok
        (sector_at (cache_view s) ino.data (offset / 512).toNat) k1.wf k1.coherent hB1
        (by omega) (by push_cast; omega)
      have hB2 := k2.counts _ (by omega) hB1
      have hlen : c.toNat ≤ src.length := by
        rw [hsrc, List.length_take, List.length_drop]
        omega
      rw [inode_write_at_loop_step_ok hs hp hoff hmax hc hsrc h1 h2 hlen]
      obtain ⟨g3, -⟩ := cache_store_keeps (entry_copy (offset % 512).toNat src)
        (fun _ => rfl) (fun _ => rfl) (fun _ => rfl) (fun _ => rfl) k2.wf k2.coherent hl2
      have hB3 := g3.counts _ (by omega) hB2
      exact ih _ (size - c) (offset + c) (bw + c) _ g3.wf g3.coherent hB3 (by omega)
        (by push_cast at hlt ⊢; omega) (by omega) (by omega) (by push_cast at hsize; omega)
        (by omega)
    · exact ⟨_, inode_write_at_loop_stop _ _ _ _ _ hoff hsp⟩

/-! ## Growth through `byte_to_sector` -/

theorem bytes_to_sectors_spec {x : Int} {a : Nat} (h0 : 0 ≤ x)
    (h : bytes_to_sectors x = Except.ok a) :
    x ≤ INT_MAX - 511 ∧ a = ((x + 511) / 512).toNat := by
  have hle : x ≤ INT_MAX - 511 := by
    unfold bytes_to_sectors at h
    split at h
    · cases h
    · omega
  rw [bytes_to_sectors_nonneg h0 hle] at h
  injection h with h
  exact ⟨hle, h.symm⟩

theorem sector_alloc_spec {s s1 : Kernel} {ino ino1 : inode} {a : Nat} {b : Bool}
    (h0 : 0 ≤ ino.data.length) (h : sector_alloc s ino a = Except.ok (b, ino1, s1)) :
    b = true ∧ ino1 = { ino with data := ino1.data } ∧
      inode_alloc s ino.data a ((ino.data.length + 511) / 512).toNat =
        Except.ok (true, ino1.data, s1) := by
  unfold sector_alloc at h
  cases hb : bytes_to_sectors ino.data.length with
  | error f => rw [hb] at h; cases h
  | ok e =>
    obtain ⟨-, he⟩ := bytes_to_sectors_spec h0 hb
    rw [hb] at h
    simp only at h
    cases ha : inode_alloc s ino.data a e with
    | error f => rw [ha] at h; cases h
    | ok p =>
      obtain ⟨flag, d1, s2⟩ := p
      rw [ha] at h
      cases flag with
      | false => cases h
      | true =>
        simp only at h
        injection h with h
        simp only [Prod.mk.injEq] at h
        obtain ⟨h1, h2, h3⟩ := h
        subst h1 h2 h3
        rw [← he]
        exact ⟨rfl, rfl, ha⟩

theorem byte_to_sector_grows {s s1 : Kernel} {ino ino1 : inode} {pos : Int} {sec : Nat}
    (hwf : cache_wf s) (hco : cache_coherent s) (h0 : 0 ≤ ino.data.length)
    (ho : inode_owns (cache_view s) s.free_map ino.data
      ((ino.data.length + 511) / 512).toNat)
    (hfm : s.free_map.length ≤ 4294967296)
    (h : byte_to_sector s ino pos true = Except.ok (sec, ino1, s1)) :
    ino1 = { ino with data := ino1.data } ∧ ino1.data.length = ino.data.length ∧
      ∃ (a : Nat) (xs data : List Nat),
        ((ino.data.length + 511) / 512).toNat + a =
          max ((ino.data.length + 511) / 512).toNat ((pos + 511) / 512).toNat ∧
        (a ≠ 0 → ((ino.data.length + 511) / 512).toNat + a ≤ 352) ∧
        (ino.data.length ≤ pos → pos ≤ INT_MAX - 511) ∧
        cache_grows (a + 8) s s1 ∧
        inode_grown (cache_view s) (cache_view s1) s.free_map s1.free_map ino.data ino1.data
          ((ino.data.length + 511) / 512).toNat a xs data := by
  have hlen := byte_to_sector_length h
  simp only at hlen
  by_cases hp : pos < ino.data.length
  · rw [byte_to_sector_below _ _ _ _ hp] at h
    cases h1 : index_to_sector s ino (byte_to_index pos) with
    | error f => rw [h1] at h; cases h
    | ok p =>
      obtain ⟨sec1, s2⟩ := p
      rw [h1] at h
      simp only at h
      injection h with h
      simp only [Prod.mk.injEq] at h
      obtain ⟨-, h2, h3⟩ := h
      subst h2 h3
      obtain ⟨k1, -, -⟩ := index_to_sector_keeps hwf hco h1
      refine ⟨rfl, rfl, 0, [], [], by omega, fun hx => absurd rfl hx, fun hx => by omega,
        cache_grows_mono (cache_grows_of_keeps k1) (by omega), ?_⟩
      exact inode_grown_same ho (by rw [k1.free_map]; exact allocs_nil _) k1.view
  · unfold byte_to_sector at h
    simp only [hp, if_false, if_true] at h
    cases ha : bytes_to_sectors pos with
    | error f => rw [ha] at h; cases h
    | ok a0 =>
      obtain ⟨hple, ha0⟩ := bytes_to_sectors_spec (by omega) ha
      rw [ha] at h
      simp only at h
      cases hb : bytes_to_sectors ino.data.length with
      | error f => rw [hb] at h; cases h
      | ok e =>
        obtain ⟨-, he⟩ := bytes_to_sectors_spec h0 hb
        rw [hb] at h
        simp only at h
        have hsub : (a0 + 4294967296 - e) % 4294967296 = a0 - e := by
          unfold INT_MAX at hple
          omega
        rw [hsub] at h
        cases hs : sector_alloc s ino (a0 - e) with
        | error f => rw [hs] at h; cases h
        | ok p =>
          obtain ⟨flag, ino2, s2⟩ := p
          obtain ⟨hflag, hino2, hal⟩ := sector_alloc_spec h0 hs
          subst hflag
          rw [hs] at h
          simp only at h
          cases hi : index_to_sector s2 ino2 (byte_to_index pos) with
          | error f => rw [hi] at h; cases h
          | ok q =>
            obtain ⟨sec1, s3⟩ := q
            rw [hi] at h
            simp only at h
            injection h with h
            simp only [Prod.mk.injEq] at h
            obtain ⟨-, h2, h3⟩ := h
            subst h2 h3
            rw [← he] at hal ho ⊢
            have hbound : a0 - e ≠ 0 → e + (a0 - e) ≤ 352 := by
              intro hne
              have := inode_alloc_flag hal (by omega) (by unfold INT_MAX at hple; omega)
              exact this.mp rfl
            obtain ⟨g1, xs, data, G⟩ := inode_alloc_grows hwf hco ho hfm hbound hal
            obtain ⟨k2, -, -⟩ := index_to_sector_keeps g1.wf g1.coherent hi
            have hv : cache_view s3 = cache_view s2 := funext k2.view
            refine ⟨hino2, hlen, a0 - e, xs, data, by omega, hbound, fun _ => hple,
              cache_grows_mono (cache_grows_trans g1 (cache_grows_of_keeps k2)) (by omega), ?_⟩
            rw [hv, k2.free_map]
            exact G

/-! ## The length/allocation invariant -/

theorem inode_owns_update {view view1 : Nat → Sector} {fm : List Bool} {d : inode_disk}
    {n : Nat} (ho : inode_owns view fm d n)
    (h : ∀ T, is_struct view d n T → view1 T = view T) : inode_owns view1 fm d n := by
  have hs : ∀ i, i < n → sector_at view1 d i = sector_at view d i :=
    fun i hi => sector_at_update h hi
  have hst := is_struct_update h
  refine ⟨ho.direct_length, ?_, ?_, ?_, ?_, ?_⟩
  · intro i hi
    rw [hs i hi]; exact ho.data_alloc i hi
  · intro i j hi hj hij
    rw [hs i hi, hs j hj] at hij
    exact ho.data_inj i j hi hj hij
  · intro T hT
    exact ho.struct_alloc T ((hst T).mp hT)
  · intro i hi hT
    rw [hs i hi] at hT
    exact ho.data_ne_struct i hi ((hst _).mp hT)
  · intro hn
    have hd : view1 d.double_indirect = view d.double_indirect :=
      h _ (Or.inr (Or.inl ⟨hn, rfl⟩))
    rw [hd]
    exact ho.struct_ne hn

theorem inode_owns_congr {view : Nat → Sector} {fm : List Bool} {d d0 : inode_disk} {n : Nat}
    (h1 : d.direct = d0.direct) (h2 : d.indirect = d0.indirect)
    (h3 : d.double_indirect = d0.double_indirect) (ho : inode_owns view fm d0 n) :
    inode_owns view fm d n := by
  have hs : ∀ i, sector_at view d i = sector_at view d0 i := sector_at_congr h1 h2 h3
  have hst : ∀ T, is_struct view d n T ↔ is_struct view d0 n T := is_struct_congr h2 h3 n
  refine ⟨by rw [h1]; exact ho.direct_length, ?_, ?_, ?_, ?_, ?_⟩
  · intro i hi
    rw [hs i]; exact ho.data_alloc i hi
  · intro i j hi hj hij
    rw [hs i, hs j] at hij
    exact ho.data_inj i j hi hj hij
  · intro T hT
    exact ho.struct_alloc T ((hst T).mp hT)
  · intro i hi hT
    rw [hs i] at hT
    exact ho.data_ne_struct i hi ((hst _).mp hT)
  · intro hn
    rw [h2, h3]
    exact ho.struct_ne hn

theorem zeros_length : zeros.length = 512 := by
  unfold zeros
  rw [List.length_replicate]
  rfl

theorem ceil_max {L pos : Int} (h0 : 0 ≤ L) :
    ((max L pos + 511) / 512).toNat = max ((L + 511) / 512).toNat ((pos + 511) / 512).toNat := by
  omega

theorem inode_write_at_factor {s : Kernel} {ino : inode} {buffer : List Byte}
    {size offset : Int} {r : Int × inode × Kernel} (hd : ino.deny_write_cnt = 0)
    (h : inode_write_at s ino buffer size offset = Except.ok r) :
    offset + size ≤ INT_MAX ∧ -2147483648 ≤ offset + size ∧
    ∃ sec ino1 s1 ino2 s2,
      byte_to_sector s ino (offset + size) true = Except.ok (sec, ino1, s1) ∧
      ino2 = (if ino1.data.length < offset + size then
        { ino1 with data := { ino1.data with length := offset + size } } else ino1) ∧
      cache_write_from_buf s1 ino2.sector (sector_of_inode_disk ino2.data) = Except.ok s2 ∧
      inode_write_at_loop size.toNat s2 ino2 buffer size offset 0 = Except.ok r := by
  unfold inode_write_at at h
  rw [if_neg (by rw [hd]; exact fun hx => hx rfl)] at h
  by_cases hov : INT_MAX < offset + size ∨ offset + size < -2147483648
  · rw [if_pos hov] at h; cases h
  · rw [if_neg hov] at h
    refine ⟨by omega, by omega, ?_⟩
    cases hb : byte_to_sector s ino (offset + size) true with
    | error f => rw [hb] at h; cases h
    | ok p =>
      obtain ⟨sec, ino1, s1⟩ := p
      rw [hb] at h
      simp only at h
      cases hw : cache_write_from_buf s1
          (if ino1.data.length < offset + size then
            { ino1 with data := { ino1.data with length := offset + size } } else ino1).sector
          (sector_of_inode_disk
            (if ino1.data.length < offset + size then
              { ino1 with data := { ino1.data with length := offset + size } }
              else ino1).data) with
      | error f => rw [hw] at h; cases h
      | ok s2 =>
        rw [hw] at h
        exact ⟨sec, ino1, s1, _, s2, rfl, rfl, hw, h⟩

theorem inode_write_at_unfold {s s1 s2 : Kernel} {ino ino1 ino2 : inode} {buffer : List Byte}
    {size offset : Int} {sec : Nat} (hd : ino.deny_write_cnt = 0)
    (h1 : offset + size ≤ INT_MAX) (h2 : -2147483648 ≤ offset + size)
    (hb : byte_to_sector s ino (offset + size) true = Except.ok (sec, ino1, s1))
    (hi : ino2 = (if ino1.data.length < offset + size then
      { ino1 with data := { ino1.data with length := offset + size } } else ino1))
    (hw : cache_write_from_buf s1 ino2.sector (sector_of_inode_disk ino2.data) = Except.ok s2) :
    inode_write_at s ino buffer size offset =
      inode_write_at_loop size.toNat s2 ino2 buffer size offset 0 := by
  unfold inode_write_at
  rw [if_neg (by rw [hd]; exact fun hx => hx rfl), if_neg (by omega), hb]
  simp only
  rw [← hi, hw]

theorem inode_set_length_fields {ino1 ino2 : inode} {pos : Int}
    (hi : ino2 = (if ino1.data.length < pos then
      { ino1 with data := { ino1.data with length := pos } } else ino1)) :
    ino2.sector = ino1.sector ∧ ino2.deny_write_cnt = ino1.deny_write_cnt ∧
      ino2.data.direct = ino1.data.direct ∧ ino2.data.indirect = ino1.data.indirect ∧
      ino2.data.double_indirect = ino1.data.double_indirect ∧
      ino2.data.length = max ino1.data.length pos := by
  subst hi
  split
  · refine ⟨rfl, rfl, rfl, rfl, rfl, ?_⟩
    show pos = _
    omega
  · refine ⟨rfl, rfl, rfl, rfl, rfl, ?_⟩
    omega

theorem inode_write_at_mid {s s1 s2 : Kernel} {ino ino1 ino2 : inode} {pos : Int} {sec : Nat}
    (hinv : inode_inv s ino) (hpos : pos ≤ INT_MAX)
    (hb : byte_to_sector s ino pos true = Except.ok (sec, ino1, s1))
    (hi : ino2 = (if ino1.data.length < pos then
      { ino1 with data := { ino1.data with length := pos } } else ino1))
    (hw : cache_write_from_buf s1 ino2.sector (sector_of_inode_disk ino2.data) = Except.ok s2) :
    inode_inv s2 ino2 ∧ ino2.sector = ino.sector ∧
      ino2.deny_write_cnt = ino.deny_write_cnt ∧
      ino2.data.length = max ino.data.length pos ∧
      s2.fs_device ino.sector = sector_of_inode_disk ino2.data ∧
      cache_view s2 ino.sector = sector_of_inode_disk ino2.data ∧
      cache_grows 361 s s2 ∧
      (ino.data.length ≤ pos →
        pos ≤ 180224 ∨ pos ≤ 512 * ((((ino.data.length + 511) / 512).toNat : Nat) : Int)) ∧
      (∀ i, i < ((ino.data.length + 511) / 512).toNat →
        sector_at (cache_view s2) ino2.data i = sector_at (cache_view s) ino.data i ∧
        cache_view s2 (sector_at (cache_view s) ino.data i) =
          cache_view s (sector_at (cache_view s) ino.data i)) ∧
      ((∀ T, (cache_view s T).length = 512) →
        ∀ i, i < ((ino2.data.length + 511) / 512).toNat →
          (cache_view s2 (sector_at (cache_view s2) ino2.data i)).length = 512) := by
  obtain ⟨hino1, hlen1, a, xs, data, hea, hbound, hple, g1, G⟩ :=
    byte_to_sector_grows hinv.wf hinv.coherent hinv.length_nonneg hinv.owns
      hinv.free_map_length hb
  obtain ⟨f1, f2, f3, f4, f5, f6⟩ := inode_set_length_fields hi
  have hsec1 : ino1.sector = ino.sector := by
    have := congrArg inode.sector hino1
    exact this
  have hdeny1 : ino1.deny_write_cnt = ino.deny_write_cnt := by
    have := congrArg inode.deny_write_cnt hino1
    exact this
  have hsec2 : ino2.sector = ino.sector := f1.trans hsec1
  have P := cache_write_from_buf_keeps g1.wf g1.coherent hw
  have hdev := cache_write_from_buf_device hw
  rw [hsec2] at P hdev
  have hn2 : ((ino2.data.length + 511) / 512).toNat =
      ((ino.data.length + 511) / 512).toNat + a := by
    rw [f6, hlen1, ceil_max hinv.length_nonneg, ← hea]
  have ho1 := inode_owns_grown hinv.owns G
  have hnx : ino.sector ∉ xs := allocs_not_mem G.allocs hinv.self_alloc
  have hns1 : ¬ is_struct (cache_view s1) ino1.data
      (((ino.data.length + 511) / 512).toNat + a) ino.sector :=
    fun hT => (G.struct _ hT).elim (fun h => hnx h.1) hinv.self_ne_struct
  have hv2 : ∀ T, T ≠ ino.sector → cache_view s2 T = cache_view s1 T := by
    intro T hT
    rw [P.view T, if_neg hT]
  have hup : ∀ T, is_struct (cache_view s1) ino1.data
      (((ino.data.length + 511) / 512).toNat + a) T → cache_view s2 T = cache_view s1 T :=
    fun T hT => hv2 T (fun hx => hns1 (hx ▸ hT))
  have ho2 : inode_owns (cache_view s2) s2.free_map ino2.data
      ((ino2.data.length + 511) / 512).toNat := by
    rw [P.free_map, hn2]
    exact inode_owns_congr f3 f4 f5 (inode_owns_update ho1 hup)
  have hsat : ∀ i, i < ((ino.data.length + 511) / 512).toNat + a →
      sector_at (cache_view s2) ino2.data i = sector_at (cache_view s1) ino1.data i := by
    intro i hi
    rw [sector_at_congr f3 f4 f5 i]
    exact sector_at_update hup hi
  have hnew : ∀ i, ((ino.data.length + 511) / 512).toNat ≤ i →
      i < ((ino.data.length + 511) / 512).toNat + a →
      sector_at (cache_view s2) ino2.data i ∈ data := by
    intro i h1 h2
    rw [hsat i h2, G.new i h1 h2]
    exact getD_mem_of_lt (by rw [G.data_len]; omega)
  have hdata_ne : ∀ x ∈ data, x ≠ ino.sector :=
    fun x hx hxe => hnx (hxe ▸ G.data_sub x hx)
  have hold : ∀ i, i < ((ino.data.length + 511) / 512).toNat →
      sector_at (cache_view s2) ino2.data i = sector_at (cache_view s) ino.data i ∧
      cache_view s2 (sector_at (cache_view s) ino.data i) =
        cache_view s (sector_at (cache_view s) ino.data i) := by
    intro i hi
    refine ⟨by rw [hsat i (by omega), G.old i hi], ?_⟩
    rw [hv2 _ (hinv.self_ne_data i hi)]
    exact G.frame _ (allocs_not_mem G.allocs (hinv.owns.data_alloc i hi))
      (hinv.owns.data_ne_struct i hi)
  have hinv2 : inode_inv s2 ino2 := by
    refine ⟨P.wf, P.coherent, by rw [f6]; exact le_max_of_le_left (hlen1 ▸ hinv.length_nonneg),
      by rw [f6, hlen1]; exact max_le hinv.length_le hpos, ho2, ?_, ?_, ?_, ?_⟩
    · rw [P.free_map, hsec2]
      exact allocs_mono G.allocs hinv.self_alloc
    · intro i hi
      rw [hn2] at hi
      rw [hsec2]
      by_cases hie : i < ((ino.data.length + 511) / 512).toNat
      · rw [(hold i hie).1]
        exact hinv.self_ne_data i hie
      · exact hdata_ne _ (hnew i (by omega) hi)
    · rw [hn2, hsec2, is_struct_congr f4 f5, is_struct_update hup]
      exact hns1
    · rw [P.free_map, G.allocs.length]
      exact hinv.free_map_length
  refine ⟨hinv2, hsec2, f2.trans hdeny1, by rw [f6, hlen1], hdev, ?_, ?_, ?_, hold, ?_⟩
  · rw [P.view, if_pos rfl]
  · have ha : a ≤ 352 := by
      by_cases h0 : a = 0
      · omega
      · have := hbound h0
        omega
    exact cache_grows_mono (cache_grows_trans g1 (cache_grows_of_puts P)) (by omega)
  · intro hLp
    have h0 := hinv.length_nonneg
    by_cases ha : a = 0
    · right
      rw [ha] at hea
      omega
    · left
      have := hbound ha
      omega
  · intro hsz i hi
    rw [hn2] at hi
    by_cases hie : i < ((ino.data.length + 511) / 512).toNat
    · rw [(hold i hie).1, (hold i hie).2]
      exact hsz _
    · have hm := hnew i (by omega) hi
      rw [hv2 _ (hdata_ne _ hm), G.zero _ hm]
      exact zeros_length

theorem ceil_le_mul (L : Int) : L ≤ 512 * ((((L + 511) / 512).toNat : Nat) : Int) := by
  omega

theorem inode_write_at_spec {s s1 : Kernel} {ino ino1 : inode} {buffer : List Byte}
    {size offset n : Int} (hinv : inode_inv s ino) (hd : ino.deny_write_cnt = 0)
    (hoff : 0 ≤ offset)
    (h : inode_write_at s ino buffer size offset = Except.ok (n, ino1, s1)) :
    inode_inv s1 ino1 ∧ ino1.sector = ino.sector ∧
      ino1.deny_write_cnt = ino.deny_write_cnt ∧
      ino1.data.length = max ino.data.length (offset + size) ∧
      n = max (min size (ino1.data.length - offset)) 0 ∧
      s1.fs_device ino.sector = sector_of_inode_disk ino1.data ∧
      cache_grows (361 + 3 * size.toNat) s s1 ∧
      (ino.data.length ≤ offset + size →
        offset + size ≤ 180224 ∨
          offset + size ≤ 512 * ((((ino.data.length + 511) / 512).toNat : Nat) : Int)) ∧
      ((∀ T, (cache_view s T).length = 512) →
        (∀ i, i < ((ino1.data.length + 511) / 512).toNat →
          (cache_view s1 (sector_at (cache_view s1) ino1.data i)).length = 512) ∧
        ∀ i k : Nat, i < ((ino1.data.length + 511) / 512).toNat → k < 512 →
          (offset ≤ 512 * (i : Int) + k ∧ 512 * (i : Int) + k < offset + n →
            (cache_view s1 (sector_at (cache_view s1) ino1.data i)).getD k 0 =
              buffer.getD (512 * (i : Int) + k - offset).toNat 0) ∧
          (¬ (offset ≤ 512 * (i : Int) + k ∧ 512 * (i : Int) + k < offset + n) →
            i < ((ino.data.length + 511) / 512).toNat →
            (cache_view s1 (sector_at (cache_view s1) ino1.data i)).getD k 0 =
              (cache_view s (sector_at (cache_view s) ino.data i)).getD k 0)) := by
  obtain ⟨hp1, hp2, sec, ino0, s0, ino2, s2, hb, hi, hw, hl⟩ := inode_write_at_factor hd h
  obtain ⟨hinv2, hsec2, hdeny2, hlen2, hdev2, hview2, g2, hcap, hold, hsz2⟩ :=
    inode_write_at_mid hinv hp1 hb hi hw
  have hino := inode_write_at_loop_inode _ _ _ _ _ _ _ _ hl
  simp only at hino
  subst hino
  obtain ⟨r1, r2, r3, r4, r5⟩ := inode_write_at_loop_spec ino1 buffer (cache_view s2)
    ((ino1.data.length + 511) / 512).toNat (ceil_le_mul _) hinv2.length_le
    hinv2.owns.data_ne_struct hinv2.owns.data_inj size.toNat s2 size offset 0 (n, ino1, s1)
    hinv2.wf hinv2.coherent (fun T _ => rfl) hoff le_rfl (Int.self_le_toNat size) hl
  simp only at r1 r2 r3 r4 r5
  rw [zero_add] at r1
  have hup : ∀ T, is_struct (cache_view s2) ino1.data ((ino1.data.length + 511) / 512).toNat T →
      cache_view s1 T = cache_view s2 T :=
    fun T hT => (r4 T (fun i hi hx => hinv2.owns.data_ne_struct i hi (hx ▸ hT))).1
  have hsat : ∀ i, i < ((ino1.data.length + 511) / 512).toNat →
      sector_at (cache_view s1) ino1.data i = sector_at (cache_view s2) ino1.data i :=
    fun i hi => sector_at_update hup hi
  have hself := r4 ino.sector (fun i hi hx => hinv2.self_ne_data i hi (by rw [hsec2, ← hx]))
  have hinv1 : inode_inv s1 ino1 := by
    refine ⟨r2.wf, r2.coherent, hinv2.length_nonneg, hinv2.length_le, ?_, ?_, ?_, ?_, ?_⟩
    · rw [r3]
      exact inode_owns_update hinv2.owns hup
    · rw [r3]; exact hinv2.self_alloc
    · intro i hi
      rw [hsat i hi]
      exact hinv2.self_ne_data i hi
    · rw [is_struct_update hup]
      exact hinv2.self_ne_struct
    · rw [r3]; exact hinv2.free_map_length
  refine ⟨hinv1, hsec2, hdeny2, hlen2, r1, ?_,
    cache_grows_trans g2 r2, hcap, ?_⟩
  · rcases hself.2 with hx | hx
    · rw [hx, hdev2]
    · rw [hx, hview2]
  · intro hsz
    obtain ⟨b1, b2⟩ := r5 (hsz2 hsz)
    refine ⟨fun i hi => by rw [hsat i hi]; exact b1 i hi, ?_⟩
    intro i k hi hk
    have hb := b2 i k hi hk
    simp only [zero_add] at hb
    rw [← r1] at hb
    rw [hsat i hi, hb]
    refine ⟨fun hr => by rw [if_pos hr], fun hr hie => ?_⟩
    rw [if_neg hr, (hold i hie).1, (hold i hie).2]

theorem inode_write_at_loop_neg {fuel : Nat} {s : Kernel} {ino : inode} {buffer : List Byte}
    {size offset bw : Int} {r : Int × inode × Kernel} (hwf : cache_wf s)
    (hco : cache_coherent s) (hs : 0 < size) (hneg : offset < 0)
    (hrange : -2147483648 ≤ offset) (h0 : 0 ≤ ino.data.length) :
    inode_write_at_loop (fuel + 1) s ino buffer size offset bw ≠ Except.ok r := by
  intro h
  have hp : offset < ino.data.length := by omega
  have e1 : Int.tdiv offset 512 = -((-offset) / 512) := by
    have := Int.neg_tdiv (-offset) 512
    rw [neg_neg] at this
    rw [this, Int.tdiv_eq_ediv (by omega) (by decide)]
  have e2 := Int.tmod_def offset 512
  rw [e1] at e2
  simp only [inode_write_at_loop, hs, if_true, byte_to_sector_false, hp, inode_length] at h
  cases h1 : index_to_sector s ino (byte_to_index offset) with
  | error f => rw [h1] at h; cases h
  | ok p =>
    obtain ⟨sec, s1⟩ := p
    obtain ⟨-, -, hidx⟩ := index_to_sector_keeps hwf hco h1
    rw [h1] at h
    simp only at h
    unfold byte_to_index at hidx
    rw [e1] at hidx
    have hsmall : -512 < offset := by omega
    have hofs : Int.tmod offset 512 < 0 := by rw [e2]; omega
    have hchunk : ¬ chunk_size ino.data.length size offset ≤ 0 := by
      unfold chunk_size
      simp only [int_ite_lt_eq_min]
      omega
    rw [if_neg hchunk] at h
    cases h2 : cache_load s1 sec with
    | error f => rw [h2] at h; cases h
    | ok q =>
      obtain ⟨e, s2⟩ := q
      rw [h2] at h
      simp only at h
      rw [if_pos (Or.inl hofs)] at h
      cases h

theorem inode_write_at_inv {s s1 : Kernel} {ino ino1 : inode} {buffer : List Byte}
    {size offset n : Int} (hinv : inode_inv s ino) (hrange : -2147483648 ≤ offset)
    (h : inode_write_at s ino buffer size offset = Except.ok (n, ino1, s1)) :
    inode_inv s1 ino1 := by
  by_cases hd : ino.deny_write_cnt = 0
  · by_cases hoff : 0 ≤ offset
    · exact (inode_write_at_spec hinv hd hoff h).1
    · obtain ⟨hp1, hp2, sec, ino0, s0, ino2, s2, hb, hi, hw, hl⟩ := inode_write_at_factor hd h
      obtain ⟨hinv2, -⟩ := inode_write_at_mid hinv hp1 hb hi hw
      by_cases hs : 0 < size
      · obtain ⟨k, hk⟩ : ∃ k, size.toNat = k + 1 := ⟨size.toNat - 1, by omega⟩
        rw [hk] at hl
        exact absurd hl (inode_write_at_loop_neg hinv2.wf hinv2.coherent hs (by omega) hrange
          hinv2.length_nonneg)
      · have hz : size.toNat = 0 := by omega
        rw [hz] at hl
        simp only [inode_write_at_loop] at hl
        injection hl with hl
        simp only [Prod.mk.injEq] at hl
        obtain ⟨-, h2, h3⟩ := hl
        subst h2 h3
        exact hinv2
  · unfold inode_write_at at h
    rw [if_pos hd] at h
    injection h with h
    simp only [Prod.mk.injEq] at h
    obtain ⟨-, h2, h3⟩ := h
    subst h2 h3
    exact hinv

theorem inode_write_at_ok {s : Kernel} {ino : inode} {buffer : List Byte} {size offset B : Int}
    {g : Nat × inode × Kernel} (hinv : inode_inv s ino) (hd : ino.deny_write_cnt = 0)
    (hs : 0 ≤ size) (hoff : 0 ≤ offset) (hL : ino.data.length ≤ 8503296)
    (hB : counts_le s B) (h0 : 0 ≤ B) (hlt : B + 3 * size + 361 < INT_MAX)
    (hbuf : size ≤ buffer.length) (hov : offset + size ≤ INT_MAX)
    (hg : byte_to_sector s ino (offset + size) true = Except.ok g) :
    ∃ r, inode_write_at s ino buffer size offset = Except.ok r := by
  obtain ⟨sec, ino1, s1⟩ := g
  obtain ⟨-, -, a, xs, data, -, hbound, -, g1, -⟩ :=
    byte_to_sector_grows hinv.wf hinv.coherent hinv.length_nonneg hinv.owns
      hinv.free_map_length hg
  have ha : a ≤ 352 := by
    by_cases h0 : a = 0
    · omega
    · have := hbound h0
      omega
  have hB1 := g1.counts B h0 hB
  obtain ⟨ino2, hi⟩ : ∃ ino2, ino2 = (if ino1.data.length < offset + size then
      { ino1 with data := { ino1.data with length := offset + size } } else ino1) := ⟨_, rfl⟩
  obtain ⟨s2, hw, -⟩ := cache_write_from_buf_ok ino2.sector (sector_of_inode_disk ino2.data)
    g1.wf g1.coherent hB1 (by omega) (by push_cast; omega)
  obtain ⟨hinv2, -, -, hlen2, -, -, g2, hcap, -, -⟩ := inode_write_at_mid hinv hov hg hi hw
  have hB2 := g2.counts B h0 hB
  rw [inode_write_at_unfold hd hov (by omega) hg hi hw]
  have hL2 : ino2.data.length ≤ 8503296 := by
    rw [hlen2]
    by_cases hLp : ino.data.length ≤ offset + size
    · have := hcap hLp
      have := hinv.length_nonneg
      omega
    · omega
  exact inode_write_at_loop_ok ino2 buffer hL2 size.toNat s2 size offset 0 (B + (361 : Nat))
    hinv2.wf hinv2.coherent hB2 (by omega) (by push_cast; omega) hoff le_rfl
    (Int.self_le_toNat size) (by omega)

/-! ## Bytes read back -/

theorem list_ext_getD {l1 l2 : List Byte} (hl : l1.length = l2.length)
    (h : ∀ t, t < l1.length → l1.getD t 0 = l2.getD t 0) : l1 = l2 := by
  apply List.ext_getElem hl
  intro t h1 h2
  have := h t h1
  rwa [List.getD_eq_getElem _ _ h1, List.getD_eq_getElem _ _ h2] at this

theorem range_map_getD (f : Nat → Byte) {m t : Nat} (ht : t < m) :
    ((List.range m).map f).getD t 0 = f t := by
  rw [List.getD_eq_getElem _ _ (by rw [List.length_map, List.length_range]; exact ht)]
  simp

theorem range_map_take (l : List Byte) {m : Nat} (h : m ≤ l.length) :
    (List.range m).map (fun t => l.getD t 0) = l.take m := by
  apply list_ext_getD
  · rw [List.length_map, List.length_range, List.length_take]
    omega
  · intro t ht
    rw [List.length_map, List.length_range] at ht
    rw [range_map_getD _ ht]
    simp only [List.getD_eq_getElem?_getD, List.getElem?_take, ht, if_true]

theorem read_chunk_eq {buf : List Byte} {g : Int → Byte} {offset c : Int}
    (hfit : offset % 512 + c ≤ 512) (hlen : buf.length = 512)
    (hg : ∀ t : Nat, (t : Int) < c → buf.getD ((offset % 512).toNat + t) 0 = g (offset + t)) :
    (buf.drop (offset % 512).toNat).take c.toNat =
      (List.range c.toNat).map (fun t : Nat => g (offset + (t : Int))) := by
  apply list_ext_getD
  · rw [List.length_map, List.length_range, List.length_take, List.length_drop]
    omega
  · intro t ht
    rw [List.length_take, List.length_drop] at ht
    have htc : t < c.toNat := by omega
    rw [take_drop_getD _ htc, range_map_getD _ htc]
    exact hg t (by omega)

theorem range_map_split (g : Int → Byte) {offset c size : Int} (hc : 0 ≤ c) (hcs : c ≤ size) :
    (List.range size.toNat).map (fun t : Nat => g (offset + (t : Int))) =
      (List.range c.toNat).map (fun t : Nat => g (offset + (t : Int))) ++
        (List.range (size - c).toNat).map (fun t : Nat => g (offset + c + (t : Int))) := by
  have hsz : size.toNat = c.toNat + (size - c).toNat := by omega
  rw [hsz, List.range_add, List.map_append, List.map_map]
  congr 1
  apply List.map_congr_left
  intro t _
  simp only [Function.comp]
  congr 1
  push_cast
  rw [Int.toNat_of_nonneg hc]
  ring

theorem read_bytes_eq (view : Nat → Sector) (d : inode_disk) (g : Int → Byte) (fuel : Nat) :
    ∀ size offset : Int, 0 ≤ offset → 0 ≤ size → size ≤ fuel → offset + size ≤ d.length →
      d.length ≤ INT_MAX →
      (∀ j : Int, offset ≤ j → j < offset + size →
        (view (sector_at view d (j / 512).toNat)).length = 512 ∧
        (view (sector_at view d (j / 512).toNat)).getD (j % 512).toNat 0 = g j) →
      read_bytes view d fuel size offset =
        (List.range size.toNat).map (fun t : Nat => g (offset + (t : Int))) := by
  induction fuel with
  | zero =>
    intro size offset _ hs hsz _ _ _
    simp only [Nat.cast_zero] at hsz
    have : size.toNat = 0 := by omega
    rw [this]
    rfl
  | succ fuel ih =>
    intro size offset hoff hs hsz hle hmax hg
    simp only [read_bytes]
    by_cases hpos : 0 < size
    · obtain ⟨c, hc⟩ : ∃ c, c = min size (min (d.length - offset) (512 - offset % 512)) :=
        ⟨_, rfl⟩
      obtain ⟨hcpos, hcle, hcfit, -⟩ := chunk_arith hpos (by omega : offset < d.length) hc
      rw [if_pos hpos, chunk_size_eq hoff, ← hc, if_neg (by omega),
        byte_to_index_nonneg hoff (by omega), Int.tmod_eq_emod hoff (by decide)]
      have h1 := hg offset le_rfl (by omega)
      rw [range_map_split g (le_of_lt hcpos) hcle]
      congr 1
      · apply read_chunk_eq (by omega) h1.1
        intro t ht
        have h2 := hg (offset + t) (by omega) (by omega)
        have e1 : ((offset + t) / 512).toNat = (offset / 512).toNat := by omega
        have e2 : ((offset + t) % 512).toNat = (offset % 512).toNat + t := by omega
        rw [e1, e2] at h2
        exact h2.2
      · apply ih (size - c) (offset + c) (by omega) (by omega) (by push_cast at hsz; omega)
          (by omega) hmax
        intro j hj1 hj2
        exact hg j (by omega) (by omega)
    · have : size.toNat = 0 := by omega
      rw [if_neg hpos, this]
      rfl

/-! ## Creation -/

theorem allocated_lt {fm : List Bool} {x : Nat} (h : allocated fm x) : x < fm.length := by
  unfold allocated at h
  by_contra hx
  rw [List.getD_eq_default _ _ (by omega)] at h
  cases h

theorem not_is_struct_zero (view : Nat → Sector) (d : inode_disk) (T : Nat) :
    ¬ is_struct view d 0 T := by
  unfold is_struct
  rintro (h | h | ⟨k, h, -⟩) <;> omega

theorem inode_owns_zero (view : Nat → Sector) (fm : List Bool) {d : inode_disk}
    (h : d.direct.length = 96) : inode_owns view fm d 0 :=
  ⟨h, fun _ hi => absurd hi (Nat.not_lt_zero _), fun _ _ hi => absurd hi (Nat.not_lt_zero _),
    fun T hT => absurd hT (not_is_struct_zero view d T),
    fun _ hi => absurd hi (Nat.not_lt_zero _), fun hn => absurd hn (by omega)⟩

theorem inode_owns_used {view : Nat → Sector} {fm : List Bool} {d d0 : inode_disk} {n : Nat}
    (hl : d.direct.length = 96)
    (h1 : ∀ i, i < n → i < 96 → d.direct.getD i 0 = d0.direct.getD i 0)
    (h2 : 96 < n → d.indirect = d0.indirect)
    (h3 : 224 < n → d.double_indirect = d0.double_indirect)
    (ho : inode_owns view fm d0 n) : inode_owns view fm d n := by
  have hs : ∀ i, i < n → sector_at view d i = sector_at view d0 i := by
    intro i hi
    by_cases c1 : i < 96
    · rw [sector_at_direct c1, sector_at_direct c1, h1 i hi c1]
    · by_cases c2 : i < 224
      · rw [sector_at_indirect (by omega) c2, sector_at_indirect (by omega) c2, h2 (by omega)]
      · rw [sector_at_double (by omega), sector_at_double (by omega), h3 (by omega)]
  have hst : ∀ T, is_struct view d n T ↔ is_struct view d0 n T := by
    intro T
    unfold is_struct
    by_cases c1 : 96 < n
    · by_cases c2 : 224 < n
      · rw [h2 c1, h3 c2]
      · rw [h2 c1]
        constructor
        · rintro (h | h | ⟨k, h, -⟩)
          · exact Or.inl h
          · omega
          · omega
        · rintro (h | h | ⟨k, h, -⟩)
          · exact Or.inl h
          · omega
          · omega
    · constructor
      · rintro (h | h | ⟨k, h, -⟩) <;> omega
      · rintro (h | h | ⟨k, h, -⟩) <;> omega
  refine ⟨hl, ?_, ?_, ?_, ?_, ?_⟩
  · intro i hi
    rw [hs i hi]; exact ho.data_alloc i hi
  · intro i j hi hj hij
    rw [hs i hi, hs j hj] at hij
    exact ho.data_inj i j hi hj hij
  · intro T hT
    exact ho.struct_alloc T ((hst T).mp hT)
  · intro i hi hT
    rw [hs i hi] at hT
    exact ho.data_ne_struct i hi ((hst _).mp hT)
  · intro hn
    rw [h2 (by omega), h3 hn]
    exact ho.struct_ne hn

theorem inode_disk_of_sector_direct_length (b : Sector) :
    (inode_disk_of_sector b).direct.length = 96 := by
  simp [inode_disk_of_sector]

theorem inode_disk_of_sector_direct_getD (d : inode_disk) {i : Nat} (hi : i < 96)
    (hlt : d.direct.getD i 0 < 4294967296) :
    (inode_disk_of_sector (sector_of_inode_disk d)).direct.getD i 0 = d.direct.getD i 0 := by
  simp only [inode_disk_of_sector]
  rw [List.getD_eq_getElem _ _ (by simpa using hi)]
  simp only [List.getElem_map, List.getElem_range]
  rw [indirect_data_inode_disk d (by omega), inode_disk_words_direct d hi,
    Nat.mod_eq_of_lt hlt]

theorem inode_disk_of_sector_indirect (d : inode_disk) (hlt : d.indirect < 4294967296) :
    (inode_disk_of_sector (sector_of_inode_disk d)).indirect = d.indirect := by
  simp only [inode_disk_of_sector]
  rw [indirect_data_inode_disk d (by decide), (inode_disk_words_fields d).1]
  exact Nat.mod_eq_of_lt hlt

theorem inode_disk_of_sector_double_indirect (d : inode_disk)
    (hlt : d.double_indirect < 4294967296) :
    (inode_disk_of_sector (sector_of_inode_disk d)).double_indirect = d.double_indirect := by
  simp only [inode_disk_of_sector]
  rw [indirect_data_inode_disk d (by decide), (inode_disk_words_fields d).2.1]
  exact Nat.mod_eq_of_lt hlt

theorem inode_disk_of_sector_is_opened (d : inode_disk) (h0 : -2147483648 ≤ d.is_opened)
    (h1 : d.is_opened ≤ INT_MAX) :
    (inode_disk_of_sector (sector_of_inode_disk d)).is_opened = d.is_opened := by
  simp only [inode_disk_of_sector]
  rw [indirect_data_inode_disk d (by decide), (inode_disk_words_fields d).2.2.2.1]
  exact int_of_word_of_int h0 h1

theorem inode_disk_of_sector_is_cwd (d : inode_disk) (h0 : -2147483648 ≤ d.is_cwd)
    (h1 : d.is_cwd ≤ INT_MAX) :
    (inode_disk_of_sector (sector_of_inode_disk d)).is_cwd = d.is_cwd := by
  simp only [inode_disk_of_sector]
  rw [indirect_data_inode_disk d (by decide), (inode_disk_words_fields d).2.2.2.2.1]
  exact int_of_word_of_int h0 h1

theorem inode_disk_of_sector_magic (d : inode_disk) (hlt : d.magic < 4294967296) :
    (inode_disk_of_sector (sector_of_inode_disk d)).magic = d.magic := by
  simp only [inode_disk_of_sector]
  rw [indirect_data_inode_disk d (by decide), (inode_disk_words_fields d).2.2.2.2.2.2]
  exact Nat.mod_eq_of_lt hlt

theorem inode_owns_of_sector {view : Nat → Sector} {fm : List Bool} {d : inode_disk} {n : Nat}
    (hfm : fm.length ≤ 4294967296) (ho : inode_owns view fm d n) :
    inode_owns view fm (inode_disk_of_sector (sector_of_inode_disk d)) n := by
  apply inode_owns_used (inode_disk_of_sector_direct_length _) _ _ _ ho
  · intro i hi h96
    apply inode_disk_of_sector_direct_getD d h96
    have := allocated_lt (ho.data_alloc i hi)
    rw [sector_at_direct h96] at this
    omega
  · intro hn
    apply inode_disk_of_sector_indirect
    have := allocated_lt (ho.struct_alloc _ (Or.inl ⟨hn, rfl⟩))
    omega
  · intro hn
    apply inode_disk_of_sector_double_indirect
    have := allocated_lt (ho.struct_alloc _ (Or.inr (Or.inl ⟨hn, rfl⟩)))
    omega

theorem inode_create_spec {s s1 : Kernel} {sector : Nat} {length : Int} {is_dir b : Bool}
    (h : inode_create s sector length is_dir = Except.ok (b, s1)) :
    b = true ∧ 0 ≤ length ∧ length ≤ INT_MAX - 511 ∧
    ∃ d s0,
      inode_alloc s
        { inode_disk_zero with
          length := length, magic := 1229868868, is_dir := is_dir, is_cwd := 0, is_opened := 0 }
        ((length + 511) / 512).toNat 0 = Except.ok (true, d, s0) ∧
      cache_write_from_buf s0 sector (sector_of_inode_disk d) = Except.ok s1 := by
  unfold inode_create at h
  split at h
  · cases h
  · rename_i hlen
    cases hb : bytes_to_sectors length with
    | error f => simp [hb] at h
    | ok n =>
      obtain ⟨hle, hn⟩ := bytes_to_sectors_spec (by omega) hb
      simp only [hb] at h
      split at h
      · cases h
      · rename_i d s2 ha
        split at h
        · cases h
        · rename_i s3 hw
          injection h with h
          simp only [Prod.mk.injEq] at h
          obtain ⟨h1, h2⟩ := h
          subst h1 h2
          rw [hn] at ha
          exact ⟨rfl, by omega, hle, d, s2, ha, hw⟩
      · cases h

theorem inode_create_inv {s s1 : Kernel} {sector : Nat} {length : Int} {is_dir b : Bool}
    (hwf : cache_wf s) (hco : cache_coherent s) (hfm : s.free_map.length ≤ 4294967296)
    (hsec : allocated s.free_map sector)
    (h : inode_create s sector length is_dir = Except.ok (b, s1)) :
    b = true ∧ 0 ≤ length ∧ ((length + 511) / 512).toNat ≤ 352 ∧
    (inode_disk_of_sector (s1.fs_device sector)).length = length ∧
    (inode_disk_of_sector (s1.fs_device sector)).is_dir = is_dir ∧
    (inode_disk_of_sector (s1.fs_device sector)).is_opened = 0 ∧
    (inode_disk_of_sector (s1.fs_device sector)).is_cwd = 0 ∧
    (inode_disk_of_sector (s1.fs_device sector)).magic = 1229868868 ∧
    (∃ xs data : List Nat, allocs s.free_map s1.free_map xs ∧
      data.length = ((length + 511) / 512).toNat ∧ data.Nodup ∧ (∀ x ∈ data, x ∈ xs) ∧
      (∀ x ∈ data, cache_view s1 x = zeros) ∧
      ∀ i, i < ((length + 511) / 512).toNat →
        sector_at (cache_view s1) (inode_disk_of_sector (s1.fs_device sector)) i =
          data.getD i 0) ∧
    ∀ ino : inode, ino.sector = sector →
      ino.data = inode_disk_of_sector (s1.fs_device sector) → inode_inv s1 ino := by
  obtain ⟨hb, h0, hle, d, s0, hal, hw⟩ := inode_create_spec h
  obtain ⟨f1, f2, f3, f4⟩ := inode_alloc_fields hal
  have f5 := inode_alloc_length hal
  simp only at f1 f2 f3 f4 f5
  have hn : ((length + 511) / 512).toNat ≠ 0 → 0 + ((length + 511) / 512).toNat ≤ 352 := by
    intro hne
    have := inode_alloc_flag hal (by omega) (by unfold INT_MAX at hle; omega)
    exact this.mp rfl
  have hn352 : ((length + 511) / 512).toNat ≤ 352 := by
    by_cases hz : ((length + 511) / 512).toNat = 0
    · omega
    · have := hn hz
      omega
  have ho0 : inode_owns (cache_view s) s.free_map
      { inode_disk_zero with
        length := length, magic := 1229868868, is_dir := is_dir, is_cwd := 0, is_opened := 0 }
      0 := inode_owns_zero _ _ rfl
  obtain ⟨g, xs, data, G⟩ := inode_alloc_grows hwf hco ho0 hfm hn hal
  have ho := inode_owns_grown ho0 G
  rw [zero_add] at ho
  have P := cache_write_from_buf_keeps g.wf g.coherent hw
  have hdev := cache_write_from_buf_device hw
  have hnx : sector ∉ xs := allocs_not_mem G.allocs hsec
  have hns : ¬ is_struct (cache_view s0) d ((length + 511) / 512).toNat sector := by
    intro hT
    have := G.struct sector (by rw [zero_add]; exact hT)
    exact this.elim (fun h => hnx h.1) (not_is_struct_zero _ _ _)
  have hup : ∀ T, is_struct (cache_view s0) d ((length + 511) / 512).toNat T →
      cache_view s1 T = cache_view s0 T := by
    intro T hT
    rw [P.view T, if_neg (fun (hx : T = sector) => hns (hx ▸ hT))]
  have hfm1 : s1.free_map.length ≤ 4294967296 := by
    rw [P.free_map, G.allocs.length]; exact hfm
  have ho1 : inode_owns (cache_view s1) s1.free_map d ((length + 511) / 512).toNat := by
    rw [P.free_map]
    exact inode_owns_update ho hup
  have hdata : ∀ i, i < ((length + 511) / 512).toNat →
      sector_at (cache_view s1) d i ≠ sector := by
    intro i hi hx
    have h1 : sector_at (cache_view s1) d i = sector_at (cache_view s0) d i :=
      sector_at_update hup hi
    have h2 := G.new i (Nat.zero_le _) (by rw [zero_add]; exact hi)
    have h3 : data.getD (i - 0) 0 ∈ data := getD_mem_of_lt (by rw [G.data_len]; omega)
    rw [← h2, ← h1, hx] at h3
    exact hnx (G.data_sub _ h3)
  have hu1 := fun i (hi : i < ((length + 511) / 512).toNat) (h96 : i < 96) =>
    inode_disk_of_sector_direct_getD d h96 (by
      have := allocated_lt (ho1.data_alloc i hi)
      rw [sector_at_direct h96] at this
      omega)
  have hu2 := fun (hn : 96 < ((length + 511) / 512).toNat) =>
    inode_disk_of_sector_indirect d (by
      have := allocated_lt (ho1.struct_alloc _ (Or.inl ⟨hn, rfl⟩))
      omega)
  have hu3 := fun (hn : 224 < ((length + 511) / 512).toNat) =>
    inode_disk_of_sector_double_indirect d (by
      have := allocated_lt (ho1.struct_alloc _ (Or.inr (Or.inl ⟨hn, rfl⟩)))
      omega)
  have hlenD : (inode_disk_of_sector (sector_of_inode_disk d)).length = length := by
    rw [inode_disk_of_sector_length d (by rw [f5]; omega) (by rw [f5]; omega), f5]
  have hsD : ∀ i, i < ((length + 511) / 512).toNat →
      sector_at (cache_view s1) (inode_disk_of_sector (sector_of_inode_disk d)) i =
        sector_at (cache_view s1) d i := by
    intro i hi
    by_cases c1 : i < 96
    · rw [sector_at_direct c1, sector_at_direct c1, hu1 i hi c1]
    · by_cases c2 : i < 224
      · rw [sector_at_indirect (by omega) c2, sector_at_indirect (by omega) c2, hu2 (by omega)]
      · rw [sector_at_double (by omega), sector_at_double (by omega), hu3 (by omega)]
  rw [hdev]
  refine ⟨hb, h0, hn352, hlenD, by rw [inode_disk_of_sector_is_dir, f1],
    by rw [inode_disk_of_sector_is_opened d (by rw [f2]; decide) (by rw [f2]; decide), f2],
    by rw [inode_disk_of_sector_is_cwd d (by rw [f3]; decide) (by rw [f3]; decide), f3],
    by rw [inode_disk_of_sector_magic d (by rw [f4]; decide), f4], ?_, ?_⟩
  · refine ⟨xs, data, by rw [P.free_map]; exact G.allocs, by rw [G.data_len], G.data_nodup,
      G.data_sub, ?_, ?_⟩
    · intro x hx
      rw [P.view x, if_neg (fun (hxs : x = sector) => hnx (hxs ▸ G.data_sub x hx))]
      exact G.zero x hx
    · intro i hi
      rw [hsD i hi, sector_at_update hup hi, G.new i (Nat.zero_le _) (by rw [zero_add]; exact hi)]
      rfl
  intro ino hs hd
  have hoD : inode_owns (cache_view s1) s1.free_map ino.data
      ((ino.data.length + 511) / 512).toNat := by
    rw [hd, hlenD]
    exact inode_owns_of_sector hfm1 ho1
  refine ⟨P.wf, P.coherent, by rw [hd, hlenD]; exact h0,
    by rw [hd, hlenD]; omega, hoD, ?_, ?_, ?_, hfm1⟩
  · rw [hs, P.free_map]
    exact allocs_mono G.allocs hsec
  · rw [hd, hlenD, hs]
    intro i hi
    rw [hsD i hi]
    exact hdata i hi
  · rw [hd, hlenD, hs]
    intro hT
    unfold is_struct at hT
    rcases hT with ⟨c, hT⟩ | ⟨c, hT⟩ | ⟨k, c, hT⟩
    · rw [hu2 c] at hT
      exact hns (((is_struct_update hup sector).mpr (Or.inl ⟨c, hT⟩)) |>
        (is_struct_update hup sector).mp)
    · rw [hu3 c] at hT
      exact hns (((is_struct_update hup sector).mpr (Or.inr (Or.inl ⟨c, hT⟩))) |>
        (is_struct_update hup sector).mp)
    · rw [hu3 (by omega)] at hT
      have : is_struct (cache_view s1) d ((length + 511) / 512).toNat sector :=
        Or.inr (Or.inr ⟨k, c, hT⟩)
      exact hns ((is_struct_update hup sector).mp this)

theorem inode_inv_boot : inode_inv boot_kernel empty_inode :=
  ⟨cache_wf_init _, cache_coherent_init _, by decide, by decide,
    inode_owns_zero _ _ rfl, rfl, fun _ hi => absurd hi (Nat.not_lt_zero _),
    not_is_struct_zero _ _ _, by decide⟩

theorem cache_view_boot (T : Nat) : (cache_view boot_kernel T).length = 512 :=
  zeros_length

/-! ## C13: a write extends the length and is never short -/

/-- Claim C13.  Let the inode satisfy the length/allocation invariant
(`inode_inv`), with `deny_write_cnt = 0`, a length within the addressing
ceiling, `size > 0`, `offset >= 0`, a caller's buffer of at least `size`
bytes, and access counters that leave room for the loads of the call.  If the
growth step `byte_to_sector (inode, offset + size, true)` returns, then
`inode_write_at (inode, buf, size, offset)` returns exactly `size`;
afterwards `inode_length` is `max (L, offset + size)` and the sector of the
inode on the device decodes to that length.  The call factors as the growth
step, then `cache_write_from_buf` on `inode->sector` with the image of the
updated `inode_disk`, which leaves that image on the device, then the copy
loop, which starts from the state the metadata write returns. -/
theorem inode_write_at_extends (s : Kernel) (ino : inode) (buffer : List Byte)
    (size offset B : Int) (hinv : inode_inv s ino) (hd : ino.deny_write_cnt = 0)
    (hsize : 0 < size) (hoff : 0 ≤ offset) (hL : ino.data.length ≤ 8503296)
    (hbuf : size ≤ buffer.length) (hB : counts_le s B) (h0 : 0 ≤ B)
    (hlt : B + 3 * size + 361 < INT_MAX)
    (hg : ∃ g, byte_to_sector s ino (offset + size) true = Except.ok g) :
    ∃ sec ino0 s0 ino1 s2 s1,
      byte_to_sector s ino (offset + size) true = Except.ok (sec, ino0, s0) ∧
      cache_write_from_buf s0 ino.sector (sector_of_inode_disk ino1.data) = Except.ok s2 ∧
      s2.fs_device ino.sector = sector_of_inode_disk ino1.data ∧
      inode_write_at_loop size.toNat s2 ino1 buffer size offset 0 =
        Except.ok (size, ino1, s1) ∧
      inode_write_at s ino buffer size offset = Except.ok (size, ino1, s1) ∧
      inode_length ino1 = max ino.data.length (offset + size) ∧
      (inode_disk_of_sector (s1.fs_device ino.sector)).length =
        max ino.data.length (offset + size) := by
  obtain ⟨g, hg⟩ := hg
  obtain ⟨sec, ino0, s0⟩ := g
  have hov : offset + size ≤ INT_MAX := by
    obtain ⟨-, -, a, xs, data, -, -, hple, -, -⟩ :=
      byte_to_sector_grows hinv.wf hinv.coherent hinv.length_nonneg hinv.owns
        hinv.free_map_length hg
    by_cases hLp : ino.data.length ≤ offset + size
    · have := hple hLp
      omega
    · unfold INT_MAX
      omega
  obtain ⟨r, hr⟩ := inode_write_at_ok hinv hd (le_of_lt hsize) hoff hL hB h0 hlt hbuf hov hg
  obtain ⟨n, ino1, s1⟩ := r
  obtain ⟨hinv1, hsec1, -, hlen1, hn, hdev1, -, -, -⟩ := inode_write_at_spec hinv hd hoff hr
  have hns : n = size := by
    rw [hn, hlen1]
    omega
  subst hns
  obtain ⟨-, -, sec1, ino2, s3, ino3, s2, hb, hi, hw, hl⟩ := inode_write_at_factor hd hr
  rw [hg] at hb
  injection hb with hb
  simp only [Prod.mk.injEq] at hb
  obtain ⟨-, hb2, hb3⟩ := hb
  subst hb2 hb3
  have hino := inode_write_at_loop_inode _ _ _ _ _ _ _ _ hl
  simp only at hino
  subst hino
  rw [hsec1] at hw
  refine ⟨sec, ino0, s0, ino1, s2, s1, hg, hw, cache_write_from_buf_device hw, hl, hr, hlen1, ?_⟩
  rw [hdev1, inode_disk_of_sector_length _ (by have := hinv1.length_nonneg; omega)
    hinv1.length_le, hlen1]

theorem inode_write_at_extends_witness :
    ∃ sec ino0 s0 ino1 s2 s1,
      byte_to_sector boot_kernel empty_inode (0 + 1) true = Except.ok (sec, ino0, s0) ∧
      cache_write_from_buf s0 empty_inode.sector (sector_of_inode_disk ino1.data) =
        Except.ok s2 ∧
      s2.fs_device empty_inode.sector = sector_of_inode_disk ino1.data ∧
      inode_write_at_loop (1 : Int).toNat s2 ino1 [7] 1 0 0 = Except.ok (1, ino1, s1) ∧
      inode_write_at boot_kernel empty_inode [7] 1 0 = Except.ok (1, ino1, s1) ∧
      inode_length ino1 = max empty_inode.data.length (0 + 1) ∧
      (inode_disk_of_sector (s1.fs_device empty_inode.sector)).length =
        max empty_inode.data.length (0 + 1) :=
  inode_write_at_extends boot_kernel empty_inode [7] 1 0 0 inode_inv_boot rfl (by decide)
    (by decide) (by decide) (by decide) (counts_le_init _ _) (by decide) (by decide) ⟨_, rfl⟩

/-! ## C15: write/read round trip -/

/-- Claim C15.  Let the inode satisfy the length/allocation invariant
(`inode_inv`) in a state whose sectors hold 512 bytes and whose access
counters do not exceed 2000000000, with `deny_write_cnt = 0`, a length within
the addressing ceiling, `size >= 0`, `offset >= 0` and a caller's buffer of at
least `size` bytes.  If `inode_write_at (inode, buf, size, offset)` returns
`n`, then `inode_read_at (inode, out, n, offset)` in the state the write
leaves returns `n` with `out` equal to the first `n` bytes of `buf`; and every
read of a range below the old length that does not meet `[offset, offset + n)`
returns the same bytes after the write as before it.  The state `s` is any
state of the cache, so the statement covers every pattern of evictions. -/
theorem inode_write_read_round_trip (s s1 : Kernel) (ino ino1 : inode) (buffer : List Byte)
    (size offset n : Int) (hinv : inode_inv s ino)
    (hsz : ∀ T, (cache_view s T).length = 512) (hd : ino.deny_write_cnt = 0)
    (hsize : 0 ≤ size) (hoff : 0 ≤ offset) (hbuf : size ≤ buffer.length)
    (hL : ino.data.length ≤ 8503296) (hB : counts_le s 2000000000)
    (h : inode_write_at s ino buffer size offset = Except.ok (n, ino1, s1)) :
    (∃ s2, inode_read_at s1 ino1 n offset =
      Except.ok (n, buffer.take n.toNat, ino1, s2)) ∧
    ∀ k p : Int, 0 ≤ k → 0 ≤ p → p + k ≤ ino.data.length →
      (p + k ≤ offset ∨ offset + n ≤ p) →
      ∃ out s3 s4, inode_read_at s ino k p = Except.ok (k, out, ino, s3) ∧
        inode_read_at s1 ino1 k p = Except.ok (k, out, ino1, s4) := by
  obtain ⟨hinv1, -, -, hlen1, hn, -, g1, hcap, hcont⟩ := inode_write_at_spec hinv hd hoff h
  obtain ⟨c1, c2⟩ := hcont hsz
  have hL0 := hinv.length_nonneg
  have hL1 : ino1.data.length ≤ 8503296 := by
    rw [hlen1]
    by_cases hLp : ino.data.length ≤ offset + size
    · have := hcap hLp
      omega
    · omega
  have hns : n = size := by
    rw [hn, hlen1]
    omega
  have hB1 := g1.counts 2000000000 (by decide) hB
  have hsize1 : size ≤ 8503296 := by
    rw [hlen1] at hL1
    omega
  have hlt1 : (3 : Int) * (size.toNat : Int) ≤ 25509888 := by omega
  constructor
  · obtain ⟨s2, h2, -⟩ := inode_read_at_loop_ok ino1 n.toNat s1 n offset 0 [] _ hinv1.wf
      hinv1.coherent hB1 (by omega)
      (by rw [hns]; unfold INT_MAX; push_cast; omega) hL1 hoff (Int.self_le_toNat n)
    refine ⟨s2, ?_⟩
    unfold inode_read_at
    rw [h2]
    have hv : 0 + max (min n (ino1.data.length - offset)) 0 = n := by
      rw [hns, hlen1]
      omega
    rw [hv, List.nil_append,
      read_bytes_eq (cache_view s1) ino1.data (fun j => buffer.getD (j - offset).toNat 0)
        n.toNat n offset hoff (by omega) (Int.self_le_toNat n)
        (by rw [hns, hlen1]; omega) hinv1.length_le]
    · have hmap : List.map (fun t : Nat => buffer.getD (offset + (t : Int) - offset).toNat 0)
          (List.range n.toNat) = buffer.take n.toNat := by
        rw [← range_map_take buffer (by omega : n.toNat ≤ buffer.length)]
        apply List.map_congr_left
        intro t _
        congr 1
        omega
      rw [hmap]
    · intro j hj1 hj2
      have hi : (j / 512).toNat < ((ino1.data.length + 511) / 512).toNat := by
        rw [hlen1]
        omega
      have hk : (j % 512).toNat < 512 := by omega
      have hjj : 512 * (((j / 512).toNat : Nat) : Int) + (((j % 512).toNat : Nat) : Int) = j := by
        omega
      refine ⟨c1 _ hi, ?_⟩
      have := (c2 _ _ hi hk).1 (by rw [hjj]; exact ⟨hj1, hj2⟩)
      rw [hjj] at this
      exact this
  · intro k p hk hp hpk hdis
    obtain ⟨s3, h3, -⟩ := inode_read_at_loop_ok ino k.toNat s k p 0 [] _ hinv.wf
      hinv.coherent hB (by decide)
      (by unfold INT_MAX; omega) hL hp (Int.self_le_toNat k)
    obtain ⟨s4, h4, -⟩ := inode_read_at_loop_ok ino1 k.toNat s1 k p 0 [] _ hinv1.wf
      hinv1.coherent hB1 (by omega)
      (by unfold INT_MAX; push_cast; omega) hL1 hp (Int.self_le_toNat k)
    have hLle : ino.data.length ≤ ino1.data.length := by
      rw [hlen1]; exact le_max_left _ _
    have hv3 : 0 + max (min k (ino.data.length - p)) 0 = k := by omega
    have hv4 : 0 + max (min k (ino1.data.length - p)) 0 = k := by omega
    rw [hv3] at h3
    rw [hv4] at h4
    refine ⟨_, s3, s4, h3, ?_⟩
    unfold inode_read_at
    rw [h4]
    have e3 := read_bytes_eq (cache_view s) ino.data
      (fun j => (cache_view s (sector_at (cache_view s) ino.data (j / 512).toNat)).getD
        (j % 512).toNat 0)
      k.toNat k p hp hk (Int.self_le_toNat k) hpk hinv.length_le
      (fun j _ _ => ⟨hsz _, rfl⟩)
    have e4 := read_bytes_eq (cache_view s1) ino1.data
      (fun j => (cache_view s (sector_at (cache_view s) ino.data (j / 512).toNat)).getD
        (j % 512).toNat 0)
      k.toNat k p hp hk (Int.self_le_toNat k) (by omega) hinv1.length_le
      (by
        intro j hj1 hj2
        have hie : (j / 512).toNat < ((ino.data.length + 511) / 512).toNat := by omega
        have hi : (j / 512).toNat < ((ino1.data.length + 511) / 512).toNat := by omega
        have hk : (j % 512).toNat < 512 := by omega
        have hjj : 512 * (((j / 512).toNat : Nat) : Int) + (((j % 512).toNat : Nat) : Int) =
            j := by omega
        refine ⟨c1 _ hi, ?_⟩
        exact (c2 _ _ hi hk).2 (by rw [hjj]; omega) hie)
    rw [e3, e4]

theorem inode_write_read_round_trip_witness :
    ∃ n ino1 s1, inode_write_at boot_kernel empty_inode [7, 8, 9] 3 0 = Except.ok (n, ino1, s1) ∧
      ((∃ s2, inode_read_at s1 ino1 n 0 =
        Except.ok (n, ([7, 8, 9] : List Byte).take n.toNat, ino1, s2)) ∧
      ∀ k p : Int, 0 ≤ k → 0 ≤ p → p + k ≤ empty_inode.data.length →
        (p + k ≤ 0 ∨ 0 + n ≤ p) →
        ∃ out s3 s4, inode_read_at boot_kernel empty_inode k p =
            Except.ok (k, out, empty_inode, s3) ∧
          inode_read_at s1 ino1 k p = Except.ok (k, out, ino1, s4)) :=
  ⟨_, _, _, rfl,
    inode_write_read_round_trip boot_kernel _ empty_inode _ [7, 8, 9] 3 0 _ inode_inv_boot
      cache_view_boot rfl (by decide) (by decide) (by decide) (by decide) (counts_le_init _ _)
      rfl⟩

/-! ## C17: the length/allocation invariant -/

/-- Claim C17.  First part: in a well-formed, coherent cache, if `sector` is
marked in use and `inode_create (sector, length, is_dir)` returns, it returns
true; the sector read back from the device as `struct inode_disk` has the
given length and `is_dir` flag, `is_opened = 0`, `is_cwd = 0` and the magic
number; `ceil (length / 512)` pairwise different data sectors, all taken from
the free map by the call and filled with zeros, sit at the logical indices
`0 .. ceil (length / 512) - 1`; the inode satisfies the length/allocation
invariant `inode_inv`; and `index_to_sector` at each of those indices returns
the data sector of that index.  Second part: every `inode_write_at` whose
`offset` is an `off_t` and that returns, on an inode that satisfies
`inode_inv`, leaves an inode that satisfies `inode_inv`: it owns exactly
`ceil (inode_length / 512)` data sectors, marked in use and pairwise
different, at the logical indices below that number. -/
theorem inode_length_allocation :
    (∀ (s s1 : Kernel) (sector : Nat) (length : Int) (is_dir b : Bool),
      cache_wf s → cache_coherent s → s.free_map.length ≤ 4294967296 →
      allocated s.free_map sector →
      inode_create s sector length is_dir = Except.ok (b, s1) →
      b = true ∧
      (inode_disk_of_sector (s1.fs_device sector)).length = length ∧
      (inode_disk_of_sector (s1.fs_device sector)).is_dir = is_dir ∧
      (inode_disk_of_sector (s1.fs_device sector)).is_opened = 0 ∧
      (inode_disk_of_sector (s1.fs_device sector)).is_cwd = 0 ∧
      (inode_disk_of_sector (s1.fs_device sector)).magic = 1229868868 ∧
      (∃ xs data : List Nat, allocs s.free_map s1.free_map xs ∧
        data.length = ((length + 511) / 512).toNat ∧ data.Nodup ∧ (∀ x ∈ data, x ∈ xs) ∧
        (∀ x ∈ data, cache_view s1 x = zeros) ∧
        ∀ i, i < ((length + 511) / 512).toNat →
          sector_at (cache_view s1) (inode_disk_of_sector (s1.fs_device sector)) i =
            data.getD i 0) ∧
      ∀ ino : inode, ino.sector = sector →
        ino.data = inode_disk_of_sector (s1.fs_device sector) →
        inode_inv s1 ino ∧
        ∀ i, i < ((length + 511) / 512).toNat →
          (∀ r, index_to_sector s1 ino i = Except.ok r →
            r.1 = sector_at (cache_view s1) ino.data i ∧ allocated s1.free_map r.1) ∧
          ∀ B : Int, 0 ≤ B → counts_le s1 B → B + 1 < INT_MAX →
            ∃ s2, index_to_sector s1 ino i =
              Except.ok (sector_at (cache_view s1) ino.data i, s2)) ∧
    (∀ (s s1 : Kernel) (ino ino1 : inode) (buffer : List Byte) (size offset n : Int),
      inode_inv s ino → -2147483648 ≤ offset →
      inode_write_at s ino buffer size offset = Except.ok (n, ino1, s1) →
      inode_inv s1 ino1) := by
  constructor
  · intro s s1 sector length is_dir b hwf hco hfm hsec h
    obtain ⟨h1, h0, h352, h2, h3, h4, h5, h6, h7, h8⟩ := inode_create_inv hwf hco hfm hsec h
    refine ⟨h1, h2, h3, h4, h5, h6, h7, ?_⟩
    intro ino hs hd
    have hinv := h8 ino hs hd
    refine ⟨hinv, ?_⟩
    intro i hi
    have hi2 : i < ((ino.data.length + 511) / 512).toNat := by rw [hd, h2]; exact hi
    constructor
    · intro r hr
      obtain ⟨-, hsec, -⟩ := index_to_sector_keeps hinv.wf hinv.coherent
        (show index_to_sector s1 ino i = Except.ok (r.1, r.2) from hr)
      rw [hsec]
      exact ⟨rfl, hinv.owns.data_alloc i hi2⟩
    · intro B hB0 hB hlt
      obtain ⟨s2, h9, -⟩ := index_to_sector_ok ino hinv.wf hinv.coherent hB hB0 hlt
        (by omega : i < 16608)
      exact ⟨s2, h9⟩
  · intro s s1 ino ino1 buffer size offset n hinv hrange h
    exact inode_write_at_inv hinv hrange h

theorem inode_length_allocation_witness :
    (∃ b s1, inode_create boot_kernel 1 600 false = Except.ok (b, s1) ∧ b = true ∧
      (inode_disk_of_sector (s1.fs_device 1)).length = 600) ∧
    (∃ n ino1 s1, inode_write_at boot_kernel empty_inode [7, 8, 9] 3 700 =
        Except.ok (n, ino1, s1) ∧ inode_inv s1 ino1) :=
  ⟨⟨_, _, rfl,
      (inode_length_allocation.1 boot_kernel _ 1 600 false _ (cache_wf_init _)
        (cache_coherent_init _) (by decide) rfl rfl).1,
      (inode_length_allocation.1 boot_kernel _ 1 600 false _ (cache_wf_init _)
        (cache_coherent_init _) (by decide) rfl rfl).2.1⟩,
    ⟨_, _, _, rfl,
      inode_length_allocation.2 boot_kernel _ empty_inode _ [7, 8, 9] 3 700 _ inode_inv_boot
        (by decide) rfl⟩⟩

/-! ## C27: the cache never runs out of slots -/

theorem cache_load_fault {s : Kernel} {S : Nat} {f : Fault} (hwf : cache_wf s)
    (hco : cache_coherent s) (h : cache_load s S = Except.error f) :
    f = Fault.undefined ∧ ∃ s0 e s1, cache_load_wait s S = Except.ok s0 ∧
      cache_fetch s0 S = Except.ok (e, s1) ∧ e.access_count = INT_MAX := by
  obtain ⟨s0, h1, k1⟩ := cache_load_wait_ok S hwf hco
  obtain ⟨e, s1, h2, -⟩ := cache_fetch_ok S k1.wf k1.coherent
  unfold cache_load at h
  simp only [h1, h2] at h
  by_cases hc : e.access_count = INT_MAX
  · refine ⟨?_, s0, e, s1, h1, h2, hc⟩
    unfold access_count_incr at h
    simp only [hc, if_true] at h
    injection h with h
    exact h.symm
  · rw [access_count_incr_ok hc] at h
    cases h

/-- Claim C27.  In every state reached from `cache_init` by calls of the
cache that return: `cache_checker[i]` is true exactly when an entry of
`cache_list` has `slot_idx = i`; `cache_make_room`, the only caller of
`cache_evict`, calls it only when no slot index is free, so its assertion
holds; in that case `cache_list` is not empty, `cache_evict` returns and a
slot index is free afterwards; `cache_create` after `cache_make_room`
returns, so its `PANIC` is not reached; `cache_load_ahead` returns; and
`cache_load` never ends in a `PANIC`: the only way it does not return is the
signed overflow of `access_count` at `INT_MAX`. -/
theorem cache_exhaustion_unreachable (k : Kernel) (calls : List cache_call) (s : Kernel)
    (h : cache_run (cache_init k) calls = Except.ok s) :
    (∀ i, i < 64 → (s.cache_checker i = true ↔ ∃ e ∈ s.cache_list, e.slot_idx = i)) ∧
    ((∃ i, cache_find_empty_slot s.cache_checker = some i) →
      cache_make_room s = Except.ok s) ∧
    (cache_find_empty_slot s.cache_checker = none →
      s.cache_list ≠ [] ∧ cache_make_room s = cache_evict s ∧
      ∃ s1, cache_evict s = Except.ok s1 ∧
        ∃ i, cache_find_empty_slot s1.cache_checker = some i) ∧
    (∀ S, ∃ s1 r, cache_make_room s = Except.ok s1 ∧ cache_create s1 S = Except.ok r) ∧
    (∀ S, ∃ r, cache_load_ahead s S = Except.ok r) ∧
    (∀ S, cache_load s S ≠ Except.error Fault.panic) := by
  obtain ⟨hwf, hco⟩ := cache_run_inv calls _ s (cache_wf_init k) (cache_coherent_init k) h
  refine ⟨?_, ?_, ?_, ?_, ?_, ?_⟩
  · intro i hi
    constructor
    · exact hwf.used_slot i hi
    · rintro ⟨e, he, rfl⟩
      exact hwf.slot_used e he
  · rintro ⟨i, hi⟩
    unfold cache_make_room
    rw [hi]
  · intro hfull
    have hne := cache_wf_full_nonempty hwf hfull
    have hm : cache_make_room s = cache_evict s := by
      unfold cache_make_room
      rw [hfull]
    obtain ⟨s1, h1⟩ := cache_evict_total hfull hne hwf.slot_lt
    refine ⟨hne, hm, s1, h1, ?_⟩
    rw [← hm] at h1
    exact cache_make_room_free h1
  · intro S
    obtain ⟨s1, h1⟩ := cache_make_room_total hwf
    obtain ⟨i, hi⟩ := cache_make_room_free h1
    exact ⟨s1, _, h1, cache_create_spec hi⟩
  · intro S
    exact cache_fetch_total S hwf
  · intro S hp
    have := (cache_load_fault hwf hco hp).1
    cases this

theorem cache_exhaustion_unreachable_witness :
    ∃ s, cache_run (cache_init boot_kernel) sample_calls = Except.ok s ∧
      (∀ i, i < 64 → (s.cache_checker i = true ↔ ∃ e ∈ s.cache_list, e.slot_idx = i)) ∧
      (∀ S, ∃ s1 r, cache_make_room s = Except.ok s1 ∧ cache_create s1 S = Except.ok r) ∧
      (∀ S, cache_load s S ≠ Except.error Fault.panic) := by
  obtain ⟨s, hs⟩ := cache_run_total sample_calls (cache_init boot_kernel) 0 (cache_wf_init _)
    (cache_coherent_init _) (fun e he => absurd he (List.not_mem_nil e)) (le_refl _) (by decide)
  have h := cache_exhaustion_unreachable boot_kernel sample_calls s hs
  exact ⟨s, hs, h.1, h.2.2.2.1, h.2.2.2.2.2⟩

/-! ## C28: one iteration of the prefetch worker -/

theorem cache_fetch_created {s : Kernel} {S : Nat} {e : cache_e} {s1 : Kernel}
    (hl : lookup_cache s.cache_list S = none) (h : cache_fetch s S = Except.ok (e, s1)) :
    e.buf = s.fs_device S ∧ e.buf = s1.fs_device S ∧ e.dirty = false ∧ e.access_count = 0 ∧
      e.sector_idx = S ∧
      ∃ l, s1.cache_list = l ++ [e] ∧ ∀ a ∈ l, a ∈ s.cache_list := by
  rcases cache_fetch_spec h with ⟨e0, h0, -⟩ | ⟨-, s0, i, hr, hi, hf⟩
  · rw [hl] at h0; cases h0
  · have hS : ∀ a ∈ s.cache_list, a.sector_idx ≠ S := lookup_cache_none.mp hl
    have hdev : s0.fs_device S = s.fs_device S := by
      rcases cache_make_room_spec hr with ⟨-, rfl⟩ | ⟨-, pre, v, post, hlist, -, -, -, rfl⟩
      · rfl
      · apply evicted_fs_device_other
        intro hx
        exact hS v (by rw [hlist]; simp) hx.symm
    simp only [fetched, Prod.mk.injEq] at hf
    obtain ⟨he, hs1⟩ := hf
    subst he hs1
    refine ⟨hdev, rfl, rfl, rfl, rfl, s0.cache_list, rfl, ?_⟩
    exact cache_make_room_sub hr

/-- Claim C28.  One iteration of the worker (`read_aheader_step`) in a
well-formed cache.  With an empty `read_ahead_list` it changes nothing.
Otherwise it calls `cache_load_ahead` for the sector of the request at the
front of the list and returns; afterwards the list is its former tail, so
exactly the front request is gone and no request is new, and the cache holds
an entry for that sector.  If the sector was cached already, the entry, the
cache list, the device and the log of device requests are as before (the
access count is not incremented).  If the entry had to be created, its buffer
is what the device stores for the sector, it is clean, its `access_count` is
0, it is the last entry of the list, and every other entry is an entry of
the old list. -/
theorem read_aheader_step_spec (s : Kernel) (hwf : cache_wf s) :
    (s.read_ahead_list = [] → read_aheader_step s = Except.ok s) ∧
    (∀ r rest, s.read_ahead_list = r :: rest →
      ∃ e s0 s1, cache_load_ahead s r.sector_idx = Except.ok (e, s0) ∧
        read_aheader_step s = Except.ok s1 ∧
        s1.read_ahead_list = rest ∧ s1.cache_list = s0.cache_list ∧
        s1.cache_checker = s0.cache_checker ∧ s1.fs_device = s0.fs_device ∧
        s1.fs_log = s0.fs_log ∧ s1.free_map = s.free_map ∧
        lookup_cache s1.cache_list r.sector_idx = some e ∧
        (∀ e0, lookup_cache s.cache_list r.sector_idx = some e0 →
          e = e0 ∧ s1.cache_list = s.cache_list ∧ s1.cache_checker = s.cache_checker ∧
          s1.fs_device = s.fs_device ∧ s1.fs_log = s.fs_log) ∧
        (lookup_cache s.cache_list r.sector_idx = none →
          e.buf = s.fs_device r.sector_idx ∧ e.buf = s1.fs_device r.sector_idx ∧
          e.dirty = false ∧ e.access_count = 0 ∧
          ∃ l, s1.cache_list = l ++ [e] ∧ ∀ a ∈ l, a ∈ s.cache_list)) := by
  constructor
  · intro hl
    unfold read_aheader_step
    rw [hl]
  · intro r rest hl
    obtain ⟨⟨e, s0⟩, h0⟩ := cache_fetch_total r.sector_idx hwf
    obtain ⟨h1, -, h3, -⟩ := cache_fetch_lookup h0
    have hfm := cache_fetch_free_map h0
    simp only at hfm
    refine ⟨e, s0, { s0 with read_ahead_list := s0.read_ahead_list.tail }, h0, ?_, ?_, rfl, rfl,
      rfl, rfl, hfm, h1, ?_, ?_⟩
    · unfold read_aheader_step
      rw [hl]
      simp only [cache_load_ahead, h0]
    · show s0.read_ahead_list.tail = rest
      rw [h3, hl]
      rfl
    · intro e0 he0
      have := cache_fetch_hit he0
      rw [h0] at this
      injection this with this
      simp only [Prod.mk.injEq] at this
      obtain ⟨rfl, rfl⟩ := this
      exact ⟨rfl, rfl, rfl, rfl, rfl⟩
    · intro hn
      obtain ⟨c1, c2, c3, c4, -, c5⟩ := cache_fetch_created hn h0
      exact ⟨c1, c2, c3, c4, c5⟩

theorem read_aheader_step_spec_witness :
    ∃ e0 s, cache_load boot_kernel 3 = Except.ok (e0, s) ∧
      ∃ r rest, s.read_ahead_list = r :: rest ∧
      ∃ e s0 s1, cache_load_ahead s r.sector_idx = Except.ok (e, s0) ∧
        read_aheader_step s = Except.ok s1 ∧ s1.read_ahead_list = rest ∧
        lookup_cache s1.cache_list r.sector_idx = some e := by
  obtain ⟨e0, s, h1, k, -, -⟩ := cache_load_ok 3 (cache_wf_init boot_kernel)
    (cache_coherent_init boot_kernel) (counts_le_init _ 0) (le_refl _) (by decide)
  have hl : s.read_ahead_list = [{ sector_idx := 4, sector_sema := 0 }] := by
    have h2 : cache_load boot_kernel 3 = Except.ok (e0, s) := h1
    have h3 : ∃ r, cache_load boot_kernel 3 = Except.ok r ∧
        r.2.read_ahead_list = [{ sector_idx := 4, sector_sema := 0 }] := ⟨_, rfl, rfl⟩
    obtain ⟨r, h4, h5⟩ := h3
    rw [h2] at h4
    injection h4 with h4
    rw [← h4] at h5
    exact h5
  obtain ⟨e, s0, s1, a1, a2, a3, -, -, -, -, -, a4, -⟩ :=
    (read_aheader_step_spec s k.wf).2 _ _ hl
  exact ⟨e0, s, h1, _, _, hl, e, s0, s1, a1, a2, a3, a4⟩

/-! ## The read-ahead list -/

theorem cache_store_spec {s s1 : Kernel} {S ofs : Nat} {src : List Byte} (hwf : cache_wf s)
    (hco : cache_coherent s) (h : cache_store s S ofs src = Except.ok s1) :
    cache_grows 1 s s1 ∧ s1.free_map = s.free_map ∧
      ∀ T, cache_view s1 T =
        if T = S then (cache_view s S).take ofs ++ src ++ (cache_view s S).drop (ofs + src.length)
        else cache_view s T := by
  unfold cache_store at h
  cases hl : cache_load s S with
  | error f => rw [hl] at h; cases h
  | ok p =>
    obtain ⟨e, s2⟩ := p
    rw [hl] at h
    injection h with h
    obtain ⟨k, hlook, hbuf⟩ := cache_load_keeps hwf hco hl
    obtain ⟨g, hv⟩ := cache_store_keeps (entry_copy ofs src) (fun _ => rfl) (fun _ => rfl)
      (fun _ => rfl) (fun _ => rfl) k.wf k.coherent hlook
    rw [← h]
    refine ⟨⟨g.wf, g.coherent, ?_⟩, k.free_map, ?_⟩
    · intro n hn hc
      have := g.counts (n + 1) (by omega) (k.counts n hn hc)
      simpa using this
    · intro T
      rw [hv T]
      by_cases hT : T = S
      · simp only [hT, if_true, entry_copy, hbuf]
      · simp only [hT, if_false]
        exact k.view T

theorem cache_op_run_view {s s1 : Kernel} {op : cache_op} (hwf : cache_wf s)
    (hco : cache_coherent s) (h : cache_op_run s op = Except.ok s1) :
    cache_grows 1 s s1 ∧ ∀ T, cache_view s1 T = visible_step (cache_view s) op T := by
  have key : ∀ {k : Nat}, k ≤ 1 → cache_keeps k s s1 →
      cache_grows 1 s s1 ∧ ∀ T, cache_view s1 T = cache_view s T := fun hk k =>
    ⟨cache_grows_of_keeps (cache_keeps_mono k hk), k.view⟩
  cases op with
  | load S =>
    simp only [cache_op_run] at h
    cases hl : cache_load s S with
    | error f => rw [hl] at h; cases h
    | ok p =>
      obtain ⟨e, s2⟩ := p
      rw [hl] at h
      injection h with h
      subst h
      exact key (le_refl 1) (cache_load_keeps hwf hco hl).1
  | load_ahead S =>
    simp only [cache_op_run, cache_load_ahead] at h
    obtain ⟨e, s2, h2, k2, -⟩ := cache_fetch_ok S hwf hco
    rw [h2] at h
    injection h with h
    subst h
    exact key (Nat.zero_le 1) k2
  | evict =>
    simp only [cache_op_run] at h
    have hfull := (cache_evict_spec h).1
    have hroom : cache_make_room s = Except.ok s1 := by
      unfold cache_make_room
      rw [hfull]
      exact h
    exact key (Nat.zero_le 1) (cache_make_room_keeps hwf hco hroom)
  | flush =>
    simp only [cache_op_run] at h
    injection h with h
    subst h
    exact key (Nat.zero_le 1) (cache_flush_keeps hwf hco)
  | read_from_buf S =>
    simp only [cache_op_run] at h
    cases hl : cache_read_from_buf s S with
    | error f => rw [hl] at h; cases h
    | ok p =>
      obtain ⟨out, s2⟩ := p
      rw [hl] at h
      injection h with h
      subst h
      exact key (le_refl 1) (cache_read_from_buf_keeps hwf hco hl).1
  | write_from_buf S buf =>
    simp only [cache_op_run] at h
    have k := cache_write_from_buf_keeps hwf hco h
    refine ⟨⟨k.wf, k.coherent, k.counts⟩, ?_⟩
    intro T
    rw [k.view T]
    simp only [visible_step, Function.update_apply]
  | store S ofs src =>
    simp only [cache_op_run] at h
    obtain ⟨g, -, hv⟩ := cache_store_spec hwf hco h
    refine ⟨g, ?_⟩
    intro T
    rw [hv T]
    simp only [visible_step, Function.update_apply]

theorem cache_ops_run_view (ops : List cache_op) :
    ∀ s s1 : Kernel, cache_wf s → cache_coherent s → cache_ops_run s ops = Except.ok s1 →
      cache_wf s1 ∧ cache_coherent s1 ∧
        (∀ n : Int, 0 ≤ n → counts_le s n → counts_le s1 (n + ops.length)) ∧
        ∀ T, cache_view s1 T = visible_after (cache_view s) ops T := by
  induction ops with
  | nil =>
    intro s s1 hwf hco h
    simp only [cache_ops_run] at h
    injection h with h
    subst h
    exact ⟨hwf, hco, fun n _ hc => by simpa using hc, fun _ => rfl⟩
  | cons op rest ih =>
    intro s s1 hwf hco h
    simp only [cache_ops_run] at h
    cases hc : cache_op_run s op with
    | error f => rw [hc] at h; cases h
    | ok s2 =>
      rw [hc] at h
      obtain ⟨g, hv⟩ := cache_op_run_view hwf hco hc
      obtain ⟨h1, h2, h3, h4⟩ := ih s2 s1 g.wf g.coherent h
      refine ⟨h1, h2, ?_, ?_⟩
      · intro n hn hcn
        have := h3 (n + 1) (by omega) (g.counts n hn hcn)
        simp only [List.length_cons, Nat.cast_add, Nat.cast_one] at this ⊢
        have e : n + ((rest.length : Int) + 1) = n + 1 + (rest.length : Int) := by ring
        rw [e]
        exact this
      · intro T
        rw [h4 T]
        have hfun : cache_view s2 = visible_step (cache_view s) op := funext hv
        rw [hfun]
        rfl

theorem cache_op_run_total {s : Kernel} (op : cache_op) {B : Int} (hwf : cache_wf s)
    (hco : cache_coherent s) (hB : counts_le s B) (h0 : 0 ≤ B) (hlt : B < INT_MAX)
    (hop : op.is_evict = false) : ∃ s1, cache_op_run s op = Except.ok s1 := by
  cases op with
  | load S =>
    obtain ⟨e, s1, h1, -⟩ := cache_load_ok S hwf hco hB h0 hlt
    exact ⟨s1, by simp [cache_op_run, h1]⟩
  | load_ahead S =>
    obtain ⟨e, s1, h1, -⟩ := cache_fetch_ok S hwf hco
    exact ⟨s1, by simp [cache_op_run, cache_load_ahead, h1]⟩
  | evict => cases hop
  | flush => exact ⟨_, rfl⟩
  | read_from_buf S =>
    obtain ⟨s1, h1, -⟩ := cache_read_from_buf_ok S hwf hco hB h0 hlt
    exact ⟨s1, by simp [cache_op_run, h1]⟩
  | write_from_buf S buf =>
    obtain ⟨s1, h1, -⟩ := cache_write_from_buf_ok S buf hwf hco hB h0 hlt
    exact ⟨s1, h1⟩
  | store S ofs src =>
    obtain ⟨e, s1, h1, -⟩ := cache_load_ok S hwf hco hB h0 hlt
    exact ⟨{ s1 with
      cache_list := entry_update (entry_copy ofs src) S s1.cache_list },
      by simp only [cache_op_run, cache_store, h1]⟩

theorem cache_ops_run_total (ops : List cache_op) :
    ∀ (s : Kernel) (B : Int), cache_wf s → cache_coherent s → counts_le s B → 0 ≤ B →
      B + ops.length ≤ INT_MAX → (∀ op ∈ ops, op.is_evict = false) →
      ∃ s1, cache_ops_run s ops = Except.ok s1 := by
  induction ops with
  | nil => intro s B _ _ _ _ _ _; exact ⟨s, rfl⟩
  | cons op rest ih =>
    intro s B hwf hco hB h0 hlen hops
    simp only [List.length_cons, Nat.cast_add, Nat.cast_one] at hlen
    obtain ⟨s2, hc⟩ := cache_op_run_total op hwf hco hB h0 (by omega)
      (hops op (List.mem_cons_self _ _))
    obtain ⟨g, -⟩ := cache_op_run_view hwf hco hc
    obtain ⟨s1, h1⟩ := ih s2 (B + 1) g.wf g.coherent (g.counts B h0 hB) (by omega) (by omega)
      (fun o ho => hops o (List.mem_cons_of_mem _ ho))
    exact ⟨s1, by simp only [cache_ops_run, hc, h1]⟩

theorem visible_step_other {visible : Nat → Sector} {op : cache_op} {S : Nat}
    (h : op.writes S = false) : visible_step visible op S = visible S := by
  cases op with
  | write_from_buf T buf =>
    simp only [cache_op.writes, decide_eq_false_iff_not] at h
    simp only [visible_step]
    exact Function.update_noteq (fun hx => h hx.symm) _ _
  | store T ofs src =>
    simp only [cache_op.writes, decide_eq_false_iff_not] at h
    simp only [visible_step]
    exact Function.update_noteq (fun hx => h hx.symm) _ _
  | load T => rfl
  | load_ahead T => rfl
  | evict => rfl
  | flush => rfl
  | read_from_buf T => rfl

theorem visible_after_other (ops : List cache_op) :
    ∀ (visible : Nat → Sector) (S : Nat), (∀ op ∈ ops, op.writes S = false) →
      visible_after visible ops S = visible S := by
  induction ops with
  | nil => intro _ _ _; rfl
  | cons op rest ih =>
    intro visible S h
    show visible_after (visible_step visible op) rest S = _
    rw [ih _ S (fun o ho => h o (List.mem_cons_of_mem _ ho)),
      visible_step_other (h op (List.mem_cons_self _ _))]

theorem visible_after_append (pre post : List cache_op) :
    ∀ visible : Nat → Sector,
      visible_after visible (pre ++ post) = visible_after (visible_after visible pre) post := by
  induction pre with
  | nil => intro _; rfl
  | cons op rest ih =>
    intro visible
    show visible_after (visible_step visible op) (rest ++ post) = _
    rw [ih]
    rfl

theorem visible_after_written (pre post : List cache_op) (visible : Nat → Sector) (S : Nat)
    (buf : Sector) (h : ∀ op ∈ post, op.writes S = false) :
    visible_after visible (pre ++ cache_op.write_from_buf S buf :: post) S = buf := by
  rw [visible_after_append]
  show visible_after (visible_step _ (cache_op.write_from_buf S buf)) post S = buf
  rw [visible_after_other post _ S h]
  simp only [visible_step, Function.update_same]

/-! ## C29: the cache is transparent -/

/-- Claim C29.  The visible content of a sector is the buffer of its cache
entry if it has one and the content of the device otherwise (`cache_view`).
From a well-formed, coherent cache, after every sequence of loads, prefetch
loads, evictions, flushes, reads, `cache_write_from_buf` calls and in-place
writes that returns, the visible content of every sector is what the
specification describes (`visible_after`): only `cache_write_from_buf` and
the in-place write change it, and only for their own sector.  So it is the
initial visible content for a sector that no operation wrote, and the buffer
of the last `cache_write_from_buf` for a sector not written since; and
`cache_read_from_buf (S)` returns exactly this content, leaving every
visible content as it is; it does return when the counters are below
`INT_MAX`.  A sequence without direct calls of `cache_evict` returns when
the counters leave room for one increment per operation. -/
theorem cache_transparency (s : Kernel) (ops : List cache_op) (hwf : cache_wf s)
    (hco : cache_coherent s) :
    (∀ s1, cache_ops_run s ops = Except.ok s1 →
      cache_wf s1 ∧ cache_coherent s1 ∧
      (∀ S, cache_view s1 S = visible_after (cache_view s) ops S) ∧
      (∀ S, (∀ op ∈ ops, op.writes S = false) → cache_view s1 S = cache_view s S) ∧
      (∀ S buf pre post, ops = pre ++ cache_op.write_from_buf S buf :: post →
        (∀ op ∈ post, op.writes S = false) → cache_view s1 S = buf) ∧
      (∀ S out s2, cache_read_from_buf s1 S = Except.ok (out, s2) →
        out = visible_after (cache_view s) ops S ∧ ∀ T, cache_view s2 T = cache_view s1 T) ∧
      (∀ S (B : Int), counts_le s1 B → 0 ≤ B → B < INT_MAX →
        ∃ s2, cache_read_from_buf s1 S =
          Except.ok (visible_after (cache_view s) ops S, s2))) ∧
    (∀ B : Int, counts_le s B → 0 ≤ B → B + ops.length ≤ INT_MAX →
      (∀ op ∈ ops, op.is_evict = false) → ∃ s1, cache_ops_run s ops = Except.ok s1) := by
  refine ⟨?_, fun B hB h0 hlen hops => cache_ops_run_total ops s B hwf hco hB h0 hlen hops⟩
  intro s1 h
  obtain ⟨hwf1, hco1, -, hv⟩ := cache_ops_run_view ops s s1 hwf hco h
  refine ⟨hwf1, hco1, hv, ?_, ?_, ?_, ?_⟩
  · intro S hS
    rw [hv S, visible_after_other ops _ S hS]
  · intro S buf pre post hops hpost
    rw [hv S, hops, visible_after_written pre post _ S buf hpost]
  · intro S out s2 hr
    obtain ⟨k, hout⟩ := cache_read_from_buf_keeps hwf1 hco1 hr
    exact ⟨by rw [hout, hv S], k.view⟩
  · intro S B hB h0 hlt
    obtain ⟨s2, h2, -⟩ := cache_read_from_buf_ok S hwf1 hco1 hB h0 hlt
    rw [hv S] at h2
    exact ⟨s2, h2⟩

theorem cache_transparency_witness :
    ∃ s1, cache_ops_run boot_kernel sample_ops = Except.ok s1 ∧
      cache_view s1 5 = List.replicate 512 1 ∧ cache_view s1 9 = cache_view boot_kernel 9 := by
  obtain ⟨s1, h1⟩ := (cache_transparency boot_kernel sample_ops (cache_wf_init _)
    (cache_coherent_init _)).2 0 (counts_le_init _ 0) (le_refl 0) (by decide) (by decide)
  obtain ⟨-, -, -, h9, h5, -⟩ := (cache_transparency boot_kernel sample_ops (cache_wf_init _)
    (cache_coherent_init _)).1 s1 h1
  exact ⟨s1, h1, h5 5 _ [] _ rfl (by decide), h9 9 (by decide)⟩

/-! ## C21: `inode_open` and the cache -/

/-- Claim C21, evaluated.  On the sample device with an empty cache and no
open inode, `inode_open (1)` returns a new handle whose metadata is the
content of sector 1 on the device; it issues one `block_read` of sector 1 to
the device itself and leaves the cache empty, so the cache holds no entry for
sector 1 after the call.  A `cache_read_from_buf (1)` in the same state also
returns the content of sector 1, and leaves an entry for it in the cache. -/
theorem inode_open_bypasses_cache :
    ∃ ino s1 out s2,
      inode_open boot_kernel [] 1 = Except.ok (0, [ino], s1) ∧
      ino.data = inode_disk_of_sector (boot_kernel.fs_device 1) ∧
      s1.fs_log = [block_op.read 1] ∧
      s1.cache_list = [] ∧
      lookup_cache s1.cache_list 1 = none ∧
      cache_read_from_buf boot_kernel 1 = Except.ok (out, s2) ∧
      out = boot_kernel.fs_device 1 ∧
      (lookup_cache s2.cache_list 1).isSome = true :=
  ⟨_, _, _, _, rfl, rfl, rfl, rfl, rfl, rfl, rfl, rfl⟩

/-! ## C22: where the bytes of a write are -/

theorem cache_flush_device {s : Kernel} (hwf : cache_wf s) (hco : cache_coherent s) (T : Nat) :
    (cache_flush s).fs_device T = cache_view s T := by
  have k := cache_flush_keeps hwf hco
  rw [← k.view T]
  unfold cache_view
  cases hl : lookup_cache (cache_flush s).cache_list T with
  | none => rfl
  | some e =>
    obtain ⟨he, hT⟩ := lookup_cache_some hl
    have hclean : e.dirty = false := by
      rw [cache_flush_cache_list] at he
      obtain ⟨a, -, rfl⟩ := List.mem_map.mp he
      rfl
    show _ = e.buf
    rw [k.coherent e he hclean, hT]

/-- Claim C22 as stated fails.  On the sample device,
`inode_write_at (inode, [7], 1, 0)` on the empty file returns 1; the byte
went to data sector 2, whose cache entry is dirty and starts with 7, while
the device still stores zeros for sector 2. -/
theorem inode_write_at_not_through :
    ∃ ino1 s1 e,
      inode_write_at boot_kernel empty_inode [7] 1 0 = Except.ok (1, ino1, s1) ∧
      sector_at (cache_view s1) ino1.data 0 = 2 ∧
      lookup_cache s1.cache_list 2 = some e ∧ e.dirty = true ∧
      e.buf.getD 0 0 = 7 ∧ (s1.fs_device 2).getD 0 0 = 0 ∧ s1.fs_device 2 ≠ e.buf :=
  ⟨_, _, _, rfl, rfl, rfl, rfl, rfl, rfl, by decide⟩

/-- Claim C22, amended.  `inode_write_at` stores the bytes of each data sector
in the sector's cache entry (write-back); only the inode's own sector is
written through.  On an inode that satisfies the length/allocation invariant,
with `deny_write_cnt = 0` and `offset >= 0`, when `inode_write_at` returns
`n`: the device's content of the inode's sector is the new on-disk inode;
byte `j < n` of the caller's buffer is at its place in the visible content of
the data sector that holds file position `offset + j` (the buffer of the
sector's cache entry, or the device's content if the entry has been evicted
in the meantime); and after the next `cache_flush` the device's content of
every sector is the content that was visible, so the device then holds the
written bytes. -/
theorem inode_write_at_write_back (s s1 : Kernel) (ino ino1 : inode) (buffer : List Byte)
    (size offset n : Int) (hinv : inode_inv s ino) (hview : ∀ T, (cache_view s T).length = 512)
    (hd : ino.deny_write_cnt = 0) (hoff : 0 ≤ offset)
    (h : inode_write_at s ino buffer size offset = Except.ok (n, ino1, s1)) :
    s1.fs_device ino.sector = sector_of_inode_disk ino1.data ∧
    (∀ j : Nat, (j : Int) < n →
      (cache_view s1
          (sector_at (cache_view s1) ino1.data ((offset + j) / 512).toNat)).getD
        ((offset + j) % 512).toNat 0 = buffer.getD j 0 ∧
      (lookup_cache s1.cache_list
          (sector_at (cache_view s1) ino1.data ((offset + j) / 512).toNat) = none →
        (s1.fs_device
            (sector_at (cache_view s1) ino1.data ((offset + j) / 512).toNat)).getD
          ((offset + j) % 512).toNat 0 = buffer.getD j 0) ∧
      ((cache_flush s1).fs_device
          (sector_at (cache_view s1) ino1.data ((offset + j) / 512).toNat)).getD
        ((offset + j) % 512).toNat 0 = buffer.getD j 0) ∧
    (∀ T, (cache_flush s1).fs_device T = cache_view s1 T) := by
  obtain ⟨hinv1, -, -, -, hn, hdev, -, -, hbytes⟩ := inode_write_at_spec hinv hd hoff h
  obtain ⟨-, hb⟩ := hbytes hview
  have hflush := cache_flush_device hinv1.wf hinv1.coherent
  refine ⟨hdev, ?_, hflush⟩
  intro j hj
  have hlen : offset + j < ino1.data.length := by omega
  have hi : ((offset + j) / 512).toNat < ((ino1.data.length + 511) / 512).toNat := by
    have h1 : 0 ≤ (offset + j) / 512 := Int.ediv_nonneg (by omega) (by decide)
    have h2 : (offset + j) / 512 < (ino1.data.length + 511) / 512 := by omega
    omega
  have hk : ((offset + j) % 512).toNat < 512 := by omega
  have hpos : 512 * ((((offset + j) / 512).toNat : Nat) : Int) +
      ((((offset + j) % 512).toNat : Nat) : Int) = offset + j := by
    have h1 : 0 ≤ (offset + j) / 512 := Int.ediv_nonneg (by omega) (by decide)
    omega
  have key := (hb _ _ hi hk).1 (by rw [hpos]; omega)
  rw [hpos] at key
  have hidx : (offset + (j : Int) - offset).toNat = j := by omega
  rw [hidx] at key
  refine ⟨key, ?_, ?_⟩
  · intro hnone
    have hv : cache_view s1
        (sector_at (cache_view s1) ino1.data ((offset + j) / 512).toNat) =
        s1.fs_device (sector_at (cache_view s1) ino1.data ((offset + j) / 512).toNat) := by
      generalize sector_at (cache_view s1) ino1.data ((offset + j) / 512).toNat = T at hnone ⊢
      unfold cache_view
      rw [hnone]
    rw [← hv]
    exact key
  · rw [hflush]
    exact key

theorem inode_write_at_write_back_witness :
    ∃ ino1 s1, inode_write_at boot_kernel empty_inode [7] 1 0 = Except.ok (1, ino1, s1) ∧
      s1.fs_device empty_inode.sector = sector_of_inode_disk ino1.data ∧
      (cache_view s1 (sector_at (cache_view s1) ino1.data 0)).getD 0 0 = 7 ∧
      ((cache_flush s1).fs_device (sector_at (cache_view s1) ino1.data 0)).getD 0 0 = 7 :=
  ⟨_, _, rfl,
    (inode_write_at_write_back boot_kernel _ empty_inode _ [7] 1 0 1 inode_inv_boot
      cache_view_boot rfl (by decide) rfl).1,
    ((inode_write_at_write_back boot_kernel _ empty_inode _ [7] 1 0 1 inode_inv_boot
      cache_view_boot rfl (by decide) rfl).2.1 0 (by decide)).1,
    ((inode_write_at_write_back boot_kernel _ empty_inode _ [7] 1 0 1 inode_inv_boot
      cache_view_boot rfl (by decide) rfl).2.1 0 (by decide)).2.2⟩

/-! ## Growth: the pointers to the index blocks -/

theorem indirect_block_alloc_sector {s : Kernel} {old sectors idx_ofs : Nat}
    {r : Nat × Nat × Kernel} (h : indirect_block_alloc s old sectors idx_ofs = Except.ok r)
    (hidx : idx_ofs ≠ 0) : r.1 = old := by
  unfold indirect_block_alloc at h
  simp only [hidx, ne_eq, not_false_eq_true, if_true, if_false] at h
  split at h
  · cases h
  · split at h
    · cases h
    · split at h
      · cases h
      · injection h with h
        rw [← h]

theorem inode_alloc_double_pointers {s2 : Kernel} {d2 : inode_disk} {sectors idx_ofs : Nat}
    {r : Bool × inode_disk × Kernel} (h : inode_alloc_double s2 d2 sectors idx_ofs = Except.ok r) :
    r.2.1.indirect = d2.indirect ∧ (idx_ofs ≠ 0 → r.2.1.double_indirect = d2.double_indirect) := by
  unfold inode_alloc_double at h
  split at h
  · cases h
  · split at h
    · cases h
    · rename_i dbl n4 s4 _
      cases h5 : indirect_disk_sector s4 idx_ofs d2.double_indirect with
      | error f => simp [h5] at h
      | ok p =>
        obtain ⟨sector, s5⟩ := p
        simp only [h5] at h
        split at h
        · cases h
        · injection h with h
          rw [← h]
          refine ⟨rfl, ?_⟩
          intro hidx
          unfold indirect_disk_sector at h5
          simp only [hidx, if_false] at h5
          injection h5 with h5
          simp only [Prod.mk.injEq] at h5
          exact h5.1.symm

theorem inode_alloc_indirect_pointers {s1 : Kernel} {d1 : inode_disk} {sectors e : Nat}
    {r : Bool × inode_disk × Kernel} (h : inode_alloc_indirect s1 d1 sectors e = Except.ok r)
    (hlt : e + sectors < 4294967296) :
    ((sectors = 0 ∨ 96 < e) → r.2.1.indirect = d1.indirect) ∧
    ((sectors = 0 ∨ 224 < e ∨ (if e < 96 then 0 else e - 96) + sectors ≤ 128) →
      r.2.1.double_indirect = d1.double_indirect) := by
  unfold inode_alloc_indirect at h
  by_cases hs : sectors = 0
  · simp only [hs, if_true] at h
    injection h with h
    rw [← h]
    exact ⟨fun _ => rfl, fun _ => rfl⟩
  · simp only [hs, if_false] at h
    cases h2 : indirect_block_alloc s1 d1.indirect sectors (if e < 96 then 0 else e - 96) with
    | error f => simp [h2] at h
    | ok p =>
      obtain ⟨sector, n2, s2⟩ := p
      simp only [h2] at h
      have hsec : 96 < e → sector = d1.indirect := by
        intro he
        have := indirect_block_alloc_sector h2 (by split <;> omega)
        exact this
      have hn2 := indirect_block_alloc_sectors h2 (by split <;> omega)
      simp only at hn2
      by_cases hz : n2 = 0
      · simp only [hz, if_true] at h
        injection h with h
        rw [← h]
        refine ⟨?_, fun _ => rfl⟩
        rintro (h0 | he)
        · exact absurd h0 hs
        · exact hsec he
      · simp only [hz, if_false] at h
        obtain ⟨hi, hd⟩ := inode_alloc_double_pointers h
        constructor
        · rintro (h0 | he)
          · exact absurd h0 hs
          · rw [hi]
            exact hsec he
        · rintro (h0 | he | hfit)
          · exact absurd h0 hs
          · rw [hd (by split <;> split <;> omega)]
          · exfalso
            apply hz
            rw [hn2]
            split at hfit <;> split <;> omega

theorem inode_alloc_pointers {s : Kernel} {d : inode_disk} {a e : Nat}
    {r : Bool × inode_disk × Kernel} (h : inode_alloc s d a e = Except.ok r)
    (hlt : e + a < 4294967296) :
    ((a = 0 ∨ e + a ≤ 96 ∨ 96 < e) → r.2.1.indirect = d.indirect) ∧
    ((a = 0 ∨ e + a ≤ 224 ∨ 224 < e) → r.2.1.double_indirect = d.double_indirect) := by
  rw [inode_alloc_eq] at h
  by_cases ha : a = 0
  · simp only [ha, if_true] at h
    injection h with h
    rw [← h]
    exact ⟨fun _ => rfl, fun _ => rfl⟩
  · simp only [ha, if_false] at h
    have hmod : (e + a) % 4294967296 = e + a := Nat.mod_eq_of_lt hlt
    rw [hmod] at h
    cases h1 : alloc_loop ((if e + a < 96 then e + a else 96) - e) e d.direct a s with
    | error f => simp [h1] at h
    | ok p =>
      obtain ⟨direct, n1, s1⟩ := p
      simp only [h1] at h
      have hn1 := alloc_loop_sectors _ _ _ _ _ _ h1
      simp only at hn1
      have hn1le : n1 ≤ a := by omega
      obtain ⟨hi, hd⟩ := inode_alloc_indirect_pointers h (by omega)
      constructor
      · rintro (h0 | hfit | he)
        · exact absurd h0 ha
        · exact hi (Or.inl (by rw [hn1]; split <;> omega))
        · exact hi (Or.inr he)
      · rintro (h0 | hfit | he)
        · exact absurd h0 ha
        · apply hd
          by_cases hz : n1 = 0
          · exact Or.inl hz
          · right; right
            rw [hn1]
            split <;> split <;> omega
        · exact hd (Or.inr (Or.inl he))

/-! ## C25: growth keeps what is there -/

/-- Claim C25.  Let the inode own `existing_count` data sectors (its logical
indices below `existing_count` resolve to pairwise different sectors marked
in use, and so are its index blocks) in a well-formed, coherent cache.  If
`inode_alloc (inode, additional_sectors, existing_count)` returns true, then
every logical index `i < existing_count` resolves to the same sector after
the call as before it, both for the sector read through the cache and for
the value `index_to_sector` returns, and `index_to_sector` does return it
when the access counters leave room; `inode.indirect` is unchanged when
`existing_count > 96`, changes only if `0 < additional_sectors` and
`existing_count <= 96 < existing_count + additional_sectors`, and in that
case is a sector the call took from the free map; `inode.double_indirect` is
unchanged when `existing_count > 224`, changes only if
`0 < additional_sectors` and
`existing_count <= 224 < existing_count + additional_sectors`, and in that
case is a sector the call took from the free map. -/
theorem inode_alloc_preserves (s s6 : Kernel) (d d6 : inode_disk) (a e : Nat)
    (hwf : cache_wf s) (hco : cache_coherent s)
    (ho : inode_owns (cache_view s) s.free_map d e) (hfm : s.free_map.length ≤ 4294967296)
    (hlt : e + a < 4294967000) (h : inode_alloc s d a e = Except.ok (true, d6, s6)) :
    (∀ i, i < e → sector_at (cache_view s6) d6 i = sector_at (cache_view s) d i) ∧
    (∀ (ino ino6 : inode) (i sec sec6 : Nat) (s1 s7 : Kernel), ino.data = d → ino6.data = d6 →
      i < e → index_to_sector s ino i = Except.ok (sec, s1) →
      index_to_sector s6 ino6 i = Except.ok (sec6, s7) → sec6 = sec) ∧
    (∀ (ino ino6 : inode) (i : Nat) (B : Int), ino.data = d → ino6.data = d6 → i < e →
      i < 16608 → counts_le s B → 0 ≤ B → B + a + 8 < INT_MAX →
      ∃ sec s1 s7, index_to_sector s ino i = Except.ok (sec, s1) ∧
        index_to_sector s6 ino6 i = Except.ok (sec, s7)) ∧
    (96 < e → d6.indirect = d.indirect) ∧
    (d6.indirect ≠ d.indirect → 0 < a ∧ e ≤ 96 ∧ 96 < e + a) ∧
    (0 < a → e ≤ 96 → 96 < e + a →
      ¬ allocated s.free_map d6.indirect ∧ allocated s6.free_map d6.indirect) ∧
    (224 < e → d6.double_indirect = d.double_indirect) ∧
    (d6.double_indirect ≠ d.double_indirect → 0 < a ∧ e ≤ 224 ∧ 224 < e + a) ∧
    (0 < a → e ≤ 224 → 224 < e + a →
      ¬ allocated s.free_map d6.double_indirect ∧
        allocated s6.free_map d6.double_indirect) := by
  have hea : a ≠ 0 → e + a ≤ 352 := fun ha =>
    (inode_alloc_flag h (Nat.pos_of_ne_zero ha) hlt).mp rfl
  obtain ⟨g, xs, data, hg⟩ := inode_alloc_grows hwf hco ho hfm hea h
  obtain ⟨hpi, hpd⟩ := inode_alloc_pointers h (by omega)
  simp only at hpi hpd
  have hfresh : ∀ T, T ∈ xs → ¬ allocated s.free_map T ∧ allocated s6.free_map T :=
    fun T hT => ⟨hg.allocs.fresh T hT, (hg.allocs.bits T).mpr (Or.inr hT)⟩
  refine ⟨hg.old, ?_, ?_, fun he => hpi (Or.inr (Or.inr he)), ?_, ?_,
    fun he => hpd (Or.inr (Or.inr he)), ?_, ?_⟩
  · intro ino ino6 i sec sec6 s1 s7 hd hd6 hi h1 h2
    obtain ⟨-, e1, -⟩ := index_to_sector_keeps hwf hco h1
    obtain ⟨-, e2, -⟩ := index_to_sector_keeps g.wf g.coherent h2
    rw [e1, e2, hd, hd6]
    exact hg.old i hi
  · intro ino ino6 i B hd hd6 hi hi2 hB h0 hlt2
    obtain ⟨s1, h1, -⟩ := index_to_sector_ok ino hwf hco hB h0 (by omega) hi2
    have hB6 := g.counts B h0 hB
    obtain ⟨s7, h7, -⟩ := index_to_sector_ok ino6 g.wf g.coherent hB6 (by omega)
      (by push_cast; omega) hi2
    refine ⟨_, s1, s7, h1, ?_⟩
    rw [h7, hd, hd6, hg.old i hi]
  · intro hne
    by_contra hcon
    apply hne
    apply hpi
    by_cases ha : a = 0
    · exact Or.inl ha
    · by_cases he : 96 < e
      · exact Or.inr (Or.inr he)
      · right; left
        by_contra hx
        exact hcon ⟨Nat.pos_of_ne_zero ha, by omega, by omega⟩
  · intro ha he hea2
    apply hfresh
    rcases hg.struct d6.indirect (Or.inl ⟨hea2, rfl⟩) with hx | hx
    · exact hx.1
    · exfalso
      rcases hx with ⟨h96, -⟩ | ⟨h224, -⟩ | ⟨k, hk, -⟩ <;> omega
  · intro hne
    by_contra hcon
    apply hne
    apply hpd
    by_cases ha : a = 0
    · exact Or.inl ha
    · by_cases he : 224 < e
      · exact Or.inr (Or.inr he)
      · right; left
        by_contra hx
        exact hcon ⟨Nat.pos_of_ne_zero ha, by omega, by omega⟩
  · intro ha he hea2
    apply hfresh
    rcases hg.struct d6.double_indirect (Or.inr (Or.inl ⟨hea2, rfl⟩)) with hx | hx
    · exact hx.1
    · exfalso
      rcases hx with ⟨h96, hT⟩ | ⟨h224, -⟩ | ⟨k, hk, -⟩
      · have hi : d6.indirect = d.indirect := hpi (Or.inr (Or.inr h96))
        exact (hg.struct_ne hea2).1 (by rw [hi, hT])
      · omega
      · omega

theorem inode_owns_small :
    inode_owns (cache_view small_kernel) small_kernel.free_map small_inode_disk 2 := by
  refine ⟨rfl, ?_, ?_, ?_, ?_, fun h => absurd h (by omega)⟩
  · intro i hi
    interval_cases i <;> exact rfl
  · intro i j hi hj h
    interval_cases i <;> interval_cases j <;> first | rfl | (exfalso; revert h; decide)
  · rintro T (⟨h, -⟩ | ⟨h, -⟩ | ⟨k, h, -⟩) <;> omega
  · rintro i hi (⟨h, -⟩ | ⟨h, -⟩ | ⟨k, h, -⟩) <;> omega

theorem inode_alloc_preserves_witness :
    ∃ d2 s2,
      inode_alloc small_kernel small_inode_disk 1 2 = Except.ok (true, d2, s2) ∧
      (∀ i, i < 2 →
        sector_at (cache_view s2) d2 i = sector_at (cache_view small_kernel) small_inode_disk i) ∧
      (d2.indirect ≠ small_inode_disk.indirect → 0 < 1 ∧ 2 ≤ 96 ∧ 96 < 2 + 1) :=
  ⟨_, _, rfl,
    (inode_alloc_preserves small_kernel _ small_inode_disk _ 1 2 (cache_wf_init _)
      (cache_coherent_init _) inode_owns_small (by decide) (by decide) rfl).1,
    (inode_alloc_preserves small_kernel _ small_inode_disk _ 1 2 (cache_wf_init _)
      (cache_coherent_init _) inode_owns_small (by decide) (by decide) rfl).2.2.2.2.1⟩

/-! ## Growth: when the calls return -/

theorem first_free_of_count {fm : List Bool} (h : 0 < free_count fm) :
    ∃ x, first_free fm = some x := by
  induction fm with
  | nil => simp [free_count] at h
  | cons b rest ih =>
    unfold first_free
    by_cases hb : b = false
    · exact ⟨0, by simp [hb]⟩
    · have hb1 : b = true := by simpa using hb
      have h2 : 0 < free_count rest := by
        unfold free_count at h ⊢
        rw [hb1] at h
        simpa using h
      obtain ⟨x, hx⟩ := ih h2
      exact ⟨x + 1, by simp [hb, hx]⟩

theorem free_count_set {fm : List Bool} {x : Nat} (hx : x < fm.length)
    (hf : fm.getD x false = false) : free_count (fm.set x true) + 1 = free_count fm := by
  induction fm generalizing x with
  | nil => simp at hx
  | cons b rest ih =>
    cases x with
    | zero =>
      simp only [List.getD_cons_zero] at hf
      subst hf
      simp [free_count]
    | succ x =>
      simp only [List.length_cons, Nat.add_lt_add_iff_right] at hx
      simp only [List.getD_cons_succ] at hf
      have h1 := ih hx hf
      unfold free_count at h1 ⊢
      simp only [List.set_cons_succ, List.count_cons]
      omega

theorem free_map_allocate_total {s : Kernel} (h : 0 < free_count s.free_map) :
    ∃ x, free_map_allocate s = some (x, { s with free_map := s.free_map.set x true }) ∧
      free_count (s.free_map.set x true) + 1 = free_count s.free_map := by
  obtain ⟨x, hx⟩ := first_free_of_count h
  obtain ⟨h1, h2⟩ := first_free_spec hx
  refine ⟨x, ?_, free_count_set h1 h2⟩
  unfold free_map_allocate
  rw [hx]

theorem alloc_room_mono {s : Kernel} {B B1 : Int} {k k1 : Nat} (h : alloc_room s B k)
    (hB : B ≤ B1) (hk : k1 ≤ k) : alloc_room s B1 k1 :=
  ⟨h.wf, h.coherent, le_trans h.nonneg hB, counts_le_mono h.counts hB, le_trans hk h.free⟩

theorem alloc_room_allocate {s : Kernel} {B : Int} {k : Nat} (h : alloc_room s B (k + 1)) :
    ∃ x, free_map_allocate s = some (x, { s with free_map := s.free_map.set x true }) ∧
      alloc_room { s with free_map := s.free_map.set x true } B k := by
  obtain ⟨x, hx, hc⟩ := free_map_allocate_total (show 0 < free_count s.free_map by
    have := h.free; omega)
  obtain ⟨g, -⟩ := cache_grows_free_map (s.free_map.set x true) h.wf h.coherent
  refine ⟨x, hx, g.wf, g.coherent, h.nonneg, h.counts, ?_⟩
  show k ≤ free_count (s.free_map.set x true)
  have := h.free
  omega

theorem alloc_room_write {s : Kernel} {B : Int} {k : Nat} (S : Nat) (buf : Sector)
    (h : alloc_room s B k) (hlt : B < INT_MAX) :
    ∃ s1, cache_write_from_buf s S buf = Except.ok s1 ∧ alloc_room s1 (B + 1) k := by
  obtain ⟨s1, h1, p⟩ := cache_write_from_buf_ok S buf h.wf h.coherent h.counts h.nonneg hlt
  refine ⟨s1, h1, p.wf, p.coherent, by have := h.nonneg; omega, p.counts B h.nonneg h.counts, ?_⟩
  rw [p.free_map]
  exact h.free

theorem alloc_room_read {s : Kernel} {B : Int} {k : Nat} (S : Nat)
    (h : alloc_room s B k) (hlt : B < INT_MAX) :
    ∃ s1, cache_read_from_buf s S = Except.ok (cache_view s S, s1) ∧
      alloc_room s1 (B + 1) k := by
  obtain ⟨s1, h1, p⟩ := cache_read_from_buf_ok S h.wf h.coherent h.counts h.nonneg hlt
  refine ⟨s1, h1, p.wf, p.coherent, by have := h.nonneg; omega, ?_, ?_⟩
  · have := p.counts B h.nonneg h.counts
    simpa using this
  · rw [p.free_map]
    exact h.free

theorem alloc_loop_total (n : Nat) : ∀ (i : Nat) (table : List Nat) (sectors : Nat)
    (s : Kernel) (B : Int) (k : Nat), B + n < INT_MAX → alloc_room s B (n + k) →
    ∃ table1 s1, alloc_loop n i table sectors s = Except.ok (table1, sectors - n, s1) ∧
      alloc_room s1 (B + n) k := by
  induction n with
  | zero =>
    intro i table sectors s B k _ h
    refine ⟨table, s, rfl, ?_⟩
    exact alloc_room_mono h (by simp) (by omega)
  | succ n ih =>
    intro i table sectors s B k hlt h
    have hI : INT_MAX = 2147483647 := rfl
    push_cast at hlt
    obtain ⟨x, hx, h1⟩ := alloc_room_allocate (show alloc_room s B (n + k + 1) from
      alloc_room_mono h (le_refl _) (by omega))
    obtain ⟨s2, hw, h2⟩ := alloc_room_write x zeros h1 (by have := h.nonneg; omega)
    obtain ⟨table1, s3, h3, r3⟩ := ih (i + 1) (table.set i x) (sectors - 1) s2 (B + 1) k
      (by omega) h2
    refine ⟨table1, s3, ?_, alloc_room_mono r3 (by push_cast; omega) (le_refl _)⟩
    simp only [alloc_loop, hx, hw, h3]
    congr 3
    omega

theorem indirect_block_alloc_total {s : Kernel} {B : Int} {k : Nat} (old sectors idx_ofs : Nat)
    (hlt : idx_ofs + sectors < 4294967296)
    (hB : B + ((min (idx_ofs + sectors) 128 - idx_ofs : Nat) : Int) + 2 < INT_MAX)
    (h : alloc_room s B (min (idx_ofs + sectors) 128 - idx_ofs + 1 + k)) :
    ∃ sector s4, indirect_block_alloc s old sectors idx_ofs =
        Except.ok (sector, sectors - (min (idx_ofs + sectors) 128 - idx_ofs), s4) ∧
      alloc_room s4 (B + ((min (idx_ofs + sectors) 128 - idx_ofs : Nat) : Int) + 2) k := by
  have hI : INT_MAX = 2147483647 := rfl
  have h0 := h.nonneg
  have hmod : (idx_ofs + sectors) % 4294967296 = idx_ofs + sectors := Nat.mod_eq_of_lt hlt
  generalize hn : min (idx_ofs + sectors) 128 - idx_ofs = n at hB h ⊢
  unfold indirect_block_alloc
  simp only [indirect_alloc, hmod, ite_lt_eq_min, hn]
  by_cases hz : idx_ofs = 0
  · simp only [hz, ne_eq, not_true_eq_false, if_false, if_true]
    subst hz
    obtain ⟨table1, s2, h2, r2⟩ := alloc_loop_total n 0 indirect_disk_zero sectors s B (1 + k)
      (by omega) (alloc_room_mono h (le_refl _) (by omega))
    obtain ⟨x, hx, r3⟩ := alloc_room_allocate (show alloc_room s2 (B + n) (k + 1) from
      alloc_room_mono r2 (le_refl _) (by omega))
    obtain ⟨s4, hw, r4⟩ := alloc_room_write x (sector_of_indirect_disk table1) r3 (by omega)
    refine ⟨x, s4, ?_, alloc_room_mono r4 (by omega) (le_refl _)⟩
    simp only [h2, hx, hw]
  · simp only [hz, ne_eq, not_false_eq_true, if_true, if_false]
    obtain ⟨s1, h1, r1⟩ := alloc_room_read old h (by omega)
    obtain ⟨table1, s2, h2, r2⟩ := alloc_loop_total n idx_ofs
      (indirect_disk_of_sector (cache_view s old)) sectors s1 (B + 1) (1 + k)
      (by omega) (alloc_room_mono r1 (le_refl _) (by omega))
    obtain ⟨s4, hw, r4⟩ := alloc_room_write old (sector_of_indirect_disk table1) r2 (by omega)
    refine ⟨old, s4, ?_, alloc_room_mono r4 (by omega) (by omega)⟩
    simp only [h1, h2, hw]

theorem double_indirect_loop_total (fuel : Nat) : ∀ (i : Nat) (dbl : List Nat)
    (sectors idx_ofs : Nat) (s : Kernel) (B : Int) (k : Nat), sectors ≤ 16384 →
    B + sectors + 2 * fuel < INT_MAX → alloc_room s B (sectors + fuel + k) →
    ∃ dbl1 n1 s1, double_indirect_loop fuel i dbl sectors idx_ofs s = Except.ok (dbl1, n1, s1) ∧
      alloc_room s1 (B + sectors + 2 * fuel) k := by
  have hI : INT_MAX = 2147483647 := rfl
  induction fuel with
  | zero =>
    intro i dbl sectors idx_ofs s B k _ _ h
    exact ⟨dbl, sectors, s, rfl, alloc_room_mono h (by push_cast; omega) (by omega)⟩
  | succ fuel ih =>
    intro i dbl sectors idx_ofs s B k hs hB h
    have h0 := h.nonneg
    push_cast at hB
    simp only [double_indirect_loop, DIV_ROUND_UP_size_eq (show sectors < 4294967000 by omega)]
    by_cases hc : i < (sectors + 127) / 128
    · have hi : ¬ 128 ≤ i := by omega
      simp only [hc, hi, if_true, if_false]
      have hm := Nat.mod_lt idx_ofs (show 128 > 0 by decide)
      obtain ⟨sector, s4, h4, r4⟩ := indirect_block_alloc_total (dbl.getD i 0) sectors
        (idx_ofs % 128) (B := B)
        (k := (sectors - (min (idx_ofs % 128 + sectors) 128 - idx_ofs % 128)) + fuel + k)
        (by omega) (by omega) (alloc_room_mono h (le_refl _) (by omega))
      obtain ⟨dbl1, n1, s1, h1, r1⟩ := ih (i + 1) (dbl.set i sector)
        (sectors - (min (idx_ofs % 128 + sectors) 128 - idx_ofs % 128)) 0 s4
        (B + ((min (idx_ofs % 128 + sectors) 128 - idx_ofs % 128 : Nat) : Int) + 2) k
        (by omega) (by omega) r4
      refine ⟨dbl1, n1, s1, ?_, alloc_room_mono r1 (by push_cast; omega) (le_refl _)⟩
      simp only [h4, h1]
    · simp only [hc, if_false]
      exact ⟨dbl, sectors, s, rfl, alloc_room_mono h (by push_cast; omega) (by omega)⟩

theorem double_indirect_loop_overrun (fuel : Nat) : ∀ (i : Nat) (dbl : List Nat)
    (sectors idx_ofs : Nat) (s : Kernel) (B : Int), i ≤ 128 → 128 - i < fuel →
    16384 + 128 * (128 - i) < sectors → sectors < 4294967000 →
    B + 130 * ((128 - i : Nat) : Int) < INT_MAX → alloc_room s B (129 * (128 - i)) →
    double_indirect_loop fuel i dbl sectors idx_ofs s = Except.error Fault.undefined := by
  have hI : INT_MAX = 2147483647 := rfl
  induction fuel with
  | zero =>
    intro i dbl sectors idx_ofs s B _ hf
    omega
  | succ fuel ih =>
    intro i dbl sectors idx_ofs s B hi hf hs hlt hB h
    have h0 := h.nonneg
    have hc : i < (sectors + 127) / 128 := by omega
    simp only [double_indirect_loop, DIV_ROUND_UP_size_eq hlt, hc, if_true]
    by_cases h128 : 128 ≤ i
    · simp only [h128, if_true]
    · simp only [h128, if_false]
      have hm := Nat.mod_lt idx_ofs (show 128 > 0 by decide)
      obtain ⟨sector, s4, h4, r4⟩ := indirect_block_alloc_total (dbl.getD i 0) sectors
        (idx_ofs % 128) (B := B) (k := 129 * (128 - (i + 1)))
        (by omega) (by omega) (alloc_room_mono h (le_refl _) (by omega))
      simp only [h4]
      exact ih (i + 1) (dbl.set i sector) _ 0 s4 _ (by omega) (by omega) (by omega) (by omega)
        (by omega) r4

theorem inode_alloc_double_total {s2 : Kernel} {B : Int} (d2 : inode_disk)
    (sectors idx_ofs : Nat) (hs : sectors ≤ 16384) (hB : B + sectors + 260 < INT_MAX)
    (h : alloc_room s2 B (sectors + 129)) :
    ∃ r, inode_alloc_double s2 d2 sectors idx_ofs = Except.ok r := by
  have hI : INT_MAX = 2147483647 := rfl
  have h0 := h.nonneg
  have hfuel : DIV_ROUND_UP_size sectors 128 - idx_ofs / 128 ≤ 128 := by
    rw [DIV_ROUND_UP_size_eq (by omega)]
    omega
  unfold inode_alloc_double indirect_disk_load indirect_disk_sector
  by_cases hz : idx_ofs = 0
  · simp only [hz, ne_eq, not_true_eq_false, if_false, if_true]
    subst hz
    obtain ⟨dbl1, n1, s4, h4, r4⟩ := double_indirect_loop_total
      (DIV_ROUND_UP_size sectors 128 - 0 / 128) (0 / 128) indirect_disk_zero sectors 0 s2 B 1
      hs (by omega) (alloc_room_mono h (le_refl _) (by omega))
    obtain ⟨x, hx, r5⟩ := alloc_room_allocate (show alloc_room s4 _ (0 + 1) from r4)
    obtain ⟨s6, hw, -⟩ := alloc_room_write x (sector_of_indirect_disk dbl1) r5 (by omega)
    simp only [h4, hx, hw]
    exact ⟨_, rfl⟩
  · simp only [hz, ne_eq, not_false_eq_true, if_true, if_false]
    obtain ⟨s3, h3, r3⟩ := alloc_room_read d2.double_indirect h (by omega)
    obtain ⟨dbl1, n1, s4, h4, r4⟩ := double_indirect_loop_total
      (DIV_ROUND_UP_size sectors 128 - idx_ofs / 128) (idx_ofs / 128)
      (indirect_disk_of_sector (cache_view s2 d2.double_indirect)) sectors idx_ofs s3 (B + 1) 1
      hs (by omega) (alloc_room_mono r3 (le_refl _) (by omega))
    obtain ⟨s6, hw, -⟩ := alloc_room_write d2.double_indirect (sector_of_indirect_disk dbl1) r4
      (by omega)
    simp only [h3, h4, hw]
    exact ⟨_, rfl⟩

theorem inode_alloc_double_overrun {s2 : Kernel} {B : Int} (d2 : inode_disk)
    (sectors idx_ofs : Nat) (hi : idx_ofs / 128 ≤ 128) (hs : 32768 < sectors)
    (hlt : sectors < 4294967000) (hB : B + 16641 < INT_MAX)
    (h : alloc_room s2 B 16512) :
    inode_alloc_double s2 d2 sectors idx_ofs = Except.error Fault.undefined := by
  have hI : INT_MAX = 2147483647 := rfl
  have h0 := h.nonneg
  have hfuel : 128 - idx_ofs / 128 < DIV_ROUND_UP_size sectors 128 - idx_ofs / 128 := by
    rw [DIV_ROUND_UP_size_eq hlt]
    omega
  unfold inode_alloc_double indirect_disk_load
  by_cases hz : idx_ofs = 0
  · simp only [hz, ne_eq, not_true_eq_false, if_false]
    subst hz
    rw [double_indirect_loop_overrun _ (0 / 128) indirect_disk_zero sectors 0 s2 B
      (by omega) hfuel (by omega) hlt (by omega) (alloc_room_mono h (le_refl _) (by omega))]
  · simp only [hz, ne_eq, not_false_eq_true, if_true]
    obtain ⟨s3, h3, r3⟩ := alloc_room_read d2.double_indirect h (by omega)
    simp only [h3]
    rw [double_indirect_loop_overrun _ (idx_ofs / 128) _ sectors idx_ofs s3 (B + 1)
      hi hfuel (by omega) hlt (by omega) (alloc_room_mono r3 (le_refl _) (by omega))]

theorem inode_alloc_indirect_total {s1 : Kernel} {B : Int} (d1 : inode_disk) (sectors e : Nat)
    (hs : sectors ≤ 16384) (hlt : e + sectors < 4294967000)
    (hB : B + sectors + 400 < INT_MAX) (h : alloc_room s1 B (sectors + 131)) :
    ∃ r, inode_alloc_indirect s1 d1 sectors e = Except.ok r := by
  have hI : INT_MAX = 2147483647 := rfl
  have h0 := h.nonneg
  unfold inode_alloc_indirect
  by_cases hz : sectors = 0
  · simp only [hz, if_true]
    exact ⟨_, rfl⟩
  · simp only [hz, if_false]
    generalize hidx : (if e < 96 then 0 else e - 96) = idx1
    have hidx1 : idx1 ≤ e := by rw [← hidx]; split <;> omega
    obtain ⟨sector, s2, h2, r2⟩ := indirect_block_alloc_total d1.indirect sectors idx1 (B := B)
      (k := (sectors - (min (idx1 + sectors) 128 - idx1)) + 129)
      (by omega) (by omega) (alloc_room_mono h (le_refl _) (by omega))
    simp only [h2]
    by_cases hz2 : sectors - (min (idx1 + sectors) 128 - idx1) = 0
    · simp only [hz2, if_true]
      exact ⟨_, rfl⟩
    · simp only [hz2, if_false]
      exact inode_alloc_double_total _ _ _ (by omega) (by omega) r2

theorem inode_alloc_total {s : Kernel} {B : Int} (d : inode_disk) (a e : Nat)
    (ha : a ≤ 16384) (hlt : e + a < 4294967000) (hB : B + a + 400 < INT_MAX)
    (h : alloc_room s B (a + 131)) : ∃ r, inode_alloc s d a e = Except.ok r := by
  have hI : INT_MAX = 2147483647 := rfl
  have h0 := h.nonneg
  rw [inode_alloc_eq]
  by_cases hz : a = 0
  · simp only [hz, if_true]
    exact ⟨_, rfl⟩
  · simp only [hz, if_false]
    have hmod : (e + a) % 4294967296 = e + a := Nat.mod_eq_of_lt (by omega)
    rw [hmod]
    generalize hn : (if e + a < 96 then e + a else 96) - e = n0
    have hn0 : n0 ≤ a := by rw [← hn]; split <;> omega
    obtain ⟨direct, s1, h1, r1⟩ := alloc_loop_total n0 e d.direct a s B ((a - n0) + 131)
      (by omega) (alloc_room_mono h (le_refl _) (by omega))
    simp only [h1]
    exact inode_alloc_indirect_total _ _ _ (by omega) (by omega) (by omega) r1

theorem inode_alloc_indirect_overrun {s1 : Kernel} {B : Int} (d1 : inode_disk) (sectors e : Nat)
    (he : e ≤ 16608) (hs : 32896 < sectors) (hlt : e + sectors < 4294967000)
    (hB : B + 16800 < INT_MAX) (h : alloc_room s1 B 16800) :
    inode_alloc_indirect s1 d1 sectors e = Except.error Fault.undefined := by
  have hI : INT_MAX = 2147483647 := rfl
  have h0 := h.nonneg
  unfold inode_alloc_indirect
  have hz : sectors ≠ 0 := by omega
  simp only [hz, if_false]
  generalize hidx : (if e < 96 then 0 else e - 96) = idx1
  have hidx1 : idx1 ≤ e - 96 := by rw [← hidx]; split <;> omega
  obtain ⟨sector, s2, h2, r2⟩ := indirect_block_alloc_total d1.indirect sectors idx1 (B := B)
    (k := 16512) (by omega) (by omega) (alloc_room_mono h (le_refl _) (by omega))
  simp only [h2]
  have hz2 : sectors - (min (idx1 + sectors) 128 - idx1) ≠ 0 := by omega
  simp only [hz2, if_false]
  exact inode_alloc_double_overrun _ _ _ (by split <;> omega) (by omega) (by omega) (by omega) r2

theorem inode_alloc_overrun {s : Kernel} {B : Int} (d : inode_disk) (a e : Nat)
    (he : e ≤ 16608) (ha : 32992 < a) (hlt : e + a < 4294967000)
    (hB : B + 17000 < INT_MAX) (h : alloc_room s B 17000) :
    inode_alloc s d a e = Except.error Fault.undefined := by
  have hI : INT_MAX = 2147483647 := rfl
  have h0 := h.nonneg
  rw [inode_alloc_eq]
  have hz : a ≠ 0 := by omega
  simp only [hz, if_false]
  have hmod : (e + a) % 4294967296 = e + a := Nat.mod_eq_of_lt (by omega)
  rw [hmod]
  generalize hn : (if e + a < 96 then e + a else 96) - e = n0
  have hn0 : n0 ≤ 96 := by rw [← hn]; split <;> omega
  obtain ⟨direct, s1, h1, r1⟩ := alloc_loop_total n0 e d.direct a s B 16800
    (by omega) (alloc_room_mono h (le_refl _) (by omega))
  simp only [h1]
  exact inode_alloc_indirect_overrun _ _ _ he (by omega) (by omega) (by omega) r1

theorem inode_alloc_returns {s : Kernel} {B : Int} (d : inode_disk) (a e : Nat)
    (h0 : 0 < a) (ha : a ≤ 16384) (hlt : e + a < 4294967000) (hB : B + a + 400 < INT_MAX)
    (h : alloc_room s B (a + 131)) :
    ∃ d6 s6, inode_alloc s d a e = Except.ok (decide (e + a ≤ 352), d6, s6) := by
  obtain ⟨⟨b, d6, s6⟩, hr⟩ := inode_alloc_total d a e ha hlt hB h
  have hf := inode_alloc_flag hr h0 hlt
  simp only at hf
  refine ⟨d6, s6, ?_⟩
  rw [hr]
  congr 2
  by_cases hle : e + a ≤ 352
  · rw [hf.mpr hle]
    simp [hle]
  · have hb : b = false := by
      cases b with
      | false => rfl
      | true => exact absurd (hf.mp rfl) hle
    rw [hb]
    simp [hle]

theorem alloc_room_roomy {k : Nat} (hk : k ≤ 40000) : alloc_room roomy_kernel 0 k := by
  refine ⟨cache_wf_init _, cache_coherent_init _, le_refl 0, counts_le_init _ 0, ?_⟩
  have h : free_count roomy_kernel.free_map = 40000 := by
    show List.count false ([true, true] ++ List.replicate 40000 false) = 40000
    rw [List.count_append, List.count_replicate_self]
    rfl
  rw [h]
  exact hk

/-! ## C30: the ceiling of growth -/

/-- Claim C30, on the code.  Let the state leave room for the call: at least
`additional_sectors + 131` sectors are free, so that the allocator does not
fail, and the access counters can take `additional_sectors + 400` more
increments.  For `additional_sectors > 0`: whenever
`inode_alloc (inode, additional_sectors, existing_count)` returns, it returns
true exactly when `existing_count + additional_sectors <= 352`; for
`additional_sectors <= 16384` it does return, so it returns false for every
total above 352, and then `sector_alloc` and `inode_create` end in their
`PANIC`.  But for `additional_sectors > 32992` (and
`existing_count <= 16608`) the call does not return false: the loop over the
second-level blocks reaches `i = 128` with sectors still to allocate and
stores to `double_indirect_disk->data[128]`, past the end of the array. -/
theorem inode_alloc_ceiling (s : Kernel) (d : inode_disk) (a e : Nat) (B : Int)
    (ha : 0 < a) (hlt : e + a < 4294967000) (hB : B + a + 400 < INT_MAX)
    (hroom : alloc_room s B (a + 131)) :
    (∀ r, inode_alloc s d a e = Except.ok r → (r.1 = true ↔ e + a ≤ 352)) ∧
    (a ≤ 16384 → ∃ d6 s6, inode_alloc s d a e = Except.ok (decide (e + a ≤ 352), d6, s6)) ∧
    (a ≤ 16384 → 352 < e + a → ∀ ino : inode, ino.data = d →
      bytes_to_sectors d.length = Except.ok e →
      sector_alloc s ino a = Except.error Fault.panic) ∧
    (a ≤ 16384 → 352 < a → ∀ (sector : Nat) (length : Int) (is_dir : Bool), 0 ≤ length →
      bytes_to_sectors length = Except.ok a →
      inode_create s sector length is_dir = Except.error Fault.panic) ∧
    (32992 < a → e ≤ 16608 → inode_alloc s d a e = Except.error Fault.undefined) := by
  have hI : INT_MAX = 2147483647 := rfl
  have h0 := hroom.nonneg
  refine ⟨fun r hr => inode_alloc_flag hr ha hlt,
    fun h16 => inode_alloc_returns d a e ha h16 hlt hB hroom, ?_, ?_, ?_⟩
  · intro h16 hover ino hd hlen
    obtain ⟨d6, s6, hr⟩ := inode_alloc_returns d a e ha h16 hlt hB hroom
    have hdec : decide (e + a ≤ 352) = false := by simp; omega
    rw [hdec] at hr
    unfold sector_alloc
    rw [hd, hlen]
    simp only [hr]
  · intro h16 hover sector length is_dir hl hlen
    obtain ⟨d6, s6, hr⟩ := inode_alloc_returns
      { inode_disk_zero with
        length := length, magic := 1229868868, is_dir := is_dir, is_cwd := 0, is_opened := 0 }
      a 0 ha h16 (by omega) hB hroom
    have hdec : decide (0 + a ≤ 352) = false := by simp; omega
    rw [hdec] at hr
    unfold inode_create
    simp only [show ¬ length < 0 by omega, if_false, hlen, hr]
  · intro hbig he
    exact inode_alloc_overrun d a e he hbig hlt (by omega)
      (alloc_room_mono hroom (le_refl _) (by omega))

theorem inode_alloc_ceiling_witness :
    inode_alloc roomy_kernel inode_disk_zero 33000 0 = Except.error Fault.undefined ∧
    (∃ d6 s6, inode_alloc roomy_kernel inode_disk_zero 353 0 =
      Except.ok (decide (0 + 353 ≤ 352), d6, s6)) ∧
    inode_create roomy_kernel 1 180225 false = Except.error Fault.panic :=
  ⟨(inode_alloc_ceiling roomy_kernel inode_disk_zero 33000 0 0 (by decide) (by decide)
      (by decide) (alloc_room_roomy (by decide))).2.2.2.2 (by decide) (by decide),
    (inode_alloc_ceiling roomy_kernel inode_disk_zero 353 0 0 (by decide) (by decide)
      (by decide) (alloc_room_roomy (by decide))).2.1 (by decide),
    (inode_alloc_ceiling roomy_kernel inode_disk_zero 353 0 0 (by decide) (by decide)
      (by decide) (alloc_room_roomy (by decide))).2.2.2.1 (by decide) (by decide) 1 180225 false
      (by decide) rfl⟩

/-! ## New sectors hold zeros -/

theorem zeros_getD (k : Nat) : zeros.getD k 0 = 0 := by
  unfold zeros
  rw [List.getD_eq_getElem?_getD, List.getElem?_replicate]
  split <;> rfl

theorem range_map_zero (n : Nat) :
    (List.range n).map (fun _ : Nat => (0 : Byte)) = List.replicate n 0 := by
  apply List.ext_getElem
  · simp
  · intro i h1 h2
    simp

theorem inode_read_at_zero {s : Kernel} (ino : inode) {size offset B : Int}
    (hwf : cache_wf s) (hco : cache_coherent s) (hB : counts_le s B) (h0 : 0 ≤ B)
    (hlt : B + 3 * size < INT_MAX) (hsize : 0 ≤ size) (hoff : 0 ≤ offset)
    (hL : ino.data.length ≤ 8503296) (hin : offset + size ≤ ino.data.length)
    (hz : ∀ j : Int, offset ≤ j → j < offset + size →
      (cache_view s (sector_at (cache_view s) ino.data (j / 512).toNat)).length = 512 ∧
      (cache_view s (sector_at (cache_view s) ino.data (j / 512).toNat)).getD
        (j % 512).toNat 0 = 0) :
    ∃ s2, inode_read_at s ino size offset =
      Except.ok (size, List.replicate size.toNat 0, ino, s2) := by
  have hI : INT_MAX = 2147483647 := rfl
  obtain ⟨s2, h2, -⟩ := inode_read_at_loop_ok ino size.toNat s size offset 0 [] B hwf hco hB
    h0 (by rw [Int.toNat_of_nonneg hsize]; exact hlt) hL hoff (Int.self_le_toNat size)
  refine ⟨s2, ?_⟩
  unfold inode_read_at
  rw [h2]
  have hv : 0 + max (min size (ino.data.length - offset)) 0 = size := by omega
  rw [hv, List.nil_append,
    read_bytes_eq (cache_view s) ino.data (fun _ => 0) size.toNat size offset hoff hsize
      (Int.self_le_toNat size) hin (by omega) hz,
    range_map_zero]

theorem inode_write_at_mid_zero {s s1 s2 : Kernel} {ino ino1 ino2 : inode} {pos : Int}
    {sec : Nat} (hinv : inode_inv s ino)
    (hb : byte_to_sector s ino pos true = Except.ok (sec, ino1, s1))
    (hi : ino2 = (if ino1.data.length < pos then
      { ino1 with data := { ino1.data with length := pos } } else ino1))
    (hw : cache_write_from_buf s1 ino2.sector (sector_of_inode_disk ino2.data) = Except.ok s2) :
    ∀ i, ((ino.data.length + 511) / 512).toNat ≤ i →
      i < ((ino2.data.length + 511) / 512).toNat →
      cache_view s2 (sector_at (cache_view s2) ino2.data i) = zeros ∧
      ¬ allocated s.free_map (sector_at (cache_view s2) ino2.data i) ∧
      allocated s2.free_map (sector_at (cache_view s2) ino2.data i) := by
  obtain ⟨hino1, hlen1, a, xs, data, hea, hbound, hple, g1, G⟩ :=
    byte_to_sector_grows hinv.wf hinv.coherent hinv.length_nonneg hinv.owns
      hinv.free_map_length hb
  obtain ⟨f1, f2, f3, f4, f5, f6⟩ := inode_set_length_fields hi
  have hsec1 : ino1.sector = ino.sector := by
    have := congrArg inode.sector hino1
    exact this
  have hsec2 : ino2.sector = ino.sector := f1.trans hsec1
  have P := cache_write_from_buf_keeps g1.wf g1.coherent hw
  rw [hsec2] at P
  have hn2 : ((ino2.data.length + 511) / 512).toNat =
      ((ino.data.length + 511) / 512).toNat + a := by
    rw [f6, hlen1, ceil_max hinv.length_nonneg, ← hea]
  have hnx : ino.sector ∉ xs := allocs_not_mem G.allocs hinv.self_alloc
  have hns1 : ¬ is_struct (cache_view s1) ino1.data
      (((ino.data.length + 511) / 512).toNat + a) ino.sector :=
    fun hT => (G.struct _ hT).elim (fun h => hnx h.1) hinv.self_ne_struct
  have hv2 : ∀ T, T ≠ ino.sector → cache_view s2 T = cache_view s1 T := by
    intro T hT
    rw [P.view T, if_neg hT]
  have hup : ∀ T, is_struct (cache_view s1) ino1.data
      (((ino.data.length + 511) / 512).toNat + a) T → cache_view s2 T = cache_view s1 T :=
    fun T hT => hv2 T (fun hx => hns1 (hx ▸ hT))
  have hsat : ∀ i, i < ((ino.data.length + 511) / 512).toNat + a →
      sector_at (cache_view s2) ino2.data i = sector_at (cache_view s1) ino1.data i := by
    intro i hi
    rw [sector_at_congr f3 f4 f5 i]
    exact sector_at_update hup hi
  intro i h1 h2
  rw [hn2] at h2
  have hm : sector_at (cache_view s2) ino2.data i ∈ data := by
    rw [hsat i h2, G.new i h1 h2]
    exact getD_mem_of_lt (by rw [G.data_len]; omega)
  have hne : sector_at (cache_view s2) ino2.data i ≠ ino.sector :=
    fun hxe => hnx (hxe ▸ G.data_sub _ hm)
  refine ⟨by rw [hv2 _ hne, G.zero _ hm], G.allocs.fresh _ (G.data_sub _ hm), ?_⟩
  rw [P.free_map]
  exact (G.allocs.bits _).mpr (Or.inr (G.data_sub _ hm))

theorem inode_write_at_zero {s s1 : Kernel} {ino ino1 : inode} {buffer : List Byte}
    {size offset n : Int} (hinv : inode_inv s ino) (hd : ino.deny_write_cnt = 0)
    (hoff : 0 ≤ offset) (hsz : ∀ T, (cache_view s T).length = 512)
    (h : inode_write_at s ino buffer size offset = Except.ok (n, ino1, s1)) :
    ∀ i k : Nat, ((ino.data.length + 511) / 512).toNat ≤ i →
      i < ((ino1.data.length + 511) / 512).toNat → k < 512 →
      ¬ (offset ≤ 512 * (i : Int) + k ∧ 512 * (i : Int) + k < offset + n) →
      (cache_view s1 (sector_at (cache_view s1) ino1.data i)).getD k 0 = 0 ∧
      ¬ allocated s.free_map (sector_at (cache_view s1) ino1.data i) := by
  obtain ⟨hp1, hp2, sec, ino0, s0, ino2, s2, hb, hi, hw, hl⟩ := inode_write_at_factor hd h
  obtain ⟨hinv2, hsec2, hdeny2, hlen2, hdev2, hview2, g2, hcap, hold, hsz2⟩ :=
    inode_write_at_mid hinv hp1 hb hi hw
  have hzero := inode_write_at_mid_zero hinv hb hi hw
  have hino := inode_write_at_loop_inode _ _ _ _ _ _ _ _ hl
  simp only at hino
  subst hino
  obtain ⟨r1, r2, r3, r4, r5⟩ := inode_write_at_loop_spec ino1 buffer (cache_view s2)
    ((ino1.data.length + 511) / 512).toNat (ceil_le_mul _) hinv2.length_le
    hinv2.owns.data_ne_struct hinv2.owns.data_inj size.toNat s2 size offset 0 (n, ino1, s1)
    hinv2.wf hinv2.coherent (fun T _ => rfl) hoff le_rfl (Int.self_le_toNat size) hl
  simp only at r1 r2 r3 r4 r5
  rw [zero_add] at r1
  have hup : ∀ T, is_struct (cache_view s2) ino1.data ((ino1.data.length + 511) / 512).toNat T →
      cache_view s1 T = cache_view s2 T :=
    fun T hT => (r4 T (fun i hi hx => hinv2.owns.data_ne_struct i hi (hx ▸ hT))).1
  have hsat : ∀ i, i < ((ino1.data.length + 511) / 512).toNat →
      sector_at (cache_view s1) ino1.data i = sector_at (cache_view s2) ino1.data i :=
    fun i hi => sector_at_update hup hi
  obtain ⟨b1, b2⟩ := r5 (hsz2 hsz)
  intro i k hie hi hk hr
  have hb := b2 i k hi hk
  simp only [zero_add] at hb
  rw [← r1] at hb
  obtain ⟨z1, z2, -⟩ := hzero i hie hi
  rw [hsat i hi]
  refine ⟨?_, z2⟩
  rw [hb, if_neg hr, z1]
  exact zeros_getD k

theorem inode_create_grows {s s1 : Kernel} {sector : Nat} {length : Int} {is_dir b : Bool}
    (hwf : cache_wf s) (hco : cache_coherent s) (hfm : s.free_map.length ≤ 4294967296)
    (h : inode_create s sector length is_dir = Except.ok (b, s1)) :
    cache_grows 359 s s1 := by
  obtain ⟨hb, h0, hle, d, s0, hal, hw⟩ := inode_create_spec h
  have hn : ((length + 511) / 512).toNat ≠ 0 → 0 + ((length + 511) / 512).toNat ≤ 352 := by
    intro hne
    have := inode_alloc_flag hal (by omega) (by unfold INT_MAX at hle; omega)
    exact this.mp rfl
  have hn352 : ((length + 511) / 512).toNat ≤ 352 := by
    by_cases hz : ((length + 511) / 512).toNat = 0
    · omega
    · have := hn hz
      omega
  have ho0 : inode_owns (cache_view s) s.free_map
      { inode_disk_zero with
        length := length, magic := 1229868868, is_dir := is_dir, is_cwd := 0, is_opened := 0 }
      0 := inode_owns_zero _ _ rfl
  obtain ⟨g, -⟩ := inode_alloc_grows hwf hco ho0 hfm hn hal
  have P := cache_write_from_buf_keeps g.wf g.coherent hw
  exact cache_grows_mono (cache_grows_trans g (cache_grows_of_puts P)) (by omega)

/-! ## C26: new data sectors are filled with zeros -/

/-- Claim C26.  First part: from a well-formed, coherent cache in which the
inode owns `existing_count` data sectors, when
`inode_alloc (inode, additional_sectors, existing_count)` returns true, every
new logical index resolves to a sector that was free before the call, is in
use after it, and shows 512 zero bytes through the cache: the loops of
`inode_alloc` and `indirect_alloc` write `zeros` to each sector they take,
with `cache_write_from_buf`.  Second part: after `inode_create` every data
sector of the new file shows zeros, and every `inode_read_at` of a range
inside the file returns that many zero bytes.  Third part: after an
`inode_write_at` that returns `n`, on an inode that satisfies the
length/allocation invariant, every byte of a sector allocated by the call
that lies outside the written range `[offset, offset + n)` is 0, and every
`inode_read_at` of a range that lies in such sectors, inside the file and
outside the written range, returns that many zero bytes. -/
theorem new_sectors_zero_filled :
    (∀ (s s6 : Kernel) (d d6 : inode_disk) (a e : Nat),
      cache_wf s → cache_coherent s → inode_owns (cache_view s) s.free_map d e →
      s.free_map.length ≤ 4294967296 → e + a < 4294967000 →
      inode_alloc s d a e = Except.ok (true, d6, s6) →
      ∀ i, e ≤ i → i < e + a →
        cache_view s6 (sector_at (cache_view s6) d6 i) = zeros ∧
        ¬ allocated s.free_map (sector_at (cache_view s6) d6 i) ∧
        allocated s6.free_map (sector_at (cache_view s6) d6 i)) ∧
    (∀ (s s1 : Kernel) (sector : Nat) (length : Int) (is_dir b : Bool),
      cache_wf s → cache_coherent s → s.free_map.length ≤ 4294967296 →
      allocated s.free_map sector → counts_le s 2000000000 →
      inode_create s sector length is_dir = Except.ok (b, s1) →
      ∀ ino : inode, ino.sector = sector →
        ino.data = inode_disk_of_sector (s1.fs_device sector) →
        (∀ i, i < ((length + 511) / 512).toNat →
          cache_view s1 (sector_at (cache_view s1) ino.data i) = zeros) ∧
        ∀ size offset : Int, 0 ≤ size → 0 ≤ offset → offset + size ≤ length →
          ∃ s2, inode_read_at s1 ino size offset =
            Except.ok (size, List.replicate size.toNat 0, ino, s2)) ∧
    (∀ (s s1 : Kernel) (ino ino1 : inode) (buffer : List Byte) (size offset n : Int),
      inode_inv s ino → (∀ T, (cache_view s T).length = 512) → ino.deny_write_cnt = 0 →
      0 ≤ offset → ino.data.length ≤ 8503296 → counts_le s 2000000000 →
      inode_write_at s ino buffer size offset = Except.ok (n, ino1, s1) →
      (∀ i k : Nat, ((ino.data.length + 511) / 512).toNat ≤ i →
        i < ((ino1.data.length + 511) / 512).toNat → k < 512 →
        ¬ (offset ≤ 512 * (i : Int) + k ∧ 512 * (i : Int) + k < offset + n) →
        (cache_view s1 (sector_at (cache_view s1) ino1.data i)).getD k 0 = 0 ∧
        ¬ allocated s.free_map (sector_at (cache_view s1) ino1.data i)) ∧
      ∀ k p : Int, 0 ≤ k →
        512 * ((((ino.data.length + 511) / 512).toNat : Nat) : Int) ≤ p →
        p + k ≤ ino1.data.length → (p + k ≤ offset ∨ offset + n ≤ p) →
        ∃ s2, inode_read_at s1 ino1 k p =
          Except.ok (k, List.replicate k.toNat 0, ino1, s2)) := by
  have hI : INT_MAX = 2147483647 := rfl
  refine ⟨?_, ?_, ?_⟩
  · intro s s6 d d6 a e hwf hco ho hfm hlt h i h1 h2
    have hea : a ≠ 0 → e + a ≤ 352 := fun ha =>
      (inode_alloc_flag h (Nat.pos_of_ne_zero ha) hlt).mp rfl
    obtain ⟨-, xs, data, G⟩ := inode_alloc_grows hwf hco ho hfm hea h
    have hm : sector_at (cache_view s6) d6 i ∈ data := by
      rw [G.new i h1 h2]
      exact getD_mem_of_lt (by rw [G.data_len]; omega)
    exact ⟨G.zero _ hm, G.allocs.fresh _ (G.data_sub _ hm),
      (G.allocs.bits _).mpr (Or.inr (G.data_sub _ hm))⟩
  · intro s s1 sector length is_dir b hwf hco hfm hsec hB h ino hs hd
    obtain ⟨-, h0, h352, h2, -, -, -, -, ⟨xs, data, -, hdl, -, -, hzero, hat⟩, h8⟩ :=
      inode_create_inv hwf hco hfm hsec h
    have hinv := h8 ino hs hd
    have g := inode_create_grows hwf hco hfm h
    have hB1 := g.counts 2000000000 (by decide) hB
    have hz : ∀ i, i < ((length + 511) / 512).toNat →
        cache_view s1 (sector_at (cache_view s1) ino.data i) = zeros := by
      intro i hi
      rw [hd, hat i hi]
      exact hzero _ (getD_mem_of_lt (by rw [hdl]; exact hi))
    refine ⟨hz, ?_⟩
    intro size offset hsize hoff hin
    have hlen : ino.data.length = length := by rw [hd, h2]
    apply inode_read_at_zero ino hinv.wf hinv.coherent hB1 (by decide) (by omega) hsize hoff
      (by omega) (by omega)
    intro j hj1 hj2
    have hi : (j / 512).toNat < ((length + 511) / 512).toNat := by omega
    rw [hz _ hi]
    exact ⟨zeros_length, zeros_getD _⟩
  · intro s s1 ino ino1 buffer size offset n hinv hsz hd hoff hL hB h
    have hz := inode_write_at_zero hinv hd hoff hsz h
    refine ⟨hz, ?_⟩
    obtain ⟨hinv1, -, -, hlen1, hn, -, g1, hcap, hcont⟩ := inode_write_at_spec hinv hd hoff h
    obtain ⟨c1, -⟩ := hcont hsz
    have hL0 := hinv.length_nonneg
    have hL1 : ino1.data.length ≤ 8503296 := by
      rw [hlen1]
      by_cases hLp : ino.data.length ≤ offset + size
      · have := hcap hLp
        omega
      · omega
    have hB1 := g1.counts 2000000000 (by decide) hB
    have hsize1 : size ≤ 8503296 := by
      rw [hlen1] at hL1
      omega
    intro k p hk hp hin hout
    apply inode_read_at_zero ino1 hinv1.wf hinv1.coherent hB1 (by omega)
      (by push_cast; omega) hk (by omega) hL1 hin
    intro j hj1 hj2
    have hi : (j / 512).toNat < ((ino1.data.length + 511) / 512).toNat := by omega
    have hie : ((ino.data.length + 511) / 512).toNat ≤ (j / 512).toNat := by omega
    have hkk : (j % 512).toNat < 512 := by omega
    have hjj : 512 * (((j / 512).toNat : Nat) : Int) + (((j % 512).toNat : Nat) : Int) = j := by
      omega
    exact ⟨c1 _ hi, (hz _ _ hie hi hkk (by rw [hjj]; omega)).1⟩

theorem new_sectors_zero_filled_witness :
    (∃ s1 s2, inode_create boot_kernel 1 600 false = Except.ok (true, s1) ∧
      inode_read_at s1
          { sector := 1, open_cnt := 1, removed := false, deny_write_cnt := 0,
            data := inode_disk_of_sector (s1.fs_device 1) } 600 0 =
        Except.ok (600, List.replicate (600 : Int).toNat 0,
          { sector := 1, open_cnt := 1, removed := false, deny_write_cnt := 0,
            data := inode_disk_of_sector (s1.fs_device 1) }, s2)) ∧
    (∃ n ino1 s1 s2, inode_write_at boot_kernel empty_inode [7] 1 700 =
        Except.ok (n, ino1, s1) ∧
      inode_read_at s1 ino1 700 0 =
        Except.ok (700, List.replicate (700 : Int).toNat 0, ino1, s2)) := by
  constructor
  · have key := fun (s1 : Kernel)
        (h : inode_create boot_kernel 1 600 false = Except.ok (true, s1)) =>
      (new_sectors_zero_filled.2.1 boot_kernel s1 1 600 false true
        (cache_wf_init _) (cache_coherent_init _) (by decide) rfl (counts_le_init _ _) h
        { sector := 1, open_cnt := 1, removed := false, deny_write_cnt := 0,
          data := inode_disk_of_sector (s1.fs_device 1) } rfl rfl).2
        600 0 (by decide) (by decide) (by decide)
    obtain ⟨s2, h2⟩ := key _ rfl
    exact ⟨_, s2, rfl, h2⟩
  · obtain ⟨s2, h2⟩ := (new_sectors_zero_filled.2.2 boot_kernel _ empty_inode _ [7] 1 700 _
      inode_inv_boot cache_view_boot rfl (by decide) (by decide) (counts_le_init _ _) rfl).2
      700 0 (by decide) (by decide) (by decide) (by decide)
    exact ⟨_, _, _, s2, rfl, h2⟩

/-! ## What `byte_to_sector` returns when writing -/

end Pintos
